import Mathlib

/-!
# PROBer iCLIP apportionment engine: a shallow embedding of `analyze_iCLIP.cpp`

The C++ program keeps its state in globals (`posMap`, `fracs`, `conprbs`, `multis`, `sites`,
`params`).  Here every routine is a pure function from the parts of the state it reads to the
parts it writes.

* `double` values are modelled by exact rationals `ℚ`.
* `double*` pointers into `fracs` are modelled by the index of the cell in `fracs`.
* `ValueType*` pointers into `posMap` are modelled by the index of the entry in the ordered map.
* `int` values are modelled by `Int` (or by `Nat` where the program only stores sizes and
  array indices); overflow of the 32-bit arithmetic is not modelled.
* `std::map` iterators are modelled by the key of the entry while the map still grows
  (`processMultiReads`) and by the index of the entry once it is fixed (`distributeTasks`).
* A `while` loop becomes a recursive function with a bound on its number of iterations; the
  bound passed is one the loop cannot exceed because of its own condition, and the lemmas on
  each loop show that it stops with its condition false.
* A failed `assert` is the result `none`.
-/

namespace PROBer

/-! ## Data model -/

/-- Key of the position map (`struct KeyType`): contig id, strand and 0-based position. -/
structure KeyType where
  dir : Char
  cid : Int
  pos : Int
deriving DecidableEq, Repr

/-- Value of the position map (`struct ValueType`): number of unique reads `c`, expected weight
from multi-mapping reads, and the back-references `aligns` (indices of cells of `fracs`). -/
structure ValueType where
  c : Int
  weight : ℚ
  aligns : List Nat
deriving DecidableEq, Repr

/-- A multi-mapping read record (`struct MultiType`): `offset` into `fracs` and `conprbs`,
number of alignments `s`, number of identical multi reads `c`. -/
structure MultiType where
  offset : Nat
  s : Nat
  c : Nat
deriving DecidableEq, Repr

instance : Inhabited MultiType := ⟨⟨0, 0, 0⟩⟩

/-- Read of a `double` array cell. -/
def rd (a : List ℚ) (i : Nat) : ℚ := a.getD i 0

/-! ## Expectation step -/

/-- First inner loop of `E_STEP` for one record, iterations `0 .. n-1`:
`my_fracs[j] *= my_conprbs[j]; sum += my_fracs[j];`.  The state is `(fracs, sum)`. -/
def eMul (conprbs : List ℚ) (offset : Nat) : Nat → List ℚ × ℚ → List ℚ × ℚ
  | 0, st => st
  | n + 1, st =>
    let st1 := eMul conprbs offset n st
    let v := rd st1.1 (offset + n) * rd conprbs (offset + n)
    (st1.1.set (offset + n) v, st1.2 + v)

/-- Second inner loop of `E_STEP` for one record, iterations `0 .. n-1`:
`my_fracs[j] = my_fracs[j] / sum * multis[i].c`. -/
def eNorm (sum : ℚ) (c : Nat) (offset : Nat) : Nat → List ℚ → List ℚ
  | 0, fr => fr
  | n + 1, fr =>
    let fr1 := eNorm sum c offset n fr
    fr1.set (offset + n) (rd fr1 (offset + n) / sum * (c : ℚ))

/-- Body of the outer loop of `E_STEP`: the treatment of one record. -/
def eRecord (conprbs : List ℚ) (m : MultiType) (fracs : List ℚ) : List ℚ :=
  let st := eMul conprbs m.offset m.s (fracs, 0)
  let sum := if st.2 ≤ 0 then 1 else st.2
  eNorm sum m.c m.offset m.s st.1

/-- Outer loop of `E_STEP`, iterations `sp .. sp+n-1`. -/
def eLoop (multis : List MultiType) (conprbs : List ℚ) (sp : Nat) : Nat → List ℚ → List ℚ
  | 0, fr => fr
  | n + 1, fr => eRecord conprbs (multis.getD (sp + n) default) (eLoop multis conprbs sp n fr)

/-- The routine `E_STEP` run on the thread range `[sp, ep)`; returns the new `fracs`. -/
def E_STEP (multis : List MultiType) (conprbs : List ℚ) (sp ep : Nat) (fracs : List ℚ) :
    List ℚ :=
  eLoop multis conprbs sp (ep - sp) fracs

/-- Sum of the `n` cells of `a` starting at `offset`. -/
def sliceSum (a : List ℚ) (offset : Nat) : Nat → ℚ
  | 0 => 0
  | n + 1 => sliceSum a offset n + rd a (offset + n)

/-- Sum of the products `fracs[offset+j] * conprbs[offset+j]` for `j < n`. -/
def prodSum (fracs conprbs : List ℚ) (offset : Nat) : Nat → ℚ
  | 0 => 0
  | n + 1 => prodSum fracs conprbs offset n + rd fracs (offset + n) * rd conprbs (offset + n)

/-- Two records have disjoint slices of `fracs`. -/
def slicesDisjoint (a b : MultiType) : Prop :=
  a.offset + a.s ≤ b.offset ∨ b.offset + b.s ≤ a.offset

/-! ## Task distribution: quotas -/

/-- The loop filling `lefts` in `distributeTasks`, for the threads `i, i+1, ..` (`n` of them):
`left -= lefts[i]; if (i < res) --left; lefts[i] = left;` where every `lefts[i]` starts as
`quo`. -/
def leftsLoop (quo res : Nat) : Nat → Nat → Int → List Int
  | 0, _, _ => []
  | n + 1, i, left =>
    let left1 := left - (quo : Int) - (if i < res then 1 else 0)
    left1 :: leftsLoop quo res n (i + 1) left1

/-- The vector `lefts` of `distributeTasks`: `lefts[i]` is the number of hits that should
remain for the threads after thread `i`. -/
def computeLefts (n_mhits num_threads : Nat) : List Int :=
  leftsLoop (n_mhits / num_threads) (n_mhits % num_threads) num_threads 0 (n_mhits : Int)

/-! ## Task distribution: multi-mapping reads (E step) -/

/-- Number of alignments of record `i`, `multis[i].s`. -/
def sAt (multis : List MultiType) (i : Nat) : Int := ((multis.getD i default).s : Int)

/-- The loop `while (cp < n_multi && left > lefts[i]) left -= multis[cp++].s;` with `lim`
standing for `lefts[i]`.  The state is `(cp, left)`.  The first argument bounds the number
of iterations; the loop makes at most `n_multi - cp` of them because of its own condition
`cp < n_multi`, and that is the bound the caller passes. -/
def eScan (multis : List MultiType) (lim : Int) : Nat → Nat × Int → Nat × Int
  | 0, st => st
  | fuel + 1, st =>
    if st.1 < multis.length ∧ st.2 > lim then
      eScan multis lim fuel (st.1 + 1, st.2 - sAt multis st.1)
    else st

/-- Body of the loop over threads that sets `params[i].sp` and `params[i].ep`: from the
state `(cp, left)` at the top of iteration `i` to the state at its bottom; `sp` is the
incoming `cp` and `ep` the outgoing one. -/
def eThread (multis : List MultiType) (lim : Int) (st : Nat × Int) : Nat × Int :=
  let sp := st.1
  let st1 := eScan multis lim (multis.length - sp) st
  let cp := st1.1
  let left := st1.2
  if (cp : Int) - 1 > (sp : Int) ∧ left + sAt multis (cp - 1) - lim < lim - left then
    (cp - 1, left + sAt multis (cp - 1))
  else if sp = cp ∧ cp < multis.length then
    (cp + 1, left - sAt multis cp)
  else (cp, left)

/-- The loop over threads of the E-step partition; returns the pairs `(sp, ep)` of the
threads whose quotas are the given list. -/
def ePartition (multis : List MultiType) : List Int → Nat × Int → List (Nat × Nat)
  | [], _ => []
  | lim :: rest, st =>
    let st1 := eThread multis lim st
    (st.1, st1.1) :: ePartition multis rest st1

/-- The E-step part of `distributeTasks`: the ranges `[sp, ep)` of all threads. -/
def distributeE (multis : List MultiType) (n_mhits num_threads : Nat) : List (Nat × Nat) :=
  ePartition multis (computeLefts n_mhits num_threads) (0, (n_mhits : Int))

/-- Cost of a thread range: the sum of `s` over the records in `[sp, ep)`. -/
def rangeCost (multis : List MultiType) (r : Nat × Nat) : Nat :=
  (((multis.drop r.1).take (r.2 - r.1)).map (fun m => m.s)).sum

/-- Total number of alignments of the records from index `cp` on. -/
def suffixSum (multis : List MultiType) (cp : Nat) : Int :=
  ((((multis.drop cp).map (fun m => m.s)).sum : Nat) : Int)

/-- The state `(cp, left)` of the E-step partition loop is consistent: `cp` is a valid
cursor and `left` counts the alignments of the records not yet handed out. -/
def EInv (multis : List MultiType) (st : Nat × Int) : Prop :=
  st.1 ≤ multis.length ∧ st.2 = suffixSum multis st.1

/-! ## The position map -/

/-- The ordering of the position map, `KeyType::operator<`: by contig, then strand
(`'+' < '-'`), then position. -/
def KeyType.lt (a o : KeyType) : Bool :=
  if a.cid ≠ o.cid then decide (a.cid < o.cid)
  else if a.dir ≠ o.dir then decide (a.dir < o.dir)
  else decide (a.pos < o.pos)

/-- The value a fresh map entry gets, `ValueType()`. -/
def ValueType.init : ValueType := ⟨0, 0, []⟩

/-- The position map `posMap` (`std::map<KeyType, ValueType>`): its entries in key order. -/
abbrev MapType := List (KeyType × ValueType)

/-- The call `posMap.insert(my_pair)` with a default value: adds an entry for the key at its
place in the order unless the map has one already. -/
def mapInsert : MapType → KeyType → MapType
  | [], k => [(k, ValueType.init)]
  | e :: rest, k =>
    if k.lt e.1 then (k, ValueType.init) :: e :: rest
    else if e.1.lt k then e :: mapInsert rest k
    else e :: rest

/-- The statement `it->second.aligns.push_back(p)` for the iterator `it` of the entry with
key `k` and the cell `p` of `fracs`. -/
def mapPush : MapType → KeyType → Nat → MapType
  | [], _, _ => []
  | e :: rest, k, cell =>
    if e.1 = k then (e.1, { e.2 with aligns := e.2.aligns ++ [cell] }) :: rest
    else e :: mapPush rest k cell

/-! ## Multi-mapping reads -/

/-- One alignment of a multi-mapping read: contig id, strand and position as given by the
alignment reader, and the conditional probability `model->calcProbs` computes for it. -/
structure Align where
  cid : Int
  dir : Char
  pos : Int
  prb : ℚ
deriving DecidableEq, Repr

/-- The position-map key of an alignment. -/
def Align.key (a : Align) : KeyType := ⟨a.dir, a.cid, a.pos⟩

/-- Conversion `int(x)` of a `double`: truncation toward zero. -/
def truncToInt (x : ℚ) : Int := if 0 ≤ x then ⌊x⌋ else ⌈x⌉

/-- The quantized probability `int(p * 10.0 + 0.5)`. -/
def quantize (p : ℚ) : Int := truncToInt (p * 10 + 1 / 2)

/-- The character `char(int(p * 10.0 + 0.5) + 'A')`. -/
def hashChar (p : ℚ) : Char := Char.ofNat (((quantize p + 65) % 256).toNat)

/-- What one alignment appends to the hash key:
`key << cid << dir << pos << char(int(p[i] * 10.0 + 0.5) + 'A')`. -/
def alignKeyStr (cid : Int) (dir : Char) (pos : Int) (p : ℚ) : String :=
  toString cid ++ String.singleton dir ++ toString pos ++ String.singleton (hashChar p)

/-- State of `processMultiReads`: the globals it writes and its local `offset`. -/
structure PMState where
  posMap : MapType
  fracs : List ℚ
  conprbs : List ℚ
  my_hash : List (String × Nat)
  n_multi : Nat
  multis : List MultiType
  offset : Nat
deriving DecidableEq, Repr

/-- Lookup in `my_hash` (`std::unordered_map<string, int>`). -/
def hashFind : List (String × Nat) → String → Option Nat
  | [], _ => none
  | e :: rest, k => if e.1 = k then some e.2 else hashFind rest k

/-- The call `model->calcProbs(ag, p)` with `p = conprbs + i`: stores the conditional
probabilities of the alignments of the read at `conprbs[i], conprbs[i+1], ..`. -/
def calcProbs : List Align → Nat → List ℚ → List ℚ
  | [], _, cp => cp
  | a :: rest, i, cp => calcProbs rest (i + 1) (cp.set i a.prb)

/-- First loop over the alignments of a read (from the alignment stored at `conprbs[i]`
on): each key is inserted into the position map, its iterator is kept in `iters`, and the
hash key grows.  The state is `(posMap, iters, key)`. -/
def keyLoop (conprbs : List ℚ) : List Align → Nat → MapType × List KeyType × String →
    MapType × List KeyType × String
  | [], _, st => st
  | a :: rest, i, st =>
    keyLoop conprbs rest (i + 1)
      (mapInsert st.1 a.key, st.2.1 ++ [a.key],
        st.2.2 ++ alignKeyStr a.cid a.dir a.pos (rd conprbs i))

/-- Second loop over the alignments of a read with a new hash key (from cell `i` on):
`*p = 1.0; iters[i]->second.aligns.push_back(p);`.  The state is `(posMap, fracs)`. -/
def cellLoop : List KeyType → Nat → MapType × List ℚ → MapType × List ℚ
  | [], _, st => st
  | k :: rest, i, st => cellLoop rest (i + 1) (mapPush st.1 k i, st.2.set i 1)

/-- Increment `++multis[i].c`. -/
def bumpCount : List MultiType → Nat → List MultiType
  | [], _ => []
  | m :: rest, 0 => { m with c := m.c + 1 } :: rest
  | m :: rest, i + 1 => m :: bumpCount rest i

/-- Body of the loop of `processMultiReads` for one read `ag`. -/
def pmStep (st : PMState) (ag : List Align) : PMState :=
  let size := ag.length
  let conprbs1 := calcProbs ag st.offset st.conprbs
  let kl := keyLoop conprbs1 ag st.offset (st.posMap, [], "")
  match hashFind st.my_hash kl.2.2 with
  | none =>
    let cl := cellLoop kl.2.1 st.offset (kl.1, st.fracs)
    { posMap := cl.1
      fracs := cl.2
      conprbs := conprbs1
      my_hash := st.my_hash ++ [(kl.2.2, st.n_multi)]
      n_multi := st.n_multi + 1
      multis := st.multis ++ [⟨st.offset, size, 1⟩]
      offset := st.offset + size }
  | some idx =>
    { st with posMap := kl.1, conprbs := conprbs1, multis := bumpCount st.multis idx }

/-- The routine `processMultiReads`: `posMap` and `n_mhits` are the globals left by
`parseAlignments`, `reads` the multi-mapping reads it wrote to the intermediate file.
The final value of `n_mhits` is the field `offset` of the result. -/
def processMultiReads (posMap : MapType) (n_mhits : Nat) (reads : List (List Align)) :
    PMState :=
  reads.foldl pmStep
    { posMap := posMap
      fracs := List.replicate n_mhits 0
      conprbs := List.replicate n_mhits 0
      my_hash := []
      n_multi := 0
      multis := []
      offset := 0 }

/-- The hash key of a read computed from the read alone: the concatenation of what each of
its alignments appends, in the given order. -/
def readKey (ag : List Align) : String :=
  ag.foldl (fun k a => k ++ alignKeyStr a.cid a.dir a.pos a.prb) ""

/-- One alignment of a pattern: contig, strand, position and quantized probability. -/
structure PatItem where
  cid : Int
  dir : Char
  pos : Int
  q : Int
deriving DecidableEq, Repr

/-- An alignment pattern: alignments in their given order. -/
structure Pattern where
  items : List PatItem
deriving DecidableEq, Repr

/-- The alignment pattern of a read: its alignments in their given order as
(contig, strand, position, quantized probability). -/
def pattern (ag : List Align) : Pattern :=
  ⟨ag.map (fun a => ⟨a.cid, a.dir, a.pos, quantize a.prb⟩)⟩

/-- The distinct elements of a list in order of first occurrence. -/
def firstOccurrences {α : Type} [DecidableEq α] : List α → List α
  | [] => []
  | x :: xs => x :: (firstOccurrences xs).filter (fun y => y ≠ x)

/-- The reads the claims on `processMultiReads` speak of: contig ids and positions
non-negative, strand `'+'` or `'-'`, conditional probabilities in `[0, 1]`. -/
def ValidRead (ag : List Align) : Prop :=
  ∀ a ∈ ag, 0 ≤ a.cid ∧ 0 ≤ a.pos ∧ (a.dir = '+' ∨ a.dir = '-') ∧ 0 ≤ a.prb ∧ a.prb ≤ 1

/-- Value of a string of decimal digits. -/
def digitsValue (l : List Char) : Nat := l.foldl (fun a c => 10 * a + (c.toNat - 48)) 0


/-- The elements of a list whose image under `f` has not occurred earlier in the list. -/
def firstBy {α β : Type} [DecidableEq β] (f : α → β) : List α → List α
  | [] => []
  | x :: xs => x :: (firstBy f xs).filter (fun y => f y ≠ f x)

/-- The hash table that maps the key of each of the given reads to its rank, counted from
`i`. -/
def hashOf : List (List Align) → Nat → List (String × Nat)
  | [], _ => []
  | r :: rest, i => (readKey r, i) :: hashOf rest (i + 1)

/-- The records of the given reads laid out one after the other from offset `off`, each with
multiplicity the number of occurrences of its key in `keys`. -/
def recordsFrom (keys : List String) : List (List Align) → Nat → List MultiType
  | [], _ => []
  | r :: rest, off =>
    ⟨off, r.length, keys.count (readKey r)⟩ :: recordsFrom keys rest (off + r.length)

/-- What holds of the state of `processMultiReads` after the reads `rs`, for arrays
allocated with `n0` cells: the hash table, the records, `n_multi` and `offset` are
those of the reads whose hash key occurred for the first time. -/
def PMInv (n0 : Nat) (rs : List (List Align)) (st : PMState) : Prop :=
  st.my_hash = hashOf (firstBy readKey rs) 0
    ∧ st.multis = recordsFrom (rs.map readKey) (firstBy readKey rs) 0
    ∧ st.n_multi = (firstBy readKey rs).length
    ∧ st.offset = ((firstBy readKey rs).map List.length).sum
    ∧ st.conprbs.length = n0 ∧ st.fracs.length = n0

/-- The records are laid out one after the other: the first starts at `a`, each next one
where the previous one ends, and the last ends at `b`. -/
def recordsChained : List MultiType → Nat → Nat → Prop
  | [], a, b => a = b
  | m :: rest, a, b => m.offset = a ∧ recordsChained rest (a + m.s) b

/-- Cell `j` lies in the slice `[offset, offset + s)` of the record. -/
def inSlice (m : MultiType) (j : Nat) : Prop := m.offset ≤ j ∧ j < m.offset + m.s

/-- The entries of the position map are in strictly increasing key order, as
`std::map` keeps them. -/
def MapSorted (pm : MapType) : Prop :=
  (pm.map Prod.fst).Pairwise (fun a b => a.lt b = true)

instance (ag : List Align) : Decidable (ValidRead ag) := by
  unfold ValidRead
  infer_instance

/-- The position-map key of every cell of `fracs` after the reads `rs`: the keys of the
alignments of the reads whose hash key occurred for the first time, in order. -/
def cellKeys (rs : List (List Align)) : List KeyType :=
  ((firstBy readKey rs).flatten).map Align.key

/-- The cells the second loop gives to the entry with key `key`, when it runs over the
iterators `ks` from cell `i` on. -/
def cellsFor : List KeyType → Nat → KeyType → List Nat
  | [], _, _ => []
  | k :: ks, i, key => (if k = key then [i] else []) ++ cellsFor ks (i + 1) key

/-- An entry with the cells of `cellsFor` appended to its back-references. -/
def addCells (ks : List KeyType) (i : Nat) (e : KeyType × ValueType) : KeyType × ValueType :=
  (e.1, { e.2 with aligns := e.2.aligns ++ cellsFor ks i e.1 })

/-- What holds of the position map after the reads `rs`: it is sorted, every entry
back-references exactly the cells whose alignment has its key, each once, and the key of
every cell is in the map. -/
def CellInv (rs : List (List Align)) (pm : MapType) : Prop :=
  MapSorted pm
    ∧ (∀ e ∈ pm, ∀ j, e.2.aligns.count j = if (cellKeys rs)[j]? = some e.1 then 1 else 0)
    ∧ (∀ k ∈ cellKeys rs, k ∈ pm.map Prod.fst)

/-! ## Maximization-smooth step -/

instance : Inhabited KeyType := ⟨⟨Char.ofNat 0, 0, 0⟩⟩

/-- A multi-read site (`struct SiteType`): `v` points to the value of the site in the
position map (here: the index of its entry), `uc` is the number of unique reads within the
window of the site, and the window is `[left, right]` in site indices. -/
structure SiteType where
  v : Nat
  uc : Int
  left : Int
  right : Int
deriving DecidableEq, Repr

instance : Inhabited SiteType := ⟨⟨0, 0, 0, 0⟩⟩

/-- The entry of the position map at index `v`. -/
def entryAt (pm : MapType) (v : Nat) : KeyType × ValueType := pm.getD v (default, ValueType.init)

/-- The element `sites[i]` for an `int` index. -/
def siteAt (sites : List SiteType) (i : Int) : SiteType := sites.getD i.toNat default

/-- The loop of `ValueType::collect`: the sum of the cells the entry back-references. -/
def cellSum (fracs : List ℚ) (aligns : List Nat) : ℚ :=
  aligns.foldl (fun w c => w + rd fracs c) 0

/-- The call `v->collect()` on the entry at index `v`: its `weight` becomes the sum of its
cells. -/
def collectAt (pm : MapType) (fracs : List ℚ) (v : Nat) : MapType :=
  pm.set v ((entryAt pm v).1,
    { (entryAt pm v).2 with weight := cellSum fracs (entryAt pm v).2.aligns })

/-- The call `v->push(value)` on the entry at index `v`: every cell it back-references is
overwritten with `value`. -/
def pushAt (pm : MapType) (v : Nat) (value : ℚ) (fracs : List ℚ) : List ℚ :=
  (entryAt pm v).2.aligns.foldl (fun fr c => fr.set c value) fracs

/-- The final-round loop of `MS_STEP`, iterations `ss .. ss+n-1`:
`sites[i].v->collect();`. -/
def msCollectLoop (sites : List SiteType) (fracs : List ℚ) (ss : Nat) : Nat → MapType → MapType
  | 0, pm => pm
  | n + 1, pm =>
    collectAt (msCollectLoop sites fracs ss n pm) fracs (siteAt sites ((ss + n : Nat) : Int)).v

/-- State of the smoothing loop of `MS_STEP`: the position map (whose weights `collect`
writes), `fracs` (whose cells `push` writes) and the locals `l`, `r`, `psum`. -/
structure MSState where
  posMap : MapType
  fracs : List ℚ
  l : Int
  r : Int
  psum : ℚ
deriving DecidableEq, Repr

/-- The loop `while (r < sites[i].right) { ++r; sites[r].v->collect();
psum += sites[r].v->weight; }` with `right` standing for `sites[i].right`.  The first
argument bounds the number of iterations; the loop makes `right - r` of them (none if that
is negative), and that is the bound the caller passes. -/
def msAdvance (sites : List SiteType) (right : Int) : Nat → MSState → MSState
  | 0, st => st
  | fuel + 1, st =>
    if st.r < right then
      let r1 := st.r + 1
      let pm1 := collectAt st.posMap st.fracs (siteAt sites r1).v
      msAdvance sites right fuel
        { st with r := r1, posMap := pm1, psum := st.psum + (entryAt pm1 (siteAt sites r1).v).2.weight }
    else st

/-- The loop `while (l < sites[i].left) { psum -= sites[l].v->weight; ++l; }` with `left`
standing for `sites[i].left`; it makes `left - l` iterations (none if that is negative). -/
def msRetire (sites : List SiteType) (left : Int) : Nat → MSState → MSState
  | 0, st => st
  | fuel + 1, st =>
    if st.l < left then
      msRetire sites left fuel
        { st with psum := st.psum - (entryAt st.posMap (siteAt sites st.l).v).2.weight, l := st.l + 1 }
    else st

/-- Body of the smoothing loop of `MS_STEP` for site `i`. -/
def msBody (sites : List SiteType) (i : Nat) (st : MSState) : MSState :=
  let s := siteAt sites (i : Int)
  let st1 := msAdvance sites s.right (s.right - st.r).toNat st
  let st2 := msRetire sites s.left (s.left - st1.l).toNat st1
  let psum := if st2.psum < 0 then 0 else st2.psum
  { st2 with psum := psum, fracs := pushAt st2.posMap s.v (psum + (s.uc : ℚ)) st2.fracs }

/-- The smoothing loop of `MS_STEP`, iterations `ss .. ss+n-1`. -/
def msLoop (sites : List SiteType) (ss : Nat) : Nat → MSState → MSState
  | 0, st => st
  | n + 1, st => msBody sites (ss + n) (msLoop sites ss n st)

/-- The routine `MS_STEP` run on the thread range `[ss, es)`; returns the position map and
`fracs`. -/
def MS_STEP (last_round : Bool) (sites : List SiteType) (ss es : Nat) (pm : MapType)
    (fracs : List ℚ) : MapType × List ℚ :=
  if last_round then (msCollectLoop sites fracs ss (es - ss) pm, fracs)
  else
    let st := msLoop sites ss (es - ss)
      { posMap := pm, fracs := fracs, l := (ss : Int), r := (ss : Int) - 1, psum := 0 }
    (st.posMap, st.fracs)

/-- The back-references of site `k`. -/
def siteCells (sites : List SiteType) (pm : MapType) (k : Int) : List Nat :=
  (entryAt pm (siteAt sites k).v).2.aligns

/-- The sum `W_k` of the weight cells of site `k`. -/
def siteWeight (sites : List SiteType) (pm : MapType) (fracs : List ℚ) (k : Int) : ℚ :=
  cellSum fracs (siteCells sites pm k)

/-- The sum `f a + f (a+1) + .. + f (a+n-1)`. -/
def sumFrom (f : Int → ℚ) : Int → Nat → ℚ
  | _, 0 => 0
  | a, n + 1 => f a + sumFrom f (a + 1) n

/-- The sum of `W_k` for `k` from `left` to `right`. -/
def windowSum (sites : List SiteType) (pm : MapType) (fracs : List ℚ) (left right : Int) : ℚ :=
  sumFrom (siteWeight sites pm fracs) left (right + 1 - left).toNat

/-- The conditions on a thread range `[ss, es)` the claim on the smoothing loop of `MS_STEP`
states: the sites of the range exist and point to distinct entries of the map; their
back-references are cells of `fracs` and no cell belongs to two sites; every window
satisfies `ss <= left <= right < es`; `left` and `right` are non-decreasing; and all weight
cells are non-negative. -/
def SmoothPreStated (sites : List SiteType) (pm : MapType) (fracs : List ℚ) (ss es : Nat) :
    Prop :=
  es ≤ sites.length
    ∧ (∀ i : Nat, ss ≤ i → i < es → (siteAt sites i).v < pm.length)
    ∧ (∀ i j : Nat, ss ≤ i → i < es → ss ≤ j → j < es → i ≠ j →
        (siteAt sites i).v ≠ (siteAt sites j).v
          ∧ ∀ c ∈ siteCells sites pm i, c ∉ siteCells sites pm j)
    ∧ (∀ i : Nat, ss ≤ i → i < es → ∀ c ∈ siteCells sites pm i, c < fracs.length)
    ∧ (∀ i : Nat, ss ≤ i → i < es →
        (ss : Int) ≤ (siteAt sites i).left ∧ (siteAt sites i).left ≤ (siteAt sites i).right
          ∧ (siteAt sites i).right < (es : Int))
    ∧ (∀ i : Nat, ss ≤ i → i + 1 < es →
        (siteAt sites i).left ≤ (siteAt sites (i + 1 : Nat)).left
          ∧ (siteAt sites i).right ≤ (siteAt sites (i + 1 : Nat)).right)
    ∧ (∀ x ∈ fracs, (0 : ℚ) ≤ x)

/-- The conditions under which the smoothing loop of `MS_STEP` is analysed: the stated ones,
and every window reaches its own site (`i <= right`). -/
def SmoothPre (sites : List SiteType) (pm : MapType) (fracs : List ℚ) (ss es : Nat) : Prop :=
  SmoothPreStated sites pm fracs ss es
    ∧ ∀ i : Nat, ss ≤ i → i < es → (i : Int) ≤ (siteAt sites i).right

/-- What holds of the state of the smoothing loop of `MS_STEP` at the top of iteration `i`
(started at `ss` on the map `pm` and the cells `fracs`): `l` and `r` are the window of the
previous site, `psum` is the sum of the weights `W_k` over `[l, r]`, the sites up to `r`
have their weight collected, the sites before `i` have the smoothed value in all their
cells, and nothing else has changed. -/
def SmoothInv (sites : List SiteType) (pm : MapType) (fracs : List ℚ) (ss i : Nat)
    (st : MSState) : Prop :=
  (i = ss → st.l = (ss : Int) ∧ st.r = (ss : Int) - 1)
    ∧ (ss < i → st.l = (siteAt sites ((i - 1 : Nat) : Int)).left
        ∧ st.r = (siteAt sites ((i - 1 : Nat) : Int)).right)
    ∧ st.psum = sumFrom (siteWeight sites pm fracs) st.l (st.r + 1 - st.l).toNat
    ∧ st.posMap.length = pm.length
    ∧ (∀ w, (entryAt st.posMap w).1 = (entryAt pm w).1
        ∧ (entryAt st.posMap w).2.c = (entryAt pm w).2.c
        ∧ (entryAt st.posMap w).2.aligns = (entryAt pm w).2.aligns)
    ∧ (∀ k : Nat, ss ≤ k → (k : Int) ≤ st.r →
        (entryAt st.posMap (siteAt sites k).v).2.weight = siteWeight sites pm fracs k)
    ∧ st.fracs.length = fracs.length
    ∧ (∀ k : Nat, ss ≤ k → k < i → ∀ c ∈ siteCells sites pm k,
        rd st.fracs c = windowSum sites pm fracs (siteAt sites k).left (siteAt sites k).right
          + ((siteAt sites k).uc : ℚ))
    ∧ (∀ c, (∀ k : Nat, ss ≤ k → k < i → c ∉ siteCells sites pm k) → rd st.fracs c = rd fracs c)

/-! ## Task distribution: the windows of the multi-read sites -/

/-- The comparison `KeyType::cmp` used to find the window of a site. -/
def KeyType.cmp (a o : KeyType) (w : Int) : Int :=
  if a.cid ≠ o.cid then (if a.cid < o.cid then -w - 1 else w + 1)
  else if a.dir ≠ o.dir then (if a.dir < o.dir then -w - 1 else w + 1)
  else a.pos - o.pos

/-- The test `aligns.size() > 0` on the entry at index `i`: the entry is a multi-read site. -/
def isMultiAt (pm : MapType) (i : Nat) : Bool := decide (0 < (entryAt pm i).2.aligns.length)

/-- State of the sweep over the position map that computes the windows: the iterators `lb`
and `ub` (indices of entries; `posMap.end()` is the length of the map), the site positions
`lb_pos` and `ub_pos`, the running sum `sumc`, and the vector `sites` built so far. -/
structure SweepState where
  lb : Nat
  ub : Nat
  lb_pos : Int
  ub_pos : Int
  sumc : Int
  sites : List SiteType
deriving DecidableEq, Repr

/-- The loop `while (lb != ub && lb->first.cmp(iter->first, w) < -w) { sumc -= lb->second.c;
if (lb->second.aligns.size() > 0) ++lb_pos; ++lb; }` for the entry `iter` at index `it`.
The first argument bounds the number of iterations; since `lb` stops at `ub` at the
latest, the caller passes `ub - lb`. -/
def sweepLb1 (pm : MapType) (w : Int) (it : Nat) : Nat → SweepState → SweepState
  | 0, st => st
  | fuel + 1, st =>
    if st.lb ≠ st.ub ∧ (entryAt pm st.lb).1.cmp (entryAt pm it).1 w < -w then
      sweepLb1 pm w it fuel
        { st with sumc := st.sumc - (entryAt pm st.lb).2.c
                  lb_pos := if isMultiAt pm st.lb then st.lb_pos + 1 else st.lb_pos
                  lb := st.lb + 1 }
    else st

/-- The loop `while (lb != iter && lb->first.cmp(iter->first, w) < -w) {
if (lb->second.aligns.size() > 0) ++lb_pos; ++lb; }`; since `lb` stops at `iter` at the
latest, the caller passes `it - lb` as bound. -/
def sweepLb2 (pm : MapType) (w : Int) (it : Nat) : Nat → SweepState → SweepState
  | 0, st => st
  | fuel + 1, st =>
    if st.lb ≠ it ∧ (entryAt pm st.lb).1.cmp (entryAt pm it).1 w < -w then
      sweepLb2 pm w it fuel
        { st with lb_pos := if isMultiAt pm st.lb then st.lb_pos + 1 else st.lb_pos
                  lb := st.lb + 1 }
    else st

/-- The loop `while (ub != posMap.end() && ub->first.cmp(iter->first, w) <= w) {
sumc += ub->second.c; if (ub->second.aligns.size() > 0) ++ub_pos; ++ub; }`; since `ub`
stops at the end of the map at the latest, the caller passes `posMap.size() - ub` as
bound. -/
def sweepUb (pm : MapType) (w : Int) (it : Nat) : Nat → SweepState → SweepState
  | 0, st => st
  | fuel + 1, st =>
    if st.ub ≠ pm.length ∧ (entryAt pm st.ub).1.cmp (entryAt pm it).1 w ≤ w then
      sweepUb pm w it fuel
        { st with sumc := st.sumc + (entryAt pm st.ub).2.c
                  ub_pos := if isMultiAt pm st.ub then st.ub_pos + 1 else st.ub_pos
                  ub := st.ub + 1 }
    else st

/-- Body of the loop over the position map, for the entry at index `it`: nothing for an
entry without back-references, else the window of the site is computed and the site is
appended to `sites`. -/
def sweepBody (pm : MapType) (w : Int) (it : Nat) (st : SweepState) : SweepState :=
  if isMultiAt pm it then
    let st1 := sweepLb1 pm w it (st.ub - st.lb) st
    let st2 :=
      if st1.lb = st1.ub then
        let st1b := sweepLb2 pm w it (it - st1.lb) st1
        { st1b with ub := st1b.lb + 1
                    ub_pos := st1b.lb_pos + (if isMultiAt pm st1b.lb then 1 else 0)
                    sumc := (entryAt pm st1b.lb).2.c }
      else st1
    let st3 := sweepUb pm w it (pm.length - st2.ub) st2
    { st3 with sites := st3.sites ++ [⟨it, st3.sumc, st3.lb_pos + 1, st3.ub_pos⟩] }
  else st

/-- The loop over the position map, iterations `0 .. n-1`. -/
def sweepLoop (pm : MapType) (w : Int) : Nat → SweepState → SweepState
  | 0, st => st
  | n + 1, st => sweepBody pm w n (sweepLoop pm w n st)

/-- The part of `distributeTasks` that prepares the MS step: the vector `sites`.  The
routine asserts that the position map is not empty; `none` stands for the failed
assertion. -/
def computeSites (pm : MapType) (w : Int) : Option (List SiteType) :=
  if pm.length = 0 then none
  else
    some (sweepLoop pm w pm.length
      { lb := 0, ub := 1, lb_pos := -1, ub_pos := if isMultiAt pm 0 then 0 else -1,
        sumc := (entryAt pm 0).2.c, sites := [] }).sites

/-! ## Task distribution: multi-read sites (MS step) -/

/-- Number of weight cells of site `cs`, `sites[cs].v->aligns.size()`. -/
def siteSize (pm : MapType) (sites : List SiteType) (cs : Nat) : Int :=
  (((entryAt pm (sites.getD cs default).v).2.aligns.length : Nat) : Int)

/-- The loop `while (cs < n_msites && sites[cs].right != cs) acc += sgn * size(cs++);`
that runs to the site closing a block.  The source has it twice, subtracting from `left`
(`sgn = -1`) and adding to `psum` (`sgn = 1`).  The state is `(cs, acc)`; the caller passes
`n_msites - cs` as bound on the number of iterations. -/
def blockScan (pm : MapType) (sites : List SiteType) (sgn : Int) : Nat → Nat × Int → Nat × Int
  | 0, st => st
  | fuel + 1, st =>
    if st.1 < sites.length ∧ (sites.getD st.1 default).right ≠ (st.1 : Int) then
      blockScan pm sites sgn fuel (st.1 + 1, st.2 + sgn * siteSize pm sites st.1)
    else st

/-- A whole block: the loop `blockScan`, the assertion `assert(cs < n_msites)` (`none` when
it fails) and the statement `acc += sgn * size(cs++)` for the closing site. -/
def takeBlock (pm : MapType) (sites : List SiteType) (sgn : Int) (st : Nat × Int) :
    Option (Nat × Int) :=
  let st1 := blockScan pm sites sgn (sites.length - st.1) st
  if st1.1 < sites.length then some (st1.1 + 1, st1.2 + sgn * siteSize pm sites st1.1)
  else none

/-- State of the loop that distributes the sites: current site `cs`, previous and next
site `ps` and `ns` (`-1` when unset), the partial sum `psum` and `left`. -/
structure MSPart where
  cs : Nat
  ps : Int
  ns : Int
  psum : Int
  left : Int
deriving DecidableEq, Repr

/-- The loop `while (cs < n_msites && left > lefts[i]) { ps = cs; psum = 0; <block>;
left -= psum; }` with `lim` standing for `lefts[i]`; every iteration moves `cs` forward,
so the caller passes `n_msites - cs` as bound. -/
def msScan (pm : MapType) (sites : List SiteType) (lim : Int) : Nat → MSPart → Option MSPart
  | 0, st => some st
  | fuel + 1, st =>
    if st.cs < sites.length ∧ st.left > lim then
      match takeBlock pm sites 1 (st.cs, 0) with
      | none => none
      | some b =>
        msScan pm sites lim fuel
          { st with ps := (st.cs : Int), cs := b.1, psum := b.2, left := st.left - b.2 }
    else some st

/-- Body of the loop over threads that sets `params[i].ss` and `params[i].es`, with `lim`
standing for `lefts[i]`: the state at the bottom of the iteration, or `none` when an
assertion fails.  `ss` is the incoming `cs` and `es` the outgoing one. -/
def msThread (pm : MapType) (sites : List SiteType) (lim : Int) (st : MSPart) :
    Option MSPart :=
  if st.cs = sites.length then some st
  else
    let first : Option MSPart :=
      if st.ns ≥ 0 then
        some { st with left := st.left - st.psum, cs := st.ns.toNat, ns := -1 }
      else
        match takeBlock pm sites (-1) (st.cs, st.left) with
        | none => none
        | some b => some { st with cs := b.1, left := b.2 }
    match first with
    | none => none
    | some st1 =>
      match msScan pm sites lim (sites.length - st1.cs) { st1 with ps := -1 } with
      | none => none
      | some st2 =>
        if st2.ps ≥ 0 ∧ st2.left + st2.psum - lim < lim - st2.left then
          some { st2 with left := st2.left + st2.psum, ns := (st2.cs : Int), cs := st2.ps.toNat }
        else some st2

/-- The loop over threads of the MS-step partition; returns the pairs `(ss, es)` of the
threads whose quotas are the given list, or `none` when an assertion fails. -/
def msPartition (pm : MapType) (sites : List SiteType) : List Int → MSPart →
    Option (List (Nat × Nat))
  | [], _ => some []
  | lim :: rest, st =>
    match msThread pm sites lim st with
    | none => none
    | some st1 =>
      match msPartition pm sites rest st1 with
      | none => none
      | some ranges => some ((st.cs, st1.cs) :: ranges)

/-- The MS-step part of `distributeTasks` after the windows are computed: the ranges
`[ss, es)` of all threads. -/
def distributeMS (pm : MapType) (sites : List SiteType) (n_mhits num_threads : Nat) :
    Option (List (Nat × Nat)) :=
  msPartition pm sites (computeLefts n_mhits num_threads)
    { cs := 0, ps := -1, ns := -1, psum := 0, left := (n_mhits : Int) }

/-- What `distributeTasks` computes: the ranges of the E step, the sites and the ranges of
the MS step. -/
structure Tasks where
  eRanges : List (Nat × Nat)
  sites : List SiteType
  msRanges : List (Nat × Nat)
deriving DecidableEq, Repr

/-- The routine `distributeTasks`; `none` when one of its assertions fails. -/
def distributeTasks (pm : MapType) (multis : List MultiType) (n_mhits num_threads : Nat)
    (w : Int) : Option Tasks :=
  match computeSites pm w with
  | none => none
  | some sites =>
    match distributeMS pm sites n_mhits num_threads with
    | none => none
    | some ms => some ⟨distributeE multis n_mhits num_threads, sites, ms⟩

/-- Number of multi-read sites among the first `j` entries of the position map. -/
def multiCount (pm : MapType) (j : Nat) : Nat := ((List.range j).filter (isMultiAt pm)).length

/-- What the sweep has established of site `k` when its iterators stand at `ub` (at most
`ubound`) and its site positions at `lbp`, `ubp`: the site is the `k`-th multi-read entry
of the map; its window contains it and lies within the sites; later windows cannot start
or end before it does; behind `right` there is the end of the map or an entry right of the
window; and the window starts after every earlier site that closes its own window. -/
def SiteOK (pm : MapType) (w : Int) (sites : List SiteType) (k ubound : Nat) (lbp ubp : Int) :
    Prop :=
  (sites.getD k default).v < pm.length
    ∧ isMultiAt pm (sites.getD k default).v = true
    ∧ multiCount pm (sites.getD k default).v = k
    ∧ 0 ≤ (sites.getD k default).left
    ∧ (sites.getD k default).left ≤ (k : Int)
    ∧ (k : Int) ≤ (sites.getD k default).right
    ∧ (sites.getD k default).right + 1 ≤ (multiCount pm pm.length : Int)
    ∧ (sites.getD k default).left ≤ lbp + 1
    ∧ (sites.getD k default).right ≤ ubp
    ∧ (∃ ubk, (sites.getD k default).v < ubk ∧ ubk ≤ ubound
        ∧ (sites.getD k default).right + 1 = (multiCount pm ubk : Int)
        ∧ (ubk = pm.length
            ∨ ¬ (entryAt pm ubk).1.cmp (entryAt pm (sites.getD k default).v).1 w ≤ w))
    ∧ (∀ b, b < k → (sites.getD b default).right = (b : Int) →
        (b : Int) < (sites.getD k default).left)

/-- What holds of the state of the sweep at the top of the iteration for the entry at index
`it`. -/
def SweepInv (pm : MapType) (w : Int) (it : Nat) (st : SweepState) : Prop :=
  st.lb < st.ub ∧ st.ub ≤ pm.length ∧ st.lb ≤ it
    ∧ st.lb_pos + 1 = (multiCount pm st.lb : Int)
    ∧ st.ub_pos + 1 = (multiCount pm st.ub : Int)
    ∧ st.sites.length = multiCount pm it
    ∧ (∀ k, k < st.sites.length →
        (st.sites.getD k default).v < it ∧ SiteOK pm w st.sites k st.ub st.lb_pos st.ub_pos)
    ∧ (∀ k, k + 1 < st.sites.length →
        (st.sites.getD k default).left ≤ (st.sites.getD (k + 1) default).left
          ∧ (st.sites.getD k default).right ≤ (st.sites.getD (k + 1) default).right)

/-- What the MS-step partition uses of the windows of the sites: every site is a multi-read
entry of the map and the sites are in map order; every window contains its site and ends
within the sites; `left` and `right` are non-decreasing; and a window starts after every
earlier site that closes its own window. -/
def WindowsOK (pm : MapType) (sites : List SiteType) : Prop :=
  sites.length = multiCount pm pm.length
    ∧ (∀ k, k < sites.length →
        (sites.getD k default).v < pm.length
          ∧ isMultiAt pm (sites.getD k default).v = true
          ∧ multiCount pm (sites.getD k default).v = k
          ∧ 0 ≤ (sites.getD k default).left
          ∧ (sites.getD k default).left ≤ (k : Int)
          ∧ (k : Int) ≤ (sites.getD k default).right
          ∧ (sites.getD k default).right < (sites.length : Int)
          ∧ (∀ b, b < k → (sites.getD b default).right = (b : Int) →
              (b : Int) < (sites.getD k default).left))
    ∧ (∀ k, k + 1 < sites.length →
        (sites.getD k default).left ≤ (sites.getD (k + 1) default).left
          ∧ (sites.getD k default).right ≤ (sites.getD (k + 1) default).right)

/-- Number of weight cells of the sites before site `k`. -/
def sizePrefix (pm : MapType) (sites : List SiteType) : Nat → Int
  | 0 => 0
  | k + 1 => sizePrefix pm sites k + siteSize pm sites k

/-- Position `c` is a place where a thread range may begin or end: the start of the sites,
or right after a site whose window ends at the site itself. -/
def isCut (sites : List SiteType) (c : Nat) : Prop :=
  c ≤ sites.length ∧ (c = 0 ∨ (sites.getD (c - 1) default).right = ((c - 1 : Nat) : Int))

/-- What holds of the state of the loop that distributes the sites, at the top of each
iteration: `cs` is a cut, `left` counts the cells of the sites from `cs` on (out of
`total`), and a pending block `[cs, ns)` ends at a cut and has `psum` cells. -/
def MSInv (pm : MapType) (sites : List SiteType) (total : Int) (st : MSPart) : Prop :=
  isCut sites st.cs
    ∧ st.left = total - sizePrefix pm sites st.cs
    ∧ (0 ≤ st.ns → isCut sites st.ns.toNat ∧ st.cs < st.ns.toNat
        ∧ st.psum = sizePrefix pm sites st.ns.toNat - sizePrefix pm sites st.cs)

/-- The last block a thread has taken is recorded by `ps` and `psum`: either none (`ps` is
`-1`), or the block `[ps, cs)` with `ps` a cut at or after `c0` and `psum` its cells. -/
def PsOK (pm : MapType) (sites : List SiteType) (c0 : Nat) (st : MSPart) : Prop :=
  st.ps = -1
    ∨ (0 ≤ st.ps ∧ c0 ≤ st.ps.toNat ∧ st.ps.toNat < st.cs ∧ isCut sites st.ps.toNat
        ∧ st.psum = sizePrefix pm sites st.cs - sizePrefix pm sites st.ps.toNat)

/-- Number of weight cells back-referenced by the first `j` entries of the position map. -/
def cellsBefore (pm : MapType) : Nat → Nat
  | 0 => 0
  | j + 1 => cellsBefore pm j + (entryAt pm j).2.aligns.length

/-! ## Windows of sites, as the claims state them -/

/-- Key `a` lies on the contig and strand of key `b`, at a distance of at most `w`
positions. -/
def inWindow (a b : KeyType) (w : Int) : Prop :=
  a.cid = b.cid ∧ a.dir = b.dir ∧ -w ≤ a.pos - b.pos ∧ a.pos - b.pos ≤ w

instance (a b : KeyType) (w : Int) : Decidable (inWindow a b w) := by
  unfold inWindow
  infer_instance

/-! ## Cells of the expectation step -/

/-- The value the E-step leaves in cell `offset + j` of the record `m`: the product
`fracs[j] * conprbs[j]` divided by the sum of these products over the record (by 1 when
the sum is not positive) and multiplied by the multiplicity of the record. -/
def eValue (fracs conprbs : List ℚ) (m : MultiType) (j : Nat) : ℚ :=
  rd fracs (m.offset + j) * rd conprbs (m.offset + j)
    / (if prodSum fracs conprbs m.offset m.s ≤ 0 then 1 else prodSum fracs conprbs m.offset m.s)
    * (m.c : ℚ)

/-- The cells a thread of the E-step with range `[sp, ep)` may write: the slices of its
records. -/
def eWrites (multis : List MultiType) (sp ep : Nat) (j : Nat) : Prop :=
  ∃ k, sp ≤ k ∧ k < ep ∧ inSlice (multis.getD k default) j

/-! ## The transcript model (`DMSTransModel.hpp`)

The numbers of the model are taken from a field `K` given as a parameter, and so is the
function `exp`, which has no rational model.  An array (`double*`) is modelled by the
function from the `int` index to the cell at that offset of the pointer, so that an access
outside the allocated cells is an access like any other and can be told from one inside. -/

/-- The static members of `DMSTransModel`, set by `setGlobalParams`. -/
structure GlobalParams where
  primer_length : Int
  min_frag_len : Int
  max_frag_len : Int
deriving DecidableEq, Repr

/-- The members of a `DMSTransModel` object that `getProb` and `update` read or write;
`beta` is `none` for the pointer `NULL`, and `end_` stands for the member `end`. -/
structure DMSTransModel (K : Type) where
  isSE : Bool
  len : Int
  delta : K
  prob_pass : K
  gamma : Int → K
  beta : Option (Int → K)
  start : Int → K
  end_ : Int → K
  logsum : Int → K
  margin_prob : Int → K

/-- The factor `(beta == NULL ? gamma[pos] : (gamma[pos] + beta[pos] - gamma[pos] * beta[pos]))`
of `getProb`. -/
def DMSTransModel.dropFactor {K : Type} [Field K] (m : DMSTransModel K) (pos : Int) : K :=
  match m.beta with
  | none => m.gamma pos
  | some beta => m.gamma pos + beta pos - m.gamma pos * beta pos

/-- The single-end `getProb(int pos)`, with `expf` standing for `exp`. -/
def DMSTransModel.getProb {K : Type} [Field K] (gp : GlobalParams) (expf : K → K)
    (m : DMSTransModel K) (pos : Int) : K :=
  let start_pos := pos + gp.min_frag_len
  if start_pos > m.len ∨ pos < 0 then 0
  else
    let res := m.delta * m.margin_prob pos * expf (m.logsum start_pos - m.logsum pos)
    let res := if pos > 0 then res * m.dropFactor pos else res
    res / m.prob_pass

/-- The paired-end `getProb(int pos, int fragment_length)`. -/
def DMSTransModel.getProbPE {K : Type} [Field K] (gp : GlobalParams) (expf : K → K)
    (m : DMSTransModel K) (pos fragment_length : Int) : K :=
  let start_pos := pos + fragment_length - gp.primer_length
  if start_pos > m.len ∨ pos < 0 then 0
  else
    let res := m.delta * expf (m.logsum start_pos - m.logsum pos)
    let res := if pos > 0 then res * m.dropFactor pos else res
    res / m.prob_pass

/-- The single-end `update(int pos, double frac)`. -/
def DMSTransModel.update {K : Type} [Field K] (gp : GlobalParams) (m : DMSTransModel K)
    (pos : Int) (frac : K) : DMSTransModel K :=
  if pos + gp.min_frag_len > m.len ∨ pos < 0 then m
  else { m with end_ := Function.update m.end_ pos (m.end_ pos + frac), isSE := true }

/-- The paired-end `update(int pos, int fragment_length, double frac)`: the statement
`end[pos] += frac;` and then `start[pos + fragment_length - primer_length] += frac;`. -/
def DMSTransModel.updatePE {K : Type} [Field K] (gp : GlobalParams) (m : DMSTransModel K)
    (pos fragment_length : Int) (frac : K) : DMSTransModel K :=
  if pos + fragment_length - gp.primer_length > m.len ∨ pos < 0 then m
  else
    let m1 := { m with end_ := Function.update m.end_ pos (m.end_ pos + frac) }
    { m1 with start := Function.update m1.start (pos + fragment_length - gp.primer_length)
                (m1.start (pos + fragment_length - gp.primer_length) + frac) }

/-! ## The routine `main` -/

/-- The routines `main` calls. -/
inductive Routine where
  | init
  | parseAlignments
  | finish
  | processMultiReads
  | distributeTasks
deriving DecidableEq, Repr

/-- What the thread count decides of a run of `main`: the run ends in `exit(-1)` after the
usage message; or the allocation `new ParamType[num_threads]` at the head of
`distributeTasks` is asked for a negative number of elements and throws; or the division
`n_mhits / num_threads` is evaluated with the divisor 0; or `distributeTasks` goes on past
the division. -/
inductive Ending where
  | exitUsage
  | allocThrows
  | divByZero
  | goesOn
deriving DecidableEq, Repr

/-- The run of `main` up to the quota division of `distributeTasks`, for `argc` arguments
and the value `num_threads = atoi(argv[5])`: the routines called, in the order of the
calls, and how the run ends or goes on.  The only test `main` makes is `argc < 6`. -/
def mainRun (argc : Nat) (num_threads : Int) : List Routine × Ending :=
  if argc < 6 then ([], Ending.exitUsage)
  else
    let calls := [Routine.init, Routine.parseAlignments, Routine.finish,
      Routine.processMultiReads, Routine.distributeTasks]
    if num_threads < 0 then (calls, Ending.allocThrows)
    else if num_threads = 0 then (calls, Ending.divByZero)
    else (calls, Ending.goesOn)

/-- Sum of the unique counts `c` of the first `j` entries of the position map. -/
def cBefore (pm : MapType) : Nat → Int
  | 0 => 0
  | j + 1 => cBefore pm j + (entryAt pm j).2.c

/-- The sum of the unique counts `c` of all entries of the position map, with or without
back-references, that lie on the contig and strand of `key` at a distance of at most `w`. -/
def windowCount (pm : MapType) (key : KeyType) (w : Int) : Int :=
  ((pm.filter (fun e => decide (inWindow e.1 key w))).map (fun e => e.2.c)).sum

/-- What the sweep has computed for a site `s`: iterator positions `lbk <= s.v < ubk` such
that the entries with index in `[lbk, ubk)` are exactly the entries within `w` of the
site, `left` is the number of sites before `lbk`, `right + 1` the number of sites before
`ubk`, and `uc` the sum of the unique counts over `[lbk, ubk)`. -/
def SiteFull (pm : MapType) (w : Int) (s : SiteType) : Prop :=
  ∃ lbk ubk, lbk ≤ s.v ∧ s.v < ubk ∧ ubk ≤ pm.length
    ∧ s.left = (multiCount pm lbk : Int)
    ∧ s.right + 1 = (multiCount pm ubk : Int)
    ∧ s.uc = cBefore pm ubk - cBefore pm lbk
    ∧ ∀ j, j < pm.length →
        ((lbk ≤ j ∧ j < ubk) ↔ inWindow (entryAt pm j).1 (entryAt pm s.v).1 w)

/-- What holds of the iterators and of `sumc` at the top of the iteration of the sweep for
the entry at index `it`: the entries before `lb` are left of the window of every entry from
`it` on, the entries before `ub` are not right of it, `sumc` is the sum of the unique counts
over `[lb, ub)`, and the sites computed so far are as `SiteFull` says. -/
def SweepFull (pm : MapType) (w : Int) (it : Nat) (st : SweepState) : Prop :=
  (∀ j, j < st.lb → ∀ t, it ≤ t → t < pm.length →
      (entryAt pm j).1.cmp (entryAt pm t).1 w < -w)
    ∧ (∀ j, j < st.ub → ∀ t, it ≤ t → t < pm.length →
        (entryAt pm j).1.cmp (entryAt pm t).1 w ≤ w)
    ∧ st.sumc = cBefore pm st.ub - cBefore pm st.lb
    ∧ ∀ k, k < st.sites.length → SiteFull pm w (st.sites.getD k default)

/-- What one iteration of the sweep for a multi-read entry `it` does to the state `st`,
giving `r`: the iterators move forward to the two ends of the window of the entry, `sumc`
follows them, and the site of the entry is appended. -/
def SweepStep (pm : MapType) (w : Int) (it : Nat) (st r : SweepState) : Prop :=
  r.sites = st.sites ++ [⟨it, r.sumc, r.lb_pos + 1, r.ub_pos⟩]
    ∧ r.lb ≤ it ∧ it < r.ub ∧ r.ub ≤ pm.length
    ∧ r.sumc = cBefore pm r.ub - cBefore pm r.lb
    ∧ (∀ j, j < r.lb → (entryAt pm j).1.cmp (entryAt pm it).1 w < -w)
    ∧ ¬ (entryAt pm r.lb).1.cmp (entryAt pm it).1 w < -w
    ∧ (∀ j, j < r.ub → (entryAt pm j).1.cmp (entryAt pm it).1 w ≤ w)
    ∧ (r.ub = pm.length ∨ ¬ (entryAt pm r.ub).1.cmp (entryAt pm it).1 w ≤ w)

/-! ## The rounds of the algorithm (`EMS`)

The threads of one phase are started one after the other and joined before the next phase
begins.  They work on disjoint parts of the arrays (claims C2, C4, C5, C20), so a phase is
modelled by running the threads one after the other, in the order of their creation. -/

/-- The E-step phase of a round: `E_STEP` on the range `[sp, ep)` of every thread. -/
def ePhase (multis : List MultiType) (conprbs : List ℚ) (eRanges : List (Nat × Nat))
    (fracs : List ℚ) : List ℚ :=
  eRanges.foldl (fun fr r => E_STEP multis conprbs r.1 r.2 fr) fracs

/-- The MS-step phase of a round: `MS_STEP` on the range `[ss, es)` of every thread. -/
def msPhase (last_round : Bool) (sites : List SiteType) (msRanges : List (Nat × Nat))
    (st : MapType × List ℚ) : MapType × List ℚ :=
  msRanges.foldl (fun s r => MS_STEP last_round sites r.1 r.2 s.1 s.2) st

/-- The loop of `EMS`, rounds `ROUND = 1 .. n`: the E-step phase, then
`last_round = ROUND == ROUNDS`, then the MS-step phase.  The state is the position map and
`fracs`. -/
def emsLoop (multis : List MultiType) (conprbs : List ℚ) (t : Tasks) (ROUNDS : Nat) :
    Nat → MapType × List ℚ → MapType × List ℚ
  | 0, st => st
  | n + 1, st =>
    let st1 := emsLoop multis conprbs t ROUNDS n st
    msPhase (decide (n + 1 = ROUNDS)) t.sites t.msRanges
      (st1.1, ePhase multis conprbs t.eRanges st1.2)

/-- The routine `EMS(ROUNDS)` on the tasks `t` computed by `distributeTasks`. -/
def EMS (multis : List MultiType) (conprbs : List ℚ) (t : Tasks) (ROUNDS : Nat)
    (pm : MapType) (fracs : List ℚ) : MapType × List ℚ :=
  emsLoop multis conprbs t ROUNDS ROUNDS (pm, fracs)

/-- The ranges form a chain from `a` to `b`: the first starts at `a`, each next one where
the previous one ends, the last ends at `b`, and none ends before it starts. -/
def rangesChained : List (Nat × Nat) → Nat → Nat → Prop
  | [], a, b => a = b
  | r :: rest, a, b => r.1 = a ∧ r.1 ≤ r.2 ∧ rangesChained rest r.2 b

/-- The map `pm2` is the map `pm` up to the weights: same length, and the same key, unique
count and back-references at every index. -/
def MapFrame (pm pm2 : MapType) : Prop :=
  pm2.length = pm.length
    ∧ ∀ v, (entryAt pm2 v).1 = (entryAt pm v).1
        ∧ (entryAt pm2 v).2.c = (entryAt pm v).2.c
        ∧ (entryAt pm2 v).2.aligns = (entryAt pm v).2.aligns

/-- What the analysis of a whole MS-step phase assumes of the sites: they point to distinct
entries of the map, their back-references are cells among the first `n` and no cell belongs
to two sites, every window contains its site, `left` and `right` are non-decreasing, and
the unique counts are non-negative. -/
def SitesOK (sites : List SiteType) (pm : MapType) (n : Nat) : Prop :=
  (∀ i, i < sites.length → (siteAt sites i).v < pm.length)
    ∧ (∀ i j, i < sites.length → j < sites.length → i ≠ j →
        (siteAt sites i).v ≠ (siteAt sites j).v
          ∧ ∀ c ∈ siteCells sites pm i, c ∉ siteCells sites pm j)
    ∧ (∀ i, i < sites.length → ∀ c ∈ siteCells sites pm i, c < n)
    ∧ (∀ i : Nat, i < sites.length →
        (siteAt sites i).left ≤ (i : Int) ∧ (i : Int) ≤ (siteAt sites i).right)
    ∧ (∀ i : Nat, i + 1 < sites.length →
        (siteAt sites i).left ≤ (siteAt sites (i + 1 : Nat)).left
          ∧ (siteAt sites i).right ≤ (siteAt sites (i + 1 : Nat)).right)
    ∧ (∀ i : Nat, i < sites.length → 0 ≤ (siteAt sites i).uc)

/-- What holds in the middle of a non-final MS-step phase started on the map `pm` and the
cells `fracs`, when the threads with the sites before `c` are done: the map is `pm` up to
the weights, the cells of the sites before `c` hold the smoothed value, and the other cells
are as they were. -/
def PhaseInv (sites : List SiteType) (pm : MapType) (fracs : List ℚ) (c : Nat)
    (cur : MapType × List ℚ) : Prop :=
  MapFrame pm cur.1
    ∧ cur.2.length = fracs.length
    ∧ (∀ k : Nat, k < c → ∀ cell ∈ siteCells sites pm k,
        rd cur.2 cell = windowSum sites pm fracs (siteAt sites k).left (siteAt sites k).right
          + ((siteAt sites k).uc : ℚ))
    ∧ (∀ cell, (∀ k : Nat, k < c → cell ∉ siteCells sites pm k) → rd cur.2 cell = rd fracs cell)

/-- The position map of the two scenarios with a single record of two alignments: the
entries at the indices `iA` and `iB` back-reference the cells 0 and 1 of the record, and no
other entry has back-references (there is no other multi-mapping read). -/
def TwoSites (pm : MapType) (iA iB : Nat) : Prop :=
  iA < pm.length ∧ iB < pm.length ∧ iA ≠ iB
    ∧ (entryAt pm iA).2.aligns = [0] ∧ (entryAt pm iB).2.aligns = [1]
    ∧ ∀ j, j < pm.length → j ≠ iA → j ≠ iB → (entryAt pm j).2.aligns = []

/-- What `distributeTasks` computes on a map with `TwoSites`: two sites, `a` for the entry
`iA` and `b` for the entry `iB`; the record in one thread range of the E step; chained
self-contained thread ranges of the MS step; the unique counts of the windows; and either
both sites in the window of each other, or each alone in its window. -/
def Scene (pm : MapType) (t : Tasks) (w : Int) (iA iB a b : Nat) : Prop :=
  t.sites.length = 2
    ∧ ((a = 0 ∧ b = 1) ∨ (a = 1 ∧ b = 0))
    ∧ (siteAt t.sites a).v = iA ∧ (siteAt t.sites b).v = iB
    ∧ rangesChained t.eRanges 0 1
    ∧ rangesChained t.msRanges 0 2
    ∧ (∀ r ∈ t.msRanges, ∀ k : Nat, r.1 ≤ k → k < r.2 →
        (r.1 : Int) ≤ (siteAt t.sites k).left ∧ (siteAt t.sites k).right < (r.2 : Int))
    ∧ (siteAt t.sites a).uc = windowCount pm (entryAt pm iA).1 w
    ∧ (siteAt t.sites b).uc = windowCount pm (entryAt pm iB).1 w
    ∧ ((inWindow (entryAt pm iB).1 (entryAt pm iA).1 w
          ∧ ∀ k : Nat, k < 2 → (siteAt t.sites k).left = 0 ∧ (siteAt t.sites k).right = 1)
        ∨ (¬ inWindow (entryAt pm iB).1 (entryAt pm iA).1 w
          ∧ ∀ k : Nat, k < 2 → (siteAt t.sites k).left = (k : Int)
              ∧ (siteAt t.sites k).right = (k : Int)))

/-- The survival factor at position `k`, `(1 - gamma[k]) * (beta == NULL ? 1.0 : (1 - beta[k]))`
(the factor in the field comments of `logsum` and `margin_prob`). -/
def DMSTransModel.survival {K : Type} [Field K] (m : DMSTransModel K) (k : Int) : K :=
  match m.beta with
  | none => 1 - m.gamma k
  | some beta => (1 - m.gamma k) * (1 - beta k)

/-- The positions `0 .. len` of a transcript. -/
def positions (len : Int) : List Int :=
  (List.range (len + 1).toNat).map (fun i : Nat => (i : Int))

/-- The fragment lengths (primer excluded) that are valid for a fragment at `pos`: those in
`[min_frag_len, max_frag_len]` with which the fragment ends inside the transcript. -/
def validLengths (gp : GlobalParams) (len pos : Int) : List Int :=
  ((List.range (gp.max_frag_len - gp.min_frag_len + 1).toNat).map
    (fun d : Nat => gp.min_frag_len + (d : Int))).filter (fun L => decide (pos + L ≤ len))

/-- The probability mass of the pair of a position and a fragment length (primer excluded)
before the division by `prob_pass`, as the paired-end `getProb` computes it:
`delta * exp(logsum[pos + L] - logsum[pos])`, times the drop-off factor at `pos` when
`pos > 0`. -/
def DMSTransModel.pairMass {K : Type} [Field K] (expf : K → K) (m : DMSTransModel K)
    (pos L : Int) : K :=
  m.delta * expf (m.logsum (pos + L) - m.logsum pos) * (if pos > 0 then m.dropFactor pos else 1)

/-- Modelled from the spec: the array `logsum` that `calcAuxiliaryArrays` computes by
cumulative summation, `logsum[i] = sum over j = 1 .. i of log(survival j)` (with `logf`
standing for `log`). -/
def specLogsum {K : Type} [Field K] (logf : K → K) (m : DMSTransModel K) : Nat → K
  | 0 => 0
  | i + 1 => specLogsum logf m i + logf (m.survival ((i + 1 : Nat) : Int))

/-- Modelled from the spec: `calcAuxiliaryArrays` recomputes `logsum` by cumulative
summation, `margin_prob[i]` by summing the product of survivals over all valid fragment
lengths in `[min_frag_len, max_frag_len]` starting at `i` (a product from `a` to `b` being
`exp(logsum[b] - logsum[a-1])`), and `prob_pass` as the total probability mass over all
valid pairs of a position and a fragment length. -/
def DMSTransModel.calcAuxiliaryArrays {K : Type} [Field K] (gp : GlobalParams)
    (expf logf : K → K) (m : DMSTransModel K) : DMSTransModel K :=
  let m1 := { m with logsum := fun i => specLogsum logf m i.toNat }
  let m2 := { m1 with
    margin_prob := fun i => ((validLengths gp m.len i).map
      (fun L => expf (m1.logsum (i + L) - m1.logsum (i + gp.min_frag_len)))).sum }
  { m2 with
    prob_pass := ((positions m.len).map
      (fun pos => ((validLengths gp m.len pos).map (fun L => m2.pairMass expf pos L)).sum)).sum }

/-! ## The maximization-smooth step with its assertion

The smoothing loop of `MS_STEP` once more, now with the statement
`assert(l == sites[i].left && r == sites[i].right)` (`none` when it fails) and with the list
of the indices at which the thread accesses the vector `sites`. -/

/-- The loop `while (r < sites[i].right) { ++r; sites[r].v->collect();
psum += sites[r].v->weight; }`; every iteration accesses `sites[r]` for the new `r`. -/
def msAdvanceT (sites : List SiteType) (right : Int) :
    Nat → MSState × List Int → MSState × List Int
  | 0, s => s
  | fuel + 1, s =>
    if s.1.r < right then
      let r1 := s.1.r + 1
      let pm1 := collectAt s.1.posMap s.1.fracs (siteAt sites r1).v
      msAdvanceT sites right fuel
        ({ s.1 with r := r1, posMap := pm1,
                    psum := s.1.psum + (entryAt pm1 (siteAt sites r1).v).2.weight },
          s.2 ++ [r1])
    else s

/-- The loop `while (l < sites[i].left) { psum -= sites[l].v->weight; ++l; }`; every
iteration accesses `sites[l]`. -/
def msRetireT (sites : List SiteType) (left : Int) :
    Nat → MSState × List Int → MSState × List Int
  | 0, s => s
  | fuel + 1, s =>
    if s.1.l < left then
      msRetireT sites left fuel
        ({ s.1 with psum := s.1.psum - (entryAt s.1.posMap (siteAt sites s.1.l).v).2.weight,
                    l := s.1.l + 1 },
          s.2 ++ [s.1.l])
    else s

/-- Body of the smoothing loop for site `i`, which accesses `sites[i]`; `none` when the
assertion fails. -/
def msBodyT (sites : List SiteType) (i : Nat) (s : MSState × List Int) :
    Option (MSState × List Int) :=
  let site := siteAt sites (i : Int)
  let s1 := msAdvanceT sites site.right (site.right - s.1.r).toNat (s.1, s.2 ++ [(i : Int)])
  let s2 := msRetireT sites site.left (site.left - s1.1.l).toNat s1
  if s2.1.l = site.left ∧ s2.1.r = site.right then
    let psum := if s2.1.psum < 0 then 0 else s2.1.psum
    some ({ s2.1 with psum := psum,
                      fracs := pushAt s2.1.posMap site.v (psum + (site.uc : ℚ)) s2.1.fracs },
      s2.2)
  else none

/-- The smoothing loop, iterations `ss .. ss+n-1`; `none` when an assertion fails. -/
def msLoopT (sites : List SiteType) (ss : Nat) :
    Nat → MSState × List Int → Option (MSState × List Int)
  | 0, s => some s
  | n + 1, s =>
    match msLoopT sites ss n s with
    | none => none
    | some s1 => msBodyT sites (ss + n) s1

/-- The state in which the smoothing loop of a thread with range start `ss` begins. -/
def msStart (ss : Nat) (pm : MapType) (fracs : List ℚ) : MSState × List Int :=
  ({ posMap := pm, fracs := fracs, l := (ss : Int), r := (ss : Int) - 1, psum := 0 }, [])

/-- The routine `MS_STEP` in a non-final round on the thread range `[ss, es)`: the position
map, `fracs` and the site indices accessed, or `none` when an assertion fails. -/
def MS_STEP_checked (sites : List SiteType) (ss es : Nat) (pm : MapType) (fracs : List ℚ) :
    Option (MapType × List ℚ × List Int) :=
  match msLoopT sites ss (es - ss) (msStart ss pm fracs) with
  | none => none
  | some s => some (s.1.posMap, s.1.fracs, s.2)

/-- What the analysis of the pointers of the smoothing loop uses of the windows of a thread
range `[ss, es)`: every window lies in the range, and `left` and `right` are
non-decreasing. -/
def RangeWindows (sites : List SiteType) (ss es : Nat) : Prop :=
  (∀ k : Nat, ss ≤ k → k < es →
      (ss : Int) ≤ (siteAt sites k).left ∧ (siteAt sites k).left ≤ (siteAt sites k).right
        ∧ (siteAt sites k).right < (es : Int))
    ∧ (∀ k : Nat, ss ≤ k → k + 1 < es →
        (siteAt sites k).left ≤ (siteAt sites (k + 1 : Nat)).left
          ∧ (siteAt sites k).right ≤ (siteAt sites (k + 1 : Nat)).right)

/-- What holds of the smoothing loop with assertion after `n` iterations from `ss`: no
assertion has failed, the state is that of the loop without assertion, the pointers are the
window of the last site treated, and every site index accessed lies in `[ss, es)`. -/
def PtrInv (sites : List SiteType) (ss es n : Nat) (pm : MapType) (fracs : List ℚ) : Prop :=
  ∃ s, msLoopT sites ss n (msStart ss pm fracs) = some s
    ∧ s.1 = msLoop sites ss n (msStart ss pm fracs).1
    ∧ (n = 0 → s.1.l = (ss : Int) ∧ s.1.r = (ss : Int) - 1)
    ∧ (0 < n → s.1.l = (siteAt sites ((ss + n - 1 : Nat) : Int)).left
        ∧ s.1.r = (siteAt sites ((ss + n - 1 : Nat) : Int)).right)
    ∧ ∀ x ∈ s.2, (ss : Int) ≤ x ∧ x < (es : Int)

/-- Every entry of the map without back-references has the weight 0. -/
def ZeroWeights (pm : MapType) : Prop :=
  ∀ v, (entryAt pm v).2.aligns = [] → (entryAt pm v).2.weight = 0

/-! # Theorems -/

/-! ## Array lemmas -/

theorem rd_set_eq (a : List ℚ) (i : Nat) (v : ℚ) (h : i < a.length) : rd (a.set i v) i = v := by
  simp [rd, List.getD_eq_getElem?_getD, List.getElem?_set, h]

theorem rd_set_ne (a : List ℚ) (i j : Nat) (v : ℚ) (h : i ≠ j) :
    rd (a.set i v) j = rd a j := by
  simp [rd, List.getD_eq_getElem?_getD, List.getElem?_set, h]

/-! ## Lemmas on the expectation step -/

theorem eMul_length (conprbs : List ℚ) (offset n : Nat) (st : List ℚ × ℚ) :
    (eMul conprbs offset n st).1.length = st.1.length := by
  induction n with
  | zero => rfl
  | succ n ih => simp [eMul, ih]

theorem eNorm_length (sum : ℚ) (c offset n : Nat) (fr : List ℚ) :
    (eNorm sum c offset n fr).length = fr.length := by
  induction n with
  | zero => rfl
  | succ n ih => simp [eNorm, ih]

theorem eRecord_length (conprbs : List ℚ) (m : MultiType) (fracs : List ℚ) :
    (eRecord conprbs m fracs).length = fracs.length := by
  simp [eRecord, eNorm_length, eMul_length]

theorem eMul_rd_ge (conprbs : List ℚ) (offset n : Nat) (st : List ℚ × ℚ) (k : Nat)
    (hk : k < offset ∨ offset + n ≤ k) : rd (eMul conprbs offset n st).1 k = rd st.1 k := by
  induction n with
  | zero => rfl
  | succ n ih =>
    simp only [eMul]
    rw [rd_set_ne _ _ _ _ (by omega)]
    exact ih (by omega)

theorem eMul_rd_lt (conprbs : List ℚ) (offset n : Nat) (st : List ℚ × ℚ) (j : Nat)
    (hj : j < n) (hlen : offset + n ≤ st.1.length) :
    rd (eMul conprbs offset n st).1 (offset + j) = rd st.1 (offset + j) * rd conprbs (offset + j) := by
  induction n with
  | zero => omega
  | succ n ih =>
    simp only [eMul]
    by_cases h : j = n
    · subst h
      rw [rd_set_eq _ _ _ (by rw [eMul_length]; omega)]
      rw [eMul_rd_ge _ _ _ _ _ (by omega)]
    · rw [rd_set_ne _ _ _ _ (by omega)]
      exact ih (by omega) (by omega)

theorem eMul_sum (conprbs : List ℚ) (offset n : Nat) (st : List ℚ × ℚ)
    (hlen : offset + n ≤ st.1.length) :
    (eMul conprbs offset n st).2 = st.2 + prodSum st.1 conprbs offset n := by
  induction n with
  | zero => simp [eMul, prodSum]
  | succ n ih =>
    simp only [eMul, prodSum]
    rw [ih (by omega), eMul_rd_ge _ _ _ _ _ (by omega)]
    ring

theorem eMul_sliceSum (conprbs : List ℚ) (offset n : Nat) (st : List ℚ × ℚ)
    (hlen : offset + n ≤ st.1.length) :
    sliceSum (eMul conprbs offset n st).1 offset n = prodSum st.1 conprbs offset n := by
  have key : ∀ m, m ≤ n → sliceSum (eMul conprbs offset n st).1 offset m
      = prodSum st.1 conprbs offset m := by
    intro m hm
    induction m with
    | zero => rfl
    | succ m ih =>
      simp only [sliceSum, prodSum]
      rw [ih (by omega), eMul_rd_lt _ _ _ _ _ (by omega) hlen]
  exact key n le_rfl

theorem eNorm_rd_ge (sum : ℚ) (c offset n : Nat) (fr : List ℚ) (k : Nat)
    (hk : k < offset ∨ offset + n ≤ k) : rd (eNorm sum c offset n fr) k = rd fr k := by
  induction n with
  | zero => rfl
  | succ n ih =>
    simp only [eNorm]
    rw [rd_set_ne _ _ _ _ (by omega)]
    exact ih (by omega)

theorem eNorm_rd_lt (sum : ℚ) (c offset n : Nat) (fr : List ℚ) (j : Nat)
    (hj : j < n) (hlen : offset + n ≤ fr.length) :
    rd (eNorm sum c offset n fr) (offset + j) = rd fr (offset + j) / sum * (c : ℚ) := by
  induction n with
  | zero => omega
  | succ n ih =>
    simp only [eNorm]
    by_cases h : j = n
    · subst h
      rw [rd_set_eq _ _ _ (by rw [eNorm_length]; omega)]
      rw [eNorm_rd_ge _ _ _ _ _ _ (by omega)]
    · rw [rd_set_ne _ _ _ _ (by omega)]
      exact ih (by omega) (by omega)

theorem eNorm_sliceSum (sum : ℚ) (c offset n : Nat) (fr : List ℚ)
    (hlen : offset + n ≤ fr.length) :
    sliceSum (eNorm sum c offset n fr) offset n = sliceSum fr offset n / sum * (c : ℚ) := by
  have key : ∀ m, m ≤ n → sliceSum (eNorm sum c offset n fr) offset m
      = sliceSum fr offset m / sum * (c : ℚ) := by
    intro m hm
    induction m with
    | zero => simp [sliceSum]
    | succ m ih =>
      simp only [sliceSum]
      rw [ih (by omega), eNorm_rd_lt _ _ _ _ _ _ (by omega) hlen]
      ring
  exact key n le_rfl

/-- Slice sum of a record after its treatment by the E-step, in terms of the sum of products
`fracs[j] * conprbs[j]` before it. -/
theorem eRecord_sliceSum (conprbs : List ℚ) (m : MultiType) (fracs : List ℚ)
    (hlen : m.offset + m.s ≤ fracs.length) :
    sliceSum (eRecord conprbs m fracs) m.offset m.s
      = prodSum fracs conprbs m.offset m.s
          / (if prodSum fracs conprbs m.offset m.s ≤ 0 then 1
             else prodSum fracs conprbs m.offset m.s) * (m.c : ℚ) := by
  unfold eRecord
  simp only
  rw [eNorm_sliceSum _ _ _ _ _ (by rw [eMul_length]; exact hlen)]
  rw [eMul_sliceSum _ _ _ _ hlen, eMul_sum _ _ _ _ hlen]
  simp

theorem eRecord_rd_frame (conprbs : List ℚ) (m : MultiType) (fracs : List ℚ) (k : Nat)
    (hk : k < m.offset ∨ m.offset + m.s ≤ k) : rd (eRecord conprbs m fracs) k = rd fracs k := by
  unfold eRecord
  simp only
  rw [eNorm_rd_ge _ _ _ _ _ _ hk, eMul_rd_ge _ _ _ _ _ hk]

theorem sliceSum_congr (a b : List ℚ) (offset n : Nat)
    (h : ∀ j, j < n → rd a (offset + j) = rd b (offset + j)) :
    sliceSum a offset n = sliceSum b offset n := by
  induction n with
  | zero => rfl
  | succ n ih =>
    simp only [sliceSum]
    rw [ih (fun j hj => h j (by omega)), h n (by omega)]

theorem prodSum_congr (a b conprbs : List ℚ) (offset n : Nat)
    (h : ∀ j, j < n → rd a (offset + j) = rd b (offset + j)) :
    prodSum a conprbs offset n = prodSum b conprbs offset n := by
  induction n with
  | zero => rfl
  | succ n ih =>
    simp only [prodSum]
    rw [ih (fun j hj => h j (by omega)), h n (by omega)]

theorem eLoop_length (multis : List MultiType) (conprbs : List ℚ) (sp n : Nat) (fr : List ℚ) :
    (eLoop multis conprbs sp n fr).length = fr.length := by
  induction n with
  | zero => rfl
  | succ n ih => simp [eLoop, eRecord_length, ih]

/-- The outer loop leaves alone every cell outside the slices of the records it treats. -/
theorem eLoop_rd_frame (multis : List MultiType) (conprbs : List ℚ) (sp n : Nat)
    (fr : List ℚ) (k : Nat)
    (hk : ∀ i, i < n → k < (multis.getD (sp + i) default).offset
      ∨ (multis.getD (sp + i) default).offset + (multis.getD (sp + i) default).s ≤ k) :
    rd (eLoop multis conprbs sp n fr) k = rd fr k := by
  induction n with
  | zero => rfl
  | succ n ih =>
    simp only [eLoop]
    rw [eRecord_rd_frame _ _ _ _ (hk n (by omega))]
    exact ih (fun i hi => hk i (by omega))

theorem eLoop_sliceSum (multis : List MultiType) (conprbs : List ℚ) (sp n : Nat)
    (fr : List ℚ)
    (hlen : ∀ i, i < n →
      (multis.getD (sp + i) default).offset + (multis.getD (sp + i) default).s ≤ fr.length)
    (hdisj : ∀ i j, i < n → j < n → i ≠ j →
      slicesDisjoint (multis.getD (sp + i) default) (multis.getD (sp + j) default))
    (i : Nat) (hi : i < n)
    (hpos : 0 < prodSum fr conprbs (multis.getD (sp + i) default).offset
      (multis.getD (sp + i) default).s) :
    sliceSum (eLoop multis conprbs sp n fr) (multis.getD (sp + i) default).offset
      (multis.getD (sp + i) default).s = ((multis.getD (sp + i) default).c : ℚ) := by
  induction n with
  | zero => omega
  | succ n ih =>
    simp only [eLoop]
    by_cases h : i = n
    · subst h
      rw [eRecord_sliceSum _ _ _ (by rw [eLoop_length]; exact hlen i (by omega))]
      have hsame : prodSum (eLoop multis conprbs sp i fr) conprbs
          (multis.getD (sp + i) default).offset (multis.getD (sp + i) default).s
          = prodSum fr conprbs (multis.getD (sp + i) default).offset
              (multis.getD (sp + i) default).s := by
        apply prodSum_congr
        intro j hj
        apply eLoop_rd_frame
        intro i' hi'
        have := hdisj i' i (by omega) (by omega) (by omega)
        unfold slicesDisjoint at this
        omega
      rw [hsame, if_neg (not_le.mpr hpos), div_self (ne_of_gt hpos), one_mul]
    · have hd := hdisj i n (by omega) (by omega) h
      rw [sliceSum_congr _ (eLoop multis conprbs sp n fr)]
      · exact ih (fun i hi => hlen i (by omega))
          (fun a b ha hb hab => hdisj a b (by omega) (by omega) hab) (by omega)
      · intro j hj
        apply eRecord_rd_frame
        unfold slicesDisjoint at hd
        omega

/-! ## Claim C1 -/

/-- C1 (as stated, refuted): with all conditional probabilities zero the guard `sum <= 0`
replaces the sum by 1, and the record `(offset 0, s 2, c 1)` is left with the slice
`[0, 0]`, whose sum `0` differs from the multiplicity `1`. -/
theorem C1_counterexample :
    E_STEP [⟨0, 2, 1⟩] [0, 0] 0 1 [1, 1] = [0, 0]
      ∧ sliceSum (E_STEP [⟨0, 2, 1⟩] [0, 0] 0 1 [1, 1]) 0 2 ≠ ((1 : Nat) : ℚ) := by
  constructor
  · norm_num [E_STEP, eLoop, eRecord, eMul, eNorm, rd]
  · norm_num [E_STEP, eLoop, eRecord, eMul, eNorm, rd, sliceSum]

/-- C1 (amended): E-step renormalization.  For records with pairwise disjoint slices lying
inside `fracs`, every record `i` of the thread range `[sp, ep)` whose sum of products
`fracs[offset+j] * conprbs[offset+j]` is positive before the step has, after `E_STEP`,
slice sum equal to its multiplicity `c`. -/
theorem C1_estep_renormalization (multis : List MultiType) (conprbs fracs : List ℚ)
    (sp ep i : Nat) (hsp : sp ≤ i) (hep : i < ep)
    (hlen : ∀ k, sp ≤ k → k < ep →
      (multis.getD k default).offset + (multis.getD k default).s ≤ fracs.length)
    (hdisj : ∀ a b, sp ≤ a → a < ep → sp ≤ b → b < ep → a ≠ b →
      slicesDisjoint (multis.getD a default) (multis.getD b default))
    (hpos : 0 < prodSum fracs conprbs (multis.getD i default).offset (multis.getD i default).s) :
    sliceSum (E_STEP multis conprbs sp ep fracs) (multis.getD i default).offset
      (multis.getD i default).s = ((multis.getD i default).c : ℚ) := by
  obtain ⟨d, rfl⟩ : ∃ d, i = sp + d := ⟨i - sp, by omega⟩
  unfold E_STEP
  exact eLoop_sliceSum multis conprbs sp (ep - sp) fracs
    (fun k hk => hlen (sp + k) (by omega) (by omega))
    (fun a b ha hb hab => hdisj (sp + a) (sp + b) (by omega) (by omega) (by omega) (by omega)
      (by omega))
    d (by omega) hpos

/-- Witness of C1 (amended) on one record with two alignments and multiplicity 3. -/
theorem C1_estep_renormalization_witness :
    sliceSum (E_STEP [⟨0, 2, 3⟩] [1/2, 1/2] 0 1 [1, 3]) 0 2 = ((3 : Nat) : ℚ) :=
  C1_estep_renormalization [⟨0, 2, 3⟩] [1/2, 1/2] [1, 3] 0 1 0 (by decide) (by decide)
    (by intro k h1 h2
        have : k = 0 := by omega
        subst this
        decide)
    (by intro a b h1 h2 h3 h4 h5
        omega)
    (by norm_num [prodSum, rd])

/-! ## Lemmas on the quotas -/

theorem leftsLoop_length (quo res n i : Nat) (left : Int) :
    (leftsLoop quo res n i left).length = n := by
  induction n generalizing i left with
  | zero => rfl
  | succ n ih => simp [leftsLoop, ih]

theorem leftsLoop_getD (quo res n i : Nat) (left : Int) (k : Nat) (hk : k < n) :
    (leftsLoop quo res n i left).getD k 0
      = left - ((k + 1 : Nat) : Int) * (quo : Int)
          - (((min (i + k + 1) res - min i res : Nat) : Nat) : Int) := by
  induction n generalizing i left k with
  | zero => omega
  | succ n ih =>
    cases k with
    | zero =>
      simp only [leftsLoop, List.getD_cons_zero]
      by_cases h : i < res
      · rw [if_pos h]
        have : min (i + 0 + 1) res - min i res = 1 := by
          rw [Nat.min_def, Nat.min_def]; split <;> split <;> omega
        rw [this]; push_cast; ring
      · rw [if_neg h]
        have : min (i + 0 + 1) res - min i res = 0 := by
          rw [Nat.min_def, Nat.min_def]; split <;> split <;> omega
        rw [this]; push_cast; ring
    | succ k =>
      simp only [leftsLoop, List.getD_cons_succ]
      rw [ih (i + 1) _ k (by omega)]
      have e : ((min (i + 1 + k + 1) res - min (i + 1) res : Nat) : Int)
          + (if i < res then (1 : Int) else 0)
          = ((min (i + (k + 1) + 1) res - min i res : Nat) : Int) := by
        by_cases h : i < res
        · rw [if_pos h]
          have : min (i + (k + 1) + 1) res - min i res
              = (min (i + 1 + k + 1) res - min (i + 1) res) + 1 := by
            rw [Nat.min_def, Nat.min_def, Nat.min_def, Nat.min_def]
            split <;> split <;> split <;> split <;> omega
          rw [this]; push_cast; ring
        · rw [if_neg h]
          have : min (i + (k + 1) + 1) res - min i res
              = (min (i + 1 + k + 1) res - min (i + 1) res) := by
            rw [Nat.min_def, Nat.min_def, Nat.min_def, Nat.min_def]
            split <;> split <;> split <;> split <;> omega
          rw [this]; ring
      push_cast
      linarith

theorem computeLefts_length (n_mhits num_threads : Nat) :
    (computeLefts n_mhits num_threads).length = num_threads := by
  simp [computeLefts, leftsLoop_length]

/-- Closed form of the quota vector: after thread `k` there should remain
`n_mhits - (k+1) * quo - min (k+1) res` hits. -/
theorem computeLefts_getD (n_mhits num_threads k : Nat) (hk : k < num_threads) :
    (computeLefts n_mhits num_threads).getD k 0
      = (n_mhits : Int) - ((k + 1 : Nat) : Int) * ((n_mhits / num_threads : Nat) : Int)
          - ((min (k + 1) (n_mhits % num_threads) : Nat) : Int) := by
  unfold computeLefts
  rw [leftsLoop_getD _ _ _ _ _ _ hk]
  simp

theorem computeLefts_nonneg (n_mhits num_threads k : Nat) (hk : k < num_threads) :
    0 ≤ (computeLefts n_mhits num_threads).getD k 0 := by
  rw [computeLefts_getD _ _ _ hk]
  have h1 := Nat.div_add_mod n_mhits num_threads
  have h2 : (k + 1) * (n_mhits / num_threads) ≤ num_threads * (n_mhits / num_threads) :=
    Nat.mul_le_mul_right _ (by omega)
  have h3 : min (k + 1) (n_mhits % num_threads) ≤ n_mhits % num_threads := Nat.min_le_right _ _
  have : (k + 1) * (n_mhits / num_threads) + min (k + 1) (n_mhits % num_threads) ≤ n_mhits := by
    omega
  have h4 : (((k + 1) * (n_mhits / num_threads) + min (k + 1) (n_mhits % num_threads) : Nat) : Int)
      ≤ (n_mhits : Int) := by exact_mod_cast this
  push_cast at h4 ⊢
  linarith

theorem computeLefts_last (n_mhits num_threads : Nat) (hT : 1 ≤ num_threads) :
    (computeLefts n_mhits num_threads).getD (num_threads - 1) 0 = 0 := by
  rw [computeLefts_getD _ _ _ (by omega)]
  have h1 := Nat.div_add_mod n_mhits num_threads
  have h0 : n_mhits % num_threads < num_threads := Nat.mod_lt _ (by omega)
  have h3 : min (num_threads - 1 + 1) (n_mhits % num_threads) = n_mhits % num_threads := by
    rw [Nat.min_def]; split <;> omega
  rw [h3]
  have h5 : num_threads - 1 + 1 = num_threads := by omega
  rw [h5]
  have h4 : ((num_threads * (n_mhits / num_threads) + n_mhits % num_threads : Nat) : Int)
      = (n_mhits : Int) := by exact_mod_cast h1
  push_cast at h4 ⊢
  linarith

/-! ## Lemmas on the E-step partition -/

theorem suffixSum_step (multis : List MultiType) (cp : Nat) (h : cp < multis.length) :
    suffixSum multis cp = sAt multis cp + suffixSum multis (cp + 1) := by
  unfold suffixSum sAt
  rw [List.drop_eq_getElem_cons h, List.getD_eq_getElem?_getD, List.getElem?_eq_getElem h]
  simp only [List.map_cons, List.sum_cons, Option.getD_some]
  push_cast
  rfl

theorem suffixSum_end (multis : List MultiType) (cp : Nat) (h : multis.length ≤ cp) :
    suffixSum multis cp = 0 := by
  unfold suffixSum
  rw [List.drop_eq_nil_of_le h]
  rfl

theorem suffixSum_nonneg (multis : List MultiType) (cp : Nat) : 0 ≤ suffixSum multis cp := by
  unfold suffixSum
  exact Int.ofNat_nonneg _

theorem sAt_nonneg (multis : List MultiType) (i : Nat) : 0 ≤ sAt multis i := by
  unfold sAt
  exact Int.ofNat_nonneg _

theorem suffixSum_pos (multis : List MultiType) (hs : ∀ m ∈ multis, 1 ≤ m.s) (cp : Nat)
    (h : cp < multis.length) : 0 < suffixSum multis cp := by
  rw [suffixSum_step _ _ h]
  have h1 := suffixSum_nonneg multis (cp + 1)
  have h2 : 1 ≤ sAt multis cp := by
    unfold sAt
    rw [List.getD_eq_getElem?_getD, List.getElem?_eq_getElem h]
    have := hs _ (List.getElem_mem h)
    simp only [Option.getD_some]
    exact_mod_cast this
  omega

/-- What the scanning loop establishes: it keeps the state consistent, only moves forward,
stops with its condition false, and if it moved at all then the value of `left` before its
last iteration was above the quota. -/
theorem eScan_spec (multis : List MultiType) (lim : Int) (fuel : Nat) (st : Nat × Int)
    (hinv : EInv multis st) (hfuel : multis.length - st.1 ≤ fuel) :
    EInv multis (eScan multis lim fuel st)
      ∧ st.1 ≤ (eScan multis lim fuel st).1
      ∧ ¬ ((eScan multis lim fuel st).1 < multis.length ∧ (eScan multis lim fuel st).2 > lim)
      ∧ (eScan multis lim fuel st = st
          ∨ (st.1 < (eScan multis lim fuel st).1 ∧ st.2 > lim
              ∧ (eScan multis lim fuel st).2
                  + sAt multis ((eScan multis lim fuel st).1 - 1) > lim)) := by
  induction fuel generalizing st with
  | zero =>
    refine ⟨hinv, le_rfl, ?_, Or.inl rfl⟩
    have := hinv.1
    simp only [eScan]
    omega
  | succ fuel ih =>
    simp only [eScan]
    by_cases hc : st.1 < multis.length ∧ st.2 > lim
    · rw [if_pos hc]
      have hinv1 : EInv multis (st.1 + 1, st.2 - sAt multis st.1) := by
        refine ⟨by simp only; omega, ?_⟩
        simp only
        rw [hinv.2, suffixSum_step _ _ hc.1]
        ring
      obtain ⟨h1, h2, h3, h4⟩ := ih (st.1 + 1, st.2 - sAt multis st.1) hinv1
        (by simp only; omega)
      refine ⟨h1, by simp only at h2; omega, h3, Or.inr ⟨by simp only at h2; omega, hc.2, ?_⟩⟩
      rcases h4 with h4 | h4
      · rw [h4]
        simp only [Nat.add_sub_cancel]
        omega
      · exact h4.2.2
    · rw [if_neg hc]
      exact ⟨hinv, le_rfl, hc, Or.inl rfl⟩

/-- One thread of the E-step partition keeps the state consistent and `sp <= ep`. -/
theorem eThread_inv (multis : List MultiType) (lim : Int) (st : Nat × Int)
    (hinv : EInv multis st) :
    EInv multis (eThread multis lim st) ∧ st.1 ≤ (eThread multis lim st).1 := by
  obtain ⟨h1, h2, -, -⟩ := eScan_spec multis lim (multis.length - st.1) st hinv le_rfl
  unfold eThread
  simp only
  split
  · rename_i hb
    refine ⟨⟨by simp only; have := h1.1; omega, ?_⟩, by simp only; omega⟩
    simp only
    have hlt : (eScan multis lim (multis.length - st.1) st).1 - 1 < multis.length := by
      have := h1.1; omega
    rw [suffixSum_step _ _ hlt, h1.2]
    have : (eScan multis lim (multis.length - st.1) st).1 - 1 + 1
        = (eScan multis lim (multis.length - st.1) st).1 := by omega
    rw [this]
    ring
  · split
    · rename_i hb
      refine ⟨⟨by simp only; omega, ?_⟩, by simp only; omega⟩
      simp only
      rw [h1.2, suffixSum_step _ _ hb.2]
      ring
    · exact ⟨h1, h2⟩

/-- With quota `0` (the last thread) and all records non-empty, the thread takes every
remaining record. -/
theorem eThread_last (multis : List MultiType) (hs : ∀ m ∈ multis, 1 ≤ m.s) (st : Nat × Int)
    (hinv : EInv multis st) : (eThread multis 0 st).1 = multis.length := by
  obtain ⟨h1, h2, h3, -⟩ := eScan_spec multis 0 (multis.length - st.1) st hinv le_rfl
  have hcp : (eScan multis 0 (multis.length - st.1) st).1 = multis.length := by
    by_contra hne
    have hlt : (eScan multis 0 (multis.length - st.1) st).1 < multis.length := by
      have := h1.1; omega
    have := suffixSum_pos multis hs _ hlt
    rw [← h1.2] at this
    exact h3 ⟨hlt, this⟩
  have hleft : (eScan multis 0 (multis.length - st.1) st).2 = 0 := by
    rw [h1.2, hcp]
    exact suffixSum_end _ _ le_rfl
  unfold eThread
  simp only
  split
  · rename_i hb
    have := sAt_nonneg multis ((eScan multis 0 (multis.length - st.1) st).1 - 1)
    omega
  · split
    · rename_i hb
      omega
    · exact hcp

theorem ePartition_length (multis : List MultiType) (lefts : List Int) (st : Nat × Int) :
    (ePartition multis lefts st).length = lefts.length := by
  induction lefts generalizing st with
  | nil => rfl
  | cons lim rest ih => simp [ePartition, ih]

/-- The ranges produced by the loop over threads form a chain that starts at the incoming
cursor: `sp_i <= ep_i <= n_multi` and `sp_(i+1) = ep_i`. -/
theorem ePartition_chain (multis : List MultiType) (lefts : List Int) (st : Nat × Int)
    (hinv : EInv multis st) :
    (∀ i, i < lefts.length →
        ((ePartition multis lefts st).getD i default).1
          ≤ ((ePartition multis lefts st).getD i default).2
        ∧ ((ePartition multis lefts st).getD i default).2 ≤ multis.length)
      ∧ (0 < lefts.length → ((ePartition multis lefts st).getD 0 default).1 = st.1)
      ∧ (∀ i, i + 1 < lefts.length →
          ((ePartition multis lefts st).getD (i + 1) default).1
            = ((ePartition multis lefts st).getD i default).2) := by
  induction lefts generalizing st with
  | nil => simp
  | cons lim rest ih =>
    obtain ⟨hinv1, hle⟩ := eThread_inv multis lim st hinv
    obtain ⟨ih1, ih2, ih3⟩ := ih (eThread multis lim st) hinv1
    refine ⟨?_, ?_, ?_⟩
    · intro i hi
      cases i with
      | zero =>
        simp only [ePartition, List.getD_cons_zero]
        exact ⟨hle, hinv1.1⟩
      | succ i =>
        simp only [ePartition, List.getD_cons_succ]
        exact ih1 i (by simpa using hi)
    · intro _
      simp [ePartition]
    · intro i hi
      cases i with
      | zero =>
        simp only [ePartition, List.getD_cons_succ, List.getD_cons_zero]
        exact ih2 (by simpa using hi)
      | succ i =>
        simp only [ePartition, List.getD_cons_succ]
        exact ih3 i (by simpa using hi)

/-- When the last quota is `0` and all records are non-empty, the last range ends at
`n_multi`. -/
theorem ePartition_last (multis : List MultiType) (hs : ∀ m ∈ multis, 1 ≤ m.s)
    (lefts : List Int) (st : Nat × Int) (hinv : EInv multis st) (hne : 0 < lefts.length)
    (hlast : lefts.getD (lefts.length - 1) 0 = 0) :
    ((ePartition multis lefts st).getD (lefts.length - 1) default).2 = multis.length := by
  induction lefts generalizing st with
  | nil => simp at hne
  | cons lim rest ih =>
    cases rest with
    | nil =>
      simp only [List.length_singleton, Nat.sub_self, List.getD_cons_zero] at hlast
      subst hlast
      simp only [ePartition, List.length_singleton, Nat.sub_self, List.getD_cons_zero]
      exact eThread_last multis hs st hinv
    | cons lim2 rest2 =>
      have hlast1 : (lim2 :: rest2).getD ((lim2 :: rest2).length - 1) 0 = 0 := by
        simpa using hlast
      have := ih (eThread multis lim st) (eThread_inv multis lim st hinv).1 (by simp) hlast1
      simpa [ePartition] using this

theorem EInv_init (multis : List MultiType) (n_mhits : Nat)
    (hsum : (multis.map (fun m => m.s)).sum = n_mhits) :
    EInv multis (0, (n_mhits : Int)) := by
  refine ⟨Nat.zero_le _, ?_⟩
  simp [suffixSum, ← hsum]

/-! ## Claim C2 -/

/-- C2: the E-step partition is a contiguous, exhaustive, non-overlapping cover.  For every
`num_threads >= 1` and every list of records with `s >= 1` whose `s` sum to `n_mhits`,
`distributeTasks` yields `num_threads` ranges `[sp_i, ep_i)` with `sp_0 = 0`,
`sp_i <= ep_i`, `sp_(i+1) = ep_i` and `ep_(num_threads-1) = n_multi`. -/
theorem C2_epartition_cover (multis : List MultiType) (n_mhits num_threads : Nat)
    (hT : 1 ≤ num_threads) (hs : ∀ m ∈ multis, 1 ≤ m.s)
    (hsum : (multis.map (fun m => m.s)).sum = n_mhits) :
    (distributeE multis n_mhits num_threads).length = num_threads
      ∧ ((distributeE multis n_mhits num_threads).getD 0 default).1 = 0
      ∧ (∀ i, i < num_threads →
          ((distributeE multis n_mhits num_threads).getD i default).1
            ≤ ((distributeE multis n_mhits num_threads).getD i default).2)
      ∧ (∀ i, i + 1 < num_threads →
          ((distributeE multis n_mhits num_threads).getD (i + 1) default).1
            = ((distributeE multis n_mhits num_threads).getD i default).2)
      ∧ ((distributeE multis n_mhits num_threads).getD (num_threads - 1) default).2
          = multis.length := by
  have hinv := EInv_init multis n_mhits hsum
  have hlen := computeLefts_length n_mhits num_threads
  obtain ⟨h1, h2, h3⟩ := ePartition_chain multis (computeLefts n_mhits num_threads) _ hinv
  unfold distributeE
  refine ⟨by rw [ePartition_length, hlen], h2 (by omega), ?_, ?_, ?_⟩
  · intro i hi
    exact (h1 i (by omega)).1
  · intro i hi
    exact h3 i (by omega)
  · have := ePartition_last multis hs (computeLefts n_mhits num_threads) _ hinv (by omega)
      (by rw [hlen]; exact computeLefts_last n_mhits num_threads hT)
    rw [hlen] at this
    exact this

/-- Witness of C2: three records with 2, 2 and 3 alignments distributed over two threads. -/
theorem C2_epartition_cover_witness :
    (distributeE [⟨0, 2, 1⟩, ⟨2, 2, 1⟩, ⟨4, 3, 1⟩] 7 2).length = 2
      ∧ ((distributeE [⟨0, 2, 1⟩, ⟨2, 2, 1⟩, ⟨4, 3, 1⟩] 7 2).getD 0 default).1 = 0
      ∧ (∀ i, i < 2 →
          ((distributeE [⟨0, 2, 1⟩, ⟨2, 2, 1⟩, ⟨4, 3, 1⟩] 7 2).getD i default).1
            ≤ ((distributeE [⟨0, 2, 1⟩, ⟨2, 2, 1⟩, ⟨4, 3, 1⟩] 7 2).getD i default).2)
      ∧ (∀ i, i + 1 < 2 →
          ((distributeE [⟨0, 2, 1⟩, ⟨2, 2, 1⟩, ⟨4, 3, 1⟩] 7 2).getD (i + 1) default).1
            = ((distributeE [⟨0, 2, 1⟩, ⟨2, 2, 1⟩, ⟨4, 3, 1⟩] 7 2).getD i default).2)
      ∧ ((distributeE [⟨0, 2, 1⟩, ⟨2, 2, 1⟩, ⟨4, 3, 1⟩] 7 2).getD (2 - 1) default).2
          = ([⟨0, 2, 1⟩, ⟨2, 2, 1⟩, ⟨4, 3, 1⟩] : List MultiType).length :=
  C2_epartition_cover [⟨0, 2, 1⟩, ⟨2, 2, 1⟩, ⟨4, 3, 1⟩] 7 2 (by decide) (by decide) (by decide)

/-! ## Balance of the E-step partition -/

theorem sAt_le (multis : List MultiType) (S : Nat) (hS : ∀ m ∈ multis, m.s ≤ S) (i : Nat) :
    sAt multis i ≤ (S : Int) := by
  unfold sAt
  by_cases h : i < multis.length
  · rw [List.getD_eq_getElem?_getD, List.getElem?_eq_getElem h]
    simp only [Option.getD_some]
    exact_mod_cast hS _ (List.getElem_mem h)
  · rw [List.getD_eq_getElem?_getD, List.getElem?_eq_none (by omega)]
    simp only [Option.getD_none]
    exact_mod_cast Nat.zero_le S

theorem rangeCost_eq (multis : List MultiType) (a b : Nat) (h : a ≤ b) :
    ((rangeCost multis (a, b) : Nat) : Int) = suffixSum multis a - suffixSum multis b := by
  unfold rangeCost suffixSum
  have e : multis.drop b = (multis.drop a).drop (b - a) := by
    rw [List.drop_drop]
    congr 1
    omega
  have := List.take_append_drop (b - a) (multis.drop a)
  have hsum : (((multis.drop a).take (b - a)).map (fun m => m.s)).sum
      + (((multis.drop a).drop (b - a)).map (fun m => m.s)).sum
      = ((multis.drop a).map (fun m => m.s)).sum := by
    rw [← List.sum_append, ← List.map_append, this]
  rw [e]
  simp only
  omega

/-- Balance of one thread.  If on entry `left` exceeds the previous quota mark `prev` by at
most half the largest record, then the thread hands out at most `prev - lim` plus the
largest record, and on exit `left` exceeds `lim` by at most half the largest record. -/
theorem eThread_balance (multis : List MultiType) (S : Nat) (hS : ∀ m ∈ multis, m.s ≤ S)
    (lim prev : Int) (st : Nat × Int) (hinv : EInv multis st) (hlim : 0 ≤ lim)
    (hprev : lim ≤ prev) (hin : 2 * (st.2 - prev) ≤ (S : Int)) :
    st.2 - (eThread multis lim st).2 ≤ (prev - lim) + (S : Int)
      ∧ 2 * ((eThread multis lim st).2 - lim) ≤ (S : Int) := by
  obtain ⟨h1, h2, h3, h4⟩ := eScan_spec multis lim (multis.length - st.1) st hinv le_rfl
  have hSnn : (0 : Int) ≤ (S : Int) := Int.ofNat_nonneg _
  have hleft_end : multis.length ≤ (eScan multis lim (multis.length - st.1) st).1 →
      (eScan multis lim (multis.length - st.1) st).2 = 0 := by
    intro h
    rw [h1.2]
    exact suffixSum_end _ _ h
  unfold eThread
  simp only
  split
  · rename_i hb
    have hs1 := sAt_le multis S hS ((eScan multis lim (multis.length - st.1) st).1 - 1)
    rcases h4 with h4 | h4
    · rw [h4] at hb
      omega
    · simp only
      omega
  · rename_i hb
    split
    · rename_i hc
      have hs1 := sAt_le multis S hS (eScan multis lim (multis.length - st.1) st).1
      have hs0 := sAt_nonneg multis (eScan multis lim (multis.length - st.1) st).1
      rcases h4 with h4 | h4
      · rw [h4] at h3 hs1 hs0 ⊢
        simp only
        have : ¬ st.2 > lim := fun h => h3 ⟨by rw [h4] at hc; exact hc.2, h⟩
        omega
      · omega
    · rename_i hc
      rcases h4 with h4 | h4
      · rw [h4] at hc hleft_end ⊢
        have hge : multis.length ≤ st.1 := by
          by_contra hlt
          exact hc ⟨rfl, by omega⟩
        have := hleft_end hge
        omega
      · have hle : (eScan multis lim (multis.length - st.1) st).2 ≤ lim := by
          by_cases hlt : (eScan multis lim (multis.length - st.1) st).1 < multis.length
          · by_contra hgt
            exact h3 ⟨hlt, by omega⟩
          · rw [hleft_end (by omega)]
            exact hlim
        have hs1 := sAt_le multis S hS ((eScan multis lim (multis.length - st.1) st).1 - 1)
        by_cases hone : (eScan multis lim (multis.length - st.1) st).1 = st.1 + 1
        · have hstep := suffixSum_step multis st.1 (by have := h1.1; omega)
          have e1 := hinv.2
          have e2 := h1.2
          rw [hone] at e2 hs1
          simp only [Nat.add_sub_cancel] at hs1
          omega
        · have hb2 : ¬ ((eScan multis lim (multis.length - st.1) st).2
              + sAt multis ((eScan multis lim (multis.length - st.1) st).1 - 1) - lim
              < lim - (eScan multis lim (multis.length - st.1) st).2) := by
            intro hlt
            exact hb ⟨by omega, hlt⟩
          omega

/-- Balance of all threads: thread `i` hands out at most the gap between the quota marks
before and after it, plus the largest record. -/
theorem ePartition_balance (multis : List MultiType) (S : Nat) (hS : ∀ m ∈ multis, m.s ≤ S)
    (lefts : List Int) (prev : Int) (st : Nat × Int) (hinv : EInv multis st)
    (hin : 2 * (st.2 - prev) ≤ (S : Int))
    (hmono : ∀ i, i < lefts.length →
      0 ≤ lefts.getD i 0 ∧ lefts.getD i 0 ≤ (if i = 0 then prev else lefts.getD (i - 1) 0))
    (i : Nat) (hi : i < lefts.length) :
    ((rangeCost multis ((ePartition multis lefts st).getD i default) : Nat) : Int)
      ≤ (if i = 0 then prev else lefts.getD (i - 1) 0) - lefts.getD i 0 + (S : Int) := by
  induction lefts generalizing prev st i with
  | nil => simp at hi
  | cons lim rest ih =>
    have h0 := hmono 0 (by simp)
    simp only [List.getD_cons_zero, if_true] at h0
    obtain ⟨hinv1, hle⟩ := eThread_inv multis lim st hinv
    obtain ⟨hb1, hb2⟩ := eThread_balance multis S hS lim prev st hinv h0.1 h0.2 hin
    cases i with
    | zero =>
      simp only [ePartition, List.getD_cons_zero, if_true]
      rw [rangeCost_eq _ _ _ hle, ← hinv.2, ← hinv1.2]
      exact hb1
    | succ i =>
      have hmono1 : ∀ k, k < rest.length →
          0 ≤ rest.getD k 0 ∧ rest.getD k 0 ≤ (if k = 0 then lim else rest.getD (k - 1) 0) := by
        intro k hk
        have := hmono (k + 1) (by simpa using hk)
        simp only [List.getD_cons_succ, Nat.add_sub_cancel, Nat.succ_ne_zero, if_false] at this
        cases k with
        | zero => simpa using this
        | succ k => simpa using this
      have := ih lim (eThread multis lim st) hinv1 hb2 hmono1 i (by simpa using hi)
      simp only [ePartition, List.getD_cons_succ, Nat.add_sub_cancel, Nat.succ_ne_zero, if_false]
      cases i with
      | zero => simpa using this
      | succ i => simpa using this

/-- Consecutive quota marks differ by the quota of the thread between them. -/
theorem computeLefts_gap (n_mhits num_threads i : Nat) (hi : i < num_threads) :
    (if i = 0 then (n_mhits : Int) else (computeLefts n_mhits num_threads).getD (i - 1) 0)
        - (computeLefts n_mhits num_threads).getD i 0
      = ((n_mhits / num_threads + (if i < n_mhits % num_threads then 1 else 0) : Nat) : Int) := by
  rw [computeLefts_getD _ _ _ hi]
  cases i with
  | zero =>
    simp only [if_true]
    by_cases h : 0 < n_mhits % num_threads
    · have : min (0 + 1) (n_mhits % num_threads) = 1 := by
        rw [Nat.min_def]; split <;> omega
      rw [this, if_pos h]; push_cast; ring
    · have : min (0 + 1) (n_mhits % num_threads) = 0 := by
        rw [Nat.min_def]; split <;> omega
      rw [this, if_neg h]; push_cast; ring
  | succ i =>
    simp only [Nat.succ_ne_zero, if_false, Nat.add_sub_cancel]
    rw [computeLefts_getD _ _ _ (by omega)]
    by_cases h : i + 1 < n_mhits % num_threads
    · have : min (i + 1 + 1) (n_mhits % num_threads) = min (i + 1) (n_mhits % num_threads) + 1 := by
        rw [Nat.min_def, Nat.min_def]; split <;> split <;> omega
      rw [this, if_pos h]; push_cast; ring
    · have : min (i + 1 + 1) (n_mhits % num_threads) = min (i + 1) (n_mhits % num_threads) := by
        rw [Nat.min_def, Nat.min_def]; split <;> split <;> omega
      rw [this, if_neg h]; push_cast; ring

/-! ## Claim C3 -/

/-- C3 (as stated, refuted): records with 3, 4 and 2 alignments and two threads.  The quota
marks are `[4, 0]`; thread 0 takes the first two records (stopping before the second would
leave it as far from its mark as taking it, and a tie keeps the record), so the costs are
`7` and `2`, and `7 - 2 = 5` exceeds the largest record cost `4`. -/
theorem C3_counterexample :
    distributeE [⟨0, 3, 1⟩, ⟨3, 4, 1⟩, ⟨7, 2, 1⟩] 9 2 = [(0, 2), (2, 3)]
      ∧ rangeCost [⟨0, 3, 1⟩, ⟨3, 4, 1⟩, ⟨7, 2, 1⟩] (0, 2) = 7
      ∧ rangeCost [⟨0, 3, 1⟩, ⟨3, 4, 1⟩, ⟨7, 2, 1⟩] (2, 3) = 2
      ∧ ¬ (7 - 2 ≤ 4) := by
  decide

/-- C3 (amended): balance of the E-step partition.  For every `num_threads >= 1` and every
list of records whose `s` sum to `n_mhits` and are all at most `S`, the cost of thread `i`
is at most its quota (`n_mhits / num_threads`, plus one for the first
`n_mhits % num_threads` threads) plus `S`; hence the costs of any two threads differ by at
most that quota plus `S`. -/
theorem C3_epartition_balance (multis : List MultiType) (n_mhits num_threads S : Nat)
    (hsum : (multis.map (fun m => m.s)).sum = n_mhits)
    (hS : ∀ m ∈ multis, m.s ≤ S) (i j : Nat) (hi : i < num_threads) (_hj : j < num_threads) :
    rangeCost multis ((distributeE multis n_mhits num_threads).getD i default)
        ≤ n_mhits / num_threads + (if i < n_mhits % num_threads then 1 else 0) + S
      ∧ rangeCost multis ((distributeE multis n_mhits num_threads).getD i default)
          ≤ rangeCost multis ((distributeE multis n_mhits num_threads).getD j default)
            + (n_mhits / num_threads + (if i < n_mhits % num_threads then 1 else 0) + S) := by
  have hlen := computeLefts_length n_mhits num_threads
  have hmono : ∀ k, k < (computeLefts n_mhits num_threads).length →
      0 ≤ (computeLefts n_mhits num_threads).getD k 0
      ∧ (computeLefts n_mhits num_threads).getD k 0
          ≤ (if k = 0 then (n_mhits : Int) else (computeLefts n_mhits num_threads).getD (k - 1) 0) := by
    intro k hk
    rw [hlen] at hk
    refine ⟨computeLefts_nonneg _ _ _ hk, ?_⟩
    have := computeLefts_gap n_mhits num_threads k hk
    have hnn : (0 : Int)
        ≤ ((n_mhits / num_threads + (if k < n_mhits % num_threads then 1 else 0) : Nat) : Int) :=
      Int.ofNat_nonneg _
    omega
  have hb := ePartition_balance multis S hS (computeLefts n_mhits num_threads) (n_mhits : Int)
    (0, (n_mhits : Int)) (EInv_init multis n_mhits hsum)
    (by simp only; have : (0 : Int) ≤ (S : Int) := Int.ofNat_nonneg _; omega) hmono i
    (by rw [hlen]; exact hi)
  rw [computeLefts_gap _ _ _ hi] at hb
  have hb1 : rangeCost multis ((distributeE multis n_mhits num_threads).getD i default)
      ≤ n_mhits / num_threads + (if i < n_mhits % num_threads then 1 else 0) + S := by
    unfold distributeE
    exact_mod_cast hb
  exact ⟨hb1, by omega⟩

/-- Witness of C3 (amended) on the records of the counterexample: thread 0 has quota 5 and
cost 7, within `5 + 4`. -/
theorem C3_epartition_balance_witness :
    rangeCost [⟨0, 3, 1⟩, ⟨3, 4, 1⟩, ⟨7, 2, 1⟩]
        ((distributeE [⟨0, 3, 1⟩, ⟨3, 4, 1⟩, ⟨7, 2, 1⟩] 9 2).getD 0 default)
        ≤ 9 / 2 + (if 0 < 9 % 2 then 1 else 0) + 4
      ∧ rangeCost [⟨0, 3, 1⟩, ⟨3, 4, 1⟩, ⟨7, 2, 1⟩]
          ((distributeE [⟨0, 3, 1⟩, ⟨3, 4, 1⟩, ⟨7, 2, 1⟩] 9 2).getD 0 default)
          ≤ rangeCost [⟨0, 3, 1⟩, ⟨3, 4, 1⟩, ⟨7, 2, 1⟩]
              ((distributeE [⟨0, 3, 1⟩, ⟨3, 4, 1⟩, ⟨7, 2, 1⟩] 9 2).getD 1 default)
            + (9 / 2 + (if 0 < 9 % 2 then 1 else 0) + 4) :=
  C3_epartition_balance [⟨0, 3, 1⟩, ⟨3, 4, 1⟩, ⟨7, 2, 1⟩] 9 2 4 (by decide) (by decide)
    0 1 (by decide) (by decide)

/-! ## Decimal printing and the hash key -/

theorem digitChar_spec (m : Nat) (h : m < 10) :
    (Nat.digitChar m).isDigit = true ∧ (Nat.digitChar m).toNat - 48 = m := by
  interval_cases m <;> decide

theorem toDigitsCore_spec (fuel n : Nat) (ds : List Char) (h : n < fuel) :
    ∃ D, Nat.toDigitsCore 10 fuel n ds = D ++ ds ∧ D ≠ [] ∧ (∀ c ∈ D, c.isDigit = true)
      ∧ ∀ a, D.foldl (fun a c => 10 * a + (c.toNat - 48)) a = a * 10 ^ D.length + n := by
  induction fuel generalizing n ds with
  | zero => omega
  | succ fuel ih =>
    have hd := digitChar_spec (n % 10) (Nat.mod_lt _ (by decide))
    unfold Nat.toDigitsCore
    simp only
    split
    · rename_i h0
      refine ⟨[Nat.digitChar (n % 10)], rfl, by simp, ?_, ?_⟩
      · intro c hc
        simp only [List.mem_singleton] at hc
        rw [hc]; exact hd.1
      · intro a
        simp only [List.foldl_cons, List.foldl_nil, List.length_singleton, pow_one]
        rw [hd.2]
        omega
    · rename_i h0
      obtain ⟨D, hD, hne, hdig, hval⟩ := ih (n / 10) (Nat.digitChar (n % 10) :: ds) (by omega)
      refine ⟨D ++ [Nat.digitChar (n % 10)], by rw [hD]; simp, by simp, ?_, ?_⟩
      · intro c hc
        rcases List.mem_append.mp hc with hc | hc
        · exact hdig c hc
        · simp only [List.mem_singleton] at hc
          rw [hc]; exact hd.1
      · intro a
        rw [List.foldl_append, hval]
        simp only [List.foldl_cons, List.foldl_nil, List.length_append, List.length_singleton]
        rw [hd.2, pow_succ]
        have := Nat.div_add_mod n 10
        nlinarith [this]

theorem natStr_spec (n : Nat) :
    (toString n).data ≠ [] ∧ (∀ c ∈ (toString n).data, c.isDigit = true)
      ∧ digitsValue (toString n).data = n := by
  obtain ⟨D, hD, hne, hdig, hval⟩ := toDigitsCore_spec (n + 1) n [] (by omega)
  have e : (toString n).data = D := by
    show (Nat.repr n).data = D
    simp only [Nat.repr, Nat.toDigits, List.asString, hD, List.append_nil]
  rw [e]
  refine ⟨hne, hdig, ?_⟩
  unfold digitsValue
  rw [hval]
  simp

theorem intStr_nonneg (z : Int) (h : 0 ≤ z) : toString z = toString z.toNat := by
  obtain ⟨m, rfl⟩ := Int.eq_ofNat_of_zero_le h
  rfl

/-- A run of digits that ends at a non-digit is determined by the string it starts. -/
theorem digit_run_unique (D1 D2 : List Char) (c1 c2 : Char) (r1 r2 : List Char)
    (h1 : ∀ c ∈ D1, c.isDigit = true) (h2 : ∀ c ∈ D2, c.isDigit = true)
    (hc1 : c1.isDigit = false) (hc2 : c2.isDigit = false)
    (h : D1 ++ c1 :: r1 = D2 ++ c2 :: r2) : D1 = D2 ∧ c1 = c2 ∧ r1 = r2 := by
  induction D1 generalizing D2 with
  | nil =>
    cases D2 with
    | nil => simpa using h
    | cons d D2 =>
      simp only [List.nil_append, List.cons_append, List.cons.injEq] at h
      have := h2 d (by simp)
      rw [← h.1, hc1] at this
      exact absurd this (by decide)
  | cons d D1 ih =>
    cases D2 with
    | nil =>
      simp only [List.nil_append, List.cons_append, List.cons.injEq] at h
      have := h1 d (by simp)
      rw [h.1, hc2] at this
      exact absurd this (by decide)
    | cons d2 D2 =>
      simp only [List.cons_append, List.cons.injEq] at h
      obtain ⟨e1, e2, e3⟩ := ih D2 (fun c hc => h1 c (by simp [hc]))
        (fun c hc => h2 c (by simp [hc])) h.2
      exact ⟨by rw [h.1, e1], e2, e3⟩

theorem natStr_inj (a b : Nat) (h : (toString a).data = (toString b).data) : a = b := by
  have ha := (natStr_spec a).2.2
  have hb := (natStr_spec b).2.2
  rw [h] at ha
  omega

theorem alignKeyStr_data (cid : Int) (dir : Char) (pos : Int) (p : ℚ) :
    (alignKeyStr cid dir pos p).data
      = (toString cid).data ++ dir :: ((toString pos).data ++ [hashChar p]) := by
  simp [alignKeyStr, String.data_append, String.singleton]

theorem quantize_range (p : ℚ) (h0 : 0 ≤ p) (h1 : p ≤ 1) : 0 ≤ quantize p ∧ quantize p ≤ 10 := by
  unfold quantize truncToInt
  rw [if_pos (by linarith)]
  constructor
  · exact Int.floor_nonneg.mpr (by linarith)
  · have : ⌊p * 10 + 1 / 2⌋ < 11 := by
      rw [Int.floor_lt]
      push_cast
      linarith
    omega

theorem hashChar_spec (p : ℚ) (h0 : 0 ≤ p) (h1 : p ≤ 1) :
    (hashChar p).isDigit = false ∧ ((hashChar p).toNat : Int) = quantize p + 65 := by
  obtain ⟨hq0, hq1⟩ := quantize_range p h0 h1
  unfold hashChar
  generalize quantize p = q at hq0 hq1
  interval_cases q <;> decide

theorem readKey_foldl (ag : List Align) (init : String) :
    ag.foldl (fun k a => k ++ alignKeyStr a.cid a.dir a.pos a.prb) init = init ++ readKey ag := by
  induction ag generalizing init with
  | nil => simp [readKey]
  | cons a ag ih =>
    simp only [List.foldl_cons, readKey]
    rw [ih, ih ("" ++ _)]
    simp [String.append_assoc]

theorem readKey_cons (a : Align) (ag : List Align) :
    readKey (a :: ag) = alignKeyStr a.cid a.dir a.pos a.prb ++ readKey ag := by
  simp only [readKey, List.foldl_cons]
  rw [readKey_foldl]
  simp [readKey]

theorem hashChar_congr (p q : ℚ) (h : quantize p = quantize q) : hashChar p = hashChar q := by
  unfold hashChar
  rw [h]

/-- Reads with the same pattern have the same hash key. -/
theorem readKey_of_pattern (r1 r2 : List Align) (h : pattern r1 = pattern r2) :
    readKey r1 = readKey r2 := by
  induction r1 generalizing r2 with
  | nil =>
    cases r2 with
    | nil => rfl
    | cons a t => simp [pattern] at h
  | cons a1 t1 ih =>
    cases r2 with
    | nil => simp [pattern] at h
    | cons a2 t2 =>
      simp only [pattern, List.map_cons, Pattern.mk.injEq, List.cons.injEq,
        PatItem.mk.injEq] at h
      obtain ⟨⟨e1, e2, e3, e4⟩, ht⟩ := h
      rw [readKey_cons, readKey_cons, ih t2 (by simp only [pattern, Pattern.mk.injEq]; exact ht)]
      unfold alignKeyStr
      rw [e1, e2, e3, hashChar_congr _ _ e4]

/-- Valid reads with the same hash key have the same pattern: the key can be parsed back. -/
theorem pattern_of_readKey (r1 r2 : List Align) (h1 : ValidRead r1) (h2 : ValidRead r2)
    (h : readKey r1 = readKey r2) : pattern r1 = pattern r2 := by
  induction r1 generalizing r2 with
  | nil =>
    cases r2 with
    | nil => rfl
    | cons a t =>
      have := congrArg String.data h
      rw [readKey_cons, String.data_append, alignKeyStr_data] at this
      simp [readKey] at this
  | cons a1 t1 ih =>
    cases r2 with
    | nil =>
      have := congrArg String.data h
      rw [readKey_cons, String.data_append, alignKeyStr_data] at this
      simp [readKey] at this
    | cons a2 t2 =>
      obtain ⟨hc1, hp1, hd1, hq1, hq1'⟩ := h1 a1 (by simp)
      obtain ⟨hc2, hp2, hd2, hq2, hq2'⟩ := h2 a2 (by simp)
      have hdata := congrArg String.data h
      rw [readKey_cons, readKey_cons, String.data_append, String.data_append, alignKeyStr_data,
        alignKeyStr_data, intStr_nonneg _ hc1, intStr_nonneg _ hc2, intStr_nonneg _ hp1,
        intStr_nonneg _ hp2] at hdata
      simp only [List.append_assoc, List.cons_append, List.nil_append] at hdata
      have hdir : ∀ d : Char, d = '+' ∨ d = '-' → d.isDigit = false := by
        intro d hd
        rcases hd with rfl | rfl <;> decide
      obtain ⟨e1, e2, e3⟩ := digit_run_unique _ _ _ _ _ _ (natStr_spec a1.cid.toNat).2.1
        (natStr_spec a2.cid.toNat).2.1 (hdir _ hd1) (hdir _ hd2) hdata
      obtain ⟨e4, e5, e6⟩ := digit_run_unique _ _ _ _ _ _ (natStr_spec a1.pos.toNat).2.1
        (natStr_spec a2.pos.toNat).2.1 (hashChar_spec _ hq1 hq1').1 (hashChar_spec _ hq2 hq2').1 e3
      have hcid : a1.cid = a2.cid := by
        have := natStr_inj _ _ e1
        omega
      have hpos : a1.pos = a2.pos := by
        have := natStr_inj _ _ e4
        omega
      have hq : quantize a1.prb = quantize a2.prb := by
        have a := (hashChar_spec _ hq1 hq1').2
        have b := (hashChar_spec _ hq2 hq2').2
        rw [e5] at a
        omega
      have ht := ih t2 (fun a ha => h1 a (by simp [ha])) (fun a ha => h2 a (by simp [ha]))
        (String.ext e6)
      simp only [pattern, Pattern.mk.injEq] at ht
      simp only [pattern, List.map_cons, Pattern.mk.injEq, List.cons.injEq, PatItem.mk.injEq]
      exact ⟨⟨hcid, e2, hpos, hq⟩, ht⟩

/-! ## First occurrences -/

theorem firstBy_subset {α β : Type} [DecidableEq β] (f : α → β) (l : List α) :
    ∀ x ∈ firstBy f l, x ∈ l := by
  induction l with
  | nil => simp [firstBy]
  | cons a l ih =>
    intro x hx
    simp only [firstBy, List.mem_cons, List.mem_filter] at hx
    rcases hx with rfl | ⟨hx, _⟩
    · simp
    · exact List.mem_cons_of_mem _ (ih x hx)

theorem mem_map_firstBy {α β : Type} [DecidableEq β] (f : α → β) (l : List α) (b : β) :
    b ∈ (firstBy f l).map f ↔ b ∈ l.map f := by
  induction l with
  | nil => simp [firstBy]
  | cons a l ih =>
    simp only [firstBy, List.map_cons, List.mem_cons]
    constructor
    · rintro (h | h)
      · exact Or.inl h
      · obtain ⟨y, hy, rfl⟩ := List.mem_map.mp h
        exact Or.inr (ih.mp (List.mem_map.mpr ⟨y, (List.mem_filter.mp hy).1, rfl⟩))
    · rintro (h | h)
      · exact Or.inl h
      · by_cases hb : b = f a
        · exact Or.inl hb
        · obtain ⟨y, hy, rfl⟩ := List.mem_map.mp (ih.mpr h)
          exact Or.inr (List.mem_map.mpr ⟨y, List.mem_filter.mpr ⟨hy, by simpa using hb⟩, rfl⟩)

theorem firstBy_nodup {α β : Type} [DecidableEq β] (f : α → β) (l : List α) :
    ((firstBy f l).map f).Nodup := by
  induction l with
  | nil => simp [firstBy]
  | cons a l ih =>
    simp only [firstBy, List.map_cons, List.nodup_cons]
    constructor
    · intro h
      obtain ⟨y, hy, hfy⟩ := List.mem_map.mp h
      have := (List.mem_filter.mp hy).2
      simp only [ne_eq, decide_not, Bool.not_eq_eq_eq_not, Bool.not_true,
        decide_eq_false_iff_not] at this
      exact this hfy
    · exact (ih.sublist ((List.filter_sublist _).map f))

theorem firstBy_append_singleton {α β : Type} [DecidableEq β] (f : α → β) (l : List α)
    (x : α) :
    firstBy f (l ++ [x]) = if f x ∈ l.map f then firstBy f l else firstBy f l ++ [x] := by
  induction l with
  | nil => simp [firstBy]
  | cons a l ih =>
    have e : firstBy f (a :: l ++ [x])
        = a :: (firstBy f (l ++ [x])).filter (fun y => f y ≠ f a) := rfl
    rw [e, ih]
    simp only [firstBy, List.map_cons, List.mem_cons]
    by_cases h : f x ∈ l.map f
    · rw [if_pos h, if_pos (Or.inr h)]
    · rw [if_neg h]
      by_cases hxa : f x = f a
      · rw [if_pos (Or.inl hxa)]
        simp [List.filter_append, hxa]
      · rw [if_neg (by rintro (h1 | h1); exact hxa h1; exact h h1)]
        simp [List.filter_append, hxa]

theorem firstOccurrences_map {α β : Type} [DecidableEq β] (f : α → β) (l : List α) :
    firstOccurrences (l.map f) = (firstBy f l).map f := by
  induction l with
  | nil => rfl
  | cons a l ih =>
    simp only [List.map_cons, firstOccurrences, firstBy, ih, List.filter_map]
    rfl

theorem firstBy_congr {α β γ : Type} [DecidableEq β] [DecidableEq γ] (f : α → β) (g : α → γ)
    (l : List α) (h : ∀ x ∈ l, ∀ y ∈ l, f x = f y ↔ g x = g y) :
    firstBy f l = firstBy g l := by
  induction l with
  | nil => rfl
  | cons a l ih =>
    simp only [firstBy]
    rw [ih (fun x hx y hy => h x (List.mem_cons_of_mem _ hx) y (List.mem_cons_of_mem _ hy))]
    congr 1
    apply List.filter_congr
    intro y hy
    have hy' := firstBy_subset g l y hy
    have := h y (List.mem_cons_of_mem _ hy') a (List.mem_cons_self _ _)
    simp only [ne_eq, decide_not, this]

theorem count_map_congr {α β γ : Type} [DecidableEq β] [DecidableEq γ] (f : α → β)
    (g : α → γ) (l : List α) (x : α) (h : ∀ y ∈ l, f y = f x ↔ g y = g x) :
    (l.map f).count (f x) = (l.map g).count (g x) := by
  induction l with
  | nil => rfl
  | cons a l ih =>
    simp only [List.map_cons, List.count_cons]
    rw [ih (fun y hy => h y (List.mem_cons_of_mem _ hy))]
    have := h a (List.mem_cons_self _ _)
    by_cases e : f a = f x
    · simp [e, this.mp e]
    · have e2 : ¬ g a = g x := fun h2 => e (this.mpr h2)
      simp [e, e2]

/-! ## Lemmas on the hash table and the records -/

theorem hashFind_append (h : List (String × Nat)) (k' : String) (n : Nat) (k : String) :
    hashFind (h ++ [(k', n)]) k
      = match hashFind h k with
        | some i => some i
        | none => if k' = k then some n else none := by
  induction h with
  | nil => simp [hashFind]
  | cons e h ih =>
    simp only [List.cons_append, hashFind]
    by_cases he : e.1 = k
    · simp [he]
    · simp [he, ih]

theorem hashOf_append (kept : List (List Align)) (r : List Align) (i : Nat) :
    hashOf (kept ++ [r]) i = hashOf kept i ++ [(readKey r, i + kept.length)] := by
  induction kept generalizing i with
  | nil => simp [hashOf]
  | cons a kept ih =>
    have e : hashOf (a :: kept ++ [r]) i = (readKey a, i) :: hashOf (kept ++ [r]) (i + 1) := rfl
    rw [e, ih]
    simp only [hashOf, List.length_cons, List.cons_append]
    have : i + 1 + kept.length = i + (kept.length + 1) := by omega
    rw [this]

theorem hashFind_hashOf_none (kept : List (List Align)) (i : Nat) (k : String) :
    hashFind (hashOf kept i) k = none ↔ k ∉ kept.map readKey := by
  induction kept generalizing i with
  | nil => simp [hashOf, hashFind]
  | cons a kept ih =>
    simp only [hashOf, hashFind, List.map_cons, List.mem_cons, not_or]
    by_cases he : readKey a = k
    · simp [he]
    · simp only [he, if_false, ih]
      constructor
      · intro h
        exact ⟨fun h2 => he h2.symm, h⟩
      · intro h
        exact h.2

theorem recordsFrom_append (keys : List String) (kept : List (List Align)) (r : List Align)
    (off : Nat) :
    recordsFrom keys (kept ++ [r]) off
      = recordsFrom keys kept off
          ++ [⟨off + (kept.map List.length).sum, r.length, keys.count (readKey r)⟩] := by
  induction kept generalizing off with
  | nil => simp [recordsFrom]
  | cons a kept ih =>
    have e : recordsFrom keys (a :: kept ++ [r]) off
        = ⟨off, a.length, keys.count (readKey a)⟩
            :: recordsFrom keys (kept ++ [r]) (off + a.length) := rfl
    rw [e, ih]
    simp only [recordsFrom, List.map_cons, List.sum_cons, List.cons_append]
    have : off + a.length + (kept.map List.length).sum
        = off + (a.length + (kept.map List.length).sum) := by omega
    rw [this]

theorem recordsFrom_new_key (keys : List String) (k : String) (kept : List (List Align))
    (off : Nat) (h : ∀ r ∈ kept, readKey r ≠ k) :
    recordsFrom (keys ++ [k]) kept off = recordsFrom keys kept off := by
  induction kept generalizing off with
  | nil => rfl
  | cons a kept ih =>
    simp only [recordsFrom]
    rw [ih _ (fun r hr => h r (List.mem_cons_of_mem _ hr))]
    have := h a (List.mem_cons_self _ _)
    simp [List.count_append, List.count_singleton, this]

theorem recordsFrom_bump (keys : List String) (k : String) (kept : List (List Align))
    (off i idx : Nat) (hnd : (kept.map readKey).Nodup)
    (hf : hashFind (hashOf kept i) k = some idx) :
    i ≤ idx
      ∧ recordsFrom (keys ++ [k]) kept off = bumpCount (recordsFrom keys kept off) (idx - i) := by
  induction kept generalizing off i with
  | nil => simp [hashOf, hashFind] at hf
  | cons a kept ih =>
    simp only [List.map_cons, List.nodup_cons] at hnd
    simp only [hashOf, hashFind] at hf
    by_cases he : readKey a = k
    · simp only [he, if_true, Option.some.injEq] at hf
      subst hf
      refine ⟨le_rfl, ?_⟩
      simp only [recordsFrom, Nat.sub_self, bumpCount]
      rw [recordsFrom_new_key]
      · simp [List.count_append, List.count_singleton, he]
      · intro r hr heq
        apply hnd.1
        rw [he, ← heq]
        exact List.mem_map_of_mem _ hr
    · simp only [he, if_false] at hf
      obtain ⟨h1, h2⟩ := ih (off + a.length) (i + 1) hnd.2 hf
      refine ⟨by omega, ?_⟩
      simp only [recordsFrom]
      rw [h2]
      obtain ⟨d, hd⟩ : ∃ d, idx - i = d + 1 := ⟨idx - i - 1, by omega⟩
      have hd2 : idx - (i + 1) = d := by omega
      rw [hd, hd2]
      simp only [bumpCount, List.count_append, List.count_singleton]
      have hne : ¬ (k = readKey a) := fun h => he h.symm
      simp [hne]

/-! ## Lemmas on the loops of `processMultiReads` -/

theorem calcProbs_length (ag : List Align) (i : Nat) (cp : List ℚ) :
    (calcProbs ag i cp).length = cp.length := by
  induction ag generalizing i cp with
  | nil => rfl
  | cons a ag ih => simp [calcProbs, ih]

theorem calcProbs_rd_lt (ag : List Align) (i : Nat) (cp : List ℚ) (k : Nat) (hk : k < i) :
    rd (calcProbs ag i cp) k = rd cp k := by
  induction ag generalizing i cp with
  | nil => rfl
  | cons a ag ih =>
    simp only [calcProbs]
    rw [ih _ _ (by omega), rd_set_ne _ _ _ _ (by omega)]

theorem calcProbs_rd (ag : List Align) (i : Nat) (cp : List ℚ)
    (hlen : i + ag.length ≤ cp.length) (j : Nat) (a : Align) (ha : ag[j]? = some a) :
    rd (calcProbs ag i cp) (i + j) = a.prb := by
  induction ag generalizing i cp j with
  | nil => simp at ha
  | cons b ag ih =>
    simp only [List.length_cons] at hlen
    simp only [calcProbs]
    cases j with
    | zero =>
      simp only [List.getElem?_cons_zero, Option.some.injEq] at ha
      subst ha
      simp only [Nat.add_zero]
      rw [calcProbs_rd_lt _ _ _ _ (by omega), rd_set_eq _ _ _ (by omega)]
    | succ j =>
      simp only [List.getElem?_cons_succ] at ha
      have := ih (i + 1) (cp.set i b.prb) (by simp only [List.length_set]; omega) j ha
      rw [← this]
      congr 1
      omega

theorem keyLoop_key (conprbs : List ℚ) (ag : List Align) (i : Nat)
    (st : MapType × List KeyType × String)
    (h : ∀ j a, ag[j]? = some a → rd conprbs (i + j) = a.prb) :
    (keyLoop conprbs ag i st).2.2 = st.2.2 ++ readKey ag := by
  induction ag generalizing i st with
  | nil => simp [keyLoop, readKey]
  | cons b ag ih =>
    simp only [keyLoop]
    rw [ih (i + 1) _ (fun j a ha => by
      have := h (j + 1) a (by simpa using ha)
      rw [← this]
      congr 1
      omega)]
    have h0 := h 0 b (by simp)
    rw [Nat.add_zero] at h0
    simp only
    rw [h0, readKey_cons, String.append_assoc]

theorem keyLoop_iters (conprbs : List ℚ) (ag : List Align) (i : Nat)
    (st : MapType × List KeyType × String) :
    (keyLoop conprbs ag i st).2.1 = st.2.1 ++ ag.map Align.key := by
  induction ag generalizing i st with
  | nil => simp [keyLoop]
  | cons b ag ih =>
    simp only [keyLoop]
    rw [ih]
    simp

theorem keyLoop_map (conprbs : List ℚ) (ag : List Align) (i : Nat)
    (st : MapType × List KeyType × String) :
    (keyLoop conprbs ag i st).1 = ag.foldl (fun pm a => mapInsert pm a.key) st.1 := by
  induction ag generalizing i st with
  | nil => rfl
  | cons b ag ih =>
    simp only [keyLoop, List.foldl_cons]
    rw [ih]

theorem cellLoop_fracs_length (ks : List KeyType) (i : Nat) (st : MapType × List ℚ) :
    (cellLoop ks i st).2.length = st.2.length := by
  induction ks generalizing i st with
  | nil => rfl
  | cons k ks ih => simp [cellLoop, ih]

theorem firstBy_length_sum_le (l : List (List Align)) :
    ((firstBy readKey l).map List.length).sum ≤ (l.map List.length).sum := by
  induction l with
  | nil => simp [firstBy]
  | cons a l ih =>
    simp only [firstBy, List.map_cons, List.sum_cons]
    have h1 : (((firstBy readKey l).filter (fun y => readKey y ≠ readKey a)).map
        List.length).sum ≤ ((firstBy readKey l).map List.length).sum :=
      List.Sublist.sum_le_sum ((List.filter_sublist _).map _) (fun _ _ => Nat.zero_le _)
    omega

/-- The key computed by the first loop of the body is the key of the read. -/
theorem pmStep_key (st : PMState) (ag : List Align)
    (hlen : st.offset + ag.length ≤ st.conprbs.length) :
    (keyLoop (calcProbs ag st.offset st.conprbs) ag st.offset (st.posMap, [], "")).2.2
      = readKey ag := by
  rw [keyLoop_key _ _ _ _ (fun j a ha => calcProbs_rd ag st.offset st.conprbs hlen j a ha)]
  simp

/-- The body of the loop of `processMultiReads` keeps the invariant. -/
theorem pmStep_inv (n0 : Nat) (rs : List (List Align)) (st : PMState) (r : List Align)
    (hinv : PMInv n0 rs st) (hfit : (rs.map List.length).sum + r.length ≤ n0) :
    PMInv n0 (rs ++ [r]) (pmStep st r) := by
  obtain ⟨h1, h2, h3, h4, h5, h6⟩ := hinv
  have hoff : st.offset + r.length ≤ st.conprbs.length := by
    have := firstBy_length_sum_le rs
    omega
  have hkey := pmStep_key st r hoff
  unfold pmStep
  simp only
  rw [hkey]
  cases hf : hashFind st.my_hash (readKey r) with
  | none =>
    rw [h1, hashFind_hashOf_none, mem_map_firstBy] at hf
    have hfb : firstBy readKey (rs ++ [r]) = firstBy readKey rs ++ [r] := by
      rw [firstBy_append_singleton, if_neg hf]
    simp only
    refine ⟨?_, ?_, ?_, ?_, ?_, ?_⟩
    · rw [hfb, hashOf_append, h1, h3]
      simp
    · rw [hfb, List.map_append, List.map_singleton, recordsFrom_append, recordsFrom_new_key,
        h2, h4]
      · simp [List.count_append, List.count_eq_zero_of_not_mem hf]
      · intro r' hr' heq
        apply hf
        rw [← heq]
        exact List.mem_map_of_mem _ (firstBy_subset _ _ _ hr')
    · rw [hfb, h3]
      simp
    · rw [hfb, h4]
      simp
    · rw [calcProbs_length, h5]
    · rw [cellLoop_fracs_length, h6]
  | some idx =>
    have hmem : readKey r ∈ rs.map readKey := by
      by_contra hn
      have : hashFind st.my_hash (readKey r) = none := by
        rw [h1, hashFind_hashOf_none, mem_map_firstBy]
        exact hn
      rw [this] at hf
      exact Option.noConfusion hf
    have hfb : firstBy readKey (rs ++ [r]) = firstBy readKey rs := by
      rw [firstBy_append_singleton, if_pos hmem]
    rw [h1] at hf
    obtain ⟨-, hb⟩ := recordsFrom_bump (rs.map readKey) (readKey r) (firstBy readKey rs) 0 0 idx
      (firstBy_nodup readKey rs) hf
    simp only
    refine ⟨?_, ?_, ?_, ?_, ?_, ?_⟩
    · rw [hfb, h1]
    · rw [hfb, List.map_append, List.map_singleton, hb, h2]
      simp
    · rw [hfb, h3]
    · rw [hfb, h4]
    · rw [calcProbs_length, h5]
    · exact h6

/-- The invariant holds of the result of `processMultiReads`, when `n_mhits` on entry is at
least the total number of alignments of the reads. -/
theorem processMultiReads_inv (posMap : MapType) (n_mhits : Nat) (reads : List (List Align))
    (hn : (reads.map List.length).sum ≤ n_mhits) :
    PMInv n_mhits reads (processMultiReads posMap n_mhits reads) := by
  induction reads using List.reverseRecOn with
  | nil =>
    simp [processMultiReads, PMInv, firstBy, hashOf, recordsFrom]
  | append_singleton rs r ih =>
    simp only [List.map_append, List.map_singleton, List.sum_append, List.sum_singleton] at hn
    have := pmStep_inv n_mhits rs _ r (ih (by omega)) hn
    simpa [processMultiReads, List.foldl_append] using this

/-! ## Claim C6 -/

theorem recordsFrom_map (keys : List String) (kept : List (List Align)) (off : Nat) :
    (recordsFrom keys kept off).map (fun m => (m.s, m.c))
      = kept.map (fun r => (r.length, keys.count (readKey r))) := by
  induction kept generalizing off with
  | nil => rfl
  | cons a kept ih => simp [recordsFrom, ih]

theorem hashFind_hashOf_indexOf (kept : List (List Align)) (i : Nat) (r : List Align)
    (heq : ∀ r' ∈ kept, readKey r' = readKey r ↔ pattern r' = pattern r)
    (hmem : pattern r ∈ kept.map pattern) :
    hashFind (hashOf kept i) (readKey r) = some (i + (kept.map pattern).indexOf (pattern r)) := by
  induction kept generalizing i with
  | nil => simp at hmem
  | cons a kept ih =>
    simp only [hashOf, hashFind, List.map_cons, List.indexOf_cons]
    have ha := heq a (List.mem_cons_self _ _)
    by_cases he : readKey a = readKey r
    · simp [he, ha.mp he]
    · have hp : ¬ pattern a = pattern r := fun h => he (ha.mpr h)
      simp only [he, if_false]
      have hb : (pattern a == pattern r) = false := by simpa using hp
      rw [hb]
      simp only [List.map_cons, List.mem_cons] at hmem
      rcases hmem with h | h
      · exact absurd h.symm hp
      · rw [ih (i + 1) (fun r' hr' => heq r' (List.mem_cons_of_mem _ hr')) h]
        simp only [cond_false, Option.some.injEq]
        omega

/-- C6: deduplication.  For every sequence of valid ambiguous reads (and `n_mhits` on entry
at least their total number of alignments, as `parseAlignments` leaves it),
`processMultiReads` produces exactly one record per distinct alignment pattern, in order of
first occurrence, with `s` the number of alignments of the pattern and `c` the number of
reads that have it; the record a read is counted in is the one of its pattern, so two reads
are collapsed into the same record if and only if their patterns are equal. -/
theorem C6_deduplication (posMap : MapType) (n_mhits : Nat) (reads : List (List Align))
    (hvalid : ∀ r ∈ reads, ValidRead r) (hn : (reads.map List.length).sum ≤ n_mhits) :
    (processMultiReads posMap n_mhits reads).multis.map (fun m => (m.s, m.c))
        = (firstOccurrences (reads.map pattern)).map
            (fun p => (p.items.length, (reads.map pattern).count p))
      ∧ (processMultiReads posMap n_mhits reads).n_multi
          = (firstOccurrences (reads.map pattern)).length
      ∧ (∀ r ∈ reads, hashFind (processMultiReads posMap n_mhits reads).my_hash (readKey r)
          = some ((firstOccurrences (reads.map pattern)).indexOf (pattern r)))
      ∧ (∀ r1 ∈ reads, ∀ r2 ∈ reads,
          (hashFind (processMultiReads posMap n_mhits reads).my_hash (readKey r1)
            = hashFind (processMultiReads posMap n_mhits reads).my_hash (readKey r2)
          ↔ pattern r1 = pattern r2)) := by
  obtain ⟨h1, h2, h3, -, -, -⟩ := processMultiReads_inv posMap n_mhits reads hn
  have hiff : ∀ x ∈ reads, ∀ y ∈ reads, readKey x = readKey y ↔ pattern x = pattern y :=
    fun x hx y hy => ⟨pattern_of_readKey x y (hvalid x hx) (hvalid y hy), readKey_of_pattern x y⟩
  have hfb : firstBy readKey reads = firstBy pattern reads := firstBy_congr _ _ _ hiff
  have hfind : ∀ r ∈ reads, hashFind (processMultiReads posMap n_mhits reads).my_hash (readKey r)
      = some ((firstOccurrences (reads.map pattern)).indexOf (pattern r)) := by
    intro r hr
    rw [h1, firstOccurrences_map, ← hfb]
    have := hashFind_hashOf_indexOf (firstBy readKey reads) 0 r
      (fun r' hr' => hiff r' (firstBy_subset _ _ _ hr') r hr)
      (by rw [hfb, mem_map_firstBy]; exact List.mem_map_of_mem _ hr)
    rw [this]
    simp
  refine ⟨?_, ?_, hfind, ?_⟩
  · rw [h2, recordsFrom_map, firstOccurrences_map, ← hfb, List.map_map]
    apply List.map_congr_left
    intro r hr
    have hr' := firstBy_subset _ _ _ hr
    simp only [Function.comp, Prod.mk.injEq]
    refine ⟨by simp [pattern], ?_⟩
    exact count_map_congr readKey pattern reads r (fun y hy => hiff y hy r hr')
  · rw [h3, firstOccurrences_map, ← hfb]
    simp
  · intro r1 hr1 r2 hr2
    rw [hfind r1 hr1, hfind r2 hr2, Option.some.injEq]
    have hm : ∀ r ∈ reads, pattern r ∈ firstOccurrences (reads.map pattern) := by
      intro r hr
      rw [firstOccurrences_map, mem_map_firstBy]
      exact List.mem_map_of_mem _ hr
    exact List.indexOf_inj (hm r1 hr1) (hm r2 hr2)

/-! ## Claim C7 -/

theorem recordsChained_append (ms : List MultiType) (a b s c : Nat)
    (h : recordsChained ms a b) : recordsChained (ms ++ [⟨b, s, c⟩]) a (b + s) := by
  induction ms generalizing a with
  | nil =>
    simp only [recordsChained] at h
    subst h
    simp [recordsChained]
  | cons m ms ih =>
    simp only [recordsChained] at h
    simp only [List.cons_append, recordsChained]
    exact ⟨h.1, ih _ h.2⟩

theorem recordsChained_bump (ms : List MultiType) (i a b : Nat)
    (h : recordsChained ms a b) : recordsChained (bumpCount ms i) a b := by
  induction ms generalizing i a with
  | nil => simpa [bumpCount] using h
  | cons m ms ih =>
    simp only [recordsChained] at h
    cases i with
    | zero =>
      simp only [bumpCount, recordsChained]
      exact h
    | succ i =>
      simp only [bumpCount, recordsChained]
      exact ⟨h.1, ih _ _ h.2⟩

theorem pmStep_chained (st : PMState) (r : List Align)
    (h : recordsChained st.multis 0 st.offset) :
    recordsChained (pmStep st r).multis 0 (pmStep st r).offset := by
  unfold pmStep
  simp only
  split
  · exact recordsChained_append _ _ _ _ _ h
  · exact recordsChained_bump _ _ _ _ h

theorem processMultiReads_chained (posMap : MapType) (n_mhits : Nat)
    (reads : List (List Align)) :
    recordsChained (processMultiReads posMap n_mhits reads).multis 0
      (processMultiReads posMap n_mhits reads).offset := by
  induction reads using List.reverseRecOn with
  | nil => simp [processMultiReads, recordsChained]
  | append_singleton rs r ih =>
    have := pmStep_chained _ r ih
    simpa [processMultiReads, List.foldl_append] using this

/-- Index form of `recordsChained`. -/
theorem recordsChained_index (ms : List MultiType) (a b : Nat) (h : recordsChained ms a b) :
    a ≤ b
      ∧ (ms = [] → a = b)
      ∧ (0 < ms.length → (ms.getD 0 default).offset = a)
      ∧ (∀ k, k + 1 < ms.length →
          (ms.getD (k + 1) default).offset = (ms.getD k default).offset + (ms.getD k default).s)
      ∧ (0 < ms.length →
          (ms.getD (ms.length - 1) default).offset + (ms.getD (ms.length - 1) default).s = b)
      ∧ (∀ k, k < ms.length →
          a ≤ (ms.getD k default).offset
            ∧ (ms.getD k default).offset + (ms.getD k default).s ≤ b)
      ∧ (∀ j, a ≤ j → j < b → ∃ k, k < ms.length ∧ inSlice (ms.getD k default) j)
      ∧ (∀ j k1 k2, k1 < ms.length → k2 < ms.length → inSlice (ms.getD k1 default) j →
          inSlice (ms.getD k2 default) j → k1 = k2) := by
  induction ms generalizing a with
  | nil =>
    simp only [recordsChained] at h
    subst h
    refine ⟨le_rfl, fun _ => rfl, by simp, by simp, by simp, by simp, ?_, by simp⟩
    intro j h1 h2
    omega
  | cons m ms ih =>
    simp only [recordsChained] at h
    obtain ⟨hm, hrest⟩ := h
    obtain ⟨i1, i2, i3, i4, i5, i6, i7, i8⟩ := ih _ hrest
    refine ⟨by omega, by simp, by simp [hm], ?_, ?_, ?_, ?_, ?_⟩
    · intro k hk
      simp only [List.length_cons] at hk
      cases k with
      | zero =>
        simp only [List.getD_cons_succ, List.getD_cons_zero]
        rw [i3 (by omega), hm]
      | succ k =>
        simp only [List.getD_cons_succ]
        exact i4 k (by omega)
    · intro _
      simp only [List.length_cons, Nat.add_sub_cancel]
      cases ms with
      | nil =>
        simp only [List.length_nil, List.getD_cons_zero]
        have := i2 rfl
        omega
      | cons m2 ms2 =>
        simp only [List.length_cons, List.getD_cons_succ]
        have := i5 (by simp)
        simpa using this
    · intro k hk
      simp only [List.length_cons] at hk
      cases k with
      | zero =>
        simp only [List.getD_cons_zero]
        omega
      | succ k =>
        simp only [List.getD_cons_succ]
        have := i6 k (by omega)
        omega
    · intro j h1 h2
      by_cases hj : j < a + m.s
      · exact ⟨0, by simp, by simp only [List.getD_cons_zero, inSlice]; omega⟩
      · obtain ⟨k, hk, hin⟩ := i7 j (by omega) h2
        exact ⟨k + 1, by simpa using hk, by simpa using hin⟩
    · intro j k1 k2 hk1 hk2 h1 h2
      simp only [List.length_cons] at hk1 hk2
      cases k1 with
      | zero =>
        cases k2 with
        | zero => rfl
        | succ k2 =>
          simp only [List.getD_cons_zero, List.getD_cons_succ, inSlice] at h1 h2
          have := i6 k2 (by omega)
          omega
      | succ k1 =>
        cases k2 with
        | zero =>
          simp only [List.getD_cons_zero, List.getD_cons_succ, inSlice] at h1 h2
          have := i6 k1 (by omega)
          omega
        | succ k2 =>
          simp only [List.getD_cons_succ] at h1 h2
          have := i8 j k1 k2 (by omega) (by omega) h1 h2
          omega

/-- C7: the record ranges partition `[0, n_mhits)`.  After `processMultiReads` (whose final
`n_mhits` is the field `offset`), the first record starts at 0, each next record starts
where the previous one ends, the last record ends at `n_mhits` (which is 0 when there is no
record), and so every index below `n_mhits` lies in the slice of exactly one record. -/
theorem C7_record_ranges_partition (posMap : MapType) (n_mhits : Nat)
    (reads : List (List Align)) :
    ((processMultiReads posMap n_mhits reads).multis = [] →
        (processMultiReads posMap n_mhits reads).offset = 0)
      ∧ (0 < (processMultiReads posMap n_mhits reads).multis.length →
          ((processMultiReads posMap n_mhits reads).multis.getD 0 default).offset = 0)
      ∧ (∀ k, k + 1 < (processMultiReads posMap n_mhits reads).multis.length →
          ((processMultiReads posMap n_mhits reads).multis.getD (k + 1) default).offset
            = ((processMultiReads posMap n_mhits reads).multis.getD k default).offset
              + ((processMultiReads posMap n_mhits reads).multis.getD k default).s)
      ∧ (0 < (processMultiReads posMap n_mhits reads).multis.length →
          ((processMultiReads posMap n_mhits reads).multis.getD
              ((processMultiReads posMap n_mhits reads).multis.length - 1) default).offset
            + ((processMultiReads posMap n_mhits reads).multis.getD
                ((processMultiReads posMap n_mhits reads).multis.length - 1) default).s
            = (processMultiReads posMap n_mhits reads).offset)
      ∧ (∀ j, j < (processMultiReads posMap n_mhits reads).offset →
          ∃ k, k < (processMultiReads posMap n_mhits reads).multis.length
            ∧ inSlice ((processMultiReads posMap n_mhits reads).multis.getD k default) j)
      ∧ (∀ j k1 k2, k1 < (processMultiReads posMap n_mhits reads).multis.length →
          k2 < (processMultiReads posMap n_mhits reads).multis.length →
          inSlice ((processMultiReads posMap n_mhits reads).multis.getD k1 default) j →
          inSlice ((processMultiReads posMap n_mhits reads).multis.getD k2 default) j →
          k1 = k2) := by
  obtain ⟨-, i2, i3, i4, i5, -, i7, i8⟩ :=
    recordsChained_index _ _ _ (processMultiReads_chained posMap n_mhits reads)
  exact ⟨fun h => (i2 h).symm, i3, i4, i5, fun j hj => i7 j (Nat.zero_le _) hj, i8⟩

/-- Witness of C6: two reads with the same two alignments and conditional probabilities
0.52/0.48 and 0.5/0.5 (both quantized to 5/5) yield one record with 2 alignments and
multiplicity 2. -/
theorem C6_deduplication_witness :
    (processMultiReads [] 4 [[⟨1, '+', 23, 13/25⟩, ⟨12, '-', 5, 12/25⟩],
        [⟨1, '+', 23, 1/2⟩, ⟨12, '-', 5, 1/2⟩]]).multis.map (fun m => (m.s, m.c))
      = [(2, 2)] := by
  have h := (C6_deduplication [] 4 [[⟨1, '+', 23, 13/25⟩, ⟨12, '-', 5, 12/25⟩],
    [⟨1, '+', 23, 1/2⟩, ⟨12, '-', 5, 1/2⟩]] (by decide!) (by decide)).1
  rw [h]
  decide!

/-! ## The key order -/

theorem keyLt_iff (a o : KeyType) :
    a.lt o = true ↔ a.cid < o.cid
      ∨ (a.cid = o.cid ∧ (a.dir < o.dir ∨ (a.dir = o.dir ∧ a.pos < o.pos))) := by
  unfold KeyType.lt
  by_cases h1 : a.cid = o.cid
  · by_cases h2 : a.dir = o.dir
    · simp [h1, h2]
    · simp [h1, h2]
  · simp only [ne_eq, h1, not_false_eq_true, if_true, decide_eq_true_eq, false_and, or_false]

theorem keyLt_irrefl (a : KeyType) : a.lt a = false := by
  simp [KeyType.lt]

theorem keyLt_trans (a b c : KeyType) (h1 : a.lt b = true) (h2 : b.lt c = true) :
    a.lt c = true := by
  rw [keyLt_iff] at h1 h2 ⊢
  rcases h1 with h1 | ⟨e1, h1 | ⟨e1', h1⟩⟩ <;> rcases h2 with h2 | ⟨e2, h2 | ⟨e2', h2⟩⟩
  · left; omega
  · left; omega
  · left; omega
  · left; omega
  · right; exact ⟨by omega, Or.inl (lt_trans h1 h2)⟩
  · right; exact ⟨by omega, Or.inl (by rw [← e2']; exact h1)⟩
  · left; omega
  · right; exact ⟨by omega, Or.inl (by rw [e1']; exact h2)⟩
  · right; exact ⟨by omega, Or.inr ⟨by rw [e1', e2'], by omega⟩⟩

/-- The order is total: two keys neither of which is below the other are equal. -/
theorem keyLt_total (a b : KeyType) (h1 : a.lt b = false) (h2 : b.lt a = false) :
    a = b := by
  have n1 : ¬ a.lt b = true := by simp [h1]
  have n2 : ¬ b.lt a = true := by simp [h2]
  rw [keyLt_iff] at n1 n2
  push_neg at n1 n2
  have hc : a.cid = b.cid := by omega
  have hd : a.dir = b.dir := by
    rcases lt_trichotomy a.dir b.dir with h | h | h
    · exact absurd h (not_lt.mpr (n1.2 hc).1)
    · exact h
    · exact absurd h (not_lt.mpr (n2.2 hc.symm).1)
  have hp : a.pos = b.pos := by
    have := (n1.2 hc).2 hd
    have := (n2.2 hc.symm).2 hd.symm
    omega
  cases a; cases b
  simp only [KeyType.mk.injEq]
  exact ⟨hd, hc, hp⟩

/-! ## Lemmas on the position map -/

theorem mapInsert_mem_of_mem (pm : MapType) (k : KeyType) (e : KeyType × ValueType)
    (h : e ∈ pm) : e ∈ mapInsert pm k := by
  induction pm with
  | nil => simp at h
  | cons a pm ih =>
    simp only [mapInsert]
    split
    · exact List.mem_cons_of_mem _ h
    · split
      · rcases List.mem_cons.mp h with h | h
        · exact h ▸ List.mem_cons_self _ _
        · exact List.mem_cons_of_mem _ (ih h)
      · exact h

theorem mapInsert_key_mem (pm : MapType) (k : KeyType) : k ∈ (mapInsert pm k).map Prod.fst := by
  induction pm with
  | nil => simp [mapInsert]
  | cons a pm ih =>
    simp only [mapInsert]
    split
    · simp
    · rename_i h1
      split
      · simp only [List.map_cons, List.mem_cons]
        exact Or.inr ih
      · rename_i h2
        have := keyLt_total k a.1 (by simpa using h1) (by simpa using h2)
        simp [this]

theorem mapInsert_mem_cases (pm : MapType) (k : KeyType) (hs : MapSorted pm)
    (e : KeyType × ValueType) (h : e ∈ mapInsert pm k) :
    e ∈ pm ∨ (e = (k, ValueType.init) ∧ k ∉ pm.map Prod.fst) := by
  induction pm with
  | nil =>
    simp only [mapInsert, List.mem_singleton] at h
    exact Or.inr ⟨h, by simp⟩
  | cons a pm ih =>
    unfold MapSorted at hs
    simp only [List.map_cons, List.pairwise_cons] at hs
    simp only [mapInsert] at h
    split at h
    · rename_i h1
      rcases List.mem_cons.mp h with h | h
      · refine Or.inr ⟨h, ?_⟩
        simp only [List.map_cons, List.mem_cons, not_or]
        constructor
        · intro hk
          rw [← hk, keyLt_irrefl] at h1
          exact Bool.noConfusion h1
        · intro hk
          have := keyLt_trans _ _ _ h1 (hs.1 k hk)
          rw [keyLt_irrefl] at this
          exact Bool.noConfusion this
      · exact Or.inl h
    · rename_i h1
      split at h
      · rename_i h2
        rcases List.mem_cons.mp h with h | h
        · exact Or.inl (h ▸ List.mem_cons_self _ _)
        · rcases ih hs.2 h with h3 | ⟨h3, h4⟩
          · exact Or.inl (List.mem_cons_of_mem _ h3)
          · refine Or.inr ⟨h3, ?_⟩
            simp only [List.map_cons, List.mem_cons, not_or]
            refine ⟨?_, h4⟩
            intro hk
            rw [hk, keyLt_irrefl] at h2
            exact Bool.noConfusion h2
      · exact Or.inl h

theorem mapInsert_sorted (pm : MapType) (k : KeyType) (hs : MapSorted pm) :
    MapSorted (mapInsert pm k) := by
  induction pm with
  | nil => simp [mapInsert, MapSorted]
  | cons a pm ih =>
    have hs0 := hs
    unfold MapSorted at hs
    simp only [List.map_cons, List.pairwise_cons] at hs
    simp only [mapInsert]
    split
    · rename_i h1
      unfold MapSorted
      simp only [List.map_cons, List.pairwise_cons, List.mem_cons]
      refine ⟨?_, hs⟩
      intro x hx
      rcases hx with rfl | hx
      · exact h1
      · exact keyLt_trans _ _ _ h1 (hs.1 x hx)
    · split
      · rename_i h2
        unfold MapSorted
        simp only [List.map_cons, List.pairwise_cons]
        refine ⟨?_, ih hs.2⟩
        intro x hx
        obtain ⟨e, he, rfl⟩ := List.mem_map.mp hx
        rcases mapInsert_mem_cases pm k hs.2 e he with h3 | ⟨h3, -⟩
        · exact hs.1 _ (List.mem_map_of_mem _ h3)
        · rw [h3]
          exact h2
      · exact hs0

theorem mapSorted_nodup (pm : MapType) (hs : MapSorted pm) : (pm.map Prod.fst).Nodup := by
  unfold MapSorted at hs
  exact hs.imp (fun {a b} h heq => by
    rw [heq, keyLt_irrefl] at h
    exact Bool.noConfusion h)

theorem mapPush_keys (pm : MapType) (k : KeyType) (cell : Nat) :
    (mapPush pm k cell).map Prod.fst = pm.map Prod.fst := by
  induction pm with
  | nil => rfl
  | cons a pm ih =>
    simp only [mapPush]
    split
    · simp
    · simp [ih]

theorem mapPush_eq_map (pm : MapType) (k : KeyType) (cell : Nat)
    (hnd : (pm.map Prod.fst).Nodup) :
    mapPush pm k cell = pm.map (addCells [k] cell) := by
  induction pm with
  | nil => rfl
  | cons a pm ih =>
    simp only [List.map_cons, List.nodup_cons] at hnd
    simp only [mapPush, List.map_cons]
    split
    · rename_i h1
      congr 1
      · simp [addCells, cellsFor, h1]
      · symm
        rw [List.map_congr_left, List.map_id]
        intro e he
        have : e.1 ≠ k := by
          intro h2
          apply hnd.1
          rw [h1, ← h2]
          exact List.mem_map_of_mem _ he
        simp [addCells, cellsFor, Ne.symm this]
    · rename_i h1
      rw [ih hnd.2]
      congr 1
      simp [addCells, cellsFor, Ne.symm h1]

theorem cellLoop_eq_map (ks : List KeyType) (i : Nat) (pm : MapType) (fr : List ℚ)
    (hnd : (pm.map Prod.fst).Nodup) :
    (cellLoop ks i (pm, fr)).1 = pm.map (addCells ks i) := by
  induction ks generalizing i pm fr with
  | nil =>
    simp only [cellLoop]
    symm
    rw [List.map_congr_left, List.map_id]
    intro e _
    simp [addCells, cellsFor]
  | cons k ks ih =>
    simp only [cellLoop]
    rw [ih _ _ _ (by rw [mapPush_keys]; exact hnd), mapPush_eq_map _ _ _ hnd, List.map_map]
    apply List.map_congr_left
    intro e _
    simp [addCells, cellsFor, List.append_assoc]

theorem cellsFor_count (ks : List KeyType) (i : Nat) (key : KeyType) (j : Nat) :
    (cellsFor ks i key).count j = if i ≤ j ∧ ks[j - i]? = some key then 1 else 0 := by
  induction ks generalizing i with
  | nil => simp [cellsFor]
  | cons k ks ih =>
    simp only [cellsFor, List.count_append, ih]
    by_cases hj : j = i
    · subst hj
      have e1 : ¬ (j + 1 ≤ j ∧ ks[j - (j + 1)]? = some key) := by omega
      rw [if_neg e1]
      by_cases hk : k = key
      · simp [hk]
      · simp [hk]
    · by_cases hlt : i ≤ j
      · obtain ⟨d, hd⟩ : ∃ d, j - i = d + 1 := ⟨j - i - 1, by omega⟩
        have hd2 : j - (i + 1) = d := by omega
        have e0 : (if k = key then [i] else []).count j = 0 := by
          by_cases hk : k = key
          · rw [if_pos hk]
            simp [List.count_singleton, hj, Ne.symm hj]
          · rw [if_neg hk]
            rfl
        rw [e0, hd, hd2]
        simp only [List.getElem?_cons_succ, zero_add]
        have : i + 1 ≤ j := by omega
        simp [this, hlt]
      · have e0 : (if k = key then [i] else []).count j = 0 := by
          by_cases hk : k = key
          · rw [if_pos hk]
            simp [List.count_singleton, hj, Ne.symm hj]
          · rw [if_neg hk]
            rfl
        rw [e0]
        have e1 : ¬ (i + 1 ≤ j ∧ ks[j - (i + 1)]? = some key) := by omega
        have e2 : ¬ (i ≤ j ∧ (k :: ks)[j - i]? = some key) := by omega
        rw [if_neg e1, if_neg e2]

/-! ## Ownership of the weight cells -/

theorem cellKeys_append_singleton (rs : List (List Align)) (r : List Align) :
    cellKeys (rs ++ [r])
      = if readKey r ∈ rs.map readKey then cellKeys rs else cellKeys rs ++ r.map Align.key := by
  unfold cellKeys
  rw [firstBy_append_singleton]
  split
  · rfl
  · simp

theorem cellKeys_length (rs : List (List Align)) :
    (cellKeys rs).length = ((firstBy readKey rs).map List.length).sum := by
  simp [cellKeys, List.length_flatten, Function.comp_def]

theorem cellInv_insert (rs : List (List Align)) (pm : MapType) (k : KeyType)
    (h : CellInv rs pm) : CellInv rs (mapInsert pm k) := by
  obtain ⟨h1, h2, h3⟩ := h
  refine ⟨mapInsert_sorted pm k h1, ?_, ?_⟩
  · intro e he j
    rcases mapInsert_mem_cases pm k h1 e he with h4 | ⟨h4, h5⟩
    · exact h2 e h4 j
    · subst h4
      have : ¬ (cellKeys rs)[j]? = some k := by
        intro hj
        exact h5 (h3 k (List.getElem?_mem hj))
      simp [ValueType.init, this]
  · intro k' hk'
    obtain ⟨e, he, rfl⟩ := List.mem_map.mp (h3 k' hk')
    exact List.mem_map_of_mem _ (mapInsert_mem_of_mem pm k e he)

theorem cellInv_inserts (rs : List (List Align)) (ag : List Align) (pm : MapType)
    (h : CellInv rs pm) :
    CellInv rs (ag.foldl (fun pm a => mapInsert pm a.key) pm)
      ∧ (∀ k, k ∈ pm.map Prod.fst ∨ k ∈ ag.map Align.key →
          k ∈ (ag.foldl (fun pm a => mapInsert pm a.key) pm).map Prod.fst) := by
  induction ag generalizing pm with
  | nil =>
    refine ⟨h, ?_⟩
    intro k hk
    simpa using hk
  | cons a ag ih =>
    simp only [List.foldl_cons]
    obtain ⟨i1, i2⟩ := ih (mapInsert pm a.key) (cellInv_insert rs pm a.key h)
    refine ⟨i1, ?_⟩
    intro k hk
    apply i2
    rcases hk with hk | hk
    · obtain ⟨e, he, rfl⟩ := List.mem_map.mp hk
      exact Or.inl (List.mem_map_of_mem _ (mapInsert_mem_of_mem pm a.key e he))
    · simp only [List.map_cons, List.mem_cons] at hk
      rcases hk with rfl | hk
      · exact Or.inl (mapInsert_key_mem pm a.key)
      · exact Or.inr hk

theorem cellInv_push (rs rs2 : List (List Align)) (ks : List KeyType) (pm : MapType)
    (fr : List ℚ) (h : CellInv rs pm) (hks : ∀ k ∈ ks, k ∈ pm.map Prod.fst)
    (hck : cellKeys rs2 = cellKeys rs ++ ks) :
    CellInv rs2 (cellLoop ks (cellKeys rs).length (pm, fr)).1 := by
  obtain ⟨h1, h2, h3⟩ := h
  rw [cellLoop_eq_map _ _ _ _ (mapSorted_nodup pm h1)]
  have hkeys : (pm.map (addCells ks (cellKeys rs).length)).map Prod.fst = pm.map Prod.fst := by
    rw [List.map_map]
    apply List.map_congr_left
    intro e _
    rfl
  refine ⟨?_, ?_, ?_⟩
  · unfold MapSorted
    rw [hkeys]
    exact h1
  · intro e' he' j
    obtain ⟨e, he, rfl⟩ := List.mem_map.mp he'
    simp only [addCells, List.count_append, h2 e he j, cellsFor_count, hck]
    by_cases hj : j < (cellKeys rs).length
    · rw [List.getElem?_append_left hj]
      have : ¬ ((cellKeys rs).length ≤ j ∧ ks[j - (cellKeys rs).length]? = some e.1) := by omega
      rw [if_neg this, Nat.add_zero]
    · rw [List.getElem?_append_right (by omega)]
      have e0 : (cellKeys rs)[j]? = none := List.getElem?_eq_none (by omega)
      have e1 : (cellKeys rs).length ≤ j := by omega
      simp [e0, e1]
  · intro k hk
    rw [hkeys]
    rw [hck] at hk
    rcases List.mem_append.mp hk with hk | hk
    · exact h3 k hk
    · exact hks k hk

/-- The body of the loop of `processMultiReads` keeps the invariant of the position map. -/
theorem pmStep_cellInv (n0 : Nat) (rs : List (List Align)) (st : PMState) (r : List Align)
    (hinv : PMInv n0 rs st) (hcell : CellInv rs st.posMap)
    (hfit : (rs.map List.length).sum + r.length ≤ n0) :
    CellInv (rs ++ [r]) (pmStep st r).posMap := by
  obtain ⟨h1, h2, h3, h4, h5, h6⟩ := hinv
  have hoff : st.offset + r.length ≤ st.conprbs.length := by
    have := firstBy_length_sum_le rs
    omega
  have hkey := pmStep_key st r hoff
  have hmap := keyLoop_map (calcProbs r st.offset st.conprbs) r st.offset (st.posMap, [], "")
  have hit := keyLoop_iters (calcProbs r st.offset st.conprbs) r st.offset (st.posMap, [], "")
  simp only [List.nil_append] at hit
  obtain ⟨c1, c2⟩ := cellInv_inserts rs r st.posMap hcell
  unfold pmStep
  simp only
  rw [hkey]
  cases hf : hashFind st.my_hash (readKey r) with
  | none =>
    rw [h1, hashFind_hashOf_none, mem_map_firstBy] at hf
    simp only
    rw [hmap, hit, h4, ← cellKeys_length]
    apply cellInv_push rs (rs ++ [r]) _ _ _ c1
    · intro k hk
      exact c2 k (Or.inr hk)
    · rw [cellKeys_append_singleton, if_neg hf]
  | some idx =>
    have hmem : readKey r ∈ rs.map readKey := by
      by_contra hn
      have : hashFind st.my_hash (readKey r) = none := by
        rw [h1, hashFind_hashOf_none, mem_map_firstBy]
        exact hn
      rw [this] at hf
      exact Option.noConfusion hf
    simp only
    rw [hmap]
    have : cellKeys (rs ++ [r]) = cellKeys rs := by
      rw [cellKeys_append_singleton, if_pos hmem]
    unfold CellInv
    rw [this]
    exact c1

theorem processMultiReads_cellInv (posMap : MapType) (n_mhits : Nat)
    (reads : List (List Align)) (hs : MapSorted posMap)
    (hempty : ∀ e ∈ posMap, e.2.aligns = [])
    (hn : (reads.map List.length).sum ≤ n_mhits) :
    CellInv reads (processMultiReads posMap n_mhits reads).posMap := by
  induction reads using List.reverseRecOn with
  | nil =>
    refine ⟨hs, ?_, ?_⟩
    · intro e he j
      simp [processMultiReads] at he
      simp [hempty e he, cellKeys, firstBy]
    · intro k hk
      simp [cellKeys, firstBy] at hk
  | append_singleton rs r ih =>
    simp only [List.map_append, List.map_singleton, List.sum_append, List.sum_singleton] at hn
    have hinv := processMultiReads_inv posMap n_mhits rs (by omega)
    have := pmStep_cellInv n_mhits rs _ r hinv (ih (by omega)) hn
    simpa [processMultiReads, List.foldl_append] using this

/-! ## Claim C8 -/

theorem sum_indicator_of_nodup (pm : MapType) (K : KeyType) (hnd : (pm.map Prod.fst).Nodup)
    (hK : K ∈ pm.map Prod.fst) (f : KeyType × ValueType → Nat)
    (hf : ∀ e ∈ pm, f e = if some K = some e.1 then 1 else 0) :
    (pm.map f).sum = 1 := by
  induction pm with
  | nil => simp at hK
  | cons a pm ih =>
    simp only [List.map_cons, List.nodup_cons, List.mem_cons] at hnd hK
    simp only [List.map_cons, List.sum_cons]
    have ha := hf a (List.mem_cons_self _ _)
    by_cases h : K = a.1
    · have hz : (pm.map f).sum = 0 := by
        apply List.sum_eq_zero
        intro x hx
        obtain ⟨e, he, rfl⟩ := List.mem_map.mp hx
        rw [hf e (List.mem_cons_of_mem _ he)]
        have : K ≠ e.1 := by
          intro h2
          apply hnd.1
          rw [← h, h2]
          exact List.mem_map_of_mem _ he
        simp [this]
      rw [ha, hz]
      simp [h]
    · rw [ha]
      have hK2 : K ∈ pm.map Prod.fst := by
        rcases hK with hK | hK
        · exact absurd hK h
        · exact hK
      rw [ih hnd.2 hK2 (fun e he => hf e (List.mem_cons_of_mem _ he))]
      simp [h]

theorem length_of_count_range (l : List Nat) (n : Nat)
    (h : ∀ j, l.count j = if j < n then 1 else 0) : l.length = n := by
  have hp : l.Perm (List.range n) := by
    rw [List.perm_iff_count]
    intro a
    rw [h a]
    by_cases ha : a < n
    · rw [if_pos ha, List.count_eq_one_of_mem (List.nodup_range n) (List.mem_range.mpr ha)]
    · rw [if_neg ha, List.count_eq_zero_of_not_mem (by simpa using ha)]
  rw [hp.length_eq, List.length_range]

/-- C8: every weight cell has exactly one owner site.  After `processMultiReads`, started on
a sorted position map without back-references (as `parseAlignments` leaves it) and with
`n_mhits` at least the number of alignments of the reads, the keys of the map are pairwise
distinct, and every index `j` below the final `n_mhits` (the field `offset`) is
back-referenced exactly once over all entries, by an entry that exists and whose key is the
key `cellKeys[j]` of the alignment stored at `j`; the back-reference lists together hold
exactly `n_mhits` cells, and entries with different keys share no cell. -/
theorem C8_cell_ownership (posMap : MapType) (n_mhits : Nat) (reads : List (List Align))
    (hs : MapSorted posMap) (hempty : ∀ e ∈ posMap, e.2.aligns = [])
    (hn : (reads.map List.length).sum ≤ n_mhits) :
    (cellKeys reads).length = (processMultiReads posMap n_mhits reads).offset
      ∧ ((processMultiReads posMap n_mhits reads).posMap.map Prod.fst).Nodup
      ∧ (∀ j, j < (processMultiReads posMap n_mhits reads).offset →
          ∃ e ∈ (processMultiReads posMap n_mhits reads).posMap,
            (cellKeys reads)[j]? = some e.1)
      ∧ (∀ j, j < (processMultiReads posMap n_mhits reads).offset →
          ∀ e ∈ (processMultiReads posMap n_mhits reads).posMap,
            e.2.aligns.count j = if (cellKeys reads)[j]? = some e.1 then 1 else 0)
      ∧ (∀ j, j < (processMultiReads posMap n_mhits reads).offset →
          (((processMultiReads posMap n_mhits reads).posMap.map
            (fun e => e.2.aligns)).flatten).count j = 1)
      ∧ (((processMultiReads posMap n_mhits reads).posMap.map
            (fun e => e.2.aligns)).flatten).length
          = (processMultiReads posMap n_mhits reads).offset
      ∧ (∀ e1 ∈ (processMultiReads posMap n_mhits reads).posMap,
          ∀ e2 ∈ (processMultiReads posMap n_mhits reads).posMap,
            e1.1 ≠ e2.1 → ∀ j ∈ e1.2.aligns, j ∉ e2.2.aligns) := by
  obtain ⟨-, -, -, h4, -, -⟩ := processMultiReads_inv posMap n_mhits reads hn
  obtain ⟨c1, c2, c3⟩ := processMultiReads_cellInv posMap n_mhits reads hs hempty hn
  have hlen : (cellKeys reads).length = (processMultiReads posMap n_mhits reads).offset := by
    rw [cellKeys_length, h4]
  have hnd := mapSorted_nodup _ c1
  have hex : ∀ j, j < (processMultiReads posMap n_mhits reads).offset →
      ∃ e ∈ (processMultiReads posMap n_mhits reads).posMap,
        (cellKeys reads)[j]? = some e.1 := by
    intro j hj
    have hj2 : j < (cellKeys reads).length := by omega
    obtain ⟨e, he, hk⟩ := List.mem_map.mp (c3 _ (List.getElem_mem hj2))
    exact ⟨e, he, by rw [hk, List.getElem?_eq_getElem hj2]⟩
  have hcount : ∀ j, (((processMultiReads posMap n_mhits reads).posMap.map
      (fun e => e.2.aligns)).flatten).count j
      = if j < (processMultiReads posMap n_mhits reads).offset then 1 else 0 := by
    intro j
    rw [List.count_flatten, List.map_map]
    by_cases hj : j < (processMultiReads posMap n_mhits reads).offset
    · rw [if_pos hj]
      obtain ⟨e, he, hk⟩ := hex j hj
      apply sum_indicator_of_nodup _ e.1 hnd (List.mem_map_of_mem _ he)
      intro e' he'
      simp only [Function.comp]
      rw [c2 e' he' j, hk]
    · rw [if_neg hj]
      apply List.sum_eq_zero
      intro x hx
      obtain ⟨e, he, rfl⟩ := List.mem_map.mp hx
      simp only [Function.comp]
      rw [c2 e he j, List.getElem?_eq_none (by omega)]
      simp
  refine ⟨hlen, hnd, hex, fun j _ e he => c2 e he j, ?_, length_of_count_range _ _ hcount, ?_⟩
  · intro j hj
    rw [hcount j, if_pos hj]
  · intro e1 he1 e2 he2 hne j hj1 hj2
    have a1 := c2 e1 he1 j
    have a2 := c2 e2 he2 j
    have p1 : 0 < e1.2.aligns.count j := List.count_pos_iff.mpr hj1
    have p2 : 0 < e2.2.aligns.count j := List.count_pos_iff.mpr hj2
    by_cases k1 : (cellKeys reads)[j]? = some e1.1
    · by_cases k2 : (cellKeys reads)[j]? = some e2.1
      · rw [k1] at k2
        exact hne (Option.some.inj k2)
      · rw [if_neg k2] at a2
        omega
    · rw [if_neg k1] at a1
      omega

/-- Witness of C8: a map with one unique-read site and one read with two alignments. -/
theorem C8_cell_ownership_witness :
    (((processMultiReads [(⟨'+', 1, 20⟩, ⟨3, 0, []⟩)] 2
        [[⟨1, '+', 23, 1/2⟩, ⟨12, '-', 5, 1/2⟩]]).posMap.map
          (fun e => e.2.aligns)).flatten).length
      = (processMultiReads [(⟨'+', 1, 20⟩, ⟨3, 0, []⟩)] 2
          [[⟨1, '+', 23, 1/2⟩, ⟨12, '-', 5, 1/2⟩]]).offset :=
  (C8_cell_ownership [(⟨'+', 1, 20⟩, ⟨3, 0, []⟩)] 2 [[⟨1, '+', 23, 1/2⟩, ⟨12, '-', 5, 1/2⟩]]
    (by simp [MapSorted]) (by decide) (by decide)).2.2.2.2.2.1

/-! ## Lemmas on `collect` -/

theorem entryAt_set (pm : MapType) (v w : Nat) (e : KeyType × ValueType) :
    entryAt (pm.set v e) w = if v = w ∧ v < pm.length then e else entryAt pm w := by
  unfold entryAt
  rw [List.getD_eq_getElem?_getD, List.getD_eq_getElem?_getD, List.getElem?_set]
  by_cases h : v = w
  · subst h
    by_cases h2 : v < pm.length
    · simp [h2]
    · simp [h2, List.getElem?_eq_none (not_lt.mp h2)]
  · simp [h]

theorem collectAt_length (pm : MapType) (fracs : List ℚ) (v : Nat) :
    (collectAt pm fracs v).length = pm.length := by
  simp [collectAt]

theorem collectAt_entry_ne (pm : MapType) (fracs : List ℚ) (v w : Nat) (h : v ≠ w) :
    entryAt (collectAt pm fracs v) w = entryAt pm w := by
  unfold collectAt
  rw [entryAt_set]
  simp [h]

theorem collectAt_entry_eq (pm : MapType) (fracs : List ℚ) (v : Nat) (h : v < pm.length) :
    entryAt (collectAt pm fracs v) v
      = ((entryAt pm v).1,
          { (entryAt pm v).2 with weight := cellSum fracs (entryAt pm v).2.aligns }) := by
  unfold collectAt
  rw [entryAt_set]
  simp [h]

/-- What `collect` keeps of every entry: key, unique count and back-references. -/
theorem collectAt_frame (pm : MapType) (fracs : List ℚ) (v w : Nat) :
    (entryAt (collectAt pm fracs v) w).1 = (entryAt pm w).1
      ∧ (entryAt (collectAt pm fracs v) w).2.c = (entryAt pm w).2.c
      ∧ (entryAt (collectAt pm fracs v) w).2.aligns = (entryAt pm w).2.aligns := by
  unfold collectAt
  rw [entryAt_set]
  by_cases h : v = w ∧ v < pm.length
  · rw [if_pos h, h.1]
    exact ⟨rfl, rfl, rfl⟩
  · rw [if_neg h]
    exact ⟨rfl, rfl, rfl⟩

theorem msCollectLoop_length (sites : List SiteType) (fracs : List ℚ) (ss n : Nat)
    (pm : MapType) : (msCollectLoop sites fracs ss n pm).length = pm.length := by
  induction n with
  | zero => rfl
  | succ n ih => simp [msCollectLoop, collectAt_length, ih]

theorem msCollectLoop_frame (sites : List SiteType) (fracs : List ℚ) (ss n : Nat)
    (pm : MapType) (w : Nat) :
    (entryAt (msCollectLoop sites fracs ss n pm) w).1 = (entryAt pm w).1
      ∧ (entryAt (msCollectLoop sites fracs ss n pm) w).2.c = (entryAt pm w).2.c
      ∧ (entryAt (msCollectLoop sites fracs ss n pm) w).2.aligns = (entryAt pm w).2.aligns := by
  induction n with
  | zero => exact ⟨rfl, rfl, rfl⟩
  | succ n ih =>
    simp only [msCollectLoop]
    obtain ⟨a, b, c⟩ := collectAt_frame (msCollectLoop sites fracs ss n pm) fracs
      (siteAt sites ((ss + n : Nat) : Int)).v w
    exact ⟨a.trans ih.1, b.trans ih.2.1, c.trans ih.2.2⟩

theorem msCollectLoop_untouched (sites : List SiteType) (fracs : List ℚ) (ss n : Nat)
    (pm : MapType) (w : Nat)
    (h : ∀ i, i < n → (siteAt sites ((ss + i : Nat) : Int)).v ≠ w) :
    entryAt (msCollectLoop sites fracs ss n pm) w = entryAt pm w := by
  induction n with
  | zero => rfl
  | succ n ih =>
    simp only [msCollectLoop]
    rw [collectAt_entry_ne _ _ _ _ (h n (by omega))]
    exact ih (fun i hi => h i (by omega))

theorem msCollectLoop_weight (sites : List SiteType) (fracs : List ℚ) (ss n : Nat)
    (pm : MapType) (i : Nat) (hi : i < n)
    (hv : (siteAt sites ((ss + i : Nat) : Int)).v < pm.length) :
    (entryAt (msCollectLoop sites fracs ss n pm) (siteAt sites ((ss + i : Nat) : Int)).v).2.weight
      = cellSum fracs (entryAt pm (siteAt sites ((ss + i : Nat) : Int)).v).2.aligns := by
  induction n with
  | zero => omega
  | succ n ih =>
    simp only [msCollectLoop]
    by_cases h : (siteAt sites ((ss + n : Nat) : Int)).v = (siteAt sites ((ss + i : Nat) : Int)).v
    · rw [h, collectAt_entry_eq _ _ _ (by rw [msCollectLoop_length]; exact hv)]
      simp only
      rw [(msCollectLoop_frame sites fracs ss n pm _).2.2]
    · rw [collectAt_entry_ne _ _ _ _ h]
      have : i ≠ n := by
        intro e
        subst e
        exact h rfl
      exact ih (by omega)

/-! ## Claim C10 -/

/-- C10: the final round is collect-only.  With `last_round` set, `MS_STEP` on `[ss, es)`
(whose sites point into the position map) leaves `fracs` as it is, keeps the key, unique
count and back-references of every entry, sets the weight of every site of the range to
the sum of the cells the site back-references, and leaves alone every entry no site of the
range points to; when distinct sites point to distinct entries, that is every site outside
`[ss, es)`. -/
theorem C10_final_round_collect_only (sites : List SiteType) (pm : MapType) (fracs : List ℚ)
    (ss es : Nat)
    (hv : ∀ i, ss ≤ i → i < es → (sites.getD i default).v < pm.length)
    (hes : es ≤ sites.length)
    (hinj : ∀ i j, i < sites.length → j < sites.length →
      (sites.getD i default).v = (sites.getD j default).v → i = j) :
    (MS_STEP true sites ss es pm fracs).2 = fracs
      ∧ (MS_STEP true sites ss es pm fracs).1.length = pm.length
      ∧ (∀ w, (entryAt (MS_STEP true sites ss es pm fracs).1 w).1 = (entryAt pm w).1
          ∧ (entryAt (MS_STEP true sites ss es pm fracs).1 w).2.c = (entryAt pm w).2.c
          ∧ (entryAt (MS_STEP true sites ss es pm fracs).1 w).2.aligns
              = (entryAt pm w).2.aligns)
      ∧ (∀ i, ss ≤ i → i < es →
          (entryAt (MS_STEP true sites ss es pm fracs).1 (sites.getD i default).v).2.weight
            = cellSum fracs (entryAt pm (sites.getD i default).v).2.aligns)
      ∧ (∀ w, (∀ i, ss ≤ i → i < es → (sites.getD i default).v ≠ w) →
          entryAt (MS_STEP true sites ss es pm fracs).1 w = entryAt pm w)
      ∧ (∀ j, j < sites.length → (j < ss ∨ es ≤ j) →
          entryAt (MS_STEP true sites ss es pm fracs).1 (sites.getD j default).v
            = entryAt pm (sites.getD j default).v) := by
  have hsite : ∀ i : Nat, siteAt sites ((i : Nat) : Int) = sites.getD i default := by
    intro i
    simp [siteAt]
  have hunt : ∀ w, (∀ i, ss ≤ i → i < es → (sites.getD i default).v ≠ w) →
      entryAt (MS_STEP true sites ss es pm fracs).1 w = entryAt pm w := by
    intro w hw
    simp only [MS_STEP, if_true]
    apply msCollectLoop_untouched
    intro i hi
    rw [hsite]
    exact hw (ss + i) (by omega) (by omega)
  refine ⟨by simp [MS_STEP], ?_, ?_, ?_, hunt, ?_⟩
  · simp [MS_STEP, msCollectLoop_length]
  · intro w
    simp only [MS_STEP, if_true]
    exact msCollectLoop_frame sites fracs ss (es - ss) pm w
  · intro i h1 h2
    simp only [MS_STEP, if_true]
    obtain ⟨d, rfl⟩ : ∃ d, i = ss + d := ⟨i - ss, by omega⟩
    have := msCollectLoop_weight sites fracs ss (es - ss) pm d (by omega)
      (by rw [hsite]; exact hv _ h1 h2)
    rw [hsite] at this
    exact this
  · intro j hjl hj
    apply hunt
    intro i h1 h2 heq
    have := hinj i j (by omega) hjl heq
    omega

/-- Witness of C10: three sites, the thread range `[1, 3)`. -/
theorem C10_final_round_collect_only_witness :
    (MS_STEP true [⟨0, 5, 0, 1⟩, ⟨1, 0, 0, 2⟩, ⟨2, 0, 1, 2⟩] 1 3
        [(⟨'+', 1, 1⟩, ⟨0, 0, [0]⟩), (⟨'+', 1, 2⟩, ⟨0, 0, [1, 2]⟩), (⟨'+', 1, 3⟩, ⟨0, 0, [3]⟩)]
        [1, 2, 3, 4]).2 = [1, 2, 3, 4] :=
  (C10_final_round_collect_only [⟨0, 5, 0, 1⟩, ⟨1, 0, 0, 2⟩, ⟨2, 0, 1, 2⟩]
    [(⟨'+', 1, 1⟩, ⟨0, 0, [0]⟩), (⟨'+', 1, 2⟩, ⟨0, 0, [1, 2]⟩), (⟨'+', 1, 3⟩, ⟨0, 0, [3]⟩)]
    [1, 2, 3, 4] 1 3
    (by intro i h1 h2
        have : i = 1 ∨ i = 2 := by omega
        rcases this with rfl | rfl <;> decide)
    (by decide)
    (by intro i j hi hj
        simp only [List.length_cons, List.length_nil] at hi hj
        have hi' : i = 0 ∨ i = 1 ∨ i = 2 := by omega
        have hj' : j = 0 ∨ j = 1 ∨ j = 2 := by omega
        rcases hi' with rfl | rfl | rfl <;> rcases hj' with rfl | rfl | rfl <;> decide)).1

/-! ## Lemmas on the smoothing loop -/

theorem sumFrom_append (f : Int → ℚ) (a : Int) (m n : Nat) :
    sumFrom f a (m + n) = sumFrom f a m + sumFrom f (a + m) n := by
  induction m generalizing a with
  | zero => simp [sumFrom]
  | succ m ih =>
    have : m + 1 + n = (m + n) + 1 := by omega
    rw [this]
    simp only [sumFrom]
    rw [ih]
    have e : a + 1 + (m : Int) = a + ((m + 1 : Nat) : Int) := by push_cast; ring
    rw [e]
    ring

theorem sumFrom_congr (f g : Int → ℚ) (a : Int) (n : Nat)
    (h : ∀ k, a ≤ k → k < a + n → f k = g k) : sumFrom f a n = sumFrom g a n := by
  induction n generalizing a with
  | zero => rfl
  | succ n ih =>
    simp only [sumFrom]
    rw [h a le_rfl (by push_cast; omega), ih (a + 1) (fun k h1 h2 => h k (by omega)
      (by push_cast at h2 ⊢; omega))]

theorem sumFrom_nonneg (f : Int → ℚ) (a : Int) (n : Nat) (h : ∀ k, 0 ≤ f k) :
    0 ≤ sumFrom f a n := by
  induction n generalizing a with
  | zero => simp [sumFrom]
  | succ n ih =>
    simp only [sumFrom]
    exact add_nonneg (h a) (ih _)

theorem cellSum_foldl (fracs : List ℚ) (aligns : List Nat) (w : ℚ) :
    aligns.foldl (fun w c => w + rd fracs c) w = w + cellSum fracs aligns := by
  induction aligns generalizing w with
  | nil => simp [cellSum]
  | cons c aligns ih =>
    simp only [List.foldl_cons, cellSum]
    rw [ih, ih (0 + rd fracs c)]
    ring

theorem cellSum_cons (fracs : List ℚ) (c : Nat) (aligns : List Nat) :
    cellSum fracs (c :: aligns) = rd fracs c + cellSum fracs aligns := by
  simp only [cellSum, List.foldl_cons]
  rw [cellSum_foldl]
  simp [cellSum]

theorem cellSum_congr (f1 f2 : List ℚ) (aligns : List Nat)
    (h : ∀ c ∈ aligns, rd f1 c = rd f2 c) : cellSum f1 aligns = cellSum f2 aligns := by
  induction aligns with
  | nil => rfl
  | cons c aligns ih =>
    rw [cellSum_cons, cellSum_cons, h c (List.mem_cons_self _ _),
      ih (fun c' hc' => h c' (List.mem_cons_of_mem _ hc'))]

theorem cellSum_nonneg (fracs : List ℚ) (aligns : List Nat) (h : ∀ j, 0 ≤ rd fracs j) :
    0 ≤ cellSum fracs aligns := by
  induction aligns with
  | nil => simp [cellSum]
  | cons c aligns ih =>
    rw [cellSum_cons]
    exact add_nonneg (h c) ih

theorem pushAt_length (pm : MapType) (v : Nat) (value : ℚ) (fracs : List ℚ) :
    (pushAt pm v value fracs).length = fracs.length := by
  unfold pushAt
  generalize (entryAt pm v).2.aligns = al
  induction al generalizing fracs with
  | nil => rfl
  | cons c al ih => simp [List.foldl_cons, ih]

theorem pushAt_rd_not_mem (pm : MapType) (v : Nat) (value : ℚ) (fracs : List ℚ) (j : Nat)
    (h : j ∉ (entryAt pm v).2.aligns) : rd (pushAt pm v value fracs) j = rd fracs j := by
  unfold pushAt
  generalize (entryAt pm v).2.aligns = al at h
  induction al generalizing fracs with
  | nil => rfl
  | cons c al ih =>
    simp only [List.mem_cons, not_or] at h
    simp only [List.foldl_cons]
    rw [ih _ h.2, rd_set_ne _ _ _ _ (Ne.symm h.1)]

theorem pushAt_rd_mem (pm : MapType) (v : Nat) (value : ℚ) (fracs : List ℚ) (j : Nat)
    (h : j ∈ (entryAt pm v).2.aligns) (hj : j < fracs.length) :
    rd (pushAt pm v value fracs) j = value := by
  unfold pushAt
  generalize (entryAt pm v).2.aligns = al at h
  induction al generalizing fracs with
  | nil => simp at h
  | cons c al ih =>
    simp only [List.foldl_cons]
    by_cases hm : j ∈ al
    · exact ih _ (by simpa using hj) hm
    · have hc : j = c := by
        rcases List.mem_cons.mp h with h | h
        · exact h
        · exact absurd h hm
      subst hc
      have : ∀ (al : List Nat) (fr : List ℚ), j ∉ al →
          rd (al.foldl (fun fr c => fr.set c value) fr) j = rd fr j := by
        intro al
        induction al with
        | nil => intro fr _; rfl
        | cons c al ih2 =>
          intro fr hn
          simp only [List.mem_cons, not_or] at hn
          simp only [List.foldl_cons]
          rw [ih2 _ hn.2, rd_set_ne _ _ _ _ (Ne.symm hn.1)]
      rw [this al _ hm, rd_set_eq _ _ _ hj]

theorem siteWeight_collectAt (sites : List SiteType) (pm : MapType) (fracs fr : List ℚ)
    (v : Nat) : siteWeight sites (collectAt pm fr v) fracs = siteWeight sites pm fracs := by
  funext k
  unfold siteWeight siteCells
  rw [(collectAt_frame pm fr v _).2.2]

/-- What the loop advancing `r` does: `r` reaches `right`, every newly included site has
its weight collected, `psum` grows by the sum of these weights, and nothing else changes. -/
theorem msAdvance_spec (sites : List SiteType) (right : Int) (fuel : Nat) (st : MSState)
    (hfuel : (right - st.r).toNat ≤ fuel)
    (hv : ∀ k : Int, st.r < k → k ≤ right → (siteAt sites k).v < st.posMap.length)
    (hne : ∀ k k2 : Int, st.r < k → k ≤ right → st.r < k2 → k2 ≤ right → k ≠ k2 →
      (siteAt sites k).v ≠ (siteAt sites k2).v) :
    (msAdvance sites right fuel st).r = max st.r right
      ∧ (msAdvance sites right fuel st).l = st.l
      ∧ (msAdvance sites right fuel st).fracs = st.fracs
      ∧ (msAdvance sites right fuel st).psum
          = st.psum + sumFrom (siteWeight sites st.posMap st.fracs) (st.r + 1)
              (right - st.r).toNat
      ∧ (msAdvance sites right fuel st).posMap.length = st.posMap.length
      ∧ (∀ w, (entryAt (msAdvance sites right fuel st).posMap w).1 = (entryAt st.posMap w).1
          ∧ (entryAt (msAdvance sites right fuel st).posMap w).2.c = (entryAt st.posMap w).2.c
          ∧ (entryAt (msAdvance sites right fuel st).posMap w).2.aligns
              = (entryAt st.posMap w).2.aligns)
      ∧ (∀ k : Int, st.r < k → k ≤ right →
          (entryAt (msAdvance sites right fuel st).posMap (siteAt sites k).v).2.weight
            = siteWeight sites st.posMap st.fracs k)
      ∧ (∀ w, (∀ k : Int, st.r < k → k ≤ right → (siteAt sites k).v ≠ w) →
          entryAt (msAdvance sites right fuel st).posMap w = entryAt st.posMap w) := by
  induction fuel generalizing st with
  | zero =>
    have hle : right ≤ st.r := by omega
    have h0 : (right - st.r).toNat = 0 := by omega
    refine ⟨?_, rfl, rfl, ?_, rfl, fun w => ⟨rfl, rfl, rfl⟩, ?_, fun w _ => rfl⟩
    · simp only [msAdvance]
      rw [max_eq_left hle]
    · simp only [msAdvance, h0, sumFrom, add_zero]
    · intro k h1 h2
      omega
  | succ fuel ih =>
    simp only [msAdvance]
    by_cases hlt : st.r < right
    · rw [if_pos hlt]
      have hv1 := hv (st.r + 1) (by omega) (by omega)
      obtain ⟨i1, i2, i3, i4, i5, i6, i7, i8⟩ := ih
        { st with r := st.r + 1
                  posMap := collectAt st.posMap st.fracs (siteAt sites (st.r + 1)).v
                  psum := st.psum + (entryAt (collectAt st.posMap st.fracs
                    (siteAt sites (st.r + 1)).v) (siteAt sites (st.r + 1)).v).2.weight }
        (by simp only; omega)
        (by intro k h1 h2
            simp only at h1 ⊢
            rw [collectAt_length]
            exact hv k (by omega) h2)
        (by intro k k2 h1 h2 h3 h4 h5
            simp only at h1 h3
            exact hne k k2 (by omega) h2 (by omega) h4 h5)
      simp only at i1 i2 i3 i4 i5 i6 i7 i8
      have hn : (right - st.r).toNat = (right - (st.r + 1)).toNat + 1 := by omega
      have hw : (entryAt (collectAt st.posMap st.fracs (siteAt sites (st.r + 1)).v)
          (siteAt sites (st.r + 1)).v).2.weight
          = siteWeight sites st.posMap st.fracs (st.r + 1) := by
        rw [collectAt_entry_eq _ _ _ hv1]
        rfl
      refine ⟨by rw [i1]; omega, i2, i3, ?_, by rw [i5, collectAt_length], ?_, ?_, ?_⟩
      · rw [i4, hn, siteWeight_collectAt, hw]
        simp only [sumFrom]
        ring
      · intro w
        obtain ⟨a, b, c⟩ := i6 w
        obtain ⟨a2, b2, c2⟩ := collectAt_frame st.posMap st.fracs (siteAt sites (st.r + 1)).v w
        exact ⟨a.trans a2, b.trans b2, c.trans c2⟩
      · intro k h1 h2
        by_cases hk : k = st.r + 1
        · subst hk
          rw [i8 _ (fun k2 h3 h4 => hne k2 (st.r + 1) (by omega) h4 (by omega) (by omega)
            (by omega)), hw]
        · rw [i7 k (by omega) h2, siteWeight_collectAt]
      · intro w hw2
        rw [i8 w (fun k h1 h2 => hw2 k (by omega) h2)]
        exact collectAt_entry_ne _ _ _ _ (hw2 (st.r + 1) (by omega) (by omega))
    · rw [if_neg hlt]
      have hle : right ≤ st.r := by omega
      have h0 : (right - st.r).toNat = 0 := by omega
      refine ⟨by rw [max_eq_left hle], rfl, rfl, ?_, rfl, fun w => ⟨rfl, rfl, rfl⟩, ?_,
        fun w _ => rfl⟩
      · simp only [h0, sumFrom, add_zero]
      · intro k h1 h2
        omega

/-- What the loop retiring `l` does: `l` reaches `left` and `psum` loses the weights of the
retired sites; nothing else changes. -/
theorem msRetire_spec (sites : List SiteType) (left : Int) (fuel : Nat) (st : MSState)
    (hfuel : (left - st.l).toNat ≤ fuel) :
    (msRetire sites left fuel st).l = max st.l left
      ∧ (msRetire sites left fuel st).r = st.r
      ∧ (msRetire sites left fuel st).fracs = st.fracs
      ∧ (msRetire sites left fuel st).posMap = st.posMap
      ∧ (msRetire sites left fuel st).psum
          = st.psum - sumFrom (fun k => (entryAt st.posMap (siteAt sites k).v).2.weight) st.l
              (left - st.l).toNat := by
  induction fuel generalizing st with
  | zero =>
    have hle : left ≤ st.l := by omega
    have h0 : (left - st.l).toNat = 0 := by omega
    refine ⟨?_, rfl, rfl, rfl, ?_⟩
    · simp only [msRetire]
      rw [max_eq_left hle]
    · simp only [msRetire, h0, sumFrom, sub_zero]
  | succ fuel ih =>
    simp only [msRetire]
    by_cases hlt : st.l < left
    · rw [if_pos hlt]
      obtain ⟨i1, i2, i3, i4, i5⟩ := ih
        { st with psum := st.psum - (entryAt st.posMap (siteAt sites st.l).v).2.weight
                  l := st.l + 1 }
        (by simp only; omega)
      simp only at i1 i2 i3 i4 i5
      have hn : (left - st.l).toNat = (left - (st.l + 1)).toNat + 1 := by omega
      refine ⟨by rw [i1]; omega, i2, i3, i4, ?_⟩
      rw [i5, hn]
      simp only [sumFrom]
      ring
    · rw [if_neg hlt]
      have hle : left ≤ st.l := by omega
      have h0 : (left - st.l).toNat = 0 := by omega
      refine ⟨by rw [max_eq_left hle], rfl, rfl, rfl, ?_⟩
      simp only [h0, sumFrom, sub_zero]

theorem rd_nonneg (fracs : List ℚ) (h : ∀ x ∈ fracs, (0 : ℚ) ≤ x) (j : Nat) : 0 ≤ rd fracs j := by
  unfold rd
  rw [List.getD_eq_getElem?_getD]
  by_cases hj : j < fracs.length
  · rw [List.getElem?_eq_getElem hj]
    exact h _ (List.getElem_mem hj)
  · rw [List.getElem?_eq_none (by omega)]
    exact le_rfl

theorem siteWeight_nonneg (sites : List SiteType) (pm : MapType) (fracs : List ℚ)
    (h : ∀ j, 0 ≤ rd fracs j) (k : Int) : 0 ≤ siteWeight sites pm fracs k :=
  cellSum_nonneg _ _ h

/-- The body of the smoothing loop keeps the invariant. -/
theorem msBody_inv (sites : List SiteType) (pm : MapType) (fracs : List ℚ) (ss es i : Nat)
    (st : MSState) (hpre : SmoothPre sites pm fracs ss es)
    (hinv : SmoothInv sites pm fracs ss i st) (hi1 : ss ≤ i) (hi2 : i < es) :
    SmoothInv sites pm fracs ss (i + 1) (msBody sites i st) := by
  obtain ⟨⟨p1, p2, p3, p4, p5a, p6, p7a⟩, p8⟩ := hpre
  have p5 : ∀ i : Nat, ss ≤ i → i < es →
      (ss : Int) ≤ (siteAt sites i).left ∧ (siteAt sites i).left ≤ (siteAt sites i).right
        ∧ (siteAt sites i).right < (es : Int) ∧ (i : Int) ≤ (siteAt sites i).right :=
    fun i h1 h2 => ⟨(p5a i h1 h2).1, (p5a i h1 h2).2.1, (p5a i h1 h2).2.2, p8 i h1 h2⟩
  have p7 : ∀ j, 0 ≤ rd fracs j := rd_nonneg fracs p7a
  obtain ⟨v1, v2, v3, v4, v5, v6, v7, v8, v9⟩ := hinv
  obtain ⟨w1, w2, w3, w4⟩ := p5 i hi1 hi2
  -- where `l` and `r` stand on entry
  have hlr : (ss : Int) ≤ st.l ∧ st.l ≤ st.r + 1 ∧ (i : Int) ≤ st.r + 1
      ∧ st.l ≤ (siteAt sites i).left ∧ st.r ≤ (siteAt sites i).right := by
    rcases Nat.eq_or_lt_of_le hi1 with h | h
    · obtain ⟨a, b⟩ := v1 h.symm
      rw [a, b]
      subst h
      omega
    · obtain ⟨a, b⟩ := v2 h
      obtain ⟨c1, c2, c3, c4⟩ := p5 (i - 1) (by omega) (by omega)
      obtain ⟨m1, m2⟩ := p6 (i - 1) (by omega) (by omega)
      have e : i - 1 + 1 = i := by omega
      rw [e] at m1 m2
      rw [a, b]
      omega
  obtain ⟨l1, l2, l3, l4, l5⟩ := hlr
  -- sites not yet smoothed still have their old cells
  have hcells : ∀ k : Nat, i ≤ k → k < es → ∀ c ∈ siteCells sites pm k,
      rd st.fracs c = rd fracs c := by
    intro k hk1 hk2 c hc
    apply v9
    intro k2 h1 h2 hc2
    exact (p3 k k2 (by omega) hk2 h1 (by omega) (by omega)).2 c hc hc2
  have hW : ∀ k : Nat, i ≤ k → k < es →
      siteWeight sites st.posMap st.fracs k = siteWeight sites pm fracs k := by
    intro k hk1 hk2
    unfold siteWeight
    have e : siteCells sites st.posMap k = siteCells sites pm k := (v5 _).2.2
    rw [e]
    exact cellSum_congr _ _ _ (hcells k hk1 hk2)
  -- the loop advancing `r`
  obtain ⟨a1, a2, a3, a4, a5, a6, a7, a8⟩ := msAdvance_spec sites (siteAt sites i).right
    ((siteAt sites i).right - st.r).toNat st le_rfl
    (by intro k h1 h2
        obtain ⟨n, rfl⟩ := Int.eq_ofNat_of_zero_le (by omega : 0 ≤ k)
        rw [v4]
        exact p2 n (by omega) (by omega))
    (by intro k k2 h1 h2 h3 h4 h5
        obtain ⟨n, rfl⟩ := Int.eq_ofNat_of_zero_le (by omega : 0 ≤ k)
        obtain ⟨n2, rfl⟩ := Int.eq_ofNat_of_zero_le (by omega : 0 ≤ k2)
        exact (p3 n n2 (by omega) (by omega) (by omega) (by omega) (by omega)).1)
  rw [max_eq_right l5] at a1
  have hsum1 : (msAdvance sites (siteAt sites i).right
      ((siteAt sites i).right - st.r).toNat st).psum
      = sumFrom (siteWeight sites pm fracs) st.l ((siteAt sites i).right + 1 - st.l).toNat := by
    rw [a4, v3]
    have e : ((siteAt sites i).right + 1 - st.l).toNat
        = (st.r + 1 - st.l).toNat + ((siteAt sites i).right - st.r).toNat := by omega
    rw [e, sumFrom_append]
    have e2 : st.l + ((st.r + 1 - st.l).toNat : Int) = st.r + 1 := by omega
    rw [e2]
    congr 1
    apply sumFrom_congr
    intro k h1 h2
    obtain ⟨n, rfl⟩ := Int.eq_ofNat_of_zero_le (by omega : 0 ≤ k)
    exact hW n (by omega) (by omega)
  have hweights : ∀ k : Nat, ss ≤ k → (k : Int) ≤ (siteAt sites i).right →
      (entryAt (msAdvance sites (siteAt sites i).right
        ((siteAt sites i).right - st.r).toNat st).posMap (siteAt sites k).v).2.weight
        = siteWeight sites pm fracs k := by
    intro k h1 h2
    by_cases hk : (k : Int) ≤ st.r
    · rw [a8 _ (fun k2 h3 h4 => by
        obtain ⟨n2, rfl⟩ := Int.eq_ofNat_of_zero_le (by omega : 0 ≤ k2)
        exact (p3 n2 k (by omega) (by omega) h1 (by omega) (by omega)).1)]
      exact v6 k h1 hk
    · rw [a7 k (by omega) h2]
      exact hW k (by omega) (by omega)
  -- the loop retiring `l`
  obtain ⟨r1, r2, r3, r4, r5⟩ := msRetire_spec sites (siteAt sites i).left
    ((siteAt sites i).left - (msAdvance sites (siteAt sites i).right
      ((siteAt sites i).right - st.r).toNat st).l).toNat
    (msAdvance sites (siteAt sites i).right ((siteAt sites i).right - st.r).toNat st) le_rfl
  rw [a2] at r1 r2 r3 r4 r5
  rw [max_eq_right l4] at r1
  have hsum2 : (msRetire sites (siteAt sites i).left ((siteAt sites i).left - st.l).toNat
      (msAdvance sites (siteAt sites i).right ((siteAt sites i).right - st.r).toNat st)).psum
      = windowSum sites pm fracs (siteAt sites i).left (siteAt sites i).right := by
    rw [r5, hsum1]
    unfold windowSum
    have e : ((siteAt sites i).right + 1 - st.l).toNat
        = ((siteAt sites i).left - st.l).toNat
          + ((siteAt sites i).right + 1 - (siteAt sites i).left).toNat := by omega
    rw [e, sumFrom_append]
    have e2 : st.l + (((siteAt sites i).left - st.l).toNat : Int) = (siteAt sites i).left := by
      omega
    rw [e2]
    have e3 : sumFrom (fun k => (entryAt (msAdvance sites (siteAt sites i).right
        ((siteAt sites i).right - st.r).toNat st).posMap (siteAt sites k).v).2.weight) st.l
        ((siteAt sites i).left - st.l).toNat
        = sumFrom (siteWeight sites pm fracs) st.l ((siteAt sites i).left - st.l).toNat := by
      apply sumFrom_congr
      intro k h1 h2
      obtain ⟨n, rfl⟩ := Int.eq_ofNat_of_zero_le (by omega : 0 ≤ k)
      exact hweights n (by omega) (by omega)
    rw [e3]
    ring
  have hnn : ¬ windowSum sites pm fracs (siteAt sites i).left (siteAt sites i).right < 0 :=
    not_lt.mpr (sumFrom_nonneg _ _ _ (siteWeight_nonneg sites pm fracs p7))
  have hal : (entryAt (msAdvance sites (siteAt sites i).right
      ((siteAt sites i).right - st.r).toNat st).posMap (siteAt sites i).v).2.aligns
      = siteCells sites pm i := ((a6 _).2.2).trans (v5 _).2.2
  unfold msBody
  simp only
  rw [a2, hsum2, if_neg hnn, r4, r3, a3]
  refine ⟨?_, ?_, ?_, ?_, ?_, ?_, ?_, ?_, ?_⟩
  · intro h
    omega
  · intro _
    simp only [Nat.add_sub_cancel]
    exact ⟨r1, r2.trans a1⟩
  · simp only
    rw [r1, r2, a1]
    rfl
  · simp only
    rw [a5, v4]
  · intro w
    obtain ⟨x, y, z⟩ := a6 w
    obtain ⟨x2, y2, z2⟩ := v5 w
    exact ⟨x.trans x2, y.trans y2, z.trans z2⟩
  · intro k h1 h2
    simp only at h2 ⊢
    rw [r2, a1] at h2
    exact hweights k h1 h2
  · simp only
    rw [pushAt_length, v7]
  · intro k h1 h2 c hc
    simp only
    by_cases hk : k = i
    · subst hk
      rw [pushAt_rd_mem _ _ _ _ _ (by rw [hal]; exact hc) (by rw [v7]; exact p4 k h1 hi2 c hc)]
    · rw [pushAt_rd_not_mem _ _ _ _ _ (by
        rw [hal]
        exact (p3 k i h1 (by omega) hi1 hi2 hk).2 c hc)]
      exact v8 k h1 (by omega) c hc
  · intro c hc
    simp only
    rw [pushAt_rd_not_mem _ _ _ _ _ (by rw [hal]; exact hc i hi1 (by omega))]
    exact v9 c (fun k h1 h2 => hc k h1 (by omega))

theorem msLoop_inv (sites : List SiteType) (pm : MapType) (fracs : List ℚ) (ss es n : Nat)
    (hpre : SmoothPre sites pm fracs ss es) (hn : ss + n ≤ es) :
    SmoothInv sites pm fracs ss (ss + n) (msLoop sites ss n
      { posMap := pm, fracs := fracs, l := (ss : Int), r := (ss : Int) - 1, psum := 0 }) := by
  induction n with
  | zero =>
    simp only [msLoop, Nat.add_zero]
    refine ⟨fun _ => ⟨rfl, rfl⟩, fun h => absurd h (lt_irrefl _), ?_, rfl,
      fun w => ⟨rfl, rfl, rfl⟩, ?_, rfl, ?_, fun c _ => rfl⟩
    · have : ((ss : Int) - 1 + 1 - (ss : Int)).toNat = 0 := by omega
      simp only [this, sumFrom]
    · intro k h1 h2
      simp only at h2
      omega
    · intro k h1 h2
      omega
  | succ n ih =>
    simp only [msLoop]
    exact msBody_inv sites pm fracs ss es (ss + n) _ hpre (ih (by omega)) (by omega) (by omega)

/-! ## Claim C9 -/

/-- C9 (as stated, refuted): three sites with cells `[0]`, `[1, 2]`, `[3]` holding
`1, 2, 3, 4` (so `W = 1, 5, 4`), windows `[0,0]`, `[0,0]`, `[0,2]` and `uc = 0`, thread
range `[0, 3)`.  The stated conditions hold, but site 1 is pushed (with `W_0 = 1`) before
the window of site 2 collects it, so the cell of site 2 ends with `1 + 2 + 4 = 7` and not
with `W_0 + W_1 + W_2 + uc = 10`. -/
theorem C9_counterexample :
    SmoothPreStated [⟨0, 0, 0, 0⟩, ⟨1, 0, 0, 0⟩, ⟨2, 0, 0, 2⟩]
        [(⟨'+', 1, 1⟩, ⟨0, 0, [0]⟩), (⟨'+', 1, 2⟩, ⟨0, 0, [1, 2]⟩), (⟨'+', 1, 3⟩, ⟨0, 0, [3]⟩)]
        [1, 2, 3, 4] 0 3
      ∧ (MS_STEP false [⟨0, 0, 0, 0⟩, ⟨1, 0, 0, 0⟩, ⟨2, 0, 0, 2⟩] 0 3
          [(⟨'+', 1, 1⟩, ⟨0, 0, [0]⟩), (⟨'+', 1, 2⟩, ⟨0, 0, [1, 2]⟩), (⟨'+', 1, 3⟩, ⟨0, 0, [3]⟩)]
          [1, 2, 3, 4]).2 = [1, 1, 1, 7]
      ∧ windowSum [⟨0, 0, 0, 0⟩, ⟨1, 0, 0, 0⟩, ⟨2, 0, 0, 2⟩]
          [(⟨'+', 1, 1⟩, ⟨0, 0, [0]⟩), (⟨'+', 1, 2⟩, ⟨0, 0, [1, 2]⟩), (⟨'+', 1, 3⟩, ⟨0, 0, [3]⟩)]
          [1, 2, 3, 4] 0 2 + ((0 : Int) : ℚ) = 10 := by
  refine ⟨⟨by decide, ?_, ?_, ?_, ?_, ?_, ?_⟩, by decide!, by decide!⟩
  · intro i h1 h2
    interval_cases i <;> decide
  · intro i j h1 h2 h3 h4 h5
    interval_cases i <;> interval_cases j <;> first | exact absurd rfl h5 | decide
  · intro i h1 h2
    interval_cases i <;> decide
  · intro i h1 h2
    interval_cases i <;> decide
  · intro i h1 h2
    have h3 : i < 2 := by omega
    interval_cases i <;> decide
  · intro x hx
    simp only [List.mem_cons, List.mem_singleton, List.not_mem_nil, or_false] at hx
    rcases hx with rfl | rfl | rfl | rfl <;> norm_num

/-- C9 (amended): window-smoothed M-step value.  In a non-final round, for a thread range
`[ss, es)` that satisfies the stated conditions and whose windows all reach their own site
(`i <= sites[i].right`), `MS_STEP` leaves in every weight cell of every site `i` of the
range the value `(sum over k from sites[i].left to sites[i].right of W_k) + sites[i].uc`,
where `W_k` is the sum of the weight cells of site `k` before the step. -/
theorem C9_smoothed_value (sites : List SiteType) (pm : MapType) (fracs : List ℚ)
    (ss es : Nat) (hpre : SmoothPre sites pm fracs ss es) (i : Nat) (h1 : ss ≤ i)
    (h2 : i < es) (c : Nat) (hc : c ∈ siteCells sites pm i) :
    rd (MS_STEP false sites ss es pm fracs).2 c
      = windowSum sites pm fracs (siteAt sites i).left (siteAt sites i).right
          + ((siteAt sites i).uc : ℚ) := by
  have hinv := msLoop_inv sites pm fracs ss es (es - ss) hpre (by omega)
  obtain ⟨-, -, -, -, -, -, -, v8, -⟩ := hinv
  simp only [MS_STEP, Bool.false_eq_true, if_false]
  exact v8 i h1 (by omega) c hc

/-- Witness of C9 (amended): the three sites of the counterexample with windows `[0,1]`,
`[0,2]`, `[1,2]` and `uc = 5, 0, 0`; cell 0 of site 0 ends with `W_0 + W_1 + 5`. -/
theorem C9_smoothed_value_witness :
    rd (MS_STEP false [⟨0, 5, 0, 1⟩, ⟨1, 0, 0, 2⟩, ⟨2, 0, 1, 2⟩] 0 3
        [(⟨'+', 1, 1⟩, ⟨0, 0, [0]⟩), (⟨'+', 1, 2⟩, ⟨0, 0, [1, 2]⟩), (⟨'+', 1, 3⟩, ⟨0, 0, [3]⟩)]
        [1, 2, 3, 4]).2 0
      = windowSum [⟨0, 5, 0, 1⟩, ⟨1, 0, 0, 2⟩, ⟨2, 0, 1, 2⟩]
          [(⟨'+', 1, 1⟩, ⟨0, 0, [0]⟩), (⟨'+', 1, 2⟩, ⟨0, 0, [1, 2]⟩), (⟨'+', 1, 3⟩, ⟨0, 0, [3]⟩)]
          [1, 2, 3, 4] 0 1 + ((5 : Int) : ℚ) :=
  C9_smoothed_value [⟨0, 5, 0, 1⟩, ⟨1, 0, 0, 2⟩, ⟨2, 0, 1, 2⟩]
    [(⟨'+', 1, 1⟩, ⟨0, 0, [0]⟩), (⟨'+', 1, 2⟩, ⟨0, 0, [1, 2]⟩), (⟨'+', 1, 3⟩, ⟨0, 0, [3]⟩)]
    [1, 2, 3, 4] 0 3
    (by
      refine ⟨⟨by decide, ?_, ?_, ?_, ?_, ?_, ?_⟩, ?_⟩
      · intro i h1 h2
        interval_cases i <;> decide
      · intro i j h1 h2 h3 h4 h5
        interval_cases i <;> interval_cases j <;> first | exact absurd rfl h5 | decide
      · intro i h1 h2
        interval_cases i <;> decide
      · intro i h1 h2
        interval_cases i <;> decide
      · intro i h1 h2
        have h3 : i < 2 := by omega
        interval_cases i <;> decide
      · intro x hx
        simp only [List.mem_cons, List.mem_singleton, List.not_mem_nil, or_false] at hx
        rcases hx with rfl | rfl | rfl | rfl <;> norm_num
      · intro i h1 h2
        interval_cases i <;> decide)
    0 (by decide) (by decide) 0 (by decide)

/-! ## Lemmas on the window comparison -/

theorem char_lt_iff (a b : Char) : a < b ↔ a.toNat < b.toNat := by
  rw [Char.lt_def]
  exact Iff.rfl

theorem char_eq_iff (a b : Char) : a = b ↔ a.toNat = b.toNat := by
  constructor
  · intro h
    rw [h]
  · intro h
    apply Char.ext
    apply UInt32.eq_of_val_eq
    apply Fin.ext
    exact h

theorem keyLt_iff_nat (a o : KeyType) :
    a.lt o = true ↔ a.cid < o.cid
      ∨ (a.cid = o.cid ∧ (a.dir.toNat < o.dir.toNat
          ∨ (a.dir.toNat = o.dir.toNat ∧ a.pos < o.pos))) := by
  rw [keyLt_iff, char_lt_iff, char_eq_iff]

/-- A key is not left of its own window. -/
theorem keyCmp_self (a : KeyType) (w : Int) (hw : 0 ≤ w) : ¬ a.cmp a w < -w := by
  simp only [KeyType.cmp, ne_eq, not_true_eq_false, if_false, sub_self]
  omega

/-- A key that is not above another one compares as non-positive with it. -/
theorem keyCmp_nonpos (a b : KeyType) (w : Int) (hw : 0 ≤ w)
    (hab : a = b ∨ a.lt b = true) : a.cmp b w ≤ 0 := by
  rcases hab with rfl | hab
  · simp [KeyType.cmp]
  · rw [keyLt_iff_nat] at hab
    simp only [KeyType.cmp, char_lt_iff, char_eq_iff, ne_eq]
    split_ifs <;> omega

/-- If `u` is right of the window of `b`, then every key up to `b` is left of the window of
every key from `u` on. -/
theorem keyCmp_far (a b u t : KeyType) (w : Int) (hw : 0 ≤ w)
    (hab : a = b ∨ a.lt b = true) (hbu : b.lt u = true) (hut : u = t ∨ u.lt t = true)
    (hfar : u.cmp b w > w) : a.cmp t w < -w := by
  rw [keyLt_iff_nat] at hbu
  rcases hab with rfl | hab
  · rcases hut with rfl | hut
    · simp only [KeyType.cmp, char_lt_iff, char_eq_iff, ne_eq] at hfar ⊢
      split_ifs at hfar ⊢ <;> omega
    · rw [keyLt_iff_nat] at hut
      simp only [KeyType.cmp, char_lt_iff, char_eq_iff, ne_eq] at hfar ⊢
      split_ifs at hfar ⊢ <;> omega
  · rw [keyLt_iff_nat] at hab
    rcases hut with rfl | hut
    · simp only [KeyType.cmp, char_lt_iff, char_eq_iff, ne_eq] at hfar ⊢
      split_ifs at hfar ⊢ <;> omega
    · rw [keyLt_iff_nat] at hut
      simp only [KeyType.cmp, char_lt_iff, char_eq_iff, ne_eq] at hfar ⊢
      split_ifs at hfar ⊢ <;> omega

/-! ## Lemmas on the sweep that computes the windows -/

theorem multiCount_succ (pm : MapType) (j : Nat) :
    multiCount pm (j + 1) = multiCount pm j + (if isMultiAt pm j then 1 else 0) := by
  unfold multiCount
  rw [List.range_succ, List.filter_append, List.length_append]
  by_cases h : isMultiAt pm j
  · simp [h]
  · simp [h]

theorem multiCount_mono (pm : MapType) (i j : Nat) (h : i ≤ j) :
    multiCount pm i ≤ multiCount pm j := by
  induction j with
  | zero =>
    have : i = 0 := by omega
    rw [this]
  | succ j ih =>
    by_cases hij : i = j + 1
    · rw [hij]
    · have := ih (by omega)
      rw [multiCount_succ]
      omega

theorem mapSorted_index (pm : MapType) (hs : MapSorted pm) (i j : Nat) (hij : i < j)
    (hj : j < pm.length) : (entryAt pm i).1.lt (entryAt pm j).1 = true := by
  unfold MapSorted at hs
  rw [List.pairwise_iff_getElem] at hs
  have := hs i j (by simp; omega) (by simpa using hj) hij
  simp only [List.getElem_map] at this
  unfold entryAt
  rw [List.getD_eq_getElem?_getD, List.getD_eq_getElem?_getD,
    List.getElem?_eq_getElem (by omega), List.getElem?_eq_getElem hj]
  exact this

theorem mapSorted_index_le (pm : MapType) (hs : MapSorted pm) (i j : Nat) (hij : i ≤ j)
    (hj : j < pm.length) :
    (entryAt pm i).1 = (entryAt pm j).1 ∨ (entryAt pm i).1.lt (entryAt pm j).1 = true := by
  rcases Nat.eq_or_lt_of_le hij with h | h
  · left
    rw [h]
  · right
    exact mapSorted_index pm hs i j h hj

/-- The first loop on `lb`: it keeps `lb_pos` in step with `lb`, stays at or before `ub`
and `iter`, and stops at `ub` or at an entry that is not left of the window. -/
theorem sweepLb1_spec (pm : MapType) (w : Int) (hw : 0 ≤ w) (it fuel : Nat) (st : SweepState)
    (hfuel : st.ub - st.lb ≤ fuel) (h1 : st.lb ≤ st.ub) (h2 : st.lb ≤ it)
    (h3 : st.lb_pos + 1 = (multiCount pm st.lb : Int)) :
    (sweepLb1 pm w it fuel st).ub = st.ub
      ∧ (sweepLb1 pm w it fuel st).ub_pos = st.ub_pos
      ∧ (sweepLb1 pm w it fuel st).sites = st.sites
      ∧ st.lb ≤ (sweepLb1 pm w it fuel st).lb
      ∧ (sweepLb1 pm w it fuel st).lb ≤ st.ub
      ∧ (sweepLb1 pm w it fuel st).lb ≤ it
      ∧ (sweepLb1 pm w it fuel st).lb_pos + 1
          = (multiCount pm (sweepLb1 pm w it fuel st).lb : Int)
      ∧ ((sweepLb1 pm w it fuel st).lb = st.ub
          ∨ ¬ (entryAt pm (sweepLb1 pm w it fuel st).lb).1.cmp (entryAt pm it).1 w < -w) := by
  induction fuel generalizing st with
  | zero =>
    refine ⟨rfl, rfl, rfl, le_rfl, h1, h2, h3, Or.inl ?_⟩
    show st.lb = st.ub
    omega
  | succ fuel ih =>
    simp only [sweepLb1]
    by_cases hc : st.lb ≠ st.ub ∧ (entryAt pm st.lb).1.cmp (entryAt pm it).1 w < -w
    · rw [if_pos hc]
      have hne : st.lb ≠ it := by
        intro h
        rw [h] at hc
        exact keyCmp_self _ w hw hc.2
      obtain ⟨a1, a2, a3, a4, a5, a6, a7, a8⟩ := ih
        { st with sumc := st.sumc - (entryAt pm st.lb).2.c
                  lb_pos := if isMultiAt pm st.lb then st.lb_pos + 1 else st.lb_pos
                  lb := st.lb + 1 }
        (by simp only; omega) (by simp only; omega) (by simp only; omega)
        (by simp only
            rw [multiCount_succ]
            split <;> (push_cast; omega))
      simp only at a1 a2 a3 a4 a5 a6 a7 a8
      exact ⟨a1, a2, a3, by omega, a5, a6, a7, a8⟩
    · rw [if_neg hc]
      refine ⟨rfl, rfl, rfl, le_rfl, h1, h2, h3, ?_⟩
      by_cases he : st.lb = st.ub
      · exact Or.inl he
      · exact Or.inr (fun h => hc ⟨he, h⟩)

/-- The second loop on `lb`: it keeps `lb_pos` in step with `lb` and stops at `iter` or at
an entry that is not left of the window. -/
theorem sweepLb2_spec (pm : MapType) (w : Int) (it fuel : Nat) (st : SweepState)
    (hfuel : it - st.lb ≤ fuel) (h2 : st.lb ≤ it)
    (h3 : st.lb_pos + 1 = (multiCount pm st.lb : Int)) :
    (sweepLb2 pm w it fuel st).sites = st.sites
      ∧ st.lb ≤ (sweepLb2 pm w it fuel st).lb
      ∧ (sweepLb2 pm w it fuel st).lb ≤ it
      ∧ (sweepLb2 pm w it fuel st).lb_pos + 1
          = (multiCount pm (sweepLb2 pm w it fuel st).lb : Int)
      ∧ ((sweepLb2 pm w it fuel st).lb = it
          ∨ ¬ (entryAt pm (sweepLb2 pm w it fuel st).lb).1.cmp (entryAt pm it).1 w < -w) := by
  induction fuel generalizing st with
  | zero =>
    refine ⟨rfl, le_rfl, h2, h3, Or.inl ?_⟩
    show st.lb = it
    omega
  | succ fuel ih =>
    simp only [sweepLb2]
    by_cases hc : st.lb ≠ it ∧ (entryAt pm st.lb).1.cmp (entryAt pm it).1 w < -w
    · rw [if_pos hc]
      obtain ⟨a1, a2, a3, a4, a5⟩ := ih
        { st with lb_pos := if isMultiAt pm st.lb then st.lb_pos + 1 else st.lb_pos
                  lb := st.lb + 1 }
        (by simp only; omega) (by simp only; have := hc.1; omega)
        (by simp only
            rw [multiCount_succ]
            split <;> (push_cast; omega))
      simp only at a1 a2 a3 a4 a5
      exact ⟨a1, by omega, a3, a4, a5⟩
    · rw [if_neg hc]
      refine ⟨rfl, le_rfl, h2, h3, ?_⟩
      by_cases he : st.lb = it
      · exact Or.inl he
      · exact Or.inr (fun h => hc ⟨he, h⟩)

/-- The loop on `ub`: it keeps `ub_pos` in step with `ub` and stops at the end of the map
or at an entry that is right of the window. -/
theorem sweepUb_spec (pm : MapType) (w : Int) (it fuel : Nat) (st : SweepState)
    (hfuel : pm.length - st.ub ≤ fuel) (h1 : st.ub ≤ pm.length)
    (h3 : st.ub_pos + 1 = (multiCount pm st.ub : Int)) :
    (sweepUb pm w it fuel st).lb = st.lb
      ∧ (sweepUb pm w it fuel st).lb_pos = st.lb_pos
      ∧ (sweepUb pm w it fuel st).sites = st.sites
      ∧ st.ub ≤ (sweepUb pm w it fuel st).ub
      ∧ (sweepUb pm w it fuel st).ub ≤ pm.length
      ∧ (sweepUb pm w it fuel st).ub_pos + 1
          = (multiCount pm (sweepUb pm w it fuel st).ub : Int)
      ∧ ((sweepUb pm w it fuel st).ub = pm.length
          ∨ ¬ (entryAt pm (sweepUb pm w it fuel st).ub).1.cmp (entryAt pm it).1 w ≤ w) := by
  induction fuel generalizing st with
  | zero =>
    refine ⟨rfl, rfl, rfl, le_rfl, h1, h3, Or.inl ?_⟩
    show st.ub = pm.length
    omega
  | succ fuel ih =>
    simp only [sweepUb]
    by_cases hc : st.ub ≠ pm.length ∧ (entryAt pm st.ub).1.cmp (entryAt pm it).1 w ≤ w
    · rw [if_pos hc]
      obtain ⟨a1, a2, a3, a4, a5, a6, a7⟩ := ih
        { st with sumc := st.sumc + (entryAt pm st.ub).2.c
                  ub_pos := if isMultiAt pm st.ub then st.ub_pos + 1 else st.ub_pos
                  ub := st.ub + 1 }
        (by simp only; omega) (by simp only; have := hc.1; omega)
        (by simp only
            rw [multiCount_succ]
            split <;> (push_cast; omega))
      simp only at a1 a2 a3 a4 a5 a6 a7
      exact ⟨a1, a2, a3, by omega, a5, a6, a7⟩
    · rw [if_neg hc]
      refine ⟨rfl, rfl, rfl, le_rfl, h1, h3, ?_⟩
      by_cases he : st.ub = pm.length
      · exact Or.inl he
      · exact Or.inr (fun h => hc ⟨he, h⟩)

theorem getD_append_left_site (l : List SiteType) (s : SiteType) (k : Nat) (h : k < l.length) :
    (l ++ [s]).getD k default = l.getD k default := by
  rw [List.getD_eq_getElem?_getD, List.getD_eq_getElem?_getD, List.getElem?_append_left h]

theorem getD_append_last_site (l : List SiteType) (s : SiteType) :
    (l ++ [s]).getD l.length default = s := by
  rw [List.getD_eq_getElem?_getD, List.getElem?_append_right (le_refl _)]
  simp

/-- The body of the sweep keeps the invariant. -/
theorem sweepBody_inv (pm : MapType) (w : Int) (hw : 0 ≤ w) (hs : MapSorted pm) (it : Nat)
    (hit : it < pm.length) (st : SweepState) (hinv : SweepInv pm w it st) :
    SweepInv pm w (it + 1) (sweepBody pm w it st) := by
  obtain ⟨b1, b2, b3, b4, b5, b6, b7, b8⟩ := hinv
  unfold sweepBody
  by_cases hm : isMultiAt pm it = true
  swap
  · rw [if_neg hm]
    refine ⟨b1, b2, by omega, b4, b5, ?_, ?_, b8⟩
    · rw [multiCount_succ, if_neg hm, b6]
      rfl
    · intro k hk
      exact ⟨by have := (b7 k hk).1; omega, (b7 k hk).2⟩
  rw [if_pos hm]
  simp only
  -- the first loop on `lb`
  obtain ⟨a1, a2, a3, a4, a5, a6, a7, a8⟩ := sweepLb1_spec pm w hw it (st.ub - st.lb) st le_rfl
    (by omega) b3 b4
  -- the state after the adjustment of an empty window
  have hst2 : ∃ st2 : SweepState,
      (if (sweepLb1 pm w it (st.ub - st.lb) st).lb = (sweepLb1 pm w it (st.ub - st.lb) st).ub
        then
          { sweepLb2 pm w it (it - (sweepLb1 pm w it (st.ub - st.lb) st).lb)
              (sweepLb1 pm w it (st.ub - st.lb) st) with
            ub := (sweepLb2 pm w it (it - (sweepLb1 pm w it (st.ub - st.lb) st).lb)
              (sweepLb1 pm w it (st.ub - st.lb) st)).lb + 1
            ub_pos := (sweepLb2 pm w it (it - (sweepLb1 pm w it (st.ub - st.lb) st).lb)
                (sweepLb1 pm w it (st.ub - st.lb) st)).lb_pos
              + (if isMultiAt pm (sweepLb2 pm w it
                  (it - (sweepLb1 pm w it (st.ub - st.lb) st).lb)
                  (sweepLb1 pm w it (st.ub - st.lb) st)).lb then 1 else 0)
            sumc := (entryAt pm (sweepLb2 pm w it
              (it - (sweepLb1 pm w it (st.ub - st.lb) st).lb)
              (sweepLb1 pm w it (st.ub - st.lb) st)).lb).2.c }
        else sweepLb1 pm w it (st.ub - st.lb) st) = st2
      ∧ st2.sites = st.sites ∧ st.lb ≤ st2.lb ∧ st2.lb ≤ it ∧ st2.lb < st2.ub
      ∧ st.ub ≤ st2.ub ∧ st2.ub ≤ pm.length
      ∧ st2.lb_pos + 1 = (multiCount pm st2.lb : Int)
      ∧ st2.ub_pos + 1 = (multiCount pm st2.ub : Int)
      ∧ (st2.lb = it ∨ ¬ (entryAt pm st2.lb).1.cmp (entryAt pm it).1 w < -w) := by
    by_cases he : (sweepLb1 pm w it (st.ub - st.lb) st).lb
        = (sweepLb1 pm w it (st.ub - st.lb) st).ub
    · rw [if_pos he]
      obtain ⟨c1, c2, c3, c4, c5⟩ := sweepLb2_spec pm w it
        (it - (sweepLb1 pm w it (st.ub - st.lb) st).lb)
        (sweepLb1 pm w it (st.ub - st.lb) st) le_rfl a6 a7
      refine ⟨_, rfl, ?_, ?_, ?_, ?_, ?_, ?_, ?_, ?_, ?_⟩
      · exact c1.trans a3
      · simp only
        omega
      · exact c3
      · simp only
        omega
      · simp only
        rw [a1] at he
        omega
      · simp only
        omega
      · exact c4
      · simp only
        rw [multiCount_succ]
        split <;> (push_cast; omega)
      · exact c5
    · rw [if_neg he]
      refine ⟨_, rfl, a3, a4, a6, ?_, ?_, ?_, a7, ?_, ?_⟩
      · rw [a1] at he ⊢
        omega
      · rw [a1]
      · rw [a1]
        exact b2
      · rw [a1, a2]
        exact b5
      · rcases a8 with h | h
        · rw [a1] at he
          exact absurd h he
        · exact Or.inr h
  obtain ⟨st2, hst2eq, d1, d2, d3, d4, d5, d6, d7, d8, d9⟩ := hst2
  rw [hst2eq]
  -- the loop on `ub`
  obtain ⟨u1, u2, u3, u4, u5, u6, u7⟩ := sweepUb_spec pm w it (pm.length - st2.ub) st2 le_rfl
    d6 d8
  have hub : it < (sweepUb pm w it (pm.length - st2.ub) st2).ub := by
    by_contra hle
    rcases u7 with h | h
    · omega
    · apply h
      have := keyCmp_nonpos _ _ w hw (mapSorted_index_le pm hs
        (sweepUb pm w it (pm.length - st2.ub) st2).ub it (by omega) hit)
      omega
  have hk : (multiCount pm it : Int) + 1
      ≤ (multiCount pm (sweepUb pm w it (pm.length - st2.ub) st2).ub : Int) := by
    have h1 := multiCount_mono pm (it + 1) _ hub
    rw [multiCount_succ, if_pos hm] at h1
    exact_mod_cast h1
  have hlbm : (multiCount pm st.lb : Int) ≤ (multiCount pm st2.lb : Int) := by
    exact_mod_cast multiCount_mono pm _ _ d2
  have hubm : (multiCount pm st.ub : Int)
      ≤ (multiCount pm (sweepUb pm w it (pm.length - st2.ub) st2).ub : Int) := by
    exact_mod_cast multiCount_mono pm _ _ (le_trans d5 u4)
  have hlbit : (multiCount pm st2.lb : Int) ≤ (multiCount pm it : Int) := by
    exact_mod_cast multiCount_mono pm _ _ d3
  have hublen : (multiCount pm (sweepUb pm w it (pm.length - st2.ub) st2).ub : Int)
      ≤ (multiCount pm pm.length : Int) := by
    exact_mod_cast multiCount_mono pm _ _ u5
  have hsl : (sweepUb pm w it (pm.length - st2.ub) st2).sites = st.sites := u3.trans d1
  refine ⟨?_, u5, ?_, ?_, u6, ?_, ?_, ?_⟩
  · simp only
    rw [u1]
    omega
  · simp only
    rw [u1]
    omega
  · simp only
    rw [u2, u1]
    exact d7
  · simp only
    rw [hsl, List.length_append, List.length_singleton, multiCount_succ, if_pos hm, b6]
  · intro k hk2
    simp only at hk2 ⊢
    rw [hsl] at hk2 ⊢
    rw [List.length_append, List.length_singleton] at hk2
    by_cases hlt : k < st.sites.length
    · obtain ⟨e0, e1, e2, e3, e4, e5, e6, e7, e8, e9, e10, e11⟩ := b7 k hlt
      rw [getD_append_left_site _ _ _ hlt]
      refine ⟨by omega, ?_⟩
      unfold SiteOK
      rw [getD_append_left_site _ _ _ hlt]
      refine ⟨e1, e2, e3, e4, e5, e6, e7, ?_, ?_, ?_, ?_⟩
      · rw [u2]
        omega
      · omega
      · obtain ⟨ubk, f1, f2, f3, f4⟩ := e10
        exact ⟨ubk, f1, by omega, f3, f4⟩
      · intro b hb hr
        rw [getD_append_left_site _ _ _ (by omega)] at hr
        exact e11 b hb hr
    · have hkeq : k = st.sites.length := by omega
      subst hkeq
      rw [getD_append_last_site]
      refine ⟨by simp only; omega, ?_⟩
      unfold SiteOK
      rw [getD_append_last_site]
      simp only
      refine ⟨hit, hm, b6.symm, ?_, ?_, ?_, ?_, le_rfl, le_rfl, ?_, ?_⟩
      · rw [u2]
        omega
      · rw [u2, b6]
        omega
      · rw [b6]
        omega
      · omega
      · exact ⟨_, hub, le_rfl, u6, u7⟩
      · intro b hb hr
        rw [getD_append_left_site _ _ _ hb] at hr
        obtain ⟨e0, e1, e2, e3, e4, e5, e6, e7, e8, e9, e10, e11⟩ := b7 b hb
        obtain ⟨ubb, f1, f2, f3, f4⟩ := e10
        have hvb : (multiCount pm ((st.sites.getD b default).v + 1) : Int) = (b : Int) + 1 := by
          rw [multiCount_succ, if_pos e2, e3]
          push_cast
          rfl
        have hubb : ubb ≤ it := by
          by_contra hgt
          have h1 := multiCount_mono pm (it + 1) ubb (by omega)
          have h2 := multiCount_mono pm ((st.sites.getD b default).v + 1) it (by omega)
          rw [multiCount_succ, if_pos hm] at h1
          have h1' : (multiCount pm it : Int) + 1 ≤ (multiCount pm ubb : Int) := by
            exact_mod_cast h1
          have h2' : (multiCount pm ((st.sites.getD b default).v + 1) : Int)
              ≤ (multiCount pm it : Int) := by exact_mod_cast h2
          omega
        have hfar : (entryAt pm ubb).1.cmp (entryAt pm (st.sites.getD b default).v).1 w > w := by
          rcases f4 with h | h
          · omega
          · omega
        rw [u2, d7]
        by_contra hcon
        have hlb : st2.lb ≤ (st.sites.getD b default).v := by
          by_contra hgt
          have h1 := multiCount_mono pm ((st.sites.getD b default).v + 1) st2.lb (by omega)
          have h1' : (multiCount pm ((st.sites.getD b default).v + 1) : Int)
              ≤ (multiCount pm st2.lb : Int) := by exact_mod_cast h1
          omega
        have hcmp := keyCmp_far (entryAt pm st2.lb).1 (entryAt pm (st.sites.getD b default).v).1
          (entryAt pm ubb).1 (entryAt pm it).1 w hw
          (mapSorted_index_le pm hs _ _ hlb e1)
          (mapSorted_index pm hs _ _ f1 (by omega))
          (mapSorted_index_le pm hs _ _ hubb hit) hfar
        rcases d9 with h | h
        · omega
        · exact h hcmp
  · intro k hk2
    simp only at hk2 ⊢
    rw [hsl] at hk2 ⊢
    rw [List.length_append, List.length_singleton] at hk2
    rw [getD_append_left_site _ _ _ (by omega)]
    by_cases hlt : k + 1 < st.sites.length
    · rw [getD_append_left_site _ _ _ hlt]
      exact b8 k hlt
    · have hkeq : k + 1 = st.sites.length := by omega
      rw [hkeq, getD_append_last_site]
      obtain ⟨e0, e1, e2, e3, e4, e5, e6, e7, e8, e9, e10, e11⟩ := b7 k (by omega)
      simp only
      rw [u2]
      constructor <;> omega

theorem sweepLoop_inv (pm : MapType) (w : Int) (hw : 0 ≤ w) (hs : MapSorted pm) (n : Nat)
    (hn : n ≤ pm.length) (st : SweepState) (hinv : SweepInv pm w 0 st) :
    SweepInv pm w n (sweepLoop pm w n st) := by
  induction n with
  | zero => exact hinv
  | succ n ih =>
    simp only [sweepLoop]
    exact sweepBody_inv pm w hw hs n (by omega) _ (ih (by omega))

/-- The windows `computeSites` produces, for a sorted non-empty map and `w >= 0`. -/
theorem computeSites_spec (pm : MapType) (w : Int) (hw : 0 ≤ w) (hs : MapSorted pm)
    (hne : 0 < pm.length) :
    ∃ sites, computeSites pm w = some sites ∧ WindowsOK pm sites := by
  have hinit : SweepInv pm w 0
      { lb := 0, ub := 1, lb_pos := -1, ub_pos := if isMultiAt pm 0 then 0 else -1,
        sumc := (entryAt pm 0).2.c, sites := [] } := by
    refine ⟨by simp, by simpa using hne, le_rfl, ?_, ?_, ?_, ?_, ?_⟩
    · simp [multiCount]
    · simp only
      have := multiCount_succ pm 0
      simp only [Nat.zero_add] at this
      rw [this]
      have h0 : multiCount pm 0 = 0 := by simp [multiCount]
      rw [h0]
      split <;> simp
    · simp [multiCount]
    · intro k hk
      simp at hk
    · intro k hk
      simp at hk
  obtain ⟨b1, b2, b3, b4, b5, b6, b7, b8⟩ := sweepLoop_inv pm w hw hs pm.length le_rfl _ hinit
  refine ⟨_, ?_, b6, ?_, b8⟩
  · unfold computeSites
    rw [if_neg (by omega)]
  · intro k hk
    obtain ⟨-, e1, e2, e3, e4, e5, e6, e7, -, -, -, e11⟩ := b7 k hk
    refine ⟨e1, e2, e3, e4, e5, e6, ?_, e11⟩
    rw [b6]
    omega

/-! ## Lemmas on the MS-step partition -/

theorem blockScan_spec (pm : MapType) (sites : List SiteType) (sgn : Int) (fuel : Nat)
    (st : Nat × Int) (hfuel : sites.length - st.1 ≤ fuel) (hlt : st.1 < sites.length)
    (hlast : (sites.getD (sites.length - 1) default).right = ((sites.length - 1 : Nat) : Int)) :
    st.1 ≤ (blockScan pm sites sgn fuel st).1
      ∧ (blockScan pm sites sgn fuel st).1 < sites.length
      ∧ (sites.getD (blockScan pm sites sgn fuel st).1 default).right
          = ((blockScan pm sites sgn fuel st).1 : Int)
      ∧ (blockScan pm sites sgn fuel st).2
          = st.2 + sgn * (sizePrefix pm sites (blockScan pm sites sgn fuel st).1
              - sizePrefix pm sites st.1) := by
  induction fuel generalizing st with
  | zero => omega
  | succ fuel ih =>
    simp only [blockScan]
    by_cases hc : st.1 < sites.length ∧ (sites.getD st.1 default).right ≠ (st.1 : Int)
    · rw [if_pos hc]
      have hne : st.1 ≠ sites.length - 1 := by
        intro h
        apply hc.2
        rw [h]
        exact hlast
      obtain ⟨a1, a2, a3, a4⟩ := ih (st.1 + 1, st.2 + sgn * siteSize pm sites st.1)
        (by simp only; omega) (by simp only; omega)
      simp only at a1 a2 a3 a4
      refine ⟨by omega, a2, a3, ?_⟩
      rw [a4]
      simp only [sizePrefix]
      ring
    · rw [if_neg hc]
      refine ⟨le_rfl, hlt, ?_, by ring⟩
      by_contra h
      exact hc ⟨hlt, h⟩

theorem takeBlock_spec (pm : MapType) (sites : List SiteType) (sgn : Int) (st : Nat × Int)
    (hlt : st.1 < sites.length)
    (hlast : (sites.getD (sites.length - 1) default).right = ((sites.length - 1 : Nat) : Int)) :
    ∃ b, takeBlock pm sites sgn st = some b ∧ st.1 < b.1 ∧ isCut sites b.1
      ∧ b.2 = st.2 + sgn * (sizePrefix pm sites b.1 - sizePrefix pm sites st.1) := by
  obtain ⟨a1, a2, a3, a4⟩ := blockScan_spec pm sites sgn (sites.length - st.1) st le_rfl hlt hlast
  unfold takeBlock
  simp only
  rw [if_pos a2]
  refine ⟨_, rfl, by simp only; omega, ⟨by simp only; omega, Or.inr ?_⟩, ?_⟩
  · simp only [Nat.add_sub_cancel]
    exact a3
  · simp only
    rw [a4]
    simp only [sizePrefix]
    ring

/-- The loop that takes whole blocks while `left` is above the quota. -/
theorem msScan_spec (pm : MapType) (sites : List SiteType) (total lim : Int) (c0 fuel : Nat)
    (hlast : (sites.getD (sites.length - 1) default).right = ((sites.length - 1 : Nat) : Int))
    (st : MSPart) (hfuel : sites.length - st.cs ≤ fuel) (hcut : isCut sites st.cs)
    (hleft : st.left = total - sizePrefix pm sites st.cs) (hc0 : c0 ≤ st.cs)
    (hps : PsOK pm sites c0 st) :
    ∃ st2, msScan pm sites lim fuel st = some st2 ∧ st.cs ≤ st2.cs ∧ isCut sites st2.cs
      ∧ st2.left = total - sizePrefix pm sites st2.cs ∧ st2.ns = st.ns
      ∧ ¬ (st2.cs < sites.length ∧ st2.left > lim) ∧ PsOK pm sites c0 st2 := by
  induction fuel generalizing st with
  | zero =>
    refine ⟨st, rfl, le_rfl, hcut, hleft, rfl, ?_, hps⟩
    have := hcut.1
    omega
  | succ fuel ih =>
    simp only [msScan]
    by_cases hc : st.cs < sites.length ∧ st.left > lim
    · rw [if_pos hc]
      obtain ⟨b, hb, b1, b2, b3⟩ := takeBlock_spec pm sites 1 (st.cs, 0) hc.1 hlast
      rw [hb]
      simp only at b1 b3 ⊢
      obtain ⟨st2, e0, e1, e2, e3, e4, e5, e6⟩ := ih
        { st with ps := (st.cs : Int), cs := b.1, psum := b.2, left := st.left - b.2 }
        (by simp only; omega) b2
        (by simp only; rw [hleft, b3]; ring) (by simp only; omega)
        (Or.inr ⟨by simp only; omega, by simp only [Int.toNat_ofNat]; exact hc0,
          by simp only [Int.toNat_ofNat]; exact b1,
          by simp only [Int.toNat_ofNat]; exact hcut,
          by simp only [Int.toNat_ofNat]; rw [b3]; ring⟩)
      simp only at e1 e4
      exact ⟨st2, e0, by omega, e2, e3, e4, e5, e6⟩
    · rw [if_neg hc]
      exact ⟨st, rfl, le_rfl, hcut, hleft, rfl, hc, hps⟩

/-- One thread of the MS-step partition: no assertion fails, the invariant is kept, the
range is not empty unless the sites are exhausted, and a thread with quota 0 takes all the
sites when every site has a cell and `total` is the number of cells. -/
theorem msThread_spec (pm : MapType) (sites : List SiteType) (total lim : Int)
    (hlast : (sites.getD (sites.length - 1) default).right = ((sites.length - 1 : Nat) : Int))
    (st : MSPart) (hinv : MSInv pm sites total st) :
    ∃ st2, msThread pm sites lim st = some st2 ∧ MSInv pm sites total st2
      ∧ st.cs ≤ st2.cs
      ∧ (lim = 0 → total = sizePrefix pm sites sites.length →
          (∀ c, c < sites.length → sizePrefix pm sites c < sizePrefix pm sites sites.length) →
          (∀ a b, a ≤ b → sizePrefix pm sites a ≤ sizePrefix pm sites b) →
          st2.cs = sites.length) := by
  obtain ⟨h1, h2, h3⟩ := hinv
  unfold msThread
  by_cases hend : st.cs = sites.length
  · rw [if_pos hend]
    exact ⟨st, rfl, ⟨h1, h2, h3⟩, le_rfl, fun _ _ _ _ => hend⟩
  rw [if_neg hend]
  have hlt : st.cs < sites.length := by
    have := h1.1
    omega
  -- the first block of the thread
  have hfirst : ∃ st1 : MSPart,
      (if st.ns ≥ 0 then
          some { st with left := st.left - st.psum, cs := st.ns.toNat, ns := -1 }
        else
          match takeBlock pm sites (-1) (st.cs, st.left) with
          | none => none
          | some b => some { st with cs := b.1, left := b.2 }) = some st1
        ∧ st.cs < st1.cs ∧ isCut sites st1.cs
        ∧ st1.left = total - sizePrefix pm sites st1.cs ∧ st1.ns < 0 := by
    by_cases hns : st.ns ≥ 0
    · rw [if_pos hns]
      obtain ⟨n1, n2, n3⟩ := h3 hns
      exact ⟨_, rfl, n2, n1, by simp only; rw [h2, n3]; ring, by simp only; omega⟩
    · rw [if_neg hns]
      obtain ⟨b, hb, b1, b2, b3⟩ := takeBlock_spec pm sites (-1) (st.cs, st.left) hlt hlast
      rw [hb]
      simp only at b1 b3 ⊢
      exact ⟨_, rfl, b1, b2, by simp only; rw [b3, h2]; ring, by simp only; omega⟩
  obtain ⟨st1, hst1, f1, f2, f3, f4⟩ := hfirst
  simp only
  rw [hst1]
  simp only
  obtain ⟨st2, e0, e1, e2, e3, e4, e5, e6⟩ := msScan_spec pm sites total lim st1.cs
    (sites.length - st1.cs) hlast { st1 with ps := -1 } le_rfl f2 f3 le_rfl (Or.inl rfl)
  rw [e0]
  simp only at e1 e4 ⊢
  by_cases hback : st2.ps ≥ 0 ∧ st2.left + st2.psum - lim < lim - st2.left
  · rw [if_pos hback]
    rcases e6 with h | ⟨g1, g2, g3, g4, g5⟩
    · omega
    · refine ⟨_, rfl, ⟨g4, ?_, ?_⟩, by simp only; omega, ?_⟩
      · simp only
        rw [e3, g5]
        ring
      · intro _
        simp only [Int.toNat_ofNat]
        exact ⟨e2, g3, g5⟩
      · intro hl htot hpos hmono
        exfalso
        have hcs : st2.cs = sites.length := by
          by_contra hne
          have hlt2 : st2.cs < sites.length := by
            have := e2.1
            omega
          have := hpos st2.cs hlt2
          exact e5 ⟨hlt2, by rw [e3, htot, hl]; omega⟩
        have := hmono st2.ps.toNat st2.cs (by omega)
        have hb2 := hback.2
        rw [e3, htot, hcs] at hb2
        rw [hcs] at g5 this
        omega
  · rw [if_neg hback]
    refine ⟨st2, rfl, ⟨e2, e3, ?_⟩, by omega, ?_⟩
    · intro hns
      rw [e4] at hns
      omega
    · intro hl htot hpos hmono
      by_contra hne
      have hlt2 : st2.cs < sites.length := by
        have := e2.1
        omega
      have := hpos st2.cs hlt2
      exact e5 ⟨hlt2, by rw [e3, htot, hl]; omega⟩

theorem msPartition_spec (pm : MapType) (sites : List SiteType) (total : Int)
    (hlast : (sites.getD (sites.length - 1) default).right = ((sites.length - 1 : Nat) : Int))
    (lefts : List Int) (st : MSPart) (hinv : MSInv pm sites total st) :
    ∃ ranges, msPartition pm sites lefts st = some ranges
      ∧ ranges.length = lefts.length
      ∧ (∀ i, i < lefts.length →
          (ranges.getD i default).1 ≤ (ranges.getD i default).2
            ∧ isCut sites (ranges.getD i default).1 ∧ isCut sites (ranges.getD i default).2)
      ∧ (0 < lefts.length → (ranges.getD 0 default).1 = st.cs)
      ∧ (∀ i, i + 1 < lefts.length →
          (ranges.getD (i + 1) default).1 = (ranges.getD i default).2)
      ∧ (0 < lefts.length → lefts.getD (lefts.length - 1) 0 = 0 →
          total = sizePrefix pm sites sites.length →
          (∀ c, c < sites.length → sizePrefix pm sites c < sizePrefix pm sites sites.length) →
          (∀ a b, a ≤ b → sizePrefix pm sites a ≤ sizePrefix pm sites b) →
          (ranges.getD (lefts.length - 1) default).2 = sites.length) := by
  induction lefts generalizing st with
  | nil => exact ⟨[], rfl, rfl, by simp, by simp, by simp, by simp⟩
  | cons lim rest ih =>
    obtain ⟨st1, t0, t1, t2, t3⟩ := msThread_spec pm sites total lim hlast st hinv
    obtain ⟨ranges, r0, r1, r2, r3, r4, r5⟩ := ih st1 t1
    simp only [msPartition]
    rw [t0]
    simp only
    rw [r0]
    refine ⟨_, rfl, by simp [r1], ?_, by simp, ?_, ?_⟩
    · intro i hi
      cases i with
      | zero =>
        simp only [List.getD_cons_zero]
        exact ⟨t2, hinv.1, t1.1⟩
      | succ i =>
        simp only [List.getD_cons_succ]
        exact r2 i (by simpa using hi)
    · intro i hi
      cases i with
      | zero =>
        simp only [List.getD_cons_succ, List.getD_cons_zero]
        exact r3 (by simpa using hi)
      | succ i =>
        simp only [List.getD_cons_succ]
        exact r4 i (by simpa using hi)
    · intro _ hl htot hpos hmono
      cases rest with
      | nil =>
        simp only [List.length_singleton, Nat.sub_self, List.getD_cons_zero] at hl ⊢
        exact t3 hl htot hpos hmono
      | cons lim2 rest2 =>
        have := r5 (by simp) (by simpa using hl) htot hpos hmono
        simpa using this

theorem windows_last (pm : MapType) (sites : List SiteType) (hwin : WindowsOK pm sites) :
    (sites.getD (sites.length - 1) default).right = ((sites.length - 1 : Nat) : Int) := by
  by_cases h : sites.length = 0
  · have : sites = [] := List.length_eq_zero.mp h
    rw [this]
    rfl
  · obtain ⟨-, -, -, -, -, h6, h7, -⟩ := hwin.2.1 (sites.length - 1) (by omega)
    omega

theorem windows_right_mono (pm : MapType) (sites : List SiteType) (hwin : WindowsOK pm sites)
    (i j : Nat) (hij : i ≤ j) (hj : j < sites.length) :
    (sites.getD i default).right ≤ (sites.getD j default).right := by
  induction j with
  | zero =>
    have : i = 0 := by omega
    rw [this]
  | succ j ih =>
    by_cases h : i = j + 1
    · rw [h]
    · exact le_trans (ih (by omega) (by omega)) (hwin.2.2 j hj).2

/-- A range between two cuts is self-contained: the windows of its sites stay inside. -/
theorem cut_self_contained (pm : MapType) (sites : List SiteType) (hwin : WindowsOK pm sites)
    (ss es k : Nat) (hss : isCut sites ss) (hes : isCut sites es) (h1 : ss ≤ k) (h2 : k < es) :
    (ss : Int) ≤ (sites.getD k default).left ∧ (sites.getD k default).right < (es : Int) := by
  have hk : k < sites.length := by
    have := hes.1
    omega
  obtain ⟨-, -, -, w4, -, -, -, w8⟩ := hwin.2.1 k hk
  constructor
  · rcases hss.2 with h | h
    · rw [h]
      exact_mod_cast w4
    · by_cases hz : ss = 0
      · rw [hz]
        exact_mod_cast w4
      · have := w8 (ss - 1) (by omega) h
        omega
  · rcases hes.2 with h | h
    · omega
    · have := windows_right_mono pm sites hwin k (es - 1) (by omega) (by have := hes.1; omega)
      omega

theorem sizePrefix_mono (pm : MapType) (sites : List SiteType) (a b : Nat) (h : a ≤ b) :
    sizePrefix pm sites a ≤ sizePrefix pm sites b := by
  induction b with
  | zero =>
    have : a = 0 := by omega
    rw [this]
  | succ b ih =>
    by_cases hab : a = b + 1
    · rw [hab]
    · have := ih (by omega)
      simp only [sizePrefix]
      have hnn : 0 ≤ siteSize pm sites b := by
        unfold siteSize
        exact Int.ofNat_nonneg _
      omega

theorem siteSize_pos (pm : MapType) (sites : List SiteType) (hwin : WindowsOK pm sites)
    (k : Nat) (hk : k < sites.length) : 1 ≤ siteSize pm sites k := by
  obtain ⟨-, h2, -⟩ := hwin.2.1 k hk
  unfold isMultiAt at h2
  unfold siteSize
  have : 0 < (entryAt pm (sites.getD k default).v).2.aligns.length := by simpa using h2
  exact_mod_cast this

theorem sizePrefix_lt (pm : MapType) (sites : List SiteType) (hwin : WindowsOK pm sites)
    (c : Nat) (hc : c < sites.length) :
    sizePrefix pm sites c < sizePrefix pm sites sites.length := by
  have h1 := sizePrefix_mono pm sites (c + 1) sites.length (by omega)
  have h2 := siteSize_pos pm sites hwin c hc
  simp only [sizePrefix] at h1
  omega

theorem cellsBefore_cons (e : KeyType × ValueType) (pm : MapType) (j : Nat) :
    cellsBefore (e :: pm) (j + 1) = e.2.aligns.length + cellsBefore pm j := by
  induction j with
  | zero => simp [cellsBefore, entryAt]
  | succ j ih =>
    have : cellsBefore (e :: pm) (j + 1 + 1)
        = cellsBefore (e :: pm) (j + 1) + (entryAt (e :: pm) (j + 1)).2.aligns.length := rfl
    rw [this, ih]
    simp only [cellsBefore, entryAt, List.getD_cons_succ]
    omega

theorem cellsBefore_length (pm : MapType) :
    cellsBefore pm pm.length = (pm.map (fun e => e.2.aligns.length)).sum := by
  induction pm with
  | nil => rfl
  | cons e pm ih =>
    simp only [List.length_cons, cellsBefore_cons, ih, List.map_cons, List.sum_cons]

/-- The site with index `multiCount pm j` is the multi-read entry `j`. -/
theorem windows_site_of_entry (pm : MapType) (sites : List SiteType)
    (hwin : WindowsOK pm sites) (j : Nat) (hj : j < pm.length) (hm : isMultiAt pm j = true) :
    multiCount pm j < sites.length ∧ (sites.getD (multiCount pm j) default).v = j := by
  have hlt : multiCount pm j < sites.length := by
    have h1 := multiCount_mono pm (j + 1) pm.length (by omega)
    rw [multiCount_succ, if_pos hm] at h1
    rw [hwin.1]
    omega
  refine ⟨hlt, ?_⟩
  obtain ⟨-, h2, h3, -⟩ := hwin.2.1 (multiCount pm j) hlt
  by_contra hne
  rcases Nat.lt_or_gt_of_ne hne with h | h
  · have h1 := multiCount_mono pm ((sites.getD (multiCount pm j) default).v + 1) j (by omega)
    rw [multiCount_succ, if_pos h2, h3] at h1
    omega
  · have h1 := multiCount_mono pm (j + 1) (sites.getD (multiCount pm j) default).v (by omega)
    rw [multiCount_succ, if_pos hm, h3] at h1
    omega

theorem cellsBefore_eq_sizePrefix (pm : MapType) (sites : List SiteType)
    (hwin : WindowsOK pm sites) (j : Nat) (hj : j ≤ pm.length) :
    (cellsBefore pm j : Int) = sizePrefix pm sites (multiCount pm j) := by
  induction j with
  | zero => simp [cellsBefore, multiCount, sizePrefix]
  | succ j ih =>
    simp only [cellsBefore]
    rw [multiCount_succ]
    push_cast
    rw [ih (by omega)]
    by_cases hm : isMultiAt pm j = true
    · rw [if_pos hm]
      obtain ⟨-, hv⟩ := windows_site_of_entry pm sites hwin j (by omega) hm
      simp only [sizePrefix, siteSize, hv]
    · rw [if_neg hm]
      have : (entryAt pm j).2.aligns.length = 0 := by
        unfold isMultiAt at hm
        simpa using hm
      rw [this]
      simp

theorem sizePrefix_total (pm : MapType) (sites : List SiteType) (hwin : WindowsOK pm sites) :
    sizePrefix pm sites sites.length
      = (((pm.map (fun e => e.2.aligns.length)).sum : Nat) : Int) := by
  rw [← cellsBefore_length, cellsBefore_eq_sizePrefix pm sites hwin pm.length le_rfl, hwin.1]

theorem MSInv_init (pm : MapType) (sites : List SiteType) (n_mhits : Nat) :
    MSInv pm sites (n_mhits : Int)
      { cs := 0, ps := -1, ns := -1, psum := 0, left := (n_mhits : Int) } := by
  refine ⟨⟨Nat.zero_le _, Or.inl rfl⟩, ?_, ?_⟩
  · simp [sizePrefix]
  · intro h
    simp at h

/-- What `distributeTasks` returns, for a sorted non-empty map and `w >= 0`: no assertion
fails, the windows are as analysed, and the MS ranges form a chain of cuts from 0 that
ends at `n_msites` when `n_mhits` is the number of weight cells. -/
theorem distributeTasks_spec (pm : MapType) (multis : List MultiType)
    (n_mhits num_threads : Nat) (w : Int) (hw : 0 ≤ w) (hs : MapSorted pm)
    (hne : 0 < pm.length) :
    ∃ t, distributeTasks pm multis n_mhits num_threads w = some t
      ∧ WindowsOK pm t.sites
      ∧ t.msRanges.length = num_threads
      ∧ (∀ i, i < num_threads →
          (t.msRanges.getD i default).1 ≤ (t.msRanges.getD i default).2
            ∧ isCut t.sites (t.msRanges.getD i default).1
            ∧ isCut t.sites (t.msRanges.getD i default).2)
      ∧ (0 < num_threads → (t.msRanges.getD 0 default).1 = 0)
      ∧ (∀ i, i + 1 < num_threads →
          (t.msRanges.getD (i + 1) default).1 = (t.msRanges.getD i default).2)
      ∧ (0 < num_threads → (pm.map (fun e => e.2.aligns.length)).sum = n_mhits →
          (t.msRanges.getD (num_threads - 1) default).2 = t.sites.length) := by
  obtain ⟨sites, hsites, hwin⟩ := computeSites_spec pm w hw hs hne
  have hlast := windows_last pm sites hwin
  have hlen := computeLefts_length n_mhits num_threads
  obtain ⟨ranges, r0, r1, r2, r3, r4, r5⟩ := msPartition_spec pm sites (n_mhits : Int) hlast
    (computeLefts n_mhits num_threads) _ (MSInv_init pm sites n_mhits)
  rw [hlen] at r1 r2 r3 r4 r5
  refine ⟨⟨distributeE multis n_mhits num_threads, sites, ranges⟩, ?_, hwin, r1, r2, r3, r4, ?_⟩
  · unfold distributeTasks distributeMS
    rw [hsites]
    simp only
    rw [r0]
  · intro hT htot
    simp only
    apply r5 hT (computeLefts_last n_mhits num_threads hT)
    · rw [sizePrefix_total pm sites hwin, htot]
    · exact sizePrefix_lt pm sites hwin
    · exact sizePrefix_mono pm sites

/-! ## Claim C4 -/

/-- C4: MS-step self-containment.  For the site metadata and the site ranges `[ss_i, es_i)`
both produced by `distributeTasks` (on a sorted non-empty position map, with window radius
`w >= 0`, where it does return), for every thread `i` and every site index `k` with
`ss_i <= k < es_i`, `ss_i <= sites[k].left` and `sites[k].right < es_i`. -/
theorem C4_msstep_self_containment (pm : MapType) (multis : List MultiType)
    (n_mhits num_threads : Nat) (w : Int) (hw : 0 ≤ w) (hs : MapSorted pm)
    (hne : 0 < pm.length) :
    ∃ t, distributeTasks pm multis n_mhits num_threads w = some t
      ∧ ∀ i, i < num_threads → ∀ k, (t.msRanges.getD i default).1 ≤ k →
          k < (t.msRanges.getD i default).2 →
          ((t.msRanges.getD i default).1 : Int) ≤ (t.sites.getD k default).left
            ∧ (t.sites.getD k default).right < ((t.msRanges.getD i default).2 : Int) := by
  obtain ⟨t, h0, hwin, -, h2, -, -, -⟩ :=
    distributeTasks_spec pm multis n_mhits num_threads w hw hs hne
  refine ⟨t, h0, ?_⟩
  intro i hi k hk1 hk2
  obtain ⟨-, c1, c2⟩ := h2 i hi
  exact cut_self_contained pm t.sites hwin _ _ k c1 c2 hk1 hk2

/-! ## Claim C5 -/

/-- C5: the MS-step partition is a contiguous, exhaustive, non-overlapping cover that obeys
the boundary rule.  For every `num_threads >= 1`, on a sorted non-empty position map with
window radius `w >= 0` whose weight cells total `n_mhits` (the sites being the entries with
at least one cell), `distributeTasks` returns `num_threads` ranges `[ss_i, es_i)` with
`ss_0 = 0`, `ss_i <= es_i`, `ss_(i+1) = es_i`, `es_(num_threads-1) = n_msites`, and every
non-empty range ends right after a site `k = es_i - 1` with `sites[k].right = k`. -/
theorem C5_mspartition_cover (pm : MapType) (multis : List MultiType)
    (n_mhits num_threads : Nat) (w : Int) (hT : 1 ≤ num_threads) (hw : 0 ≤ w)
    (hs : MapSorted pm) (hne : 0 < pm.length)
    (htot : (pm.map (fun e => e.2.aligns.length)).sum = n_mhits) :
    ∃ t, distributeTasks pm multis n_mhits num_threads w = some t
      ∧ t.msRanges.length = num_threads
      ∧ (t.msRanges.getD 0 default).1 = 0
      ∧ (∀ i, i < num_threads →
          (t.msRanges.getD i default).1 ≤ (t.msRanges.getD i default).2)
      ∧ (∀ i, i + 1 < num_threads →
          (t.msRanges.getD (i + 1) default).1 = (t.msRanges.getD i default).2)
      ∧ (t.msRanges.getD (num_threads - 1) default).2 = t.sites.length
      ∧ (∀ i, i < num_threads →
          (t.msRanges.getD i default).1 < (t.msRanges.getD i default).2 →
          (t.sites.getD ((t.msRanges.getD i default).2 - 1) default).right
            = (((t.msRanges.getD i default).2 - 1 : Nat) : Int)) := by
  obtain ⟨t, h0, hwin, h1, h2, h3, h4, h5⟩ :=
    distributeTasks_spec pm multis n_mhits num_threads w hw hs hne
  refine ⟨t, h0, h1, h3 (by omega), fun i hi => (h2 i hi).1, h4, h5 (by omega) htot, ?_⟩
  intro i hi hlt
  obtain ⟨-, -, c2⟩ := h2 i hi
  rcases c2.2 with h | h
  · omega
  · exact h

/-- Witness of C4: a map with seven entries, five of them multi-read sites, window radius 3
and two threads. -/
theorem C4_msstep_self_containment_witness :
    ∃ t, distributeTasks
        [(⟨'+', 1, 1⟩, ⟨2, 0, [0]⟩), (⟨'+', 1, 3⟩, ⟨1, 0, []⟩), (⟨'+', 1, 4⟩, ⟨0, 0, [1, 2]⟩),
          (⟨'+', 1, 10⟩, ⟨5, 0, [3]⟩), (⟨'-', 1, 10⟩, ⟨0, 0, [4]⟩), (⟨'+', 2, 1⟩, ⟨7, 0, []⟩),
          (⟨'+', 2, 2⟩, ⟨0, 0, [5]⟩)] [] 6 2 3 = some t
      ∧ ∀ i, i < 2 → ∀ k, (t.msRanges.getD i default).1 ≤ k →
          k < (t.msRanges.getD i default).2 →
          ((t.msRanges.getD i default).1 : Int) ≤ (t.sites.getD k default).left
            ∧ (t.sites.getD k default).right < ((t.msRanges.getD i default).2 : Int) :=
  C4_msstep_self_containment
    [(⟨'+', 1, 1⟩, ⟨2, 0, [0]⟩), (⟨'+', 1, 3⟩, ⟨1, 0, []⟩), (⟨'+', 1, 4⟩, ⟨0, 0, [1, 2]⟩),
      (⟨'+', 1, 10⟩, ⟨5, 0, [3]⟩), (⟨'-', 1, 10⟩, ⟨0, 0, [4]⟩), (⟨'+', 2, 1⟩, ⟨7, 0, []⟩),
      (⟨'+', 2, 2⟩, ⟨0, 0, [5]⟩)] [] 6 2 3 (by decide) (by unfold MapSorted; decide) (by decide)

/-- Witness of C5: the same map, whose weight cells total 6. -/
theorem C5_mspartition_cover_witness :
    ∃ t, distributeTasks
        [(⟨'+', 1, 1⟩, ⟨2, 0, [0]⟩), (⟨'+', 1, 3⟩, ⟨1, 0, []⟩), (⟨'+', 1, 4⟩, ⟨0, 0, [1, 2]⟩),
          (⟨'+', 1, 10⟩, ⟨5, 0, [3]⟩), (⟨'-', 1, 10⟩, ⟨0, 0, [4]⟩), (⟨'+', 2, 1⟩, ⟨7, 0, []⟩),
          (⟨'+', 2, 2⟩, ⟨0, 0, [5]⟩)] [] 6 2 3 = some t
      ∧ t.msRanges.length = 2
      ∧ (t.msRanges.getD 0 default).1 = 0
      ∧ (∀ i, i < 2 → (t.msRanges.getD i default).1 ≤ (t.msRanges.getD i default).2)
      ∧ (∀ i, i + 1 < 2 → (t.msRanges.getD (i + 1) default).1 = (t.msRanges.getD i default).2)
      ∧ (t.msRanges.getD (2 - 1) default).2 = t.sites.length
      ∧ (∀ i, i < 2 → (t.msRanges.getD i default).1 < (t.msRanges.getD i default).2 →
          (t.sites.getD ((t.msRanges.getD i default).2 - 1) default).right
            = (((t.msRanges.getD i default).2 - 1 : Nat) : Int)) :=
  C5_mspartition_cover
    [(⟨'+', 1, 1⟩, ⟨2, 0, [0]⟩), (⟨'+', 1, 3⟩, ⟨1, 0, []⟩), (⟨'+', 1, 4⟩, ⟨0, 0, [1, 2]⟩),
      (⟨'+', 1, 10⟩, ⟨5, 0, [3]⟩), (⟨'-', 1, 10⟩, ⟨0, 0, [4]⟩), (⟨'+', 2, 1⟩, ⟨7, 0, []⟩),
      (⟨'+', 2, 2⟩, ⟨0, 0, [5]⟩)] [] 6 2 3 (by decide) (by decide) (by unfold MapSorted; decide)
    (by decide) (by decide)

/-! ## Claim C13 -/

/-- The comparison of two keys is within `w` on both sides exactly when the keys share contig
and strand and their positions differ by at most `w`. -/
theorem keyCmp_inWindow (a b : KeyType) (w : Int) :
    (-w ≤ a.cmp b w ∧ a.cmp b w ≤ w) ↔ inWindow a b w := by
  unfold inWindow KeyType.cmp
  by_cases h1 : a.cid = b.cid
  · by_cases h2 : a.dir = b.dir
    · simp [h1, h2]
    · simp only [h1, h2, ne_eq, not_true_eq_false, if_false, not_false_eq_true, if_true,
        true_and, false_and, iff_false]
      split_ifs <;> omega
  · simp only [h1, ne_eq, not_false_eq_true, if_true, false_and, iff_false]
    split_ifs <;> omega

/-- Claim C13 does not hold as stated: for two keys on the same contig and strand at
positions 10 and 0 and `w = 1`, the comparison returns 10, which is outside `[-2, 2]`. -/
theorem C13_counterexample :
    (0 : Int) ≤ 1
      ∧ KeyType.cmp ⟨'+', 1, 10⟩ ⟨'+', 1, 0⟩ 1 = 10
      ∧ ¬ (-(1 + 1) ≤ KeyType.cmp ⟨'+', 1, 10⟩ ⟨'+', 1, 0⟩ 1
            ∧ KeyType.cmp ⟨'+', 1, 10⟩ ⟨'+', 1, 0⟩ 1 ≤ 1 + 1) := by
  decide

/-- Claim C13, amended: `a.cmp(b, w)` is the sentinel `-(w+1)` (when `a` is ordered before
`b`) or `w+1` (when `b` is ordered before `a`) whenever the contigs or strands differ; when
the keys share contig and strand it is the plain position difference `a.pos - b.pos`, not
clamped; hence it lies in `[-w, w]` exactly when the keys share contig and
strand and their positions differ by at most `w`. -/
theorem C13_cmp_sentinel_or_difference (a b : KeyType) (w : Int) :
    ((a.cid ≠ b.cid ∨ a.dir ≠ b.dir) →
        (a.cmp b w = -(w + 1) ∧ a.lt b = true) ∨ (a.cmp b w = w + 1 ∧ b.lt a = true))
      ∧ (a.cid = b.cid → a.dir = b.dir → a.cmp b w = a.pos - b.pos)
      ∧ ((-w ≤ a.cmp b w ∧ a.cmp b w ≤ w) ↔ inWindow a b w) := by
  refine ⟨?_, ?_, keyCmp_inWindow a b w⟩
  · intro h
    rw [keyLt_iff_nat, keyLt_iff_nat]
    have hd : a.dir ≠ b.dir → a.dir.toNat ≠ b.dir.toNat := fun h1 h2 =>
      h1 ((char_eq_iff _ _).mpr h2)
    simp only [KeyType.cmp, char_lt_iff, char_eq_iff, ne_eq] at h ⊢
    split_ifs <;> omega
  · intro h1 h2
    simp [KeyType.cmp, h1, h2]

theorem C13_cmp_sentinel_or_difference_witness :
    KeyType.cmp ⟨'+', 1, 10⟩ ⟨'-', 1, 0⟩ 3 = -(3 + 1)
      ∧ KeyType.cmp ⟨'+', 1, 10⟩ ⟨'+', 1, 0⟩ 3 = 10 - 0 := by
  have h := C13_cmp_sentinel_or_difference ⟨'+', 1, 10⟩ ⟨'+', 1, 0⟩ 3
  have g := C13_cmp_sentinel_or_difference ⟨'+', 1, 10⟩ ⟨'-', 1, 0⟩ 3
  refine ⟨?_, h.2.1 rfl rfl⟩
  rcases g.1 (Or.inr (by decide)) with g1 | g1
  · exact g1.1
  · exact absurd g1.2 (by decide)

/-! ## Claim C20 -/

theorem prodSum_congr_both (a b c1 c2 : List ℚ) (offset n : Nat)
    (h : ∀ j, j < n → rd a (offset + j) = rd b (offset + j))
    (hc : ∀ j, j < n → rd c1 (offset + j) = rd c2 (offset + j)) :
    prodSum a c1 offset n = prodSum b c2 offset n := by
  induction n with
  | zero => rfl
  | succ n ih =>
    simp only [prodSum]
    rw [ih (fun j hj => h j (by omega)) (fun j hj => hc j (by omega)), h n (by omega),
      hc n (by omega)]

/-- The cells of a record after its treatment by the E-step. -/
theorem eRecord_rd_slice (conprbs : List ℚ) (m : MultiType) (fracs : List ℚ)
    (hlen : m.offset + m.s ≤ fracs.length) (j : Nat) (hj : j < m.s) :
    rd (eRecord conprbs m fracs) (m.offset + j) = eValue fracs conprbs m j := by
  unfold eRecord eValue
  simp only
  rw [eNorm_rd_lt _ _ _ _ _ _ hj (by rw [eMul_length]; exact hlen),
    eMul_rd_lt _ _ _ _ _ hj hlen, eMul_sum _ _ _ _ hlen]
  simp

theorem eValue_congr (f1 f2 c1 c2 : List ℚ) (m : MultiType) (j : Nat) (hj : j < m.s)
    (h : ∀ i, i < m.s → rd f1 (m.offset + i) = rd f2 (m.offset + i))
    (hc : ∀ i, i < m.s → rd c1 (m.offset + i) = rd c2 (m.offset + i)) :
    eValue f1 c1 m j = eValue f2 c2 m j := by
  unfold eValue
  rw [prodSum_congr_both f1 f2 c1 c2 _ _ h hc, h j hj, hc j hj]

/-- The cells of record `sp + i` after the outer loop of the E-step, for records with
disjoint slices. -/
theorem eLoop_rd_slice (multis : List MultiType) (conprbs : List ℚ) (sp n : Nat)
    (fr : List ℚ)
    (hlen : ∀ i, i < n →
      (multis.getD (sp + i) default).offset + (multis.getD (sp + i) default).s ≤ fr.length)
    (hdisj : ∀ i j, i < n → j < n → i ≠ j →
      slicesDisjoint (multis.getD (sp + i) default) (multis.getD (sp + j) default))
    (i : Nat) (hi : i < n) (j : Nat) (hj : j < (multis.getD (sp + i) default).s) :
    rd (eLoop multis conprbs sp n fr) ((multis.getD (sp + i) default).offset + j)
      = eValue fr conprbs (multis.getD (sp + i) default) j := by
  induction n with
  | zero => omega
  | succ n ih =>
    simp only [eLoop]
    by_cases h : i = n
    · subst h
      rw [eRecord_rd_slice _ _ _ (by rw [eLoop_length]; exact hlen i (by omega)) j hj]
      apply eValue_congr _ _ _ _ _ _ hj
      · intro j' hj'
        apply eLoop_rd_frame
        intro i' hi'
        have := hdisj i' i (by omega) (by omega) (by omega)
        unfold slicesDisjoint at this
        omega
      · intro j' hj'
        rfl
    · have hd := hdisj i n (by omega) (by omega) h
      rw [eRecord_rd_frame _ _ _ _ (by unfold slicesDisjoint at hd; omega)]
      exact ih (fun i hi => hlen i (by omega))
        (fun a b ha hb hab => hdisj a b (by omega) (by omega) hab) (by omega)

/-- Claim C20: the E-step of a record touches only that record's own slice.  For `n`
records with pairwise disjoint slices inside `fracs` and a thread range `[sp, ep)`:
`E_STEP` keeps the length of `fracs` and every cell outside the slices of the records of the
range; the new cells of a record of the range are the same for any other contents of
`fracs` and `conprbs` that agree on the slice of the record (the records and `conprbs` are
read only: the routine returns nothing but the new `fracs`); and a later thread range
`[sp2, ep2)` writes no cell that the range `[sp, ep)` writes. -/
theorem C20_estep_own_slice (multis : List MultiType) (conprbs fracs : List ℚ)
    (n sp ep sp2 ep2 : Nat) (h1 : sp ≤ ep) (h2 : ep ≤ sp2) (h3 : sp2 ≤ ep2) (h4 : ep2 ≤ n)
    (hlen : ∀ k, k < n →
      (multis.getD k default).offset + (multis.getD k default).s ≤ fracs.length)
    (hdisj : ∀ a b, a < n → b < n → a ≠ b →
      slicesDisjoint (multis.getD a default) (multis.getD b default)) :
    (E_STEP multis conprbs sp ep fracs).length = fracs.length
      ∧ (∀ j, ¬ eWrites multis sp ep j → rd (E_STEP multis conprbs sp ep fracs) j = rd fracs j)
      ∧ (∀ k, sp ≤ k → k < ep → ∀ fracs2 conprbs2 : List ℚ, fracs2.length = fracs.length →
          (∀ j, inSlice (multis.getD k default) j →
            rd fracs2 j = rd fracs j ∧ rd conprbs2 j = rd conprbs j) →
          ∀ j, inSlice (multis.getD k default) j →
            rd (E_STEP multis conprbs2 sp ep fracs2) j = rd (E_STEP multis conprbs sp ep fracs) j)
      ∧ (∀ j, ¬ (eWrites multis sp ep j ∧ eWrites multis sp2 ep2 j)) := by
  refine ⟨eLoop_length _ _ _ _ _, ?_, ?_, ?_⟩
  · intro j hj
    unfold E_STEP
    apply eLoop_rd_frame
    intro i hi
    have : ¬ inSlice (multis.getD (sp + i) default) j := fun hin =>
      hj ⟨sp + i, by omega, by omega, hin⟩
    unfold inSlice at this
    omega
  · intro k hk1 hk2 fracs2 conprbs2 hl hag j hin
    obtain ⟨d, rfl⟩ : ∃ d, k = sp + d := ⟨k - sp, by omega⟩
    obtain ⟨e, rfl⟩ : ∃ e, j = (multis.getD (sp + d) default).offset + e :=
      ⟨j - (multis.getD (sp + d) default).offset, by unfold inSlice at hin; omega⟩
    have he : e < (multis.getD (sp + d) default).s := by unfold inSlice at hin; omega
    unfold E_STEP
    rw [eLoop_rd_slice multis conprbs2 sp (ep - sp) fracs2
        (fun i hi => by rw [hl]; exact hlen (sp + i) (by omega))
        (fun a b ha hb hab => hdisj (sp + a) (sp + b) (by omega) (by omega) (by omega))
        d (by omega) e he,
      eLoop_rd_slice multis conprbs sp (ep - sp) fracs
        (fun i hi => hlen (sp + i) (by omega))
        (fun a b ha hb hab => hdisj (sp + a) (sp + b) (by omega) (by omega) (by omega))
        d (by omega) e he]
    apply eValue_congr _ _ _ _ _ _ he
    · intro i hi
      exact (hag _ (by unfold inSlice; omega)).1
    · intro i hi
      exact (hag _ (by unfold inSlice; omega)).2
  · rintro j ⟨⟨a, ha1, ha2, hain⟩, ⟨b, hb1, hb2, hbin⟩⟩
    have := hdisj a b (by omega) (by omega) (by omega)
    unfold slicesDisjoint at this
    unfold inSlice at hain hbin
    omega

/-- Witness of C20: two records, one per thread. -/
theorem C20_estep_own_slice_witness :
    (E_STEP [⟨0, 2, 3⟩, ⟨2, 1, 1⟩] [1/2, 1/2, 1] 0 1 [1, 3, 1]).length = 3
      ∧ ∀ j, ¬ (eWrites [⟨0, 2, 3⟩, ⟨2, 1, 1⟩] 0 1 j ∧ eWrites [⟨0, 2, 3⟩, ⟨2, 1, 1⟩] 1 2 j) := by
  have h := C20_estep_own_slice [⟨0, 2, 3⟩, ⟨2, 1, 1⟩] [1/2, 1/2, 1] [1, 3, 1] 2 0 1 1 2
    (by decide) (by decide) (by decide) (by decide)
    (by intro k hk
        interval_cases k <;> decide)
    (by intro a b ha hb hab
        interval_cases a <;> interval_cases b <;> first | omega | (unfold slicesDisjoint; decide))
  exact ⟨h.1, h.2.2.2⟩

/-! ## Claim C14 -/

/-- Claim C14: `getProb(pos)` is exactly 0 for every `pos` with `pos < 0` or
`pos + min_frag_len > len`, whatever the contents of `gamma`, `beta`, `logsum`,
`margin_prob` and `prob_pass` (and whatever `exp` computes). -/
theorem C14_getProb_zero_outside {K : Type} [Field K] (gp : GlobalParams) (expf : K → K)
    (m : DMSTransModel K) (pos : Int) (h : pos < 0 ∨ pos + gp.min_frag_len > m.len) :
    m.getProb gp expf pos = 0 := by
  unfold DMSTransModel.getProb
  simp only
  rw [if_pos]
  rcases h with h | h
  · exact Or.inr h
  · exact Or.inl h

/-- Witness of C14: a model of length 10 with minimal fragment length 2, asked at position
9. -/
theorem C14_getProb_zero_outside_witness :
    @DMSTransModel.getProb ℚ _ ⟨3, 2, 4⟩ (fun x => x)
      ⟨false, 10, 1 / 11, 1 / 2, fun _ => 1 / 10, none, fun _ => 0, fun _ => 0, fun _ => 1,
        fun _ => 1⟩ 9 = 0 :=
  C14_getProb_zero_outside ⟨3, 2, 4⟩ (fun x => x) _ 9 (Or.inr (by decide))
/-! ## Claim C15 -/

/-- Claim C15 does not hold as stated: with primer length 3, a model of length 10 and a
fragment length 0, the call `update(0, 0, 1)` passes the guard and adds 1 to `start[-3]`;
and the call `update(12, 0, 1)` passes it too and adds 1 to `end[12]`. -/
theorem C15_counterexample :
    (@DMSTransModel.updatePE ℚ _ ⟨3, 2, 4⟩
        ⟨false, 10, 1 / 11, 1, fun _ => 0, none, fun _ => 0, fun _ => 0, fun _ => 0, fun _ => 0⟩
        0 0 1).start (0 + 0 - 3) = 0 + 1
      ∧ ¬ (0 : Int) ≤ 0 + 0 - 3
      ∧ (@DMSTransModel.updatePE ℚ _ ⟨3, 2, 4⟩
        ⟨false, 10, 1 / 11, 1, fun _ => 0, none, fun _ => 0, fun _ => 0, fun _ => 0, fun _ => 0⟩
        12 0 1).end_ 12 = 0 + 1
      ∧ ¬ (12 : Int) ≤ 10 := by
  refine ⟨?_, by decide, ?_, by decide⟩
  · simp [DMSTransModel.updatePE]
  · simp [DMSTransModel.updatePE]

/-- Claim C15, amended: for a fragment length that is at least the primer length, the call
`update(pos, fragment_length, frac)` either leaves the model unchanged or adds `frac` to
`end[pos]` and to `start[pos + fragment_length - primer_length]` and changes nothing else;
and whenever it writes, both indices lie in `0..len`. -/
theorem C15_updatePE_in_range {K : Type} [Field K] (gp : GlobalParams) (m : DMSTransModel K)
    (pos fragment_length : Int) (frac : K) (h : gp.primer_length ≤ fragment_length) :
    m.updatePE gp pos fragment_length frac = m
      ∨ (0 ≤ pos ∧ pos ≤ m.len
          ∧ 0 ≤ pos + fragment_length - gp.primer_length
          ∧ pos + fragment_length - gp.primer_length ≤ m.len
          ∧ m.updatePE gp pos fragment_length frac
              = { m with
                  end_ := Function.update m.end_ pos (m.end_ pos + frac)
                  start := Function.update m.start (pos + fragment_length - gp.primer_length)
                    (m.start (pos + fragment_length - gp.primer_length) + frac) }) := by
  unfold DMSTransModel.updatePE
  by_cases hg : pos + fragment_length - gp.primer_length > m.len ∨ pos < 0
  · left
    rw [if_pos hg]
  · right
    rw [if_neg hg]
    push_neg at hg
    exact ⟨hg.2, by omega, by omega, hg.1, rfl⟩

/-- Witness of C15 (amended): a fragment of length 5 at position 2 of a model of length 10,
with primer length 3. -/
theorem C15_updatePE_in_range_witness :
    (@DMSTransModel.updatePE ℚ _ ⟨3, 2, 4⟩
        ⟨false, 10, 1 / 11, 1, fun _ => 0, none, fun _ => 0, fun _ => 0, fun _ => 0, fun _ => 0⟩
        2 5 1).start 4 = 1 := by
  rcases C15_updatePE_in_range (⟨3, 2, 4⟩ : GlobalParams)
    (⟨false, 10, 1 / 11, 1, fun _ => 0, none, fun _ => 0, fun _ => 0, fun _ => 0, fun _ => 0⟩ :
      DMSTransModel ℚ) 2 5 1 (by decide) with h | h
  · simp [DMSTransModel.updatePE]
  · rw [h.2.2.2.2]
    simp

/-! ## Claim C18 -/

/-- Claim C18 does not hold as stated: with five arguments after the program name and the
thread count 0, `main` calls `parseAlignments` and `processMultiReads` and then
`distributeTasks`, which evaluates the quota division with the divisor 0. -/
theorem C18_counterexample :
    mainRun 6 0
      = ([Routine.init, Routine.parseAlignments, Routine.finish, Routine.processMultiReads,
          Routine.distributeTasks], Ending.divByZero) := by
  decide

/-- Claim C18, amended: `main` does not test the thread count.  The only test it makes before
the work begins is on the number of arguments: with fewer than six it stops after the usage
message and calls nothing; with six or more it calls `init`, `parseAlignments`,
`model->finish`, `processMultiReads` and `distributeTasks` in this order whatever the
thread count is, and it never stops with the usage message; a thread count of 0 reaches the
quota division of `distributeTasks`, and a negative one the allocation before it. -/
theorem C18_no_thread_count_check (argc : Nat) (num_threads : Int) :
    (argc < 6 → mainRun argc num_threads = ([], Ending.exitUsage))
      ∧ (6 ≤ argc →
          (mainRun argc num_threads).1
              = [Routine.init, Routine.parseAlignments, Routine.finish,
                  Routine.processMultiReads, Routine.distributeTasks]
            ∧ (mainRun argc num_threads).2 ≠ Ending.exitUsage
            ∧ (num_threads = 0 → (mainRun argc num_threads).2 = Ending.divByZero)
            ∧ (num_threads < 0 → (mainRun argc num_threads).2 = Ending.allocThrows)
            ∧ (0 < num_threads → (mainRun argc num_threads).2 = Ending.goesOn)) := by
  constructor
  · intro h
    simp [mainRun, h]
  · intro h
    have h6 : ¬ argc < 6 := by omega
    unfold mainRun
    rw [if_neg h6]
    simp only
    refine ⟨?_, ?_, ?_, ?_, ?_⟩
    · split_ifs <;> rfl
    · split_ifs <;> simp
    · intro h0
      rw [if_neg (by omega), if_pos h0]
    · intro h0
      rw [if_pos h0]
    · intro h0
      rw [if_neg (by omega), if_neg (by omega)]

/-- Witness of C18 (amended): six arguments and the thread count -2. -/
theorem C18_no_thread_count_check_witness :
    (mainRun 6 (-2)).1
        = [Routine.init, Routine.parseAlignments, Routine.finish,
            Routine.processMultiReads, Routine.distributeTasks]
      ∧ (mainRun 6 (-2)).2 = Ending.allocThrows :=
  ⟨((C18_no_thread_count_check 6 (-2)).2 (by decide)).1,
    ((C18_no_thread_count_check 6 (-2)).2 (by decide)).2.2.2.1 (by decide)⟩

/-! ## The sweep computes the windows exactly -/

theorem keyLe_nat (a b : KeyType) (h : a = b ∨ a.lt b = true) :
    a.cid < b.cid
      ∨ (a.cid = b.cid ∧ (a.dir.toNat < b.dir.toNat
          ∨ (a.dir.toNat = b.dir.toNat ∧ a.pos ≤ b.pos))) := by
  rcases h with rfl | h
  · right
    exact ⟨rfl, Or.inr ⟨rfl, le_rfl⟩⟩
  · rw [keyLt_iff_nat] at h
    omega

/-- Left of the window of `t`: closed downwards in the first key. -/
theorem keyCmp_left_down (a b t : KeyType) (w : Int) (hw : 0 ≤ w) (hab : a = b ∨ a.lt b = true)
    (h : b.cmp t w < -w) : a.cmp t w < -w := by
  have hab := keyLe_nat a b hab
  simp only [KeyType.cmp, char_lt_iff, char_eq_iff, ne_eq] at h ⊢
  split_ifs at h ⊢ <;> omega

/-- Not right of the window of `t`: closed downwards in the first key. -/
theorem keyCmp_le_down (a b t : KeyType) (w : Int) (hw : 0 ≤ w) (hab : a = b ∨ a.lt b = true)
    (h : b.cmp t w ≤ w) : a.cmp t w ≤ w := by
  have hab := keyLe_nat a b hab
  simp only [KeyType.cmp, char_lt_iff, char_eq_iff, ne_eq] at h ⊢
  split_ifs at h ⊢ <;> omega

/-- Left of the window of `p`, hence left of the window of every later key. -/
theorem keyCmp_left_right (a p t : KeyType) (w : Int) (hw : 0 ≤ w) (hpt : p = t ∨ p.lt t = true)
    (h : a.cmp p w < -w) : a.cmp t w < -w := by
  have hpt := keyLe_nat p t hpt
  simp only [KeyType.cmp, char_lt_iff, char_eq_iff, ne_eq] at h ⊢
  split_ifs at h ⊢ <;> omega

/-- Not right of the window of `p`, hence not right of the window of any later key. -/
theorem keyCmp_le_right (a p t : KeyType) (w : Int) (hw : 0 ≤ w) (hpt : p = t ∨ p.lt t = true)
    (h : a.cmp p w ≤ w) : a.cmp t w ≤ w := by
  have hpt := keyLe_nat p t hpt
  simp only [KeyType.cmp, char_lt_iff, char_eq_iff, ne_eq] at h ⊢
  split_ifs at h ⊢ <;> omega

/-- The first loop on `lb` passes only entries left of the window and takes their unique
counts off `sumc`. -/
theorem sweepLb1_pass (pm : MapType) (w : Int) (it fuel : Nat) (st : SweepState) :
    (∀ j, st.lb ≤ j → j < (sweepLb1 pm w it fuel st).lb →
        (entryAt pm j).1.cmp (entryAt pm it).1 w < -w)
      ∧ (sweepLb1 pm w it fuel st).sumc
          = st.sumc - (cBefore pm (sweepLb1 pm w it fuel st).lb - cBefore pm st.lb) := by
  induction fuel generalizing st with
  | zero =>
    refine ⟨?_, ?_⟩
    · intro j h1 h2
      have : j < st.lb := h2
      omega
    · show st.sumc = st.sumc - (cBefore pm st.lb - cBefore pm st.lb)
      omega
  | succ fuel ih =>
    simp only [sweepLb1]
    by_cases hc : st.lb ≠ st.ub ∧ (entryAt pm st.lb).1.cmp (entryAt pm it).1 w < -w
    · rw [if_pos hc]
      obtain ⟨p1, p2⟩ := ih
        { st with sumc := st.sumc - (entryAt pm st.lb).2.c
                  lb_pos := if isMultiAt pm st.lb then st.lb_pos + 1 else st.lb_pos
                  lb := st.lb + 1 }
      simp only at p1 p2
      refine ⟨?_, ?_⟩
      · intro j h1 h2
        by_cases hj : j = st.lb
        · rw [hj]
          exact hc.2
        · exact p1 j (by omega) h2
      · rw [p2]
        simp only [cBefore]
        omega
    · rw [if_neg hc]
      refine ⟨?_, ?_⟩
      · intro j h1 h2
        omega
      · omega

/-- The second loop on `lb` passes only entries left of the window. -/
theorem sweepLb2_pass (pm : MapType) (w : Int) (it fuel : Nat) (st : SweepState) :
    ∀ j, st.lb ≤ j → j < (sweepLb2 pm w it fuel st).lb →
      (entryAt pm j).1.cmp (entryAt pm it).1 w < -w := by
  induction fuel generalizing st with
  | zero =>
    intro j h1 h2
    have : j < st.lb := h2
    omega
  | succ fuel ih =>
    simp only [sweepLb2]
    by_cases hc : st.lb ≠ it ∧ (entryAt pm st.lb).1.cmp (entryAt pm it).1 w < -w
    · rw [if_pos hc]
      have p1 := ih
        { st with lb_pos := if isMultiAt pm st.lb then st.lb_pos + 1 else st.lb_pos
                  lb := st.lb + 1 }
      simp only at p1
      intro j h1 h2
      by_cases hj : j = st.lb
      · rw [hj]
        exact hc.2
      · exact p1 j (by omega) h2
    · rw [if_neg hc]
      intro j h1 h2
      omega

/-- The loop on `ub` passes only entries not right of the window and adds their unique
counts to `sumc`. -/
theorem sweepUb_pass (pm : MapType) (w : Int) (it fuel : Nat) (st : SweepState) :
    (∀ j, st.ub ≤ j → j < (sweepUb pm w it fuel st).ub →
        (entryAt pm j).1.cmp (entryAt pm it).1 w ≤ w)
      ∧ (sweepUb pm w it fuel st).sumc
          = st.sumc + (cBefore pm (sweepUb pm w it fuel st).ub - cBefore pm st.ub) := by
  induction fuel generalizing st with
  | zero =>
    refine ⟨?_, ?_⟩
    · intro j h1 h2
      have : j < st.ub := h2
      omega
    · show st.sumc = st.sumc + (cBefore pm st.ub - cBefore pm st.ub)
      omega
  | succ fuel ih =>
    simp only [sweepUb]
    by_cases hc : st.ub ≠ pm.length ∧ (entryAt pm st.ub).1.cmp (entryAt pm it).1 w ≤ w
    · rw [if_pos hc]
      obtain ⟨p1, p2⟩ := ih
        { st with sumc := st.sumc + (entryAt pm st.ub).2.c
                  ub_pos := if isMultiAt pm st.ub then st.ub_pos + 1 else st.ub_pos
                  ub := st.ub + 1 }
      simp only at p1 p2
      refine ⟨?_, ?_⟩
      · intro j h1 h2
        by_cases hj : j = st.ub
        · rw [hj]
          exact hc.2
        · exact p1 j (by omega) h2
      · rw [p2]
        simp only [cBefore]
        omega
    · rw [if_neg hc]
      refine ⟨?_, ?_⟩
      · intro j h1 h2
        omega
      · omega
/-- One iteration of the sweep for a multi-read entry moves the iterators to the two ends of
the window of the entry. -/
theorem sweepBody_step (pm : MapType) (w : Int) (hw : 0 ≤ w) (hs : MapSorted pm) (it : Nat)
    (hit : it < pm.length) (st : SweepState) (hinv : SweepInv pm w it st)
    (hfull : SweepFull pm w it st) (hm : isMultiAt pm it = true) :
    SweepStep pm w it st (sweepBody pm w it st) := by
  obtain ⟨b1, b2, b3, b4, b5, b6, b7, b8⟩ := hinv
  obtain ⟨f1, f2, f3, f4⟩ := hfull
  unfold sweepBody
  rw [if_pos hm]
  simp only
  obtain ⟨a1, a2, a3, a4, a5, a6, a7, a8⟩ := sweepLb1_spec pm w hw it (st.ub - st.lb) st le_rfl
    (by omega) b3 b4
  obtain ⟨p1, p2⟩ := sweepLb1_pass pm w it (st.ub - st.lb) st
  have hst2 : ∃ st2 : SweepState,
      (if (sweepLb1 pm w it (st.ub - st.lb) st).lb = (sweepLb1 pm w it (st.ub - st.lb) st).ub
        then
          { sweepLb2 pm w it (it - (sweepLb1 pm w it (st.ub - st.lb) st).lb)
              (sweepLb1 pm w it (st.ub - st.lb) st) with
            ub := (sweepLb2 pm w it (it - (sweepLb1 pm w it (st.ub - st.lb) st).lb)
              (sweepLb1 pm w it (st.ub - st.lb) st)).lb + 1
            ub_pos := (sweepLb2 pm w it (it - (sweepLb1 pm w it (st.ub - st.lb) st).lb)
                (sweepLb1 pm w it (st.ub - st.lb) st)).lb_pos
              + (if isMultiAt pm (sweepLb2 pm w it
                  (it - (sweepLb1 pm w it (st.ub - st.lb) st).lb)
                  (sweepLb1 pm w it (st.ub - st.lb) st)).lb then 1 else 0)
            sumc := (entryAt pm (sweepLb2 pm w it
              (it - (sweepLb1 pm w it (st.ub - st.lb) st).lb)
              (sweepLb1 pm w it (st.ub - st.lb) st)).lb).2.c }
        else sweepLb1 pm w it (st.ub - st.lb) st) = st2
      ∧ st2.sites = st.sites ∧ st2.lb ≤ it ∧ st2.lb < st2.ub ∧ st2.ub ≤ pm.length
      ∧ st2.ub_pos + 1 = (multiCount pm st2.ub : Int)
      ∧ st2.sumc = cBefore pm st2.ub - cBefore pm st2.lb
      ∧ (∀ j, j < st2.lb → (entryAt pm j).1.cmp (entryAt pm it).1 w < -w)
      ∧ ¬ (entryAt pm st2.lb).1.cmp (entryAt pm it).1 w < -w
      ∧ (∀ j, j < st2.ub → (entryAt pm j).1.cmp (entryAt pm it).1 w ≤ w) := by
    by_cases he : (sweepLb1 pm w it (st.ub - st.lb) st).lb
        = (sweepLb1 pm w it (st.ub - st.lb) st).ub
    · rw [if_pos he]
      obtain ⟨c1, c2, c3, c4, c5⟩ := sweepLb2_spec pm w it
        (it - (sweepLb1 pm w it (st.ub - st.lb) st).lb)
        (sweepLb1 pm w it (st.ub - st.lb) st) le_rfl a6 a7
      have q := sweepLb2_pass pm w it (it - (sweepLb1 pm w it (st.ub - st.lb) st).lb)
        (sweepLb1 pm w it (st.ub - st.lb) st)
      refine ⟨_, rfl, ?_, ?_, ?_, ?_, ?_, ?_, ?_, ?_, ?_⟩
      · exact c1.trans a3
      · exact c3
      · simp only
        omega
      · simp only
        omega
      · simp only
        rw [multiCount_succ]
        split <;> (push_cast; omega)
      · simp only [cBefore]
        omega
      · intro j hj
        by_cases h1 : j < st.lb
        · exact f1 j h1 it le_rfl hit
        · by_cases h2 : j < (sweepLb1 pm w it (st.ub - st.lb) st).lb
          · exact p1 j (by omega) h2
          · exact q j (by omega) hj
      · rcases c5 with h | h
        · simp only
          rw [h]
          exact keyCmp_self _ w hw
        · exact h
      · intro j hj
        simp only at hj
        have := keyCmp_nonpos _ _ w hw (mapSorted_index_le pm hs j it (by omega) hit)
        omega
    · rw [if_neg he]
      refine ⟨_, rfl, a3, a6, ?_, ?_, ?_, ?_, ?_, ?_, ?_⟩
      · rw [a1] at he ⊢
        omega
      · rw [a1]
        exact b2
      · rw [a1, a2]
        exact b5
      · rw [p2, a1, f3]
        omega
      · intro j hj
        by_cases h1 : j < st.lb
        · exact f1 j h1 it le_rfl hit
        · exact p1 j (by omega) hj
      · rcases a8 with h | h
        · rw [a1] at he
          exact absurd h he
        · exact h
      · intro j hj
        rw [a1] at hj
        exact f2 j hj it le_rfl hit
  obtain ⟨st2, hst2eq, d1, d3, d4, d6, d8, d9, d10, d11, d12⟩ := hst2
  rw [hst2eq]
  obtain ⟨u1, u2, u3, u4, u5, u6, u7⟩ := sweepUb_spec pm w it (pm.length - st2.ub) st2 le_rfl
    d6 d8
  obtain ⟨v1, v2⟩ := sweepUb_pass pm w it (pm.length - st2.ub) st2
  have hub : it < (sweepUb pm w it (pm.length - st2.ub) st2).ub := by
    by_contra hle
    rcases u7 with h | h
    · omega
    · apply h
      have := keyCmp_nonpos _ _ w hw (mapSorted_index_le pm hs
        (sweepUb pm w it (pm.length - st2.ub) st2).ub it (by omega) hit)
      omega
  unfold SweepStep
  simp only
  refine ⟨?_, ?_, hub, u5, ?_, ?_, ?_, ?_, u7⟩
  · rw [u3, d1]
  · rw [u1]
    exact d3
  · rw [v2, u1, d9]
    omega
  · rw [u1]
    exact d10
  · rw [u1]
    exact d11
  · intro j hj
    by_cases h1 : j < st2.ub
    · exact d12 j h1
    · exact v1 j (by omega) hj

/-- The body of the sweep keeps what `SweepFull` says. -/
theorem sweepBody_full (pm : MapType) (w : Int) (hw : 0 ≤ w) (hs : MapSorted pm) (it : Nat)
    (hit : it < pm.length) (st : SweepState) (hinv : SweepInv pm w it st)
    (hfull : SweepFull pm w it st) :
    SweepFull pm w (it + 1) (sweepBody pm w it st) := by
  by_cases hm : isMultiAt pm it = true
  swap
  · obtain ⟨f1, f2, f3, f4⟩ := hfull
    unfold sweepBody
    rw [if_neg hm]
    exact ⟨fun j hj t ht => f1 j hj t (by omega), fun j hj t ht => f2 j hj t (by omega), f3, f4⟩
  obtain ⟨s1, s2, s3, s4, s5, s6, s7, s8, s9⟩ := sweepBody_step pm w hw hs it hit st hinv hfull hm
  obtain ⟨-, -, -, n4, n5, -, -, -⟩ := sweepBody_inv pm w hw hs it hit st hinv
  refine ⟨?_, ?_, s5, ?_⟩
  · intro j hj t ht1 ht2
    exact keyCmp_left_right _ _ _ w hw (mapSorted_index_le pm hs it t (by omega) ht2) (s6 j hj)
  · intro j hj t ht1 ht2
    exact keyCmp_le_right _ _ _ w hw (mapSorted_index_le pm hs it t (by omega) ht2) (s8 j hj)
  · intro k hk
    rw [s1] at hk ⊢
    rw [List.length_append, List.length_singleton] at hk
    by_cases hk2 : k < st.sites.length
    · rw [getD_append_left_site _ _ _ hk2]
      exact hfull.2.2.2 k hk2
    · have hk3 : k = st.sites.length := by omega
      rw [hk3, getD_append_last_site]
      refine ⟨(sweepBody pm w it st).lb, (sweepBody pm w it st).ub, s2, s3, s4, ?_, ?_, rfl.trans s5,
        ?_⟩
      · exact n4
      · exact n5
      · intro j hj
        simp only
        rw [← keyCmp_inWindow]
        constructor
        · rintro ⟨h1, h2⟩
          constructor
          · by_contra hlt
            exact s7 (keyCmp_left_down _ _ _ w hw (mapSorted_index_le pm hs _ j h1 hj)
              (by omega))
          · exact s8 j h2
        · rintro ⟨h1, h2⟩
          constructor
          · by_contra hlt
            have := s6 j (by omega)
            omega
          · by_contra hge
            rcases s9 with h | h
            · omega
            · exact h (keyCmp_le_down _ _ _ w hw (mapSorted_index_le pm hs _ j (by omega) hj) h2)

theorem sweepLoop_full (pm : MapType) (w : Int) (hw : 0 ≤ w) (hs : MapSorted pm) (n : Nat)
    (hn : n ≤ pm.length) (st : SweepState) (hinv : SweepInv pm w 0 st)
    (hfull : SweepFull pm w 0 st) :
    SweepFull pm w n (sweepLoop pm w n st) := by
  induction n with
  | zero => exact hfull
  | succ n ih =>
    simp only [sweepLoop]
    exact sweepBody_full pm w hw hs n (by omega) _ (sweepLoop_inv pm w hw hs n (by omega) st hinv)
      (ih (by omega))

/-- Every site `computeSites` produces has the window and the unique count of the entries
within `w` of it, for a sorted map and `w >= 0`. -/
theorem computeSites_full (pm : MapType) (w : Int) (hw : 0 ≤ w) (hs : MapSorted pm)
    (sites : List SiteType) (h : computeSites pm w = some sites) (k : Nat)
    (hk : k < sites.length) : SiteFull pm w (sites.getD k default) := by
  unfold computeSites at h
  by_cases hne : pm.length = 0
  · rw [if_pos hne] at h
    simp at h
  rw [if_neg hne] at h
  have hinit : SweepInv pm w 0
      { lb := 0, ub := 1, lb_pos := -1, ub_pos := if isMultiAt pm 0 then 0 else -1,
        sumc := (entryAt pm 0).2.c, sites := [] } := by
    refine ⟨by simp, by simp only; omega, le_rfl, ?_, ?_, ?_, ?_, ?_⟩
    · simp [multiCount]
    · simp only
      have := multiCount_succ pm 0
      simp only [Nat.zero_add] at this
      rw [this]
      have h0 : multiCount pm 0 = 0 := by simp [multiCount]
      rw [h0]
      split <;> simp
    · simp [multiCount]
    · intro k hk
      simp at hk
    · intro k hk
      simp at hk
  have hfinit : SweepFull pm w 0
      { lb := 0, ub := 1, lb_pos := -1, ub_pos := if isMultiAt pm 0 then 0 else -1,
        sumc := (entryAt pm 0).2.c, sites := [] } := by
    refine ⟨?_, ?_, ?_, ?_⟩
    · intro j hj
      simp at hj
    · intro j hj t _ ht
      simp only at hj
      have := keyCmp_nonpos _ _ w hw (mapSorted_index_le pm hs j t (by omega) ht)
      omega
    · simp [cBefore]
    · intro k hk
      simp at hk
  have hf := sweepLoop_full pm w hw hs pm.length le_rfl _ hinit hfinit
  have hsites : sites = (sweepLoop pm w pm.length
      { lb := 0, ub := 1, lb_pos := -1, ub_pos := if isMultiAt pm 0 then 0 else -1,
        sumc := (entryAt pm 0).2.c, sites := [] }).sites := by
    simpa using h.symm
  rw [hsites] at hk ⊢
  exact hf.2.2.2 k hk
theorem cBefore_cons (e : KeyType × ValueType) (pm : MapType) (j : Nat) :
    cBefore (e :: pm) (j + 1) = e.2.c + cBefore pm j := by
  induction j with
  | zero => simp [cBefore, entryAt]
  | succ j ih =>
    have : cBefore (e :: pm) (j + 1 + 1)
        = cBefore (e :: pm) (j + 1) + (entryAt (e :: pm) (j + 1)).2.c := rfl
    rw [this, ih]
    simp only [cBefore, entryAt, List.getD_cons_succ]
    omega

/-- The sum of the unique counts over the entries that satisfy a test which holds exactly on
the entries with index in `[lbk, ubk)`. -/
theorem filter_sum_range (P : KeyType → Bool) (pm : MapType) (lbk ubk : Nat) (h1 : lbk ≤ ubk)
    (h2 : ubk ≤ pm.length)
    (h : ∀ j, j < pm.length → ((lbk ≤ j ∧ j < ubk) ↔ P (entryAt pm j).1 = true)) :
    ((pm.filter (fun e => P e.1)).map (fun e => e.2.c)).sum
      = cBefore pm ubk - cBefore pm lbk := by
  induction pm generalizing lbk ubk with
  | nil =>
    have hu : ubk = 0 := by simpa using h2
    have hl : lbk = 0 := by omega
    rw [hu, hl]
    simp [cBefore]
  | cons e pm ih =>
    have h0 := h 0 (by simp)
    have he0 : (entryAt (e :: pm) 0).1 = e.1 := rfl
    rw [he0] at h0
    have htail : ∀ l u : Nat, (∀ j, j < pm.length → ((l + 1 ≤ j + 1 ∧ j + 1 < u + 1)
        ↔ P (entryAt (e :: pm) (j + 1)).1 = true)) →
        ∀ j, j < pm.length → ((l ≤ j ∧ j < u) ↔ P (entryAt pm j).1 = true) := by
      intro l u hh j hj
      have := hh j hj
      have hs : entryAt (e :: pm) (j + 1) = entryAt pm j := by
        simp [entryAt, List.getD_cons_succ]
      rw [hs] at this
      rw [← this]
      omega
    cases ubk with
    | zero =>
      have hl : lbk = 0 := by omega
      subst hl
      have hP : P e.1 = false := by
        by_contra hc
        have := h0.mpr (by simpa using hc)
        omega
      rw [List.filter_cons_of_neg (by simp [hP])]
      have := ih 0 0 le_rfl (Nat.zero_le _) (by
        intro j hj
        have := h (j + 1) (by simp; omega)
        have hs : entryAt (e :: pm) (j + 1) = entryAt pm j := by
          simp [entryAt, List.getD_cons_succ]
        rw [hs] at this
        rw [← this]
        omega)
      rw [this]
      simp [cBefore]
    | succ u =>
      cases lbk with
      | zero =>
        have hP : P e.1 = true := h0.mp ⟨le_rfl, by omega⟩
        rw [List.filter_cons_of_pos (by simp [hP]), List.map_cons, List.sum_cons]
        have := ih 0 u (Nat.zero_le _) (by simp at h2; omega) (by
          intro j hj
          have := h (j + 1) (by simp; omega)
          have hs : entryAt (e :: pm) (j + 1) = entryAt pm j := by
            simp [entryAt, List.getD_cons_succ]
          rw [hs] at this
          rw [← this]
          omega)
        rw [this, cBefore_cons]
        simp [cBefore]
      | succ l =>
        have hP : P e.1 = false := by
          by_contra hc
          have := h0.mpr (by simpa using hc)
          omega
        rw [List.filter_cons_of_neg (by simp [hP])]
        have := ih l u (by omega) (by simp at h2; omega)
          (htail l u (fun j hj => h (j + 1) (by simp; omega)))
        rw [this, cBefore_cons, cBefore_cons]
        omega

/-- The unique count of a site that is as `SiteFull` says is the sum of the unique counts of
the entries within `w` of it. -/
theorem siteFull_uc (pm : MapType) (w : Int) (s : SiteType) (h : SiteFull pm w s) :
    s.uc = windowCount pm (entryAt pm s.v).1 w := by
  obtain ⟨lbk, ubk, g1, g2, g3, -, -, g6, g7⟩ := h
  unfold windowCount
  rw [filter_sum_range (fun k => decide (inWindow k (entryAt pm s.v).1 w)) pm lbk ubk (by omega)
    g3 (by
      intro j hj
      rw [g7 j hj]
      simp), g6]

/-- The sites within `w` of a site that is as `SiteFull` says are those with index in the
closed range `[left, right]`. -/
theorem siteFull_window (pm : MapType) (sites : List SiteType) (hwin : WindowsOK pm sites)
    (w : Int) (i k : Nat) (hk : k < sites.length)
    (h : SiteFull pm w (sites.getD i default)) :
    inWindow (entryAt pm (sites.getD k default).v).1 (entryAt pm (sites.getD i default).v).1 w
      ↔ ((sites.getD i default).left ≤ (k : Int) ∧ (k : Int) ≤ (sites.getD i default).right) := by
  obtain ⟨lbk, ubk, g1, g2, g3, g4, g5, -, g7⟩ := h
  obtain ⟨e1, e2, e3, -⟩ := hwin.2.1 k hk
  rw [← g7 _ e1]
  have hsucc := multiCount_succ pm (sites.getD k default).v
  rw [if_pos e2, e3] at hsucc
  constructor
  · rintro ⟨h1, h2⟩
    have m1 := multiCount_mono pm lbk _ h1
    have m2 := multiCount_mono pm ((sites.getD k default).v + 1) ubk (by omega)
    rw [e3] at m1
    rw [hsucc] at m2
    omega
  · rintro ⟨h1, h2⟩
    constructor
    · by_contra hlt
      have m1 := multiCount_mono pm ((sites.getD k default).v + 1) lbk (by omega)
      rw [hsucc] at m1
      omega
    · by_contra hge
      have m2 := multiCount_mono pm ubk (sites.getD k default).v (by omega)
      rw [e3] at m2
      omega

/-- What `distributeTasks` returns: its sites are those of `computeSites`. -/
theorem distributeTasks_sites (pm : MapType) (multis : List MultiType)
    (n_mhits num_threads : Nat) (w : Int) (t : Tasks)
    (h : distributeTasks pm multis n_mhits num_threads w = some t) :
    computeSites pm w = some t.sites := by
  unfold distributeTasks at h
  cases hc : computeSites pm w with
  | none =>
    rw [hc] at h
    simp at h
  | some sites =>
    rw [hc] at h
    simp only at h
    cases hm : distributeMS pm sites n_mhits num_threads with
    | none =>
      rw [hm] at h
      simp at h
    | some ms =>
      rw [hm] at h
      simp only [Option.some.injEq] at h
      rw [← h]

/-! ## Claim C11 -/

/-- Claim C11 does not hold as stated: for a map with two multi-read sites at positions 1 and
2 of one contig and strand and `w = 3`, `distributeTasks` gives both sites the window
`left = 0`, `right = 1`; site 1 lies within distance 3 of site 0, but its index is not in the
half-open range `0 <= k < 1`. -/
theorem C11_counterexample :
    ∃ t, distributeTasks [(⟨'+', 1, 1⟩, ⟨0, 0, [0]⟩), (⟨'+', 1, 2⟩, ⟨0, 0, [1]⟩)] [⟨0, 2, 1⟩]
        2 1 3 = some t
      ∧ t.sites = [⟨0, 0, 0, 1⟩, ⟨1, 0, 0, 1⟩]
      ∧ inWindow (⟨'+', 1, 2⟩ : KeyType) ⟨'+', 1, 1⟩ 3
      ∧ ¬ ((t.sites.getD 0 default).left ≤ ((1 : Nat) : Int)
            ∧ ((1 : Nat) : Int) < (t.sites.getD 0 default).right) := by
  refine ⟨_, rfl, by decide, by decide, by decide⟩

/-- Claim C11, amended: the window of a site is the closed range `[left, right]`.  For every
sorted non-empty position map and every `w >= 0`, `distributeTasks` returns, the sites are
the multi-read entries of the map in map order, and for every site `i` the sites that lie
on the same contig and strand within distance `w` of site `i` are exactly those with index
`k` in `sites[i].left <= k <= sites[i].right`. -/
theorem C11_window_closed_range (pm : MapType) (multis : List MultiType)
    (n_mhits num_threads : Nat) (w : Int) (hw : 0 ≤ w) (hs : MapSorted pm)
    (hne : 0 < pm.length) :
    ∃ t, distributeTasks pm multis n_mhits num_threads w = some t
      ∧ t.sites.length = multiCount pm pm.length
      ∧ (∀ k, k < t.sites.length →
          (t.sites.getD k default).v < pm.length
            ∧ isMultiAt pm (t.sites.getD k default).v = true
            ∧ multiCount pm (t.sites.getD k default).v = k)
      ∧ ∀ i, i < t.sites.length → ∀ k, k < t.sites.length →
          (inWindow (entryAt pm (t.sites.getD k default).v).1
              (entryAt pm (t.sites.getD i default).v).1 w
            ↔ ((t.sites.getD i default).left ≤ (k : Int)
                ∧ (k : Int) ≤ (t.sites.getD i default).right)) := by
  obtain ⟨t, h0, hwin, -⟩ := distributeTasks_spec pm multis n_mhits num_threads w hw hs hne
  refine ⟨t, h0, hwin.1, ?_, ?_⟩
  · intro k hk
    obtain ⟨e1, e2, e3, -⟩ := hwin.2.1 k hk
    exact ⟨e1, e2, e3⟩
  · intro i hi k hk
    exact siteFull_window pm t.sites hwin w i k hk
      (computeSites_full pm w hw hs t.sites
        (distributeTasks_sites pm multis n_mhits num_threads w t h0) i hi)

/-- Witness of C11 (amended): a map with seven entries, five of them multi-read sites, and
window radius 3. -/
theorem C11_window_closed_range_witness :
    ∃ t, distributeTasks
        [(⟨'+', 1, 1⟩, ⟨2, 0, [0]⟩), (⟨'+', 1, 3⟩, ⟨1, 0, []⟩), (⟨'+', 1, 4⟩, ⟨0, 0, [1, 2]⟩),
          (⟨'+', 1, 10⟩, ⟨5, 0, [3]⟩), (⟨'-', 1, 10⟩, ⟨0, 0, [4]⟩), (⟨'+', 2, 1⟩, ⟨7, 0, []⟩),
          (⟨'+', 2, 2⟩, ⟨0, 0, [5]⟩)] [] 6 2 3 = some t
      ∧ t.sites.length = 5 := by
  obtain ⟨t, h0, h1, -⟩ := C11_window_closed_range
    [(⟨'+', 1, 1⟩, ⟨2, 0, [0]⟩), (⟨'+', 1, 3⟩, ⟨1, 0, []⟩), (⟨'+', 1, 4⟩, ⟨0, 0, [1, 2]⟩),
      (⟨'+', 1, 10⟩, ⟨5, 0, [3]⟩), (⟨'-', 1, 10⟩, ⟨0, 0, [4]⟩), (⟨'+', 2, 1⟩, ⟨7, 0, []⟩),
      (⟨'+', 2, 2⟩, ⟨0, 0, [5]⟩)] [] 6 2 3 (by decide) (by unfold MapSorted; decide) (by decide)
  exact ⟨t, h0, h1.trans (by decide)⟩

/-! ## Claim C12 -/

/-- Claim C12: the unique count of a window.  For every sorted non-empty position map and
every `w >= 0`, `distributeTasks` returns, and for every site `i` the value `sites[i].uc`
is the sum of the unique counts `c` of all entries of the position map, with or without
back-references, that have the contig and strand of the site and a position within `w` of
its position. -/
theorem C12_window_unique_count (pm : MapType) (multis : List MultiType)
    (n_mhits num_threads : Nat) (w : Int) (hw : 0 ≤ w) (hs : MapSorted pm)
    (hne : 0 < pm.length) :
    ∃ t, distributeTasks pm multis n_mhits num_threads w = some t
      ∧ ∀ i, i < t.sites.length →
          (t.sites.getD i default).uc
            = windowCount pm (entryAt pm (t.sites.getD i default).v).1 w := by
  obtain ⟨t, h0, -⟩ := distributeTasks_spec pm multis n_mhits num_threads w hw hs hne
  refine ⟨t, h0, ?_⟩
  intro i hi
  exact siteFull_uc pm w _
    (computeSites_full pm w hw hs t.sites
      (distributeTasks_sites pm multis n_mhits num_threads w t h0) i hi)

/-- Witness of C12: the map with seven entries; the site at position 1 of contig 1 has the
unique counts 2 and 1 within distance 3. -/
theorem C12_window_unique_count_witness :
    ∃ t, distributeTasks
        [(⟨'+', 1, 1⟩, ⟨2, 0, [0]⟩), (⟨'+', 1, 3⟩, ⟨1, 0, []⟩), (⟨'+', 1, 4⟩, ⟨0, 0, [1, 2]⟩),
          (⟨'+', 1, 10⟩, ⟨5, 0, [3]⟩), (⟨'-', 1, 10⟩, ⟨0, 0, [4]⟩), (⟨'+', 2, 1⟩, ⟨7, 0, []⟩),
          (⟨'+', 2, 2⟩, ⟨0, 0, [5]⟩)] [] 6 2 3 = some t
      ∧ ∀ i, i < t.sites.length →
          (t.sites.getD i default).uc
            = windowCount
                [(⟨'+', 1, 1⟩, ⟨2, 0, [0]⟩), (⟨'+', 1, 3⟩, ⟨1, 0, []⟩),
                  (⟨'+', 1, 4⟩, ⟨0, 0, [1, 2]⟩), (⟨'+', 1, 10⟩, ⟨5, 0, [3]⟩),
                  (⟨'-', 1, 10⟩, ⟨0, 0, [4]⟩), (⟨'+', 2, 1⟩, ⟨7, 0, []⟩),
                  (⟨'+', 2, 2⟩, ⟨0, 0, [5]⟩)]
                (entryAt
                  [(⟨'+', 1, 1⟩, ⟨2, 0, [0]⟩), (⟨'+', 1, 3⟩, ⟨1, 0, []⟩),
                    (⟨'+', 1, 4⟩, ⟨0, 0, [1, 2]⟩), (⟨'+', 1, 10⟩, ⟨5, 0, [3]⟩),
                    (⟨'-', 1, 10⟩, ⟨0, 0, [4]⟩), (⟨'+', 2, 1⟩, ⟨7, 0, []⟩),
                    (⟨'+', 2, 2⟩, ⟨0, 0, [5]⟩)] (t.sites.getD i default).v).1 3 :=
  C12_window_unique_count
    [(⟨'+', 1, 1⟩, ⟨2, 0, [0]⟩), (⟨'+', 1, 3⟩, ⟨1, 0, []⟩), (⟨'+', 1, 4⟩, ⟨0, 0, [1, 2]⟩),
      (⟨'+', 1, 10⟩, ⟨5, 0, [3]⟩), (⟨'-', 1, 10⟩, ⟨0, 0, [4]⟩), (⟨'+', 2, 1⟩, ⟨7, 0, []⟩),
      (⟨'+', 2, 2⟩, ⟨0, 0, [5]⟩)] [] 6 2 3 (by decide) (by unfold MapSorted; decide) (by decide)

/-! ## Lemmas on the phases of a round -/

theorem eLoop_add (multis : List MultiType) (conprbs : List ℚ) (sp m n : Nat) (fr : List ℚ) :
    eLoop multis conprbs (sp + m) n (eLoop multis conprbs sp m fr)
      = eLoop multis conprbs sp (m + n) fr := by
  induction n with
  | zero => rfl
  | succ n ih =>
    have : m + (n + 1) = (m + n) + 1 := by omega
    rw [this]
    simp only [eLoop]
    rw [ih]
    have e : sp + m + n = sp + (m + n) := by omega
    rw [e]

/-- The E-step phase over a chain of thread ranges from `a` to `b` treats the records
`a .. b-1` in order. -/
theorem ePhase_chain (multis : List MultiType) (conprbs : List ℚ) (ranges : List (Nat × Nat))
    (a b : Nat) (h : rangesChained ranges a b) (fracs : List ℚ) :
    ePhase multis conprbs ranges fracs = eLoop multis conprbs a (b - a) fracs
      ∧ a ≤ b := by
  induction ranges generalizing a fracs with
  | nil =>
    have : a = b := h
    subst this
    simp [ePhase, eLoop]
  | cons r rest ih =>
    obtain ⟨h1, h2, h3⟩ := h
    obtain ⟨i1, i2⟩ := ih r.2 h3 (E_STEP multis conprbs r.1 r.2 fracs)
    refine ⟨?_, by omega⟩
    have e : ePhase multis conprbs (r :: rest) fracs
        = ePhase multis conprbs rest (E_STEP multis conprbs r.1 r.2 fracs) := rfl
    rw [e, i1]
    unfold E_STEP
    have e2 : r.2 = r.1 + (r.2 - r.1) := by omega
    rw [h1] at e2 ⊢
    have e3 : eLoop multis conprbs r.2 (b - r.2) (eLoop multis conprbs a (r.2 - a) fracs)
        = eLoop multis conprbs (a + (r.2 - a)) (b - r.2) (eLoop multis conprbs a (r.2 - a) fracs) := by
      rw [← e2]
    rw [e3, eLoop_add]
    have e4 : r.2 - a + (b - r.2) = b - a := by omega
    rw [e4]

/-- Ranges given by index as a chain are chained. -/
theorem rangesChained_of_index (ranges : List (Nat × Nat)) (a b : Nat)
    (hne : 0 < ranges.length) (h0 : (ranges.getD 0 default).1 = a)
    (hle : ∀ i, i < ranges.length → (ranges.getD i default).1 ≤ (ranges.getD i default).2)
    (hnext : ∀ i, i + 1 < ranges.length →
      (ranges.getD (i + 1) default).1 = (ranges.getD i default).2)
    (hlast : (ranges.getD (ranges.length - 1) default).2 = b) :
    rangesChained ranges a b := by
  induction ranges generalizing a with
  | nil => simp at hne
  | cons r rest ih =>
    simp only [List.getD_cons_zero] at h0
    have hr := hle 0 (by simp)
    simp only [List.getD_cons_zero] at hr
    refine ⟨h0, hr, ?_⟩
    cases rest with
    | nil =>
      simp only [List.length_singleton, Nat.sub_self, List.getD_cons_zero] at hlast
      exact hlast
    | cons r2 rest2 =>
      apply ih r.2 (by simp)
      · have := hnext 0 (by simp)
        simpa using this
      · intro i hi
        have := hle (i + 1) (by simpa using hi)
        simpa using this
      · intro i hi
        have := hnext (i + 1) (by simpa using hi)
        simpa using this
      · simpa using hlast

theorem mapFrame_refl (pm : MapType) : MapFrame pm pm :=
  ⟨rfl, fun _ => ⟨rfl, rfl, rfl⟩⟩

theorem mapFrame_trans (pm pm2 pm3 : MapType) (h1 : MapFrame pm pm2) (h2 : MapFrame pm2 pm3) :
    MapFrame pm pm3 :=
  ⟨h2.1.trans h1.1, fun v => ⟨(h2.2 v).1.trans (h1.2 v).1, (h2.2 v).2.1.trans (h1.2 v).2.1,
    (h2.2 v).2.2.trans (h1.2 v).2.2⟩⟩

theorem siteCells_frame (sites : List SiteType) (pm pm2 : MapType) (h : MapFrame pm pm2)
    (k : Int) : siteCells sites pm2 k = siteCells sites pm k :=
  (h.2 _).2.2

theorem sitesOK_frame (sites : List SiteType) (pm pm2 : MapType) (n : Nat)
    (h : MapFrame pm pm2) (hok : SitesOK sites pm n) : SitesOK sites pm2 n := by
  obtain ⟨o1, o2, o3, o4, o5, o6⟩ := hok
  refine ⟨?_, ?_, ?_, o4, o5, o6⟩
  · intro i hi
    rw [h.1]
    exact o1 i hi
  · intro i j hi hj hij
    rw [siteCells_frame sites pm pm2 h, siteCells_frame sites pm pm2 h]
    exact o2 i j hi hj hij
  · intro i hi
    rw [siteCells_frame sites pm pm2 h]
    exact o3 i hi
theorem rangesChained_le (ranges : List (Nat × Nat)) (a b : Nat)
    (h : rangesChained ranges a b) : a ≤ b := by
  induction ranges generalizing a with
  | nil =>
    have : a = b := h
    omega
  | cons r rest ih =>
    obtain ⟨h1, h2, h3⟩ := h
    have := ih r.2 h3
    omega

/-- In the middle of a non-final MS-step phase all cells are non-negative. -/
theorem phaseInv_nonneg (sites : List SiteType) (pm : MapType) (fracs : List ℚ) (c : Nat)
    (cur : MapType × List ℚ) (hok : SitesOK sites pm fracs.length) (hc : c ≤ sites.length)
    (hnn : ∀ x ∈ fracs, (0 : ℚ) ≤ x) (hinv : PhaseInv sites pm fracs c cur) :
    ∀ x ∈ cur.2, (0 : ℚ) ≤ x := by
  obtain ⟨-, -, m3, m4⟩ := hinv
  intro x hx
  obtain ⟨idx, hidx, rfl⟩ := List.getElem_of_mem hx
  have hrd : rd cur.2 idx = cur.2[idx] := by
    unfold rd
    rw [List.getD_eq_getElem?_getD, List.getElem?_eq_getElem hidx]
    rfl
  rw [← hrd]
  by_cases h : ∃ k : Nat, k < c ∧ idx ∈ siteCells sites pm k
  · obtain ⟨k, hk, hmem⟩ := h
    rw [m3 k hk idx hmem]
    apply add_nonneg
    · unfold windowSum
      exact sumFrom_nonneg _ _ _ (fun k => siteWeight_nonneg sites pm fracs (rd_nonneg fracs hnn) k)
    · have := hok.2.2.2.2.2 k (by omega)
      exact_mod_cast this
  · push_neg at h
    rw [m4 idx h]
    exact rd_nonneg fracs hnn idx

/-- One thread of a non-final MS-step phase, on a self-contained range `[a, e)` that begins
where the threads before it have ended. -/
theorem msStep_phase (sites : List SiteType) (pm : MapType) (fracs : List ℚ)
    (hok : SitesOK sites pm fracs.length) (hnn : ∀ x ∈ fracs, (0 : ℚ) ≤ x) (a e : Nat)
    (hae : a ≤ e) (he : e ≤ sites.length)
    (hself : ∀ k : Nat, a ≤ k → k < e →
      (a : Int) ≤ (siteAt sites k).left ∧ (siteAt sites k).right < (e : Int))
    (cur : MapType × List ℚ) (hinv : PhaseInv sites pm fracs a cur) :
    PhaseInv sites pm fracs e (MS_STEP false sites a e cur.1 cur.2) := by
  have hnn2 := phaseInv_nonneg sites pm fracs a cur hok (by omega) hnn hinv
  obtain ⟨m1, m2, m3, m4⟩ := hinv
  obtain ⟨o1, o2, o3, o4, o5, o6⟩ := sitesOK_frame sites pm cur.1 _ m1 hok
  have hpre : SmoothPre sites cur.1 cur.2 a e := by
    refine ⟨⟨he, ?_, ?_, ?_, ?_, ?_, hnn2⟩, ?_⟩
    · intro i _ hi
      exact o1 i (by omega)
    · intro i j _ hi _ hj hij
      exact o2 i j (by omega) (by omega) hij
    · intro i _ hi c hc
      rw [m2]
      exact o3 i (by omega) c hc
    · intro i h1 h2
      have := hself i h1 h2
      have := o4 i (by omega)
      omega
    · intro i _ hi
      exact o5 i (by omega)
    · intro i _ hi
      exact (o4 i (by omega)).2
  have hs := msLoop_inv sites cur.1 cur.2 a e (e - a) hpre (by omega)
  have hae2 : a + (e - a) = e := by omega
  rw [hae2] at hs
  obtain ⟨-, -, -, v4, v5, -, v7, v8, v9⟩ := hs
  simp only [MS_STEP, Bool.false_eq_true, if_false]
  have hdisj : ∀ k k2 : Nat, k < sites.length → k2 < sites.length → k ≠ k2 →
      ∀ c ∈ siteCells sites pm k, c ∉ siteCells sites cur.1 k2 := by
    intro k k2 hk hk2 hne c hc
    rw [siteCells_frame sites pm cur.1 m1]
    exact (hok.2.1 k k2 hk hk2 hne).2 c hc
  refine ⟨⟨v4.trans m1.1, fun v => ⟨(v5 v).1.trans (m1.2 v).1, (v5 v).2.1.trans (m1.2 v).2.1,
    (v5 v).2.2.trans (m1.2 v).2.2⟩⟩, v7.trans m2, ?_, ?_⟩
  · intro k hk cell hcell
    by_cases hka : k < a
    · rw [v9 cell (fun k2 h1 h2 => hdisj k k2 (by omega) (by omega) (by omega) cell hcell)]
      exact m3 k hka cell hcell
    · rw [v8 k (by omega) hk cell (by rw [siteCells_frame sites pm cur.1 m1]; exact hcell)]
      congr 1
      unfold windowSum
      apply sumFrom_congr
      intro k2 h1 h2
      have hs1 := hself k (by omega) hk
      obtain ⟨n, rfl⟩ := Int.eq_ofNat_of_zero_le (show 0 ≤ k2 by omega)
      have hn1 : a ≤ n := by omega
      have hn2 : n < e := by
        have := (hok.2.2.2.1 k (by omega))
        omega
      unfold siteWeight
      rw [siteCells_frame sites pm cur.1 m1]
      apply cellSum_congr
      intro c hc
      apply m4
      intro k3 hk3 hmem
      exact (hok.2.1 k3 n (by omega) (by omega) (by omega)).2 c hmem hc
  · intro cell hcell
    rw [v9 cell (fun k2 h1 h2 => by
      rw [siteCells_frame sites pm cur.1 m1]
      exact hcell k2 h2)]
    exact m4 cell (fun k hk => hcell k (by omega))

/-- A non-final MS-step phase over a chain of self-contained thread ranges from `a` to `b`
leaves in the cells of every site before `b` the smoothed value computed from the cells as
they were when the phase began. -/
theorem msPhase_smooth (sites : List SiteType) (pm : MapType) (fracs : List ℚ)
    (hok : SitesOK sites pm fracs.length) (hnn : ∀ x ∈ fracs, (0 : ℚ) ≤ x)
    (ranges : List (Nat × Nat)) (a b : Nat) (hchain : rangesChained ranges a b)
    (hb : b ≤ sites.length)
    (hself : ∀ r ∈ ranges, ∀ k : Nat, r.1 ≤ k → k < r.2 →
      (r.1 : Int) ≤ (siteAt sites k).left ∧ (siteAt sites k).right < (r.2 : Int))
    (cur : MapType × List ℚ) (hinv : PhaseInv sites pm fracs a cur) :
    PhaseInv sites pm fracs b (msPhase false sites ranges cur) := by
  induction ranges generalizing a cur with
  | nil =>
    have : a = b := hchain
    subst this
    exact hinv
  | cons r rest ih =>
    obtain ⟨h1, h2, h3⟩ := hchain
    have hle := rangesChained_le rest r.2 b h3
    have e : msPhase false sites (r :: rest) cur
        = msPhase false sites rest (MS_STEP false sites r.1 r.2 cur.1 cur.2) := rfl
    rw [e]
    apply ih r.2 h3 (fun r2 hr2 => hself r2 (List.mem_cons_of_mem _ hr2))
    rw [h1]
    apply msStep_phase sites pm fracs hok hnn a r.2 (by omega) (by omega) _ cur hinv
    have := hself r (List.mem_cons_self _ _)
    rw [h1] at this
    exact this

theorem phaseInv_init (sites : List SiteType) (pm : MapType) (fracs : List ℚ) :
    PhaseInv sites pm fracs 0 (pm, fracs) :=
  ⟨mapFrame_refl pm, rfl, fun k hk => absurd hk (Nat.not_lt_zero k), fun _ _ => rfl⟩

/-- The final MS-step phase over a chain of thread ranges from `a` to `b` leaves `fracs` as
it is and sets the weight of every site before `b` to the sum of its cells. -/
theorem msPhase_final (sites : List SiteType) (pm : MapType) (fracs : List ℚ)
    (hv : ∀ i : Nat, i < sites.length → (siteAt sites i).v < pm.length)
    (hdist : ∀ i j : Nat, i < sites.length → j < sites.length → i ≠ j →
      (siteAt sites i).v ≠ (siteAt sites j).v)
    (ranges : List (Nat × Nat)) (a b : Nat) (hchain : rangesChained ranges a b)
    (hb : b ≤ sites.length) (cur : MapType) (hframe : MapFrame pm cur)
    (hdone : ∀ k : Nat, k < a →
      (entryAt cur (siteAt sites k).v).2.weight = cellSum fracs (siteCells sites pm k)) :
    (msPhase true sites ranges (cur, fracs)).2 = fracs
      ∧ MapFrame pm (msPhase true sites ranges (cur, fracs)).1
      ∧ ∀ k : Nat, k < b →
          (entryAt (msPhase true sites ranges (cur, fracs)).1 (siteAt sites k).v).2.weight
            = cellSum fracs (siteCells sites pm k) := by
  induction ranges generalizing a cur with
  | nil =>
    have : a = b := hchain
    subst this
    exact ⟨rfl, hframe, hdone⟩
  | cons r rest ih =>
    obtain ⟨h1, h2, h3⟩ := hchain
    have hle := rangesChained_le rest r.2 b h3
    have e : msPhase true sites (r :: rest) (cur, fracs)
        = msPhase true sites rest (msCollectLoop sites fracs r.1 (r.2 - r.1) cur, fracs) := by
      simp [msPhase, MS_STEP]
    rw [e]
    apply ih r.2 h3
    · refine ⟨(msCollectLoop_length _ _ _ _ _).trans hframe.1, fun v => ?_⟩
      obtain ⟨f1, f2, f3⟩ := msCollectLoop_frame sites fracs r.1 (r.2 - r.1) cur v
      exact ⟨f1.trans (hframe.2 v).1, f2.trans (hframe.2 v).2.1, f3.trans (hframe.2 v).2.2⟩
    · intro k hk
      by_cases hka : k < a
      · rw [msCollectLoop_untouched]
        · exact hdone k hka
        · intro i hi
          exact hdist _ _ (by omega) (by omega) (by omega)
      · obtain ⟨d, rfl⟩ : ∃ d, k = r.1 + d := ⟨k - r.1, by omega⟩
        rw [msCollectLoop_weight sites fracs r.1 (r.2 - r.1) cur d (by omega)
          (by rw [hframe.1]; exact hv _ (by omega))]
        unfold siteCells
        rw [(hframe.2 _).2.2]

/-! ## The scenarios with one record of two alignments -/

theorem inWindow_symm (a b : KeyType) (w : Int) (h : inWindow a b w) : inWindow b a w := by
  obtain ⟨h1, h2, h3, h4⟩ := h
  exact ⟨h1.symm, h2.symm, by omega, by omega⟩

theorem twoSites_isMulti (pm : MapType) (iA iB : Nat) (h : TwoSites pm iA iB) (j : Nat)
    (hj : j < pm.length) : isMultiAt pm j = true ↔ (j = iA ∨ j = iB) := by
  obtain ⟨h1, h2, h3, h4, h5, h6⟩ := h
  unfold isMultiAt
  constructor
  · intro hm
    by_contra hne
    push_neg at hne
    rw [h6 j hj hne.1 hne.2] at hm
    simp at hm
  · rintro (rfl | rfl)
    · rw [h4]
      simp
    · rw [h5]
      simp

theorem twoSites_multiCount (pm : MapType) (iA iB : Nat) (h : TwoSites pm iA iB) (j : Nat)
    (hj : j ≤ pm.length) :
    multiCount pm j = (if iA < j then 1 else 0) + (if iB < j then 1 else 0) := by
  induction j with
  | zero => simp [multiCount]
  | succ j ih =>
    rw [multiCount_succ, ih (by omega)]
    have hm := twoSites_isMulti pm iA iB h j (by omega)
    have hne := h.2.2.1
    by_cases hc : isMultiAt pm j = true
    · rw [if_pos hc]
      rcases hm.mp hc with rfl | rfl
      · rw [if_neg (lt_irrefl _), if_pos (Nat.lt_succ_self _)]
        split_ifs <;> omega
      · rw [if_neg (lt_irrefl _), if_pos (Nat.lt_succ_self _)]
        split_ifs <;> omega
    · rw [if_neg hc]
      have hn : ¬ (j = iA ∨ j = iB) := fun hh => hc (hm.mpr hh)
      push_neg at hn
      split_ifs <;> omega

theorem twoSites_cells (pm : MapType) (iA iB : Nat) (h : TwoSites pm iA iB) :
    (pm.map (fun e => e.2.aligns.length)).sum = 2 := by
  have key : ∀ j, j ≤ pm.length →
      cellsBefore pm j = (if iA < j then 1 else 0) + (if iB < j then 1 else 0) := by
    intro j hj
    induction j with
    | zero => simp [cellsBefore]
    | succ j ih =>
      simp only [cellsBefore]
      rw [ih (by omega)]
      obtain ⟨h1, h2, h3, h4, h5, h6⟩ := h
      by_cases hA : j = iA
      · subst hA
        rw [h4]
        simp only [List.length_singleton]
        split_ifs <;> omega
      · by_cases hB : j = iB
        · subst hB
          rw [h5]
          simp only [List.length_singleton]
          split_ifs <;> omega
        · rw [h6 j (by omega) hA hB]
          simp only [List.length_nil]
          split_ifs <;> omega
  rw [← cellsBefore_length, key pm.length le_rfl, if_pos h.1, if_pos h.2.1]

theorem distributeTasks_eRanges (pm : MapType) (multis : List MultiType)
    (n_mhits num_threads : Nat) (w : Int) (t : Tasks)
    (h : distributeTasks pm multis n_mhits num_threads w = some t) :
    t.eRanges = distributeE multis n_mhits num_threads := by
  unfold distributeTasks at h
  cases hc : computeSites pm w with
  | none =>
    rw [hc] at h
    simp at h
  | some sites =>
    rw [hc] at h
    simp only at h
    cases hm : distributeMS pm sites n_mhits num_threads with
    | none =>
      rw [hm] at h
      simp at h
    | some ms =>
      rw [hm] at h
      simp only [Option.some.injEq] at h
      rw [← h]

/-- The thread ranges of the E step are chained from the first record to the last. -/
theorem distributeE_chained (multis : List MultiType) (n_mhits num_threads : Nat)
    (hT : 1 ≤ num_threads) (hs : ∀ m ∈ multis, 1 ≤ m.s)
    (hsum : (multis.map (fun m => m.s)).sum = n_mhits) :
    rangesChained (distributeE multis n_mhits num_threads) 0 multis.length := by
  have hinv := EInv_init multis n_mhits hsum
  have hlen := computeLefts_length n_mhits num_threads
  obtain ⟨h1, h2, h3⟩ := ePartition_chain multis (computeLefts n_mhits num_threads) _ hinv
  have hl : (distributeE multis n_mhits num_threads).length = num_threads := by
    unfold distributeE
    rw [ePartition_length, hlen]
  apply rangesChained_of_index
  · omega
  · unfold distributeE
    exact h2 (by omega)
  · intro i hi
    unfold distributeE
    exact (h1 i (by omega)).1
  · intro i hi
    unfold distributeE
    exact h3 i (by omega)
  · have := ePartition_last multis hs (computeLefts n_mhits num_threads) _ hinv (by omega)
      (by rw [hlen]; exact computeLefts_last n_mhits num_threads hT)
    rw [hl]
    rw [hlen] at this
    exact this

theorem siteAt_nat (sites : List SiteType) (k : Nat) :
    siteAt sites (k : Int) = sites.getD k default := by
  simp [siteAt]

/-- What `distributeTasks` computes for the scenarios. -/
theorem scene_of_tasks (pm : MapType) (c : Nat) (w : Int) (num_threads iA iB : Nat)
    (hw : 0 ≤ w) (hT : 1 ≤ num_threads) (hs : MapSorted pm) (h2s : TwoSites pm iA iB) :
    ∃ t a b, distributeTasks pm [⟨0, 2, c⟩] 2 num_threads w = some t
      ∧ Scene pm t w iA iB a b := by
  have hne : 0 < pm.length := by
    have := h2s.1
    omega
  obtain ⟨t, h0, hwin, r1, r2, r3, r4, r5⟩ :=
    distributeTasks_spec pm [⟨0, 2, c⟩] 2 num_threads w hw hs hne
  have hsites := distributeTasks_sites pm _ 2 num_threads w t h0
  have hfull := computeSites_full pm w hw hs t.sites hsites
  have hlen : t.sites.length = 2 := by
    rw [hwin.1, twoSites_multiCount pm iA iB h2s pm.length le_rfl, if_pos h2s.1, if_pos h2s.2.1]
  have hmA := (twoSites_isMulti pm iA iB h2s iA h2s.1).mpr (Or.inl rfl)
  have hmB := (twoSites_isMulti pm iA iB h2s iB h2s.2.1).mpr (Or.inr rfl)
  obtain ⟨a1, a2⟩ := windows_site_of_entry pm t.sites hwin iA h2s.1 hmA
  obtain ⟨b1, b2⟩ := windows_site_of_entry pm t.sites hwin iB h2s.2.1 hmB
  have hab : multiCount pm iA ≠ multiCount pm iB := by
    intro e
    rw [e, b2] at a2
    exact h2s.2.2.1 a2.symm
  refine ⟨t, multiCount pm iA, multiCount pm iB, h0, hlen, by omega, ?_, ?_, ?_, ?_, ?_, ?_, ?_, ?_⟩
  · rw [siteAt_nat]
    exact a2
  · rw [siteAt_nat]
    exact b2
  · rw [distributeTasks_eRanges pm _ 2 num_threads w t h0]
    exact distributeE_chained [⟨0, 2, c⟩] 2 num_threads hT (by simp) (by simp)
  · rw [← hlen]
    apply rangesChained_of_index
    · omega
    · exact r3 (by omega)
    · intro i hi
      exact (r2 i (by omega)).1
    · intro i hi
      exact r4 i (by omega)
    · rw [r1]
      exact r5 (by omega) (twoSites_cells pm iA iB h2s)
  · intro r hr k hk1 hk2
    obtain ⟨i, hi, rfl⟩ := List.getElem_of_mem hr
    have hg : t.msRanges.getD i default = t.msRanges[i] := by
      rw [List.getD_eq_getElem?_getD, List.getElem?_eq_getElem hi]
      rfl
    obtain ⟨-, c1, c2⟩ := r2 i (by omega)
    rw [hg] at c1 c2
    rw [siteAt_nat]
    exact cut_self_contained pm t.sites hwin _ _ k c1 c2 hk1 hk2
  · have := siteFull_uc pm w _ (hfull (multiCount pm iA) a1)
    rw [a2] at this
    rw [siteAt_nat]
    exact this
  · have := siteFull_uc pm w _ (hfull (multiCount pm iB) b1)
    rw [b2] at this
    rw [siteAt_nat]
    exact this
  · -- the windows
    have hwAB := siteFull_window pm t.sites hwin w (multiCount pm iA) (multiCount pm iB) b1
      (hfull _ a1)
    have hwBA := siteFull_window pm t.sites hwin w (multiCount pm iB) (multiCount pm iA) a1
      (hfull _ b1)
    rw [a2, b2] at hwAB hwBA
    obtain ⟨-, -, -, p4, p5, p6, p7, -⟩ := hwin.2.1 (multiCount pm iA) a1
    obtain ⟨-, -, -, q4, q5, q6, q7, -⟩ := hwin.2.1 (multiCount pm iB) b1
    rw [hlen] at p7 q7 a1 b1
    by_cases hin : inWindow (entryAt pm iB).1 (entryAt pm iA).1 w
    · left
      refine ⟨hin, ?_⟩
      have h1 := hwAB.mp hin
      have h2 := hwBA.mp (inWindow_symm _ _ _ hin)
      intro k hk
      rw [siteAt_nat]
      have hk2 : k = multiCount pm iA ∨ k = multiCount pm iB := by omega
      rcases hk2 with rfl | rfl
      · push_cast at *
        constructor <;> omega
      · push_cast at *
        constructor <;> omega
    · right
      refine ⟨hin, ?_⟩
      have h1 : ¬ ((t.sites.getD (multiCount pm iA) default).left ≤ (multiCount pm iB : Int)
          ∧ (multiCount pm iB : Int) ≤ (t.sites.getD (multiCount pm iA) default).right) :=
        fun hh => hin (hwAB.mpr hh)
      have h2 : ¬ ((t.sites.getD (multiCount pm iB) default).left ≤ (multiCount pm iA : Int)
          ∧ (multiCount pm iA : Int) ≤ (t.sites.getD (multiCount pm iB) default).right) :=
        fun hh => hin (inWindow_symm _ _ _ (hwBA.mpr hh))
      intro k hk
      rw [siteAt_nat]
      have hk2 : k = multiCount pm iA ∨ k = multiCount pm iB := by omega
      rcases hk2 with rfl | rfl
      · constructor <;> omega
      · constructor <;> omega

theorem nonneg_of_rd (l : List ℚ) (h : ∀ j, 0 ≤ rd l j) : ∀ x ∈ l, (0 : ℚ) ≤ x := by
  intro x hx
  obtain ⟨idx, hidx, rfl⟩ := List.getElem_of_mem hx
  have hrd : rd l idx = l[idx] := by
    unfold rd
    rw [List.getD_eq_getElem?_getD, List.getElem?_eq_getElem hidx]
    rfl
  rw [← hrd]
  exact h idx

theorem cellSum_single (fracs : List ℚ) (c : Nat) : cellSum fracs [c] = rd fracs c := by
  rw [cellSum_cons]
  simp [cellSum]

/-- The cells of the two sites of the scenarios, on any map that is `pm` up to the
weights. -/
theorem scene_cells (pm pmc : MapType) (t : Tasks) (w : Int) (iA iB a b : Nat)
    (h2s : TwoSites pm iA iB) (hsc : Scene pm t w iA iB a b) (hfr : MapFrame pm pmc) :
    siteCells t.sites pmc (a : Int) = [0] ∧ siteCells t.sites pmc (b : Int) = [1] := by
  obtain ⟨-, -, s3, s4, -⟩ := hsc
  unfold siteCells
  rw [s3, s4, (hfr.2 iA).2.2, (hfr.2 iB).2.2]
  exact ⟨h2s.2.2.2.1, h2s.2.2.2.2.1⟩

theorem scene_sitesOK (pm : MapType) (t : Tasks) (w : Int) (iA iB a b n : Nat)
    (h2s : TwoSites pm iA iB) (hsc : Scene pm t w iA iB a b) (hn : 2 ≤ n)
    (huA : 0 ≤ (siteAt t.sites a).uc) (huB : 0 ≤ (siteAt t.sites b).uc) :
    SitesOK t.sites pm n := by
  obtain ⟨ca, cb⟩ := scene_cells pm pm t w iA iB a b h2s hsc (mapFrame_refl pm)
  obtain ⟨s1, s2, s3, s4, -, -, -, -, -, s10⟩ := hsc
  have hcase : ∀ i : Nat, i < t.sites.length → i = a ∨ i = b := by
    intro i hi
    omega
  refine ⟨?_, ?_, ?_, ?_, ?_, ?_⟩
  · intro i hi
    rcases hcase i hi with rfl | rfl
    · rw [s3]
      exact h2s.1
    · rw [s4]
      exact h2s.2.1
  · intro i j hi hj hij
    rcases hcase i hi with rfl | rfl <;> rcases hcase j hj with rfl | rfl
    · exact absurd rfl hij
    · rw [s3, s4, ca, cb]
      exact ⟨h2s.2.2.1, by simp⟩
    · rw [s3, s4, ca, cb]
      exact ⟨fun e => h2s.2.2.1 e.symm, by simp⟩
    · exact absurd rfl hij
  · intro i hi c hc
    rcases hcase i hi with rfl | rfl
    · rw [ca] at hc
      simp at hc
      omega
    · rw [cb] at hc
      simp at hc
      omega
  · intro i hi
    rcases s10 with ⟨-, h⟩ | ⟨-, h⟩
    · have := h i (by omega)
      omega
    · have := h i (by omega)
      omega
  · intro i hi
    rcases s10 with ⟨-, h⟩ | ⟨-, h⟩
    · have h0 := h i (by omega)
      have h1 := h (i + 1) (by omega)
      omega
    · have h0 := h i (by omega)
      have h1 := h (i + 1) (by omega)
      omega
  · intro i hi
    rcases hcase i hi with rfl | rfl
    · exact huA
    · exact huB

/-- The E-step phase of the scenarios: the two cells of the record share its multiplicity
`c` in proportion to their values. -/
theorem scene_estep (eRanges : List (Nat × Nat)) (hch : rangesChained eRanges 0 1) (c : Nat)
    (conprbs fr : List ℚ) (p : ℚ) (hp0 : rd conprbs 0 = p) (hp1 : rd conprbs 1 = p)
    (hpp : 0 < p) (hlen : 2 ≤ fr.length) (hnn : ∀ x ∈ fr, (0 : ℚ) ≤ x)
    (hpos : 0 < rd fr 0 + rd fr 1) :
    (ePhase [⟨0, 2, c⟩] conprbs eRanges fr).length = fr.length
      ∧ rd (ePhase [⟨0, 2, c⟩] conprbs eRanges fr) 0 = (c : ℚ) * rd fr 0 / (rd fr 0 + rd fr 1)
      ∧ rd (ePhase [⟨0, 2, c⟩] conprbs eRanges fr) 1 = (c : ℚ) * rd fr 1 / (rd fr 0 + rd fr 1)
      ∧ ∀ x ∈ ePhase [⟨0, 2, c⟩] conprbs eRanges fr, (0 : ℚ) ≤ x := by
  have he : ePhase [⟨0, 2, c⟩] conprbs eRanges fr = eRecord conprbs ⟨0, 2, c⟩ fr := by
    rw [(ePhase_chain _ _ _ 0 1 hch fr).1]
    simp [eLoop]
  rw [he]
  have hP : prodSum fr conprbs 0 2 = p * (rd fr 0 + rd fr 1) := by
    simp only [prodSum, Nat.zero_add, hp0, hp1]
    ring
  have hPpos : 0 < prodSum fr conprbs 0 2 := by
    rw [hP]
    exact mul_pos hpp hpos
  have hval : ∀ j, j < 2 → rd (eRecord conprbs ⟨0, 2, c⟩ fr) j
      = (c : ℚ) * rd fr j / (rd fr 0 + rd fr 1) := by
    intro j hj
    have h := eRecord_rd_slice conprbs ⟨0, 2, c⟩ fr (by simpa using hlen) j hj
    simp only [Nat.zero_add] at h
    rw [h]
    unfold eValue
    simp only [Nat.zero_add]
    rw [if_neg (not_le.mpr hPpos), hP]
    have hcp : rd conprbs j = p := by
      interval_cases j
      · exact hp0
      · exact hp1
    rw [hcp]
    field_simp
    ring
  have hx := rd_nonneg fr hnn
  refine ⟨eRecord_length _ _ _, hval 0 (by omega), hval 1 (by omega), ?_⟩
  apply nonneg_of_rd
  intro j
  by_cases hj : j < 2
  · rw [hval j hj]
    exact div_nonneg (mul_nonneg (Nat.cast_nonneg c) (hx j)) (le_of_lt hpos)
  · rw [eRecord_rd_frame _ _ _ _ (Or.inr (by simp; omega))]
    exact hx j

/-- A non-final MS-step phase of the scenarios: when each site is in the window of the
other, both cells get the sum of the two cells plus the unique count of their site; else
each cell gets its own value plus the unique count of its site. -/
theorem scene_msstep (pm pmc : MapType) (t : Tasks) (w : Int) (iA iB a b : Nat)
    (h2s : TwoSites pm iA iB) (hsc : Scene pm t w iA iB a b) (hfr : MapFrame pm pmc)
    (fr : List ℚ) (hlen : 2 ≤ fr.length) (hnn : ∀ x ∈ fr, (0 : ℚ) ≤ x)
    (huA : 0 ≤ (siteAt t.sites a).uc) (huB : 0 ≤ (siteAt t.sites b).uc) :
    MapFrame pm (msPhase false t.sites t.msRanges (pmc, fr)).1
      ∧ (msPhase false t.sites t.msRanges (pmc, fr)).2.length = fr.length
      ∧ (∀ x ∈ (msPhase false t.sites t.msRanges (pmc, fr)).2, (0 : ℚ) ≤ x)
      ∧ (inWindow (entryAt pm iB).1 (entryAt pm iA).1 w →
          rd (msPhase false t.sites t.msRanges (pmc, fr)).2 0
              = rd fr 0 + rd fr 1 + ((siteAt t.sites a).uc : ℚ)
            ∧ rd (msPhase false t.sites t.msRanges (pmc, fr)).2 1
              = rd fr 0 + rd fr 1 + ((siteAt t.sites b).uc : ℚ))
      ∧ (¬ inWindow (entryAt pm iB).1 (entryAt pm iA).1 w →
          rd (msPhase false t.sites t.msRanges (pmc, fr)).2 0
              = rd fr 0 + ((siteAt t.sites a).uc : ℚ)
            ∧ rd (msPhase false t.sites t.msRanges (pmc, fr)).2 1
              = rd fr 1 + ((siteAt t.sites b).uc : ℚ)) := by
  have hok := sitesOK_frame t.sites pm pmc fr.length hfr
    (scene_sitesOK pm t w iA iB a b fr.length h2s hsc hlen huA huB)
  obtain ⟨ca, cb⟩ := scene_cells pm pmc t w iA iB a b h2s hsc hfr
  have hsc2 := hsc
  obtain ⟨s1, s2, s3, s4, -, s6, s7, -, -, s10⟩ := hsc
  have hph := msPhase_smooth t.sites pmc fr hok hnn t.msRanges 0 2 s6 (by omega) s7 (pmc, fr)
    (phaseInv_init t.sites pmc fr)
  have hnn2 := phaseInv_nonneg t.sites pmc fr 2 _ hok (by omega) hnn hph
  obtain ⟨m1, m2, m3, -⟩ := hph
  have hWa : siteWeight t.sites pmc fr (a : Int) = rd fr 0 := by
    unfold siteWeight
    rw [ca, cellSum_single]
  have hWb : siteWeight t.sites pmc fr (b : Int) = rd fr 1 := by
    unfold siteWeight
    rw [cb, cellSum_single]
  have hA := m3 a (by omega) 0 (by rw [ca]; simp)
  have hB := m3 b (by omega) 1 (by rw [cb]; simp)
  refine ⟨mapFrame_trans pm pmc _ hfr m1, m2, hnn2, ?_, ?_⟩
  · intro hin
    rcases s10 with ⟨-, h⟩ | ⟨hn, -⟩
    swap
    · exact absurd hin hn
    have hsum : windowSum t.sites pmc fr 0 1 = rd fr 0 + rd fr 1 := by
      unfold windowSum
      have e : ((1 : Int) + 1 - 0).toNat = 2 := by decide
      rw [e]
      simp only [sumFrom]
      rcases s2 with ⟨rfl, rfl⟩ | ⟨rfl, rfl⟩
      · simp only [Nat.cast_zero, Nat.cast_one] at hWa hWb
        norm_num
        rw [hWa, hWb]
      · simp only [Nat.cast_zero, Nat.cast_one] at hWa hWb
        norm_num
        rw [hWa, hWb]
        ring
    rw [(h a (by omega)).1, (h a (by omega)).2, hsum] at hA
    rw [(h b (by omega)).1, (h b (by omega)).2, hsum] at hB
    exact ⟨hA, hB⟩
  · intro hin
    rcases s10 with ⟨hn, -⟩ | ⟨-, h⟩
    · exact absurd hn hin
    have hone : ∀ k : Nat, windowSum t.sites pmc fr (k : Int) (k : Int)
        = siteWeight t.sites pmc fr (k : Int) := by
      intro k
      unfold windowSum
      have e : ((k : Int) + 1 - (k : Int)).toNat = 1 := by omega
      rw [e]
      simp [sumFrom]
    rw [(h a (by omega)).1, (h a (by omega)).2, hone, hWa] at hA
    rw [(h b (by omega)).1, (h b (by omega)).2, hone, hWb] at hB
    exact ⟨hA, hB⟩

/-- The final MS-step phase of the scenarios: each of the two entries gets the value of its
cell as its weight. -/
theorem scene_last (pm pmc : MapType) (t : Tasks) (w : Int) (iA iB a b : Nat)
    (h2s : TwoSites pm iA iB) (hsc : Scene pm t w iA iB a b) (hfr : MapFrame pm pmc)
    (fr : List ℚ) :
    (entryAt (msPhase true t.sites t.msRanges (pmc, fr)).1 iA).2.weight = rd fr 0
      ∧ (entryAt (msPhase true t.sites t.msRanges (pmc, fr)).1 iB).2.weight = rd fr 1 := by
  obtain ⟨ca, cb⟩ := scene_cells pm pm t w iA iB a b h2s hsc (mapFrame_refl pm)
  obtain ⟨s1, s2, s3, s4, -, s6, -⟩ := hsc
  have hcase : ∀ i : Nat, i < t.sites.length → i = a ∨ i = b := by
    intro i hi
    omega
  have hv : ∀ i : Nat, i < t.sites.length → (siteAt t.sites i).v < pm.length := by
    intro i hi
    rcases hcase i hi with rfl | rfl
    · rw [s3]
      exact h2s.1
    · rw [s4]
      exact h2s.2.1
  have hdist : ∀ i j : Nat, i < t.sites.length → j < t.sites.length → i ≠ j →
      (siteAt t.sites i).v ≠ (siteAt t.sites j).v := by
    intro i j hi hj hij
    rcases hcase i hi with rfl | rfl <;> rcases hcase j hj with rfl | rfl
    · exact absurd rfl hij
    · rw [s3, s4]
      exact h2s.2.2.1
    · rw [s3, s4]
      exact fun e => h2s.2.2.1 e.symm
    · exact absurd rfl hij
  obtain ⟨-, -, f3⟩ := msPhase_final t.sites pm fr hv hdist t.msRanges 0 2 s6 (by omega) pmc hfr
    (fun k hk => absurd hk (Nat.not_lt_zero k))
  have hA := f3 a (by omega)
  have hB := f3 b (by omega)
  rw [s3, ca, cellSum_single] at hA
  rw [s4, cb, cellSum_single] at hB
  exact ⟨hA, hB⟩

/-! ## Claim C16 -/

/-- The symmetry scenario before its final round: after any number of non-final rounds the
two cells of the record hold the same positive value. -/
theorem symmetry_rounds (pm : MapType) (t : Tasks) (w : Int) (iA iB a b : Nat)
    (h2s : TwoSites pm iA iB) (hsc : Scene pm t w iA iB a b) (conprbs fracs : List ℚ)
    (R n : Nat) (hn : n < R) (hp0 : rd conprbs 0 = 1 / 2) (hp1 : rd conprbs 1 = 1 / 2)
    (hlen : 2 ≤ fracs.length) (hnn : ∀ x ∈ fracs, (0 : ℚ) ≤ x) (hf0 : rd fracs 0 = 1)
    (hf1 : rd fracs 1 = 1) (huA : (siteAt t.sites a).uc = 0)
    (huB : (siteAt t.sites b).uc = 0) :
    MapFrame pm (emsLoop [⟨0, 2, 2⟩] conprbs t R n (pm, fracs)).1
      ∧ 2 ≤ (emsLoop [⟨0, 2, 2⟩] conprbs t R n (pm, fracs)).2.length
      ∧ (∀ x ∈ (emsLoop [⟨0, 2, 2⟩] conprbs t R n (pm, fracs)).2, (0 : ℚ) ≤ x)
      ∧ rd (emsLoop [⟨0, 2, 2⟩] conprbs t R n (pm, fracs)).2 0
          = rd (emsLoop [⟨0, 2, 2⟩] conprbs t R n (pm, fracs)).2 1
      ∧ 0 < rd (emsLoop [⟨0, 2, 2⟩] conprbs t R n (pm, fracs)).2 0 := by
  induction n with
  | zero =>
    refine ⟨mapFrame_refl pm, hlen, hnn, ?_, ?_⟩
    · show rd fracs 0 = rd fracs 1
      rw [hf0, hf1]
    · show 0 < rd fracs 0
      rw [hf0]
      norm_num
  | succ n ih =>
    obtain ⟨i1, i2, i3, i4, i5⟩ := ih (by omega)
    simp only [emsLoop]
    have hd : decide (n + 1 = R) = false := by
      simp only [decide_eq_false_iff_not]
      omega
    rw [hd]
    obtain ⟨e1, e2, e3, e4⟩ := scene_estep t.eRanges hsc.2.2.2.2.1 2 conprbs
      (emsLoop [⟨0, 2, 2⟩] conprbs t R n (pm, fracs)).2 (1 / 2) hp0 hp1 (by norm_num) i2 i3
      (by rw [← i4]; linarith)
    obtain ⟨m1, m2, m3, m4, m5⟩ := scene_msstep pm
      (emsLoop [⟨0, 2, 2⟩] conprbs t R n (pm, fracs)).1 t w iA iB a b h2s hsc i1
      (ePhase [⟨0, 2, 2⟩] conprbs t.eRanges (emsLoop [⟨0, 2, 2⟩] conprbs t R n (pm, fracs)).2)
      (by rw [e1]; exact i2) e4 (by rw [huA]) (by rw [huB])
    have hx1 : rd (ePhase [⟨0, 2, 2⟩] conprbs t.eRanges
        (emsLoop [⟨0, 2, 2⟩] conprbs t R n (pm, fracs)).2) 0 = 1 := by
      rw [e2, ← i4]
      field_simp
      ring
    have hy1 : rd (ePhase [⟨0, 2, 2⟩] conprbs t.eRanges
        (emsLoop [⟨0, 2, 2⟩] conprbs t R n (pm, fracs)).2) 1 = 1 := by
      rw [e3, ← i4]
      field_simp
      ring
    refine ⟨m1, by rw [m2, e1]; exact i2, m3, ?_, ?_⟩
    · by_cases hin : inWindow (entryAt pm iB).1 (entryAt pm iA).1 w
      · rw [(m4 hin).1, (m4 hin).2, huA, huB]
      · rw [(m5 hin).1, (m5 hin).2, huA, huB, hx1, hy1]
    · by_cases hin : inWindow (entryAt pm iB).1 (entryAt pm iA).1 w
      · rw [(m4 hin).1, huA, hx1, hy1]
        norm_num
      · rw [(m5 hin).1, huA, hx1]
        norm_num

/-- Claim C16: the symmetry scenario.  The position map is sorted; one record with `s = 2`
and `c = 2` has its cell 0 back-referenced by the entry `iA` and its cell 1 by the entry
`iB`, and no other entry has back-references; both conditional probabilities are 1/2 and
both weight cells start from 1 (as `processMultiReads` leaves them); the unique counts
within `w` of either site sum to 0.  Then for every `w >= 0`, every thread count `>= 1` and
every number of rounds `R >= 1`, `distributeTasks` returns and after `EMS(R)` the two
entries have the same weight (namely 1 each). -/
theorem C16_symmetry (pm : MapType) (conprbs fracs : List ℚ) (w : Int)
    (num_threads R iA iB : Nat) (hw : 0 ≤ w) (hT : 1 ≤ num_threads) (hR : 1 ≤ R)
    (hs : MapSorted pm) (h2s : TwoSites pm iA iB)
    (hucA : windowCount pm (entryAt pm iA).1 w = 0)
    (hucB : windowCount pm (entryAt pm iB).1 w = 0)
    (hp0 : rd conprbs 0 = 1 / 2) (hp1 : rd conprbs 1 = 1 / 2)
    (hlen : 2 ≤ fracs.length) (hnn : ∀ x ∈ fracs, (0 : ℚ) ≤ x) (hf0 : rd fracs 0 = 1)
    (hf1 : rd fracs 1 = 1) :
    ∃ t, distributeTasks pm [⟨0, 2, 2⟩] 2 num_threads w = some t
      ∧ (entryAt (EMS [⟨0, 2, 2⟩] conprbs t R pm fracs).1 iA).2.weight
          = (entryAt (EMS [⟨0, 2, 2⟩] conprbs t R pm fracs).1 iB).2.weight
      ∧ (entryAt (EMS [⟨0, 2, 2⟩] conprbs t R pm fracs).1 iA).2.weight = 1 := by
  obtain ⟨t, a, b, h0, hsc⟩ := scene_of_tasks pm 2 w num_threads iA iB hw hT hs h2s
  have huA : (siteAt t.sites a).uc = 0 := hsc.2.2.2.2.2.2.2.1.trans hucA
  have huB : (siteAt t.sites b).uc = 0 := hsc.2.2.2.2.2.2.2.2.1.trans hucB
  obtain ⟨n, rfl⟩ : ∃ n, R = n + 1 := ⟨R - 1, by omega⟩
  obtain ⟨i1, i2, i3, i4, i5⟩ := symmetry_rounds pm t w iA iB a b h2s hsc conprbs fracs (n + 1) n
    (by omega) hp0 hp1 hlen hnn hf0 hf1 huA huB
  obtain ⟨e1, e2, e3, e4⟩ := scene_estep t.eRanges hsc.2.2.2.2.1 2 conprbs
    (emsLoop [⟨0, 2, 2⟩] conprbs t (n + 1) n (pm, fracs)).2 (1 / 2) hp0 hp1 (by norm_num) i2 i3
    (by rw [← i4]; linarith)
  obtain ⟨l1, l2⟩ := scene_last pm (emsLoop [⟨0, 2, 2⟩] conprbs t (n + 1) n (pm, fracs)).1 t w
    iA iB a b h2s hsc i1
    (ePhase [⟨0, 2, 2⟩] conprbs t.eRanges (emsLoop [⟨0, 2, 2⟩] conprbs t (n + 1) n (pm, fracs)).2)
  have hE : EMS [⟨0, 2, 2⟩] conprbs t (n + 1) pm fracs
      = msPhase true t.sites t.msRanges
          ((emsLoop [⟨0, 2, 2⟩] conprbs t (n + 1) n (pm, fracs)).1,
            ePhase [⟨0, 2, 2⟩] conprbs t.eRanges
              (emsLoop [⟨0, 2, 2⟩] conprbs t (n + 1) n (pm, fracs)).2) := by
    simp [EMS, emsLoop]
  have hx1 : rd (ePhase [⟨0, 2, 2⟩] conprbs t.eRanges
      (emsLoop [⟨0, 2, 2⟩] conprbs t (n + 1) n (pm, fracs)).2) 0 = 1 := by
    rw [e2, ← i4]
    field_simp
    ring
  have hy1 : rd (ePhase [⟨0, 2, 2⟩] conprbs t.eRanges
      (emsLoop [⟨0, 2, 2⟩] conprbs t (n + 1) n (pm, fracs)).2) 1 = 1 := by
    rw [e3, ← i4]
    field_simp
    ring
  refine ⟨t, h0, ?_, ?_⟩
  · rw [hE, l1, l2, hx1, hy1]
  · rw [hE, l1, hx1]

/-- Witness of C16: two sites at positions 1 and 2 of one contig and strand, window radius
3, two threads and three rounds. -/
theorem C16_symmetry_witness :
    ∃ t, distributeTasks [(⟨'+', 1, 1⟩, ⟨0, 0, [0]⟩), (⟨'+', 1, 2⟩, ⟨0, 0, [1]⟩)] [⟨0, 2, 2⟩] 2 2 3
        = some t
      ∧ (entryAt (EMS [⟨0, 2, 2⟩] [1 / 2, 1 / 2] t 3
            [(⟨'+', 1, 1⟩, ⟨0, 0, [0]⟩), (⟨'+', 1, 2⟩, ⟨0, 0, [1]⟩)] [1, 1]).1 0).2.weight
          = (entryAt (EMS [⟨0, 2, 2⟩] [1 / 2, 1 / 2] t 3
            [(⟨'+', 1, 1⟩, ⟨0, 0, [0]⟩), (⟨'+', 1, 2⟩, ⟨0, 0, [1]⟩)] [1, 1]).1 1).2.weight
      ∧ (entryAt (EMS [⟨0, 2, 2⟩] [1 / 2, 1 / 2] t 3
            [(⟨'+', 1, 1⟩, ⟨0, 0, [0]⟩), (⟨'+', 1, 2⟩, ⟨0, 0, [1]⟩)] [1, 1]).1 0).2.weight = 1 :=
  C16_symmetry [(⟨'+', 1, 1⟩, ⟨0, 0, [0]⟩), (⟨'+', 1, 2⟩, ⟨0, 0, [1]⟩)] [1 / 2, 1 / 2] [1, 1] 3
    2 3 0 1 (by decide) (by decide) (by decide) (by unfold MapSorted; decide)
    ⟨by decide, by decide, by decide, by decide, by decide, by
      intro j hj h1 h2
      simp only [List.length_cons, List.length_nil] at hj
      omega⟩
    (by decide) (by decide) (by norm_num [rd]) (by norm_num [rd]) (by decide)
    (by
      intro x hx
      simp only [List.mem_cons, List.mem_singleton, List.not_mem_nil, or_false] at hx
      rcases hx with rfl | rfl <;> norm_num)
    (by norm_num [rd]) (by norm_num [rd])

/-! ## Claim C17 -/

theorem decay_step (n : Nat) :
    (if n = 0 then (1 : ℚ) else 1 / (2 * 101 ^ (n - 1))) / (if n = 0 then 2 else 101)
      = 1 / (2 * 101 ^ n) := by
  cases n with
  | zero => norm_num
  | succ n =>
    simp only [Nat.succ_ne_zero, if_false, Nat.add_sub_cancel]
    rw [pow_succ]
    field_simp
    ring

/-- The smoothing scenario before its final round, for two sites outside the window of each
other one of which has the unique count 100 and the other the unique count 0: after `n >= 1`
non-final rounds the two cells of the record sum to 101 and the cell of the site with unique
count 0 holds `1 / (2 * 101 ^ (n - 1))`. -/
theorem smoothing_rounds (pm : MapType) (t : Tasks) (w : Int) (i0 i1 a b : Nat)
    (h2s : TwoSites pm i0 i1) (hsc : Scene pm t w i0 i1 a b) (conprbs fracs : List ℚ) (p : ℚ)
    (R n : Nat) (hn : n < R) (hp0 : rd conprbs 0 = p) (hp1 : rd conprbs 1 = p) (hpp : 0 < p)
    (hlen : 2 ≤ fracs.length) (hnn : ∀ x ∈ fracs, (0 : ℚ) ≤ x) (hf0 : rd fracs 0 = 1)
    (hf1 : rd fracs 1 = 1)
    (hfar : ¬ inWindow (entryAt pm i1).1 (entryAt pm i0).1 w)
    (hcfg : ((siteAt t.sites a).uc = 100 ∧ (siteAt t.sites b).uc = 0)
      ∨ ((siteAt t.sites a).uc = 0 ∧ (siteAt t.sites b).uc = 100)) :
    MapFrame pm (emsLoop [⟨0, 2, 1⟩] conprbs t R n (pm, fracs)).1
      ∧ 2 ≤ (emsLoop [⟨0, 2, 1⟩] conprbs t R n (pm, fracs)).2.length
      ∧ (∀ x ∈ (emsLoop [⟨0, 2, 1⟩] conprbs t R n (pm, fracs)).2, (0 : ℚ) ≤ x)
      ∧ rd (emsLoop [⟨0, 2, 1⟩] conprbs t R n (pm, fracs)).2 0
          + rd (emsLoop [⟨0, 2, 1⟩] conprbs t R n (pm, fracs)).2 1 = (if n = 0 then 2 else 101)
      ∧ ((siteAt t.sites b).uc = 0 →
          rd (emsLoop [⟨0, 2, 1⟩] conprbs t R n (pm, fracs)).2 1
            = (if n = 0 then 1 else 1 / (2 * 101 ^ (n - 1))))
      ∧ ((siteAt t.sites a).uc = 0 →
          rd (emsLoop [⟨0, 2, 1⟩] conprbs t R n (pm, fracs)).2 0
            = (if n = 0 then 1 else 1 / (2 * 101 ^ (n - 1)))) := by
  induction n with
  | zero =>
    refine ⟨mapFrame_refl pm, hlen, hnn, ?_, fun _ => ?_, fun _ => ?_⟩
    · show rd fracs 0 + rd fracs 1 = _
      rw [hf0, hf1]
      norm_num
    · show rd fracs 1 = _
      rw [hf1]
      rfl
    · show rd fracs 0 = _
      rw [hf0]
      rfl
  | succ n ih =>
    obtain ⟨i1', i2, i3, i4, i5, i6⟩ := ih (by omega)
    simp only [emsLoop]
    have hd : decide (n + 1 = R) = false := by
      simp only [decide_eq_false_iff_not]
      omega
    rw [hd]
    have hSpos : (0 : ℚ) < (if n = 0 then 2 else 101) := by
      split_ifs <;> norm_num
    obtain ⟨e1, e2, e3, e4⟩ := scene_estep t.eRanges hsc.2.2.2.2.1 1 conprbs
      (emsLoop [⟨0, 2, 1⟩] conprbs t R n (pm, fracs)).2 p hp0 hp1 hpp i2 i3
      (by rw [i4]; exact hSpos)
    have huA : 0 ≤ (siteAt t.sites a).uc := by
      rcases hcfg with h | h <;> omega
    have huB : 0 ≤ (siteAt t.sites b).uc := by
      rcases hcfg with h | h <;> omega
    obtain ⟨m1, m2, m3, -, m5⟩ := scene_msstep pm
      (emsLoop [⟨0, 2, 1⟩] conprbs t R n (pm, fracs)).1 t w i0 i1 a b h2s hsc i1'
      (ePhase [⟨0, 2, 1⟩] conprbs t.eRanges (emsLoop [⟨0, 2, 1⟩] conprbs t R n (pm, fracs)).2)
      (by rw [e1]; exact i2) e4 huA huB
    obtain ⟨n0, n1⟩ := m5 hfar
    rw [i4] at e2 e3
    have hsum : rd (ePhase [⟨0, 2, 1⟩] conprbs t.eRanges
          (emsLoop [⟨0, 2, 1⟩] conprbs t R n (pm, fracs)).2) 0
        + rd (ePhase [⟨0, 2, 1⟩] conprbs t.eRanges
          (emsLoop [⟨0, 2, 1⟩] conprbs t R n (pm, fracs)).2) 1 = 1 := by
      rw [e2, e3, ← add_div, ← mul_add, i4]
      field_simp
    refine ⟨m1, by rw [m2, e1]; exact i2, m3, ?_, ?_, ?_⟩
    · rw [n0, n1, if_neg (Nat.succ_ne_zero n)]
      have hu : ((siteAt t.sites a).uc : ℚ) + ((siteAt t.sites b).uc : ℚ) = 100 := by
        rcases hcfg with h | h <;> rw [h.1, h.2] <;> norm_num
      linarith
    · intro hb
      rw [n1, hb, e3, i5 hb, if_neg (Nat.succ_ne_zero n), Nat.add_sub_cancel]
      simp only [Nat.cast_one, one_mul, Int.cast_zero, add_zero]
      exact decay_step n
    · intro ha
      rw [n0, ha, e2, i6 ha, if_neg (Nat.succ_ne_zero n), Nat.add_sub_cancel]
      simp only [Nat.cast_one, one_mul, Int.cast_zero, add_zero]
      exact decay_step n

/-- The weights the smoothing scenario reports after `R = n + 1` rounds. -/
theorem smoothing_weights (pm : MapType) (t : Tasks) (w : Int) (i0 i1 a b : Nat)
    (h2s : TwoSites pm i0 i1) (hsc : Scene pm t w i0 i1 a b) (conprbs fracs : List ℚ) (p : ℚ)
    (n : Nat) (hp0 : rd conprbs 0 = p) (hp1 : rd conprbs 1 = p) (hpp : 0 < p)
    (hlen : 2 ≤ fracs.length) (hnn : ∀ x ∈ fracs, (0 : ℚ) ≤ x) (hf0 : rd fracs 0 = 1)
    (hf1 : rd fracs 1 = 1)
    (hfar : ¬ inWindow (entryAt pm i1).1 (entryAt pm i0).1 w)
    (hcfg : ((siteAt t.sites a).uc = 100 ∧ (siteAt t.sites b).uc = 0)
      ∨ ((siteAt t.sites a).uc = 0 ∧ (siteAt t.sites b).uc = 100)) :
    (entryAt (EMS [⟨0, 2, 1⟩] conprbs t (n + 1) pm fracs).1 i0).2.weight
        + (entryAt (EMS [⟨0, 2, 1⟩] conprbs t (n + 1) pm fracs).1 i1).2.weight = 1
      ∧ ((siteAt t.sites b).uc = 0 →
          (entryAt (EMS [⟨0, 2, 1⟩] conprbs t (n + 1) pm fracs).1 i1).2.weight
            = 1 / (2 * 101 ^ n))
      ∧ ((siteAt t.sites a).uc = 0 →
          (entryAt (EMS [⟨0, 2, 1⟩] conprbs t (n + 1) pm fracs).1 i0).2.weight
            = 1 / (2 * 101 ^ n)) := by
  obtain ⟨i1', i2, i3, i4, i5, i6⟩ := smoothing_rounds pm t w i0 i1 a b h2s hsc conprbs fracs p
    (n + 1) n (by omega) hp0 hp1 hpp hlen hnn hf0 hf1 hfar hcfg
  have hSpos : (0 : ℚ) < (if n = 0 then 2 else 101) := by
    split_ifs <;> norm_num
  obtain ⟨e1, e2, e3, e4⟩ := scene_estep t.eRanges hsc.2.2.2.2.1 1 conprbs
    (emsLoop [⟨0, 2, 1⟩] conprbs t (n + 1) n (pm, fracs)).2 p hp0 hp1 hpp i2 i3
    (by rw [i4]; exact hSpos)
  obtain ⟨l1, l2⟩ := scene_last pm (emsLoop [⟨0, 2, 1⟩] conprbs t (n + 1) n (pm, fracs)).1 t w
    i0 i1 a b h2s hsc i1'
    (ePhase [⟨0, 2, 1⟩] conprbs t.eRanges (emsLoop [⟨0, 2, 1⟩] conprbs t (n + 1) n (pm, fracs)).2)
  have hE : EMS [⟨0, 2, 1⟩] conprbs t (n + 1) pm fracs
      = msPhase true t.sites t.msRanges
          ((emsLoop [⟨0, 2, 1⟩] conprbs t (n + 1) n (pm, fracs)).1,
            ePhase [⟨0, 2, 1⟩] conprbs t.eRanges
              (emsLoop [⟨0, 2, 1⟩] conprbs t (n + 1) n (pm, fracs)).2) := by
    simp [EMS, emsLoop]
  rw [hE, l1, l2]
  rw [i4] at e2 e3
  refine ⟨?_, ?_, ?_⟩
  · rw [e2, e3, ← add_div, ← mul_add, i4]
    field_simp
  · intro hb
    rw [e3, i5 hb]
    simp only [Nat.cast_one, one_mul]
    exact decay_step n
  · intro ha
    rw [e2, i6 ha]
    simp only [Nat.cast_one, one_mul]
    exact decay_step n

theorem decay_lt (n : Nat) : (1 : ℚ) / (2 * 101 ^ (n + 1)) < 1 / (2 * 101 ^ n) := by
  have h : (0 : ℚ) < 101 ^ n := by positivity
  apply one_div_lt_one_div_of_lt (by positivity)
  rw [pow_succ]
  nlinarith

theorem decay_small (eps : ℚ) (heps : 0 < eps) :
    ∃ n0 : Nat, ∀ n, n0 ≤ n → (1 : ℚ) / (2 * 101 ^ n) < eps := by
  obtain ⟨n0, hn0⟩ := exists_pow_lt_of_lt_one heps (show (1 / 101 : ℚ) < 1 by norm_num)
  refine ⟨n0, fun n hn => ?_⟩
  have h1 : (1 / 101 : ℚ) ^ n ≤ (1 / 101 : ℚ) ^ n0 :=
    pow_le_pow_of_le_one (by norm_num) (by norm_num) hn
  have h2 : (1 : ℚ) / (2 * 101 ^ n) ≤ (1 / 101 : ℚ) ^ n := by
    rw [one_div_pow]
    apply one_div_le_one_div_of_le (by positivity)
    have : (0 : ℚ) < 101 ^ n := by positivity
    linarith
  linarith
/-- Claim C17: smoothing pulls an ambiguous read to the supported site.  The position map is
sorted; one record with `s = 2` and `c = 1` has its two cells back-referenced by the
entries `iA` and `iB` (either one the first), and no other entry has back-references; the
two conditional probabilities are equal and positive and both weight cells start from 1;
the unique counts within `w` of `iA` sum to 100 and those within `w` of `iB` to 0, and
neither site lies within `w` of the other.  Then `distributeTasks` returns, and for every
`R >= 1` the weight at `iB` after `EMS(R)` is `1 / (2 * 101 ^ (R - 1))` and the weight at
`iA` is 1 minus that; so the weight at `iB` strictly decreases in `R`, and for every
`eps > 0` there is `R0` such that for all `R >= R0` the weight at `iA` exceeds
`1 - eps`. -/
theorem C17_smoothing_pulls (pm : MapType) (conprbs fracs : List ℚ) (p : ℚ) (w : Int)
    (num_threads iA iB : Nat) (hw : 0 ≤ w) (hT : 1 ≤ num_threads) (hs : MapSorted pm)
    (h2s : TwoSites pm iA iB ∨ TwoSites pm iB iA)
    (hucA : windowCount pm (entryAt pm iA).1 w = 100)
    (hucB : windowCount pm (entryAt pm iB).1 w = 0)
    (hfar : ¬ inWindow (entryAt pm iB).1 (entryAt pm iA).1 w)
    (hp0 : rd conprbs 0 = p) (hp1 : rd conprbs 1 = p) (hpp : 0 < p)
    (hlen : 2 ≤ fracs.length) (hnn : ∀ x ∈ fracs, (0 : ℚ) ≤ x) (hf0 : rd fracs 0 = 1)
    (hf1 : rd fracs 1 = 1) :
    ∃ t, distributeTasks pm [⟨0, 2, 1⟩] 2 num_threads w = some t
      ∧ (∀ R, 1 ≤ R →
          (entryAt (EMS [⟨0, 2, 1⟩] conprbs t R pm fracs).1 iB).2.weight
              = 1 / (2 * 101 ^ (R - 1))
            ∧ (entryAt (EMS [⟨0, 2, 1⟩] conprbs t R pm fracs).1 iA).2.weight
              = 1 - 1 / (2 * 101 ^ (R - 1)))
      ∧ (∀ R, 1 ≤ R →
          (entryAt (EMS [⟨0, 2, 1⟩] conprbs t (R + 1) pm fracs).1 iB).2.weight
            < (entryAt (EMS [⟨0, 2, 1⟩] conprbs t R pm fracs).1 iB).2.weight)
      ∧ (∀ eps : ℚ, 0 < eps → ∃ R0, 1 ≤ R0 ∧ ∀ R, R0 ≤ R →
          1 - eps < (entryAt (EMS [⟨0, 2, 1⟩] conprbs t R pm fracs).1 iA).2.weight) := by
  have key : ∃ t, distributeTasks pm [⟨0, 2, 1⟩] 2 num_threads w = some t
      ∧ ∀ n : Nat,
          (entryAt (EMS [⟨0, 2, 1⟩] conprbs t (n + 1) pm fracs).1 iB).2.weight
              = 1 / (2 * 101 ^ n)
            ∧ (entryAt (EMS [⟨0, 2, 1⟩] conprbs t (n + 1) pm fracs).1 iA).2.weight
              = 1 - 1 / (2 * 101 ^ n) := by
    rcases h2s with h | h
    · obtain ⟨t, a, b, h0, hsc⟩ := scene_of_tasks pm 1 w num_threads iA iB hw hT hs h
      have huA : (siteAt t.sites a).uc = 100 := hsc.2.2.2.2.2.2.2.1.trans hucA
      have huB : (siteAt t.sites b).uc = 0 := hsc.2.2.2.2.2.2.2.2.1.trans hucB
      refine ⟨t, h0, fun n => ?_⟩
      obtain ⟨g1, g2, -⟩ := smoothing_weights pm t w iA iB a b h hsc conprbs fracs p n hp0 hp1
        hpp hlen hnn hf0 hf1 hfar (Or.inl ⟨huA, huB⟩)
      have := g2 huB
      exact ⟨this, by linarith⟩
    · obtain ⟨t, a, b, h0, hsc⟩ := scene_of_tasks pm 1 w num_threads iB iA hw hT hs h
      have huB : (siteAt t.sites a).uc = 0 := hsc.2.2.2.2.2.2.2.1.trans hucB
      have huA : (siteAt t.sites b).uc = 100 := hsc.2.2.2.2.2.2.2.2.1.trans hucA
      refine ⟨t, h0, fun n => ?_⟩
      obtain ⟨g1, -, g3⟩ := smoothing_weights pm t w iB iA a b h hsc conprbs fracs p n hp0 hp1
        hpp hlen hnn hf0 hf1 (fun hh => hfar (inWindow_symm _ _ _ hh)) (Or.inr ⟨huB, huA⟩)
      have := g3 huB
      exact ⟨this, by linarith⟩
  obtain ⟨t, h0, hkey⟩ := key
  refine ⟨t, h0, ?_, ?_, ?_⟩
  · intro R hR
    obtain ⟨n, rfl⟩ : ∃ n, R = n + 1 := ⟨R - 1, by omega⟩
    rw [Nat.add_sub_cancel]
    exact hkey n
  · intro R hR
    obtain ⟨n, rfl⟩ : ∃ n, R = n + 1 := ⟨R - 1, by omega⟩
    rw [(hkey (n + 1)).1, (hkey n).1]
    exact decay_lt n
  · intro eps heps
    obtain ⟨n0, hn0⟩ := decay_small eps heps
    refine ⟨n0 + 1, by omega, fun R hR => ?_⟩
    obtain ⟨n, rfl⟩ : ∃ n, R = n + 1 := ⟨R - 1, by omega⟩
    rw [(hkey n).2]
    have := hn0 n (by omega)
    linarith

/-- Witness of C17: site `A` at position 7 with the unique count 100 at position 5, site `B`
at position 1, window radius 2 and three threads; `B` holds the first cell of the record. -/
theorem C17_smoothing_pulls_witness :
    ∃ t, distributeTasks
        [(⟨'+', 1, 1⟩, ⟨0, 0, [0]⟩), (⟨'+', 1, 5⟩, ⟨100, 0, []⟩), (⟨'+', 1, 6⟩, ⟨0, 0, []⟩),
          (⟨'+', 1, 7⟩, ⟨0, 0, [1]⟩), (⟨'+', 1, 20⟩, ⟨7, 0, []⟩)] [⟨0, 2, 1⟩] 2 3 2 = some t
      ∧ (entryAt (EMS [⟨0, 2, 1⟩] [1 / 4, 1 / 4] t 3
            [(⟨'+', 1, 1⟩, ⟨0, 0, [0]⟩), (⟨'+', 1, 5⟩, ⟨100, 0, []⟩), (⟨'+', 1, 6⟩, ⟨0, 0, []⟩),
              (⟨'+', 1, 7⟩, ⟨0, 0, [1]⟩), (⟨'+', 1, 20⟩, ⟨7, 0, []⟩)] [1, 1]).1 0).2.weight
          = 1 / (2 * 101 ^ (3 - 1)) := by
  obtain ⟨t, h0, h1, -⟩ := C17_smoothing_pulls
    [(⟨'+', 1, 1⟩, ⟨0, 0, [0]⟩), (⟨'+', 1, 5⟩, ⟨100, 0, []⟩), (⟨'+', 1, 6⟩, ⟨0, 0, []⟩),
      (⟨'+', 1, 7⟩, ⟨0, 0, [1]⟩), (⟨'+', 1, 20⟩, ⟨7, 0, []⟩)] [1 / 4, 1 / 4] [1, 1] (1 / 4) 2
    3 3 0 (by decide) (by decide) (by unfold MapSorted; decide)
    (Or.inr ⟨by decide, by decide, by decide, by decide, by decide, by
      intro j hj h1 h2
      simp only [List.length_cons, List.length_nil] at hj
      interval_cases j <;> first | omega | decide⟩)
    (by decide) (by decide) (by decide) (by norm_num [rd]) (by norm_num [rd]) (by norm_num)
    (by decide)
    (by
      intro x hx
      simp only [List.mem_cons, List.mem_singleton, List.not_mem_nil, or_false] at hx
      rcases hx with rfl | rfl <;> norm_num)
    (by norm_num [rd]) (by norm_num [rd])
  exact ⟨t, h0, (h1 3 (by decide)).1⟩

/-! ## Claim C19 -/

theorem sum_map_div {K : Type} [Field K] (l : List Int) (f : Int → K) (c : K) :
    (l.map (fun x => f x / c)).sum = (l.map f).sum / c := by
  induction l with
  | nil => simp
  | cons a l ih => simp only [List.map_cons, List.sum_cons, ih, add_div]

theorem sum_map_scale {K : Type} [Field K] (l : List Int) (g : Int → K) (d e c : K) :
    (l.map (fun L => d * (g L * e) * c)).sum = d * (l.map g).sum * e * c := by
  induction l with
  | nil => simp
  | cons a l ih =>
    simp only [List.map_cons, List.sum_cons, ih]
    ring

theorem sum_map_nonneg {K : Type} [LinearOrderedField K] (l : List Int) (f : Int → K)
    (h : ∀ x ∈ l, 0 ≤ f x) : 0 ≤ (l.map f).sum := by
  induction l with
  | nil => simp
  | cons a l ih =>
    simp only [List.map_cons, List.sum_cons]
    exact add_nonneg (h a (List.mem_cons_self _ _))
      (ih (fun x hx => h x (List.mem_cons_of_mem _ hx)))

theorem sum_map_pos {K : Type} [LinearOrderedField K] (l : List Int) (f : Int → K)
    (h : ∀ x ∈ l, 0 ≤ f x) (a : Int) (ha : a ∈ l) (hpos : 0 < f a) : 0 < (l.map f).sum := by
  induction l with
  | nil => simp at ha
  | cons b l ih =>
    simp only [List.map_cons, List.sum_cons]
    rcases List.mem_cons.mp ha with rfl | hm
    · exact add_pos_of_pos_of_nonneg hpos
        (sum_map_nonneg l f (fun x hx => h x (List.mem_cons_of_mem _ hx)))
    · exact add_pos_of_nonneg_of_pos (h b (List.mem_cons_self _ _))
        (ih (fun x hx => h x (List.mem_cons_of_mem _ hx)) hm)

/-- A function that turns sums into products and is 1 at 0 is positive everywhere. -/
theorem expf_pos {K : Type} [LinearOrderedField K] (expf : K → K)
    (hadd : ∀ a b, expf (a + b) = expf a * expf b) (h0 : expf 0 = 1) (x : K) : 0 < expf x := by
  have hne : expf x ≠ 0 := by
    intro h
    have := hadd x (-x)
    rw [add_neg_cancel, h0, h, zero_mul] at this
    exact one_ne_zero this
  have hsq : expf x = expf (x / 2) * expf (x / 2) := by
    rw [← hadd, add_halves]
  have hnn : 0 ≤ expf x := by
    rw [hsq]
    exact mul_self_nonneg _
  exact lt_of_le_of_ne hnn (Ne.symm hne)

theorem validLengths_nil (gp : GlobalParams) (len pos : Int)
    (h : pos + gp.min_frag_len > len) : validLengths gp len pos = [] := by
  unfold validLengths
  rw [List.filter_eq_nil_iff]
  intro L hL
  simp only [List.mem_map, List.mem_range] at hL
  obtain ⟨d, -, rfl⟩ := hL
  simp only [decide_eq_true_eq]
  omega

theorem validLengths_min (gp : GlobalParams) (len pos : Int)
    (hmm : gp.min_frag_len ≤ gp.max_frag_len) (h : pos + gp.min_frag_len ≤ len) :
    gp.min_frag_len ∈ validLengths gp len pos := by
  unfold validLengths
  rw [List.mem_filter]
  refine ⟨?_, by simpa using h⟩
  simp only [List.mem_map, List.mem_range]
  exact ⟨0, by omega, by simp⟩

theorem zero_mem_positions (len : Int) (h : 0 ≤ len) : (0 : Int) ∈ positions len := by
  unfold positions
  simp only [List.mem_map, List.mem_range]
  exact ⟨0, by omega, rfl⟩

/-- After `calcAuxiliaryArrays`, `getProb(pos)` is the total mass of the pairs of `pos` and a
valid fragment length, divided by `prob_pass`. -/
theorem getProb_calc {K : Type} [LinearOrderedField K] (gp : GlobalParams) (expf logf : K → K)
    (hadd : ∀ a b, expf (a + b) = expf a * expf b) (m : DMSTransModel K) (pos : Int)
    (hpos : 0 ≤ pos) :
    (m.calcAuxiliaryArrays gp expf logf).getProb gp expf pos
      = ((validLengths gp m.len pos).map
          (fun L => (m.calcAuxiliaryArrays gp expf logf).pairMass expf pos L)).sum
        / (m.calcAuxiliaryArrays gp expf logf).prob_pass := by
  unfold DMSTransModel.getProb
  simp only
  have hlen : (m.calcAuxiliaryArrays gp expf logf).len = m.len := rfl
  rw [hlen]
  by_cases hg : pos + gp.min_frag_len > m.len ∨ pos < 0
  · rw [if_pos hg]
    have : pos + gp.min_frag_len > m.len := by omega
    rw [validLengths_nil gp m.len pos this]
    simp
  · rw [if_neg hg]
    congr 1
    have hm : (m.calcAuxiliaryArrays gp expf logf).margin_prob pos
        = ((validLengths gp m.len pos).map
            (fun L => expf ((m.calcAuxiliaryArrays gp expf logf).logsum (pos + L)
              - (m.calcAuxiliaryArrays gp expf logf).logsum (pos + gp.min_frag_len)))).sum := rfl
    have hsplit : ∀ L : Int,
        expf ((m.calcAuxiliaryArrays gp expf logf).logsum (pos + L)
            - (m.calcAuxiliaryArrays gp expf logf).logsum pos)
          = expf ((m.calcAuxiliaryArrays gp expf logf).logsum (pos + L)
              - (m.calcAuxiliaryArrays gp expf logf).logsum (pos + gp.min_frag_len))
            * expf ((m.calcAuxiliaryArrays gp expf logf).logsum (pos + gp.min_frag_len)
              - (m.calcAuxiliaryArrays gp expf logf).logsum pos) := by
      intro L
      rw [← hadd]
      congr 1
      ring
    have hr : (fun L => (m.calcAuxiliaryArrays gp expf logf).pairMass expf pos L)
        = (fun L => (m.calcAuxiliaryArrays gp expf logf).delta
            * (expf ((m.calcAuxiliaryArrays gp expf logf).logsum (pos + L)
                - (m.calcAuxiliaryArrays gp expf logf).logsum (pos + gp.min_frag_len))
              * expf ((m.calcAuxiliaryArrays gp expf logf).logsum (pos + gp.min_frag_len)
                - (m.calcAuxiliaryArrays gp expf logf).logsum pos))
            * (if pos > 0 then (m.calcAuxiliaryArrays gp expf logf).dropFactor pos else 1)) := by
      funext L
      unfold DMSTransModel.pairMass
      rw [hsplit L]
    rw [hr, sum_map_scale, hm]
    by_cases hp : pos > 0
    · rw [if_pos hp, if_pos hp]
    · rw [if_neg hp, if_neg hp, mul_one]
theorem mem_positions (len pos : Int) (h : pos ∈ positions len) : 0 ≤ pos ∧ pos ≤ len := by
  unfold positions at h
  simp only [List.mem_map, List.mem_range] at h
  obtain ⟨i, hi, rfl⟩ := h
  omega

/-- The drop-off factor is non-negative when `gamma` and `beta` are probabilities. -/
theorem dropFactor_nonneg {K : Type} [LinearOrderedField K] (m : DMSTransModel K) (pos : Int)
    (hg : 0 ≤ m.gamma pos ∧ m.gamma pos ≤ 1)
    (hb : ∀ beta, m.beta = some beta → 0 ≤ beta pos ∧ beta pos ≤ 1) :
    0 ≤ m.dropFactor pos := by
  unfold DMSTransModel.dropFactor
  cases hbeta : m.beta with
  | none => exact hg.1
  | some beta =>
    simp only
    have := hb beta hbeta
    nlinarith [mul_nonneg this.1 (sub_nonneg.mpr hg.2)]

/-- Claim C19 does not hold as stated: a model of length 1 with minimal fragment length 2
(and `gamma` uniform at 1/10, no `beta`) has no valid position, so after
`calcAuxiliaryArrays` every `getProb(pos)` is 0 by its guard and their sum is 0; here `exp`
is taken as the constant 1, which turns sums into products, and `log` as the constant 0. -/
theorem C19_counterexample :
    ((positions 1).map (fun pos =>
        (@DMSTransModel.calcAuxiliaryArrays ℚ _ ⟨3, 2, 4⟩ (fun _ => 1) (fun _ => 0)
          ⟨false, 1, 1 / 2, 1, fun _ => 1 / 10, none, fun _ => 0, fun _ => 0, fun _ => 0,
            fun _ => 0⟩).getProb ⟨3, 2, 4⟩ (fun _ => 1) pos)).sum = 0
      ∧ (0 : ℚ) ≠ 1 := by
  refine ⟨?_, by norm_num⟩
  have hp : positions 1 = [0, 1] := by decide
  rw [hp]
  simp [DMSTransModel.getProb, DMSTransModel.calcAuxiliaryArrays]

/-- Claim C19, amended: single-end probabilities are normalised when the transcript has a
valid position.  For every transcript model with `0 <= min_frag_len <= max_frag_len`,
`min_frag_len <= len`, `delta > 0`, every `gamma[i]` in `[0, 1]` and `beta` absent or every
`beta[i]` in `[0, 1]`, in exact arithmetic (`exp` turns sums into products and is 1 at 0),
after `calcAuxiliaryArrays` the sum of `getProb(pos)` over the positions `0 .. len` is 1. -/
theorem C19_getProb_normalised {K : Type} [LinearOrderedField K] (gp : GlobalParams)
    (expf logf : K → K) (hadd : ∀ a b, expf (a + b) = expf a * expf b) (h0 : expf 0 = 1)
    (m : DMSTransModel K) (hmin : 0 ≤ gp.min_frag_len)
    (hmm : gp.min_frag_len ≤ gp.max_frag_len) (hlen : gp.min_frag_len ≤ m.len)
    (hdelta : 0 < m.delta)
    (hg : ∀ k, 1 ≤ k → k ≤ m.len → 0 ≤ m.gamma k ∧ m.gamma k ≤ 1)
    (hb : ∀ beta, m.beta = some beta → ∀ k, 1 ≤ k → k ≤ m.len → 0 ≤ beta k ∧ beta k ≤ 1) :
    ((positions m.len).map
      (fun pos => (m.calcAuxiliaryArrays gp expf logf).getProb gp expf pos)).sum = 1 := by
  have hE := expf_pos expf hadd h0
  have hmass : ∀ pos ∈ positions m.len, ∀ L,
      0 ≤ (m.calcAuxiliaryArrays gp expf logf).pairMass expf pos L := by
    intro pos hpos L
    obtain ⟨p1, p2⟩ := mem_positions m.len pos hpos
    unfold DMSTransModel.pairMass
    apply mul_nonneg (mul_nonneg (le_of_lt hdelta) (le_of_lt (hE _)))
    by_cases hp : pos > 0
    · rw [if_pos hp]
      exact dropFactor_nonneg m pos (hg pos (by omega) p2)
        (fun beta hbeta => hb beta hbeta pos (by omega) p2)
    · rw [if_neg hp]
      exact zero_le_one
  have hpp : (m.calcAuxiliaryArrays gp expf logf).prob_pass
      = ((positions m.len).map (fun pos => ((validLengths gp m.len pos).map
          (fun L => (m.calcAuxiliaryArrays gp expf logf).pairMass expf pos L)).sum)).sum := rfl
  have hpos : 0 < (m.calcAuxiliaryArrays gp expf logf).prob_pass := by
    rw [hpp]
    apply sum_map_pos _ _ _ 0 (zero_mem_positions m.len (by omega))
    · apply sum_map_pos _ _ _ gp.min_frag_len
        (validLengths_min gp m.len 0 hmm (by omega))
      · unfold DMSTransModel.pairMass
        rw [if_neg (lt_irrefl _), mul_one]
        exact mul_pos hdelta (hE _)
      · intro L _
        exact hmass 0 (zero_mem_positions m.len (by omega)) L
    · intro pos hp
      exact sum_map_nonneg _ _ (fun L _ => hmass pos hp L)
  have hcongr : (positions m.len).map
      (fun pos => (m.calcAuxiliaryArrays gp expf logf).getProb gp expf pos)
      = (positions m.len).map (fun pos => ((validLengths gp m.len pos).map
          (fun L => (m.calcAuxiliaryArrays gp expf logf).pairMass expf pos L)).sum
        / (m.calcAuxiliaryArrays gp expf logf).prob_pass) := by
    apply List.map_congr_left
    intro pos hp
    exact getProb_calc gp expf logf hadd m pos (mem_positions m.len pos hp).1
  rw [hcongr, sum_map_div, ← hpp]
  exact div_self (ne_of_gt hpos)

/-- Witness of C19 (amended): a transcript with `len = 10`, `min_frag_len = 2`,
`max_frag_len = 4`, `gamma` uniform at 1/10 and no `beta`, over the real numbers with the
real exponential and logarithm. -/
theorem C19_getProb_normalised_witness :
    ((positions 10).map
      (fun pos => (@DMSTransModel.calcAuxiliaryArrays ℝ _ ⟨3, 2, 4⟩ Real.exp Real.log
        ⟨false, 10, 1 / 11, 1, fun _ => 1 / 10, none, fun _ => 0, fun _ => 0, fun _ => 0,
          fun _ => 0⟩).getProb ⟨3, 2, 4⟩ Real.exp pos)).sum = 1 :=
  C19_getProb_normalised ⟨3, 2, 4⟩ Real.exp Real.log Real.exp_add Real.exp_zero
    ⟨false, 10, 1 / 11, 1, fun _ => 1 / 10, none, fun _ => 0, fun _ => 0, fun _ => 0,
      fun _ => 0⟩ (by decide) (by decide) (by decide) (by norm_num)
    (by
      intro k _ _
      norm_num)
    (by
      intro beta hbeta
      simp at hbeta)

/-! ## Claim C21 -/

/-- Claim C21: the window of a site is the closed range `[left, right]`.  For every sorted
non-empty position map and every `w >= 0`, `distributeTasks` returns, its sites are the
multi-read entries of the map in map order, and for every site `i` the sites on the same
contig and strand whose position differs from that of site `i` by at most `w` are exactly
those with index `k` in `sites[i].left <= k <= sites[i].right`; in particular
`sites[i].left <= i <= sites[i].right`. -/
theorem C21_window_is_closed_range (pm : MapType) (multis : List MultiType)
    (n_mhits num_threads : Nat) (w : Int) (hw : 0 ≤ w) (hs : MapSorted pm)
    (hne : 0 < pm.length) :
    ∃ t, distributeTasks pm multis n_mhits num_threads w = some t
      ∧ t.sites.length = multiCount pm pm.length
      ∧ ∀ i, i < t.sites.length →
          isMultiAt pm (t.sites.getD i default).v = true
            ∧ multiCount pm (t.sites.getD i default).v = i
            ∧ (t.sites.getD i default).left ≤ (i : Int)
            ∧ (i : Int) ≤ (t.sites.getD i default).right
            ∧ ∀ k, k < t.sites.length →
                (((t.sites.getD k default).v < pm.length
                    ∧ (entryAt pm (t.sites.getD k default).v).1.cid
                        = (entryAt pm (t.sites.getD i default).v).1.cid
                    ∧ (entryAt pm (t.sites.getD k default).v).1.dir
                        = (entryAt pm (t.sites.getD i default).v).1.dir
                    ∧ -w ≤ (entryAt pm (t.sites.getD k default).v).1.pos
                        - (entryAt pm (t.sites.getD i default).v).1.pos
                    ∧ (entryAt pm (t.sites.getD k default).v).1.pos
                        - (entryAt pm (t.sites.getD i default).v).1.pos ≤ w)
                  ↔ ((t.sites.getD i default).left ≤ (k : Int)
                      ∧ (k : Int) ≤ (t.sites.getD i default).right)) := by
  obtain ⟨t, h0, hwin, -⟩ := distributeTasks_spec pm multis n_mhits num_threads w hw hs hne
  have hfull := computeSites_full pm w hw hs t.sites
    (distributeTasks_sites pm multis n_mhits num_threads w t h0)
  refine ⟨t, h0, hwin.1, ?_⟩
  intro i hi
  obtain ⟨-, e2, e3, -, e5, e6, -, -⟩ := hwin.2.1 i hi
  refine ⟨e2, e3, e5, e6, ?_⟩
  intro k hk
  have hk1 := (hwin.2.1 k hk).1
  have := siteFull_window pm t.sites hwin w i k hk (hfull i hi)
  unfold inWindow at this
  rw [← this]
  constructor
  · rintro ⟨-, h⟩
    exact h
  · intro h
    exact ⟨hk1, h⟩

/-- Witness of C21: a map with seven entries, five of them multi-read sites, and window
radius 3; the site at position 1 of contig 1 has the window `[0, 1]`. -/
theorem C21_window_is_closed_range_witness :
    ∃ t, distributeTasks
        [(⟨'+', 1, 1⟩, ⟨2, 0, [0]⟩), (⟨'+', 1, 3⟩, ⟨1, 0, []⟩), (⟨'+', 1, 4⟩, ⟨0, 0, [1, 2]⟩),
          (⟨'+', 1, 10⟩, ⟨5, 0, [3]⟩), (⟨'-', 1, 10⟩, ⟨0, 0, [4]⟩), (⟨'+', 2, 1⟩, ⟨7, 0, []⟩),
          (⟨'+', 2, 2⟩, ⟨0, 0, [5]⟩)] [] 6 2 3 = some t
      ∧ (t.sites.getD 0 default).left ≤ ((0 : Nat) : Int)
      ∧ ((0 : Nat) : Int) ≤ (t.sites.getD 0 default).right := by
  obtain ⟨t, h0, h1, h2⟩ := C21_window_is_closed_range
    [(⟨'+', 1, 1⟩, ⟨2, 0, [0]⟩), (⟨'+', 1, 3⟩, ⟨1, 0, []⟩), (⟨'+', 1, 4⟩, ⟨0, 0, [1, 2]⟩),
      (⟨'+', 1, 10⟩, ⟨5, 0, [3]⟩), (⟨'-', 1, 10⟩, ⟨0, 0, [4]⟩), (⟨'+', 2, 1⟩, ⟨7, 0, []⟩),
      (⟨'+', 2, 2⟩, ⟨0, 0, [5]⟩)] [] 6 2 3 (by decide) (by unfold MapSorted; decide) (by decide)
  have h5 : 0 < t.sites.length := by
    rw [h1]
    decide
  exact ⟨t, h0, (h2 0 h5).2.2.1, (h2 0 h5).2.2.2.1⟩

/-! ## Claim C22 -/

theorem msAdvanceT_spec (sites : List SiteType) (right : Int) (fuel : Nat)
    (s : MSState × List Int) (hfuel : (right - s.1.r).toNat ≤ fuel) :
    (msAdvanceT sites right fuel s).1 = msAdvance sites right fuel s.1
      ∧ (msAdvanceT sites right fuel s).1.l = s.1.l
      ∧ (msAdvanceT sites right fuel s).1.r = (if s.1.r < right then right else s.1.r)
      ∧ ∀ x ∈ (msAdvanceT sites right fuel s).2, x ∈ s.2 ∨ (s.1.r < x ∧ x ≤ right) := by
  induction fuel generalizing s with
  | zero =>
    have : ¬ s.1.r < right := by omega
    refine ⟨rfl, rfl, ?_, fun x hx => Or.inl hx⟩
    rw [if_neg this]
    rfl
  | succ fuel ih =>
    simp only [msAdvanceT, msAdvance]
    by_cases hc : s.1.r < right
    · rw [if_pos hc, if_pos hc, if_pos hc]
      obtain ⟨a1, a2, a3, a4⟩ := ih
        ({ s.1 with r := s.1.r + 1,
                    posMap := collectAt s.1.posMap s.1.fracs (siteAt sites (s.1.r + 1)).v,
                    psum := s.1.psum + (entryAt (collectAt s.1.posMap s.1.fracs
                      (siteAt sites (s.1.r + 1)).v) (siteAt sites (s.1.r + 1)).v).2.weight },
          s.2 ++ [s.1.r + 1])
        (by simp only; omega)
      simp only at a1 a2 a3 a4
      refine ⟨a1, a2, ?_, ?_⟩
      · rw [a3]
        split_ifs <;> omega
      · intro x hx
        rcases a4 x hx with h | h
        · rcases List.mem_append.mp h with h2 | h2
          · exact Or.inl h2
          · right
            simp only [List.mem_singleton] at h2
            omega
        · right
          omega
    · rw [if_neg hc, if_neg hc, if_neg hc]
      exact ⟨rfl, rfl, rfl, fun x hx => Or.inl hx⟩

theorem msRetireT_spec (sites : List SiteType) (left : Int) (fuel : Nat)
    (s : MSState × List Int) (hfuel : (left - s.1.l).toNat ≤ fuel) :
    (msRetireT sites left fuel s).1 = msRetire sites left fuel s.1
      ∧ (msRetireT sites left fuel s).1.r = s.1.r
      ∧ (msRetireT sites left fuel s).1.l = (if s.1.l < left then left else s.1.l)
      ∧ ∀ x ∈ (msRetireT sites left fuel s).2, x ∈ s.2 ∨ (s.1.l ≤ x ∧ x < left) := by
  induction fuel generalizing s with
  | zero =>
    have : ¬ s.1.l < left := by omega
    refine ⟨rfl, rfl, ?_, fun x hx => Or.inl hx⟩
    rw [if_neg this]
    rfl
  | succ fuel ih =>
    simp only [msRetireT, msRetire]
    by_cases hc : s.1.l < left
    · rw [if_pos hc, if_pos hc, if_pos hc]
      obtain ⟨a1, a2, a3, a4⟩ := ih
        ({ s.1 with psum := s.1.psum - (entryAt s.1.posMap (siteAt sites s.1.l).v).2.weight,
                    l := s.1.l + 1 },
          s.2 ++ [s.1.l])
        (by simp only; omega)
      simp only at a1 a2 a3 a4
      refine ⟨a1, a2, ?_, ?_⟩
      · rw [a3]
        split_ifs <;> omega
      · intro x hx
        rcases a4 x hx with h | h
        · rcases List.mem_append.mp h with h2 | h2
          · exact Or.inl h2
          · right
            simp only [List.mem_singleton] at h2
            omega
        · right
          omega
    · rw [if_neg hc, if_neg hc, if_neg hc]
      exact ⟨rfl, rfl, rfl, fun x hx => Or.inl hx⟩

/-- The smoothing loop with assertion on a thread range whose windows lie in the range and
are non-decreasing: the assertion holds at every iteration. -/
theorem msLoopT_inv (sites : List SiteType) (ss es : Nat) (hw : RangeWindows sites ss es)
    (pm : MapType) (fracs : List ℚ) (n : Nat) (hn : ss + n ≤ es) :
    PtrInv sites ss es n pm fracs := by
  induction n with
  | zero =>
    refine ⟨msStart ss pm fracs, rfl, rfl, fun _ => ⟨rfl, rfl⟩, fun h => absurd h (lt_irrefl _),
      ?_⟩
    intro x hx
    simp [msStart] at hx
  | succ n ih =>
    obtain ⟨s, p1, p2, p3, p4, p5⟩ := ih (by omega)
    obtain ⟨w1, w2, w3⟩ := hw.1 (ss + n) (by omega) (by omega)
    have hl : (ss : Int) ≤ s.1.l ∧ s.1.l ≤ (siteAt sites ((ss + n : Nat) : Int)).left := by
      by_cases h0 : n = 0
      · have := (p3 h0).1
        omega
      · have h1 := (p4 (by omega)).1
        have e : ss + n - 1 + 1 = ss + n := by omega
        have h2 := (hw.2 (ss + n - 1) (by omega) (by omega)).1
        have h3 := (hw.1 (ss + n - 1) (by omega) (by omega)).1
        rw [e] at h2
        omega
    have hr : (ss : Int) - 1 ≤ s.1.r ∧ s.1.r ≤ (siteAt sites ((ss + n : Nat) : Int)).right := by
      by_cases h0 : n = 0
      · have := (p3 h0).2
        omega
      · have h1 := (p4 (by omega)).2
        have e : ss + n - 1 + 1 = ss + n := by omega
        have h2 := (hw.2 (ss + n - 1) (by omega) (by omega)).2
        have h3 := hw.1 (ss + n - 1) (by omega) (by omega)
        rw [e] at h2
        omega
    obtain ⟨a1, a2, a3, a4⟩ := msAdvanceT_spec sites (siteAt sites ((ss + n : Nat) : Int)).right
      ((siteAt sites ((ss + n : Nat) : Int)).right - s.1.r).toNat
      (s.1, s.2 ++ [((ss + n : Nat) : Int)]) le_rfl
    obtain ⟨b1, b2, b3, b4⟩ := msRetireT_spec sites (siteAt sites ((ss + n : Nat) : Int)).left
      ((siteAt sites ((ss + n : Nat) : Int)).left
        - (msAdvanceT sites (siteAt sites ((ss + n : Nat) : Int)).right
          ((siteAt sites ((ss + n : Nat) : Int)).right - s.1.r).toNat
          (s.1, s.2 ++ [((ss + n : Nat) : Int)])).1.l).toNat
      (msAdvanceT sites (siteAt sites ((ss + n : Nat) : Int)).right
        ((siteAt sites ((ss + n : Nat) : Int)).right - s.1.r).toNat
        (s.1, s.2 ++ [((ss + n : Nat) : Int)])) le_rfl
    simp only at a1 a2 a3 a4
    have hL : (msRetireT sites (siteAt sites ((ss + n : Nat) : Int)).left
        ((siteAt sites ((ss + n : Nat) : Int)).left
          - (msAdvanceT sites (siteAt sites ((ss + n : Nat) : Int)).right
            ((siteAt sites ((ss + n : Nat) : Int)).right - s.1.r).toNat
            (s.1, s.2 ++ [((ss + n : Nat) : Int)])).1.l).toNat
        (msAdvanceT sites (siteAt sites ((ss + n : Nat) : Int)).right
          ((siteAt sites ((ss + n : Nat) : Int)).right - s.1.r).toNat
          (s.1, s.2 ++ [((ss + n : Nat) : Int)]))).1.l
        = (siteAt sites ((ss + n : Nat) : Int)).left := by
      rw [b3, a2]
      split_ifs <;> omega
    have hR : (msRetireT sites (siteAt sites ((ss + n : Nat) : Int)).left
        ((siteAt sites ((ss + n : Nat) : Int)).left
          - (msAdvanceT sites (siteAt sites ((ss + n : Nat) : Int)).right
            ((siteAt sites ((ss + n : Nat) : Int)).right - s.1.r).toNat
            (s.1, s.2 ++ [((ss + n : Nat) : Int)])).1.l).toNat
        (msAdvanceT sites (siteAt sites ((ss + n : Nat) : Int)).right
          ((siteAt sites ((ss + n : Nat) : Int)).right - s.1.r).toNat
          (s.1, s.2 ++ [((ss + n : Nat) : Int)]))).1.r
        = (siteAt sites ((ss + n : Nat) : Int)).right := by
      rw [b2, a3]
      split_ifs <;> omega
    have hstep : msLoopT sites ss (n + 1) (msStart ss pm fracs)
        = msBodyT sites (ss + n) s := by
      simp only [msLoopT, p1]
    rw [PtrInv, hstep]
    unfold msBodyT
    simp only
    rw [if_pos ⟨hL, hR⟩]
    refine ⟨_, rfl, ?_, fun h => absurd h (Nat.succ_ne_zero n), fun _ => ?_, ?_⟩
    · simp only [msLoop, msBody]
      rw [← p2, b1, a1]
    · simp only [Nat.add_sub_cancel]
      have e : ss + (n + 1) - 1 = ss + n := by omega
      rw [e]
      exact ⟨hL, hR⟩
    · intro x hx
      simp only at hx
      rcases b4 x hx with h | h
      · rcases a4 x h with h2 | h2
        · rcases List.mem_append.mp h2 with h3 | h3
          · exact p5 x h3
          · simp only [List.mem_singleton] at h3
            omega
        · omega
      · rw [a2] at h
        omega
/-- A thread range between two cuts has its windows inside and non-decreasing. -/
theorem rangeWindows_of_cuts (pm : MapType) (sites : List SiteType)
    (hwin : WindowsOK pm sites) (ss es : Nat) (hss : isCut sites ss) (hes : isCut sites es) :
    RangeWindows sites ss es := by
  constructor
  · intro k h1 h2
    have hk : k < sites.length := by
      have := hes.1
      omega
    obtain ⟨c1, c2⟩ := cut_self_contained pm sites hwin ss es k hss hes h1 h2
    obtain ⟨-, -, -, -, e5, e6, -, -⟩ := hwin.2.1 k hk
    rw [siteAt_nat]
    exact ⟨c1, by omega, c2⟩
  · intro k h1 h2
    have hk : k + 1 < sites.length := by
      have := hes.1
      omega
    rw [siteAt_nat, siteAt_nat]
    exact hwin.2.2 k hk

/-- Claim C22: the sliding-window assertion of `MS_STEP` always holds.  For the sites and
the thread ranges that `distributeTasks` produces on a sorted non-empty position map with
`w >= 0`, for every thread and whatever the position map and `fracs` hold when a non-final
round begins: at every iteration `i` of the loop of `MS_STEP` the pointers reach
`l = sites[i].left` and `r = sites[i].right`, so no assertion fails and the routine computes
what it computes without the assertion; and every index at which the thread accesses
`sites` lies in its own range `[ss, es)`. -/
theorem C22_sliding_window_assertion (pm : MapType) (multis : List MultiType)
    (n_mhits num_threads : Nat) (w : Int) (hw : 0 ≤ w) (hs : MapSorted pm)
    (hne : 0 < pm.length) :
    ∃ t, distributeTasks pm multis n_mhits num_threads w = some t
      ∧ ∀ i, i < num_threads → ∀ (pm2 : MapType) (fracs : List ℚ),
          (∀ n, n < (t.msRanges.getD i default).2 - (t.msRanges.getD i default).1 →
            ∃ s, msLoopT t.sites (t.msRanges.getD i default).1 (n + 1)
                  (msStart (t.msRanges.getD i default).1 pm2 fracs) = some s
              ∧ s.1.l = (siteAt t.sites (((t.msRanges.getD i default).1 + n : Nat) : Int)).left
              ∧ s.1.r = (siteAt t.sites (((t.msRanges.getD i default).1 + n : Nat) : Int)).right)
            ∧ ∃ res, MS_STEP_checked t.sites (t.msRanges.getD i default).1
                  (t.msRanges.getD i default).2 pm2 fracs = some res
              ∧ (res.1, res.2.1)
                  = MS_STEP false t.sites (t.msRanges.getD i default).1
                      (t.msRanges.getD i default).2 pm2 fracs
              ∧ ∀ x ∈ res.2.2, ((t.msRanges.getD i default).1 : Int) ≤ x
                  ∧ x < ((t.msRanges.getD i default).2 : Int) := by
  obtain ⟨t, h0, hwin, -, h2, -, -, -⟩ :=
    distributeTasks_spec pm multis n_mhits num_threads w hw hs hne
  refine ⟨t, h0, ?_⟩
  intro i hi pm2 fracs
  obtain ⟨c0, c1, c2⟩ := h2 i hi
  have hrw := rangeWindows_of_cuts pm t.sites hwin _ _ c1 c2
  constructor
  · intro n hn
    obtain ⟨s, p1, -, -, p4, -⟩ := msLoopT_inv t.sites _ _ hrw pm2 fracs (n + 1) (by omega)
    have e : (t.msRanges.getD i default).1 + (n + 1) - 1 = (t.msRanges.getD i default).1 + n := by
      omega
    have := p4 (by omega)
    rw [e] at this
    exact ⟨s, p1, this⟩
  · obtain ⟨s, p1, p2, -, -, p5⟩ := msLoopT_inv t.sites _ _ hrw pm2 fracs
      ((t.msRanges.getD i default).2 - (t.msRanges.getD i default).1) (by omega)
    refine ⟨(s.1.posMap, s.1.fracs, s.2), ?_, ?_, p5⟩
    · unfold MS_STEP_checked
      rw [p1]
    · simp only [MS_STEP, Bool.false_eq_true, if_false]
      rw [p2]
      rfl

/-- Witness of C22: the map with seven entries, window radius 3 and two threads, whose
second thread has the sites 2, 3 and 4. -/
theorem C22_sliding_window_assertion_witness :
    ∃ t, distributeTasks
        [(⟨'+', 1, 1⟩, ⟨2, 0, [0]⟩), (⟨'+', 1, 3⟩, ⟨1, 0, []⟩), (⟨'+', 1, 4⟩, ⟨0, 0, [1, 2]⟩),
          (⟨'+', 1, 10⟩, ⟨5, 0, [3]⟩), (⟨'-', 1, 10⟩, ⟨0, 0, [4]⟩), (⟨'+', 2, 1⟩, ⟨7, 0, []⟩),
          (⟨'+', 2, 2⟩, ⟨0, 0, [5]⟩)] [] 6 2 3 = some t
      ∧ ∃ res, MS_STEP_checked t.sites (t.msRanges.getD 1 default).1
            (t.msRanges.getD 1 default).2
            [(⟨'+', 1, 1⟩, ⟨2, 0, [0]⟩), (⟨'+', 1, 3⟩, ⟨1, 0, []⟩),
              (⟨'+', 1, 4⟩, ⟨0, 0, [1, 2]⟩), (⟨'+', 1, 10⟩, ⟨5, 0, [3]⟩),
              (⟨'-', 1, 10⟩, ⟨0, 0, [4]⟩), (⟨'+', 2, 1⟩, ⟨7, 0, []⟩),
              (⟨'+', 2, 2⟩, ⟨0, 0, [5]⟩)] [1, 1, 1, 1, 1, 1] = some res
          ∧ ∀ x ∈ res.2.2, ((t.msRanges.getD 1 default).1 : Int) ≤ x
              ∧ x < ((t.msRanges.getD 1 default).2 : Int) := by
  obtain ⟨t, h0, h1⟩ := C22_sliding_window_assertion
    [(⟨'+', 1, 1⟩, ⟨2, 0, [0]⟩), (⟨'+', 1, 3⟩, ⟨1, 0, []⟩), (⟨'+', 1, 4⟩, ⟨0, 0, [1, 2]⟩),
      (⟨'+', 1, 10⟩, ⟨5, 0, [3]⟩), (⟨'-', 1, 10⟩, ⟨0, 0, [4]⟩), (⟨'+', 2, 1⟩, ⟨7, 0, []⟩),
      (⟨'+', 2, 2⟩, ⟨0, 0, [5]⟩)] [] 6 2 3 (by decide) (by unfold MapSorted; decide) (by decide)
  obtain ⟨-, res, r1, -, r3⟩ := h1 1 (by decide)
    [(⟨'+', 1, 1⟩, ⟨2, 0, [0]⟩), (⟨'+', 1, 3⟩, ⟨1, 0, []⟩), (⟨'+', 1, 4⟩, ⟨0, 0, [1, 2]⟩),
      (⟨'+', 1, 10⟩, ⟨5, 0, [3]⟩), (⟨'-', 1, 10⟩, ⟨0, 0, [4]⟩), (⟨'+', 2, 1⟩, ⟨7, 0, []⟩),
      (⟨'+', 2, 2⟩, ⟨0, 0, [5]⟩)] [1, 1, 1, 1, 1, 1]
  exact ⟨t, h0, res, r1, r3⟩

/-! ## The weights outside the sites -/

theorem mapInsert_weight (pm : MapType) (k : KeyType) (h : ∀ e ∈ pm, e.2.weight = 0) :
    ∀ e ∈ mapInsert pm k, e.2.weight = 0 := by
  induction pm with
  | nil =>
    intro e he
    simp only [mapInsert, List.mem_singleton] at he
    rw [he]
    rfl
  | cons a pm ih =>
    intro e he
    simp only [mapInsert] at he
    split at he
    · rcases List.mem_cons.mp he with rfl | h2
      · rfl
      · exact h e h2
    · split at he
      · rcases List.mem_cons.mp he with rfl | h2
        · exact h e (List.mem_cons_self _ _)
        · exact ih (fun e' he' => h e' (List.mem_cons_of_mem _ he')) e h2
      · exact h e he

theorem mapPush_weight (pm : MapType) (k : KeyType) (cell : Nat)
    (h : ∀ e ∈ pm, e.2.weight = 0) : ∀ e ∈ mapPush pm k cell, e.2.weight = 0 := by
  induction pm with
  | nil =>
    intro e he
    simp [mapPush] at he
  | cons a pm ih =>
    intro e he
    simp only [mapPush] at he
    split at he
    · rcases List.mem_cons.mp he with rfl | h2
      · exact h a (List.mem_cons_self _ _)
      · exact h e (List.mem_cons_of_mem _ h2)
    · rcases List.mem_cons.mp he with rfl | h2
      · exact h e (List.mem_cons_self _ _)
      · exact ih (fun e' he' => h e' (List.mem_cons_of_mem _ he')) e h2

theorem keyLoop_weight (conprbs : List ℚ) (ag : List Align) (i : Nat)
    (st : MapType × List KeyType × String) (h : ∀ e ∈ st.1, e.2.weight = 0) :
    ∀ e ∈ (keyLoop conprbs ag i st).1, e.2.weight = 0 := by
  induction ag generalizing i st with
  | nil => exact h
  | cons a ag ih =>
    simp only [keyLoop]
    exact ih _ _ (mapInsert_weight _ _ h)

theorem cellLoop_weight (ks : List KeyType) (i : Nat) (st : MapType × List ℚ)
    (h : ∀ e ∈ st.1, e.2.weight = 0) : ∀ e ∈ (cellLoop ks i st).1, e.2.weight = 0 := by
  induction ks generalizing i st with
  | nil => exact h
  | cons k ks ih =>
    simp only [cellLoop]
    exact ih _ _ (mapPush_weight _ _ _ h)

theorem pmStep_weight (st : PMState) (ag : List Align)
    (h : ∀ e ∈ st.posMap, e.2.weight = 0) : ∀ e ∈ (pmStep st ag).posMap, e.2.weight = 0 := by
  unfold pmStep
  simp only
  split
  · exact cellLoop_weight _ _ _ (keyLoop_weight _ _ _ _ h)
  · exact keyLoop_weight _ _ _ _ h

/-- `processMultiReads` leaves all weights at 0 when it starts from a map whose weights are
0. -/
theorem processMultiReads_weight (posMap : MapType) (n_mhits : Nat)
    (reads : List (List Align)) (h : ∀ e ∈ posMap, e.2.weight = 0) :
    ∀ e ∈ (processMultiReads posMap n_mhits reads).posMap, e.2.weight = 0 := by
  induction reads using List.reverseRecOn with
  | nil => simpa [processMultiReads] using h
  | append_singleton rs r ih =>
    have := pmStep_weight _ r ih
    simpa [processMultiReads, List.foldl_append] using this

theorem entryAt_mem_or_default (pm : MapType) (v : Nat) :
    entryAt pm v ∈ pm ∨ entryAt pm v = (default, ValueType.init) := by
  unfold entryAt
  rw [List.getD_eq_getElem?_getD]
  by_cases hv : v < pm.length
  · left
    rw [List.getElem?_eq_getElem hv]
    exact List.getElem_mem hv
  · right
    rw [List.getElem?_eq_none (by omega)]
    rfl

theorem zeroWeights_of_all (pm : MapType) (h : ∀ e ∈ pm, e.2.weight = 0) : ZeroWeights pm := by
  intro v _
  rcases entryAt_mem_or_default pm v with h1 | h1
  · exact h _ h1
  · rw [h1]
    rfl

theorem cellSum_nil (fracs : List ℚ) : cellSum fracs [] = 0 := rfl

/-- The call `collect` keeps the weights of the entries without back-references at 0. -/
theorem collectAt_zero (pm : MapType) (fracs : List ℚ) (v : Nat) (h : ZeroWeights pm) :
    ZeroWeights (collectAt pm fracs v) := by
  intro u hu
  by_cases huv : v = u ∧ v < pm.length
  · obtain ⟨rfl, hv⟩ := huv
    rw [(collectAt_frame pm fracs v v).2.2] at hu
    rw [collectAt_entry_eq pm fracs v hv]
    simp only
    rw [hu]
    rfl
  · rw [(collectAt_frame pm fracs v u).2.2] at hu
    have : entryAt (collectAt pm fracs v) u = entryAt pm u := by
      unfold collectAt
      rw [entryAt_set, if_neg huv]
    rw [this]
    exact h u hu

theorem mapFrame_collectAt (pm : MapType) (fracs : List ℚ) (v : Nat) :
    MapFrame pm (collectAt pm fracs v) :=
  ⟨collectAt_length pm fracs v, fun u => collectAt_frame pm fracs v u⟩

theorem msAdvance_frame (sites : List SiteType) (right : Int) (fuel : Nat) (st : MSState)
    (hz : ZeroWeights st.posMap) :
    MapFrame st.posMap (msAdvance sites right fuel st).posMap
      ∧ ZeroWeights (msAdvance sites right fuel st).posMap
      ∧ (msAdvance sites right fuel st).fracs = st.fracs := by
  induction fuel generalizing st with
  | zero => exact ⟨mapFrame_refl _, hz, rfl⟩
  | succ fuel ih =>
    simp only [msAdvance]
    by_cases hc : st.r < right
    · rw [if_pos hc]
      obtain ⟨a1, a2, a3⟩ := ih
        { st with r := st.r + 1,
                  posMap := collectAt st.posMap st.fracs (siteAt sites (st.r + 1)).v,
                  psum := st.psum + (entryAt (collectAt st.posMap st.fracs
                    (siteAt sites (st.r + 1)).v) (siteAt sites (st.r + 1)).v).2.weight }
        (collectAt_zero _ _ _ hz)
      exact ⟨mapFrame_trans _ _ _ (mapFrame_collectAt _ _ _) a1, a2, a3⟩
    · rw [if_neg hc]
      exact ⟨mapFrame_refl _, hz, rfl⟩

theorem msRetire_frame (sites : List SiteType) (left : Int) (fuel : Nat) (st : MSState) :
    (msRetire sites left fuel st).posMap = st.posMap
      ∧ (msRetire sites left fuel st).fracs = st.fracs := by
  induction fuel generalizing st with
  | zero => exact ⟨rfl, rfl⟩
  | succ fuel ih =>
    simp only [msRetire]
    by_cases hc : st.l < left
    · rw [if_pos hc]
      exact ih _
    · rw [if_neg hc]
      exact ⟨rfl, rfl⟩

theorem msBody_frame (sites : List SiteType) (i : Nat) (st : MSState)
    (hz : ZeroWeights st.posMap) :
    MapFrame st.posMap (msBody sites i st).posMap
      ∧ ZeroWeights (msBody sites i st).posMap
      ∧ (msBody sites i st).fracs.length = st.fracs.length := by
  unfold msBody
  simp only
  obtain ⟨a1, a2, a3⟩ := msAdvance_frame sites (siteAt sites (i : Int)).right
    ((siteAt sites (i : Int)).right - st.r).toNat st hz
  obtain ⟨b1, b2⟩ := msRetire_frame sites (siteAt sites (i : Int)).left
    ((siteAt sites (i : Int)).left
      - (msAdvance sites (siteAt sites (i : Int)).right
          ((siteAt sites (i : Int)).right - st.r).toNat st).l).toNat
    (msAdvance sites (siteAt sites (i : Int)).right
      ((siteAt sites (i : Int)).right - st.r).toNat st)
  rw [b1, pushAt_length, b2, a3]
  exact ⟨a1, a2, rfl⟩

theorem msLoop_frame (sites : List SiteType) (ss n : Nat) (st : MSState)
    (hz : ZeroWeights st.posMap) :
    MapFrame st.posMap (msLoop sites ss n st).posMap
      ∧ ZeroWeights (msLoop sites ss n st).posMap
      ∧ (msLoop sites ss n st).fracs.length = st.fracs.length := by
  induction n with
  | zero => exact ⟨mapFrame_refl _, hz, rfl⟩
  | succ n ih =>
    simp only [msLoop]
    obtain ⟨i1, i2, i3⟩ := ih
    obtain ⟨b1, b2, b3⟩ := msBody_frame sites (ss + n) _ i2
    exact ⟨mapFrame_trans _ _ _ i1 b1, b2, b3.trans i3⟩

theorem msCollectLoop_zero (sites : List SiteType) (fracs : List ℚ) (ss n : Nat)
    (pm : MapType) (hz : ZeroWeights pm) : ZeroWeights (msCollectLoop sites fracs ss n pm) := by
  induction n with
  | zero => exact hz
  | succ n ih =>
    simp only [msCollectLoop]
    exact collectAt_zero _ _ _ ih

/-- `MS_STEP`, in a final round or not, keeps the keys, unique counts and back-references of
the map, the length of `fracs` and the weight 0 of the entries without back-references. -/
theorem msStep_frame (last_round : Bool) (sites : List SiteType) (ss es : Nat) (pm : MapType)
    (fracs : List ℚ) (hz : ZeroWeights pm) :
    MapFrame pm (MS_STEP last_round sites ss es pm fracs).1
      ∧ ZeroWeights (MS_STEP last_round sites ss es pm fracs).1
      ∧ (MS_STEP last_round sites ss es pm fracs).2.length = fracs.length := by
  unfold MS_STEP
  cases last_round with
  | true =>
    simp only [if_true]
    exact ⟨⟨msCollectLoop_length _ _ _ _ _, fun v => msCollectLoop_frame _ _ _ _ _ v⟩,
      msCollectLoop_zero _ _ _ _ _ hz, trivial⟩
  | false =>
    simp only [Bool.false_eq_true, if_false]
    exact msLoop_frame sites ss (es - ss)
      { posMap := pm, fracs := fracs, l := (ss : Int), r := (ss : Int) - 1, psum := 0 } hz

theorem msPhase_frame (last_round : Bool) (sites : List SiteType) (ranges : List (Nat × Nat))
    (st : MapType × List ℚ) (hz : ZeroWeights st.1) :
    MapFrame st.1 (msPhase last_round sites ranges st).1
      ∧ ZeroWeights (msPhase last_round sites ranges st).1
      ∧ (msPhase last_round sites ranges st).2.length = st.2.length := by
  induction ranges generalizing st with
  | nil => exact ⟨mapFrame_refl _, hz, rfl⟩
  | cons r rest ih =>
    have e : msPhase last_round sites (r :: rest) st
        = msPhase last_round sites rest (MS_STEP last_round sites r.1 r.2 st.1 st.2) := rfl
    rw [e]
    obtain ⟨a1, a2, a3⟩ := msStep_frame last_round sites r.1 r.2 st.1 st.2 hz
    obtain ⟨b1, b2, b3⟩ := ih _ a2
    exact ⟨mapFrame_trans _ _ _ a1 b1, b2, b3.trans a3⟩

theorem ePhase_length (multis : List MultiType) (conprbs : List ℚ)
    (ranges : List (Nat × Nat)) (fracs : List ℚ) :
    (ePhase multis conprbs ranges fracs).length = fracs.length := by
  induction ranges generalizing fracs with
  | nil => rfl
  | cons r rest ih =>
    have e : ePhase multis conprbs (r :: rest) fracs
        = ePhase multis conprbs rest (E_STEP multis conprbs r.1 r.2 fracs) := rfl
    rw [e, ih]
    exact eLoop_length _ _ _ _ _

/-- Any number of rounds keeps the keys, unique counts and back-references of the map, the
length of `fracs` and the weight 0 of the entries without back-references. -/
theorem emsLoop_frame (multis : List MultiType) (conprbs : List ℚ) (t : Tasks)
    (ROUNDS n : Nat) (pm : MapType) (fracs : List ℚ) (hz : ZeroWeights pm) :
    MapFrame pm (emsLoop multis conprbs t ROUNDS n (pm, fracs)).1
      ∧ ZeroWeights (emsLoop multis conprbs t ROUNDS n (pm, fracs)).1
      ∧ (emsLoop multis conprbs t ROUNDS n (pm, fracs)).2.length = fracs.length := by
  induction n with
  | zero => exact ⟨mapFrame_refl _, hz, rfl⟩
  | succ n ih =>
    obtain ⟨i1, i2, i3⟩ := ih
    simp only [emsLoop]
    obtain ⟨a1, a2, a3⟩ := msPhase_frame (decide (n + 1 = ROUNDS)) t.sites t.msRanges
      ((emsLoop multis conprbs t ROUNDS n (pm, fracs)).1,
        ePhase multis conprbs t.eRanges (emsLoop multis conprbs t ROUNDS n (pm, fracs)).2) i2
    refine ⟨mapFrame_trans _ _ _ i1 a1, a2, ?_⟩
    rw [a3]
    simp only
    rw [ePhase_length, i3]

/-! ## Sums over the cells -/

/-- The multiplicities of the records add up to the number of reads. -/
theorem recordsFrom_count_sum (rs : List (List Align)) (off : Nat) :
    ((recordsFrom (rs.map readKey) (firstBy readKey rs) off).map (fun m => m.c)).sum
      = rs.length := by
  have h1 : (recordsFrom (rs.map readKey) (firstBy readKey rs) off).map (fun m => m.c)
      = ((firstBy readKey rs).map readKey).map (fun k => (rs.map readKey).count k) := by
    have := congrArg (List.map Prod.snd)
      (recordsFrom_map (rs.map readKey) (firstBy readKey rs) off)
    simpa [List.map_map, Function.comp_def] using this
  rw [h1]
  have hp : ((firstBy readKey rs).map readKey).Perm (rs.map readKey).dedup := by
    rw [List.perm_ext_iff_of_nodup (firstBy_nodup readKey rs) (List.nodup_dedup _)]
    intro k
    rw [mem_map_firstBy, List.mem_dedup]
  rw [(hp.map _).sum_eq, List.sum_map_count_dedup_eq_length, List.length_map]

theorem recordsChained_sum (ms : List MultiType) (a b : Nat) (h : recordsChained ms a b) :
    a + (ms.map (fun m => m.s)).sum = b := by
  induction ms generalizing a with
  | nil =>
    have : a = b := h
    simpa using this
  | cons m ms ih =>
    obtain ⟨h1, h2⟩ := h
    have := ih _ h2
    simp only [List.map_cons, List.sum_cons]
    omega

theorem sliceSum_add (a : List ℚ) (offset m n : Nat) :
    sliceSum a offset (m + n) = sliceSum a offset m + sliceSum a (offset + m) n := by
  induction n with
  | zero => simp [sliceSum]
  | succ n ih =>
    have e : m + (n + 1) = (m + n) + 1 := by omega
    rw [e]
    simp only [sliceSum]
    rw [ih]
    have e2 : offset + (m + n) = offset + m + n := by omega
    rw [e2]
    ring

/-- The slices of chained records add up to the cells from `a` to `b`. -/
theorem chained_sliceSum (fr : List ℚ) (ms : List MultiType) (a b : Nat)
    (h : recordsChained ms a b) :
    (ms.map (fun m => sliceSum fr m.offset m.s)).sum = sliceSum fr a (b - a) := by
  induction ms generalizing a with
  | nil =>
    have : a = b := h
    subst this
    simp [sliceSum]
  | cons m ms ih =>
    obtain ⟨h1, h2⟩ := h
    have hs := recordsChained_sum ms _ b h2
    simp only [List.map_cons, List.sum_cons]
    rw [ih _ h2, h1]
    have e : b - a = m.s + (b - (a + m.s)) := by omega
    rw [e, sliceSum_add]

theorem sliceSum_range (a : List ℚ) (n : Nat) :
    sliceSum a 0 n = ((List.range n).map (rd a)).sum := by
  induction n with
  | zero => rfl
  | succ n ih =>
    simp only [sliceSum, List.range_succ, List.map_append, List.sum_append, List.map_singleton,
      List.sum_singleton, Nat.zero_add]
    rw [ih]

theorem cellSum_eq_sum (fracs : List ℚ) (aligns : List Nat) :
    cellSum fracs aligns = (aligns.map (rd fracs)).sum := by
  induction aligns with
  | nil => rfl
  | cons c aligns ih => rw [cellSum_cons, ih, List.map_cons, List.sum_cons]

theorem sum_flatten_map (L : List (List Nat)) (f : Nat → ℚ) :
    (L.flatten.map f).sum = (L.map (fun l => (l.map f).sum)).sum := by
  induction L with
  | nil => rfl
  | cons l L ih =>
    simp only [List.flatten_cons, List.map_append, List.sum_append, List.map_cons,
      List.sum_cons, ih]

/-- After `processMultiReads` every index below the final `n_mhits` is back-referenced once
over all entries and no other index is. -/
theorem processMultiReads_cellCount (posMap : MapType) (n_mhits : Nat)
    (reads : List (List Align)) (hs : MapSorted posMap)
    (hempty : ∀ e ∈ posMap, e.2.aligns = [])
    (hn : (reads.map List.length).sum ≤ n_mhits) (j : Nat) :
    (((processMultiReads posMap n_mhits reads).posMap.map (fun e => e.2.aligns)).flatten).count j
      = if j < (processMultiReads posMap n_mhits reads).offset then 1 else 0 := by
  obtain ⟨-, -, -, h4, -, -⟩ := processMultiReads_inv posMap n_mhits reads hn
  obtain ⟨c1, c2, c3⟩ := processMultiReads_cellInv posMap n_mhits reads hs hempty hn
  have hlen : (cellKeys reads).length = (processMultiReads posMap n_mhits reads).offset := by
    rw [cellKeys_length, h4]
  have hnd := mapSorted_nodup _ c1
  rw [List.count_flatten, List.map_map]
  by_cases hj : j < (processMultiReads posMap n_mhits reads).offset
  · rw [if_pos hj]
    have hj2 : j < (cellKeys reads).length := by omega
    obtain ⟨e, he, hk⟩ := List.mem_map.mp (c3 _ (List.getElem_mem hj2))
    apply sum_indicator_of_nodup _ e.1 hnd (List.mem_map_of_mem _ he)
    intro e' he'
    simp only [Function.comp]
    rw [c2 e' he' j, List.getElem?_eq_getElem hj2, hk]
  · rw [if_neg hj]
    apply List.sum_eq_zero
    intro x hx
    obtain ⟨e, he, rfl⟩ := List.mem_map.mp hx
    simp only [Function.comp]
    rw [c2 e he j, List.getElem?_eq_none (by omega)]
    simp

/-- The cells back-referenced by the entries of the map, summed entry by entry, are the first
`n` cells when every index below `n` is back-referenced once and no other index is. -/
theorem cells_sum (pm : MapType) (fr : List ℚ) (n : Nat)
    (h : ∀ j, ((pm.map (fun e => e.2.aligns)).flatten).count j = if j < n then 1 else 0) :
    (pm.map (fun e => cellSum fr e.2.aligns)).sum = sliceSum fr 0 n := by
  have hp : ((pm.map (fun e => e.2.aligns)).flatten).Perm (List.range n) := by
    rw [List.perm_iff_count]
    intro a
    rw [h a]
    by_cases ha : a < n
    · rw [if_pos ha, List.count_eq_one_of_mem (List.nodup_range n) (List.mem_range.mpr ha)]
    · rw [if_neg ha, List.count_eq_zero_of_not_mem (by simpa using ha)]
  rw [sliceSum_range, ← (hp.map (rd fr)).sum_eq, sum_flatten_map, List.map_map]
  congr 1
  apply List.map_congr_left
  intro e _
  simp only [Function.comp]
  exact cellSum_eq_sum fr e.2.aligns

/-- Chained non-empty records have pairwise disjoint slices. -/
theorem chained_disjoint (ms : List MultiType) (a b : Nat) (h : recordsChained ms a b)
    (hs : ∀ k, k < ms.length → 1 ≤ (ms.getD k default).s) (k1 k2 : Nat)
    (h1 : k1 < ms.length) (h2 : k2 < ms.length) (hne : k1 ≠ k2) :
    slicesDisjoint (ms.getD k1 default) (ms.getD k2 default) := by
  obtain ⟨-, -, -, -, -, -, -, i8⟩ := recordsChained_index ms a b h
  unfold slicesDisjoint
  by_contra hc
  push_neg at hc
  have s1 := hs k1 h1
  have s2 := hs k2 h2
  apply hne
  apply i8 (max (ms.getD k1 default).offset (ms.getD k2 default).offset) k1 k2 h1 h2
  · unfold inSlice
    constructor
    · exact le_max_left _ _
    · rcases le_total (ms.getD k1 default).offset (ms.getD k2 default).offset with h | h
      · rw [max_eq_right h]
        omega
      · rw [max_eq_left h]
        omega
  · unfold inSlice
    constructor
    · exact le_max_right _ _
    · rcases le_total (ms.getD k1 default).offset (ms.getD k2 default).offset with h | h
      · rw [max_eq_right h]
        omega
      · rw [max_eq_left h]
        omega

/-! ## Claim C23 -/

theorem entryAt_getElem (pm : MapType) (i : Nat) (h : i < pm.length) : entryAt pm i = pm[i] := by
  unfold entryAt
  rw [List.getD_eq_getElem?_getD, List.getElem?_eq_getElem h]
  rfl

/-- The final round conserves the mass: when the records are chained over the first `n`
cells, every record has a positive sum of products before the E-step phase, every index
below `n` is back-referenced once and no other index is, and the phases run over chained
thread ranges that cover the records and the sites, the weights of all entries add up to the
sum of the multiplicities of the records. -/
theorem final_round_mass (pm pmc : MapType) (multis : List MultiType) (conprbs frc : List ℚ)
    (sites : List SiteType) (eRanges msRanges : List (Nat × Nat)) (n : Nat)
    (hwin : WindowsOK pm sites) (hE : rangesChained eRanges 0 multis.length)
    (hM : rangesChained msRanges 0 sites.length) (hch : recordsChained multis 0 n)
    (hcount : ∀ j, ((pm.map (fun e => e.2.aligns)).flatten).count j = if j < n then 1 else 0)
    (hfr : MapFrame pm pmc) (hz : ZeroWeights pmc) (hlen : n ≤ frc.length)
    (hpos : ∀ k, k < multis.length →
      0 < prodSum frc conprbs (multis.getD k default).offset (multis.getD k default).s) :
    ((msPhase true sites msRanges (pmc, ePhase multis conprbs eRanges frc)).1.map
        (fun e => e.2.weight)).sum = (multis.map (fun m => (m.c : ℚ))).sum
      ∧ ZeroWeights (msPhase true sites msRanges (pmc, ePhase multis conprbs eRanges frc)).1 := by
  have hs1 : ∀ k, k < multis.length → 1 ≤ (multis.getD k default).s := by
    intro k hk
    have := hpos k hk
    by_contra hc
    have h0 : (multis.getD k default).s = 0 := by omega
    rw [h0] at this
    simp [prodSum] at this
  obtain ⟨-, -, -, -, -, i6, -, -⟩ := recordsChained_index multis 0 n hch
  -- the E-step phase
  have he : ePhase multis conprbs eRanges frc = eLoop multis conprbs 0 multis.length frc := by
    rw [(ePhase_chain multis conprbs eRanges 0 multis.length hE frc).1, Nat.sub_zero]
  have hslice : ∀ k, k < multis.length →
      sliceSum (ePhase multis conprbs eRanges frc) (multis.getD k default).offset
        (multis.getD k default).s = ((multis.getD k default).c : ℚ) := by
    intro k hk
    rw [he]
    have := eLoop_sliceSum multis conprbs 0 multis.length frc
      (fun i hi => by
        rw [Nat.zero_add]
        have := (i6 i hi).2
        omega)
      (fun i j hi hj hij => by
        rw [Nat.zero_add, Nat.zero_add]
        exact chained_disjoint multis 0 n hch hs1 i j hi hj hij)
      k hk (by rw [Nat.zero_add]; exact hpos k hk)
    rw [Nat.zero_add] at this
    exact this
  -- the final MS-step phase
  have hv : ∀ i : Nat, i < sites.length → (siteAt sites i).v < pm.length := by
    intro i hi
    rw [siteAt_nat]
    exact (hwin.2.1 i hi).1
  have hdist : ∀ i j : Nat, i < sites.length → j < sites.length → i ≠ j →
      (siteAt sites i).v ≠ (siteAt sites j).v := by
    intro i j hi hj hij hc
    rw [siteAt_nat, siteAt_nat] at hc
    have h1 := (hwin.2.1 i hi).2.2.1
    have h2 := (hwin.2.1 j hj).2.2.1
    rw [hc] at h1
    omega
  obtain ⟨-, f2, f3⟩ := msPhase_final sites pm (ePhase multis conprbs eRanges frc) hv hdist
    msRanges 0 sites.length hM le_rfl pmc hfr (fun k hk => absurd hk (Nat.not_lt_zero k))
  obtain ⟨-, z2, -⟩ := msPhase_frame true sites msRanges
    (pmc, ePhase multis conprbs eRanges frc) hz
  refine ⟨?_, z2⟩
  have hweight : ∀ v, v < pm.length →
      (entryAt (msPhase true sites msRanges (pmc, ePhase multis conprbs eRanges frc)).1 v).2.weight
        = cellSum (ePhase multis conprbs eRanges frc) (entryAt pm v).2.aligns := by
    intro v hv2
    by_cases hm : isMultiAt pm v = true
    · obtain ⟨k1, k2⟩ := windows_site_of_entry pm sites hwin v hv2 hm
      have := f3 (multiCount pm v) k1
      unfold siteCells at this
      rw [siteAt_nat, k2] at this
      exact this
    · have hnil : (entryAt pm v).2.aligns = [] := by
        unfold isMultiAt at hm
        simpa using hm
      rw [hnil, cellSum_nil]
      apply z2
      rw [(f2.2 v).2.2]
      exact hnil
  have hmap : (msPhase true sites msRanges (pmc, ePhase multis conprbs eRanges frc)).1.map
      (fun e => e.2.weight)
      = pm.map (fun e => cellSum (ePhase multis conprbs eRanges frc) e.2.aligns) := by
    apply List.ext_getElem
    · rw [List.length_map, List.length_map]
      exact f2.1
    · intro i h1 h2
      rw [List.length_map] at h1 h2
      rw [List.getElem_map, List.getElem_map, ← entryAt_getElem _ i h1, ← entryAt_getElem _ i h2]
      exact hweight i h2
  rw [hmap, cells_sum pm _ n hcount]
  have hcs := chained_sliceSum (ePhase multis conprbs eRanges frc) multis 0 n hch
  rw [Nat.sub_zero] at hcs
  rw [← hcs]
  congr 1
  apply List.ext_getElem
  · rw [List.length_map, List.length_map]
  · intro i h1 h2
    rw [List.length_map] at h1
    rw [List.getElem_map, List.getElem_map]
    have hg : multis.getD i default = multis[i] := by
      rw [List.getD_eq_getElem?_getD, List.getElem?_eq_getElem h1]
      rfl
    have := hslice i h1
    rw [hg] at this
    exact this
/-- Claim C23: mass conservation of the reported weights.  `processMultiReads` starts from a
sorted position map whose entries have no back-references and the weight 0 (as
`parseAlignments` leaves it), with `n_mhits` at least the number of alignments of the reads,
and leaves a non-empty map; `w >= 0`, there is at least one thread and `R >= 1`.  Then
`distributeTasks` returns, and if before the E-step of the last round every record has a
positive sum of `fracs[j] * conprbs[j]`, then after `EMS(R)` the weights of all entries of
the position map add up to the sum of the multiplicities `c` of the records, which is the
number of reads `processMultiReads` has consumed, and every entry without back-references
has the weight 0. -/
theorem C23_mass_conservation (posMap : MapType) (n_mhits : Nat) (reads : List (List Align))
    (w : Int) (num_threads R : Nat) (st : PMState)
    (hst : st = processMultiReads posMap n_mhits reads) (hw : 0 ≤ w) (hT : 1 ≤ num_threads)
    (hR : 1 ≤ R) (hs : MapSorted posMap)
    (hempty : ∀ e ∈ posMap, e.2.aligns = [] ∧ e.2.weight = 0)
    (hn : (reads.map List.length).sum ≤ n_mhits) (hne : 0 < st.posMap.length) :
    ∃ t, distributeTasks st.posMap st.multis st.offset num_threads w = some t
      ∧ ((∀ k, k < st.multis.length →
            0 < prodSum (emsLoop st.multis st.conprbs t R (R - 1) (st.posMap, st.fracs)).2
              st.conprbs (st.multis.getD k default).offset (st.multis.getD k default).s) →
          ((EMS st.multis st.conprbs t R st.posMap st.fracs).1.map (fun e => e.2.weight)).sum
              = (((st.multis.map (fun m => m.c)).sum : Nat) : ℚ)
            ∧ (st.multis.map (fun m => m.c)).sum = reads.length
            ∧ ∀ e ∈ (EMS st.multis st.conprbs t R st.posMap st.fracs).1,
                e.2.aligns = [] → e.2.weight = 0) := by
  subst hst
  obtain ⟨-, p2, -, p4, -, p6⟩ := processMultiReads_inv posMap n_mhits reads hn
  have pch := processMultiReads_chained posMap n_mhits reads
  obtain ⟨c1, -, -⟩ := processMultiReads_cellInv posMap n_mhits reads hs
    (fun e he => (hempty e he).1) hn
  have pcount := processMultiReads_cellCount posMap n_mhits reads hs
    (fun e he => (hempty e he).1) hn
  have hz := zeroWeights_of_all _ (processMultiReads_weight posMap n_mhits reads
    (fun e he => (hempty e he).2))
  obtain ⟨t, h0, hwin, r1, r2, r3, r4, r5⟩ := distributeTasks_spec
    (processMultiReads posMap n_mhits reads).posMap (processMultiReads posMap n_mhits reads).multis
    (processMultiReads posMap n_mhits reads).offset num_threads w hw c1 hne
  refine ⟨t, h0, fun hpos => ?_⟩
  obtain ⟨n, rfl⟩ : ∃ n, R = n + 1 := ⟨R - 1, by omega⟩
  rw [Nat.add_sub_cancel] at hpos
  have hs1 : ∀ m ∈ (processMultiReads posMap n_mhits reads).multis, 1 ≤ m.s := by
    intro m hm
    obtain ⟨k, hk, rfl⟩ := List.getElem_of_mem hm
    have hg : (processMultiReads posMap n_mhits reads).multis.getD k default
        = (processMultiReads posMap n_mhits reads).multis[k] := by
      rw [List.getD_eq_getElem?_getD, List.getElem?_eq_getElem hk]
      rfl
    have := hpos k hk
    rw [hg] at this
    by_contra hc
    have h0 : ((processMultiReads posMap n_mhits reads).multis[k]).s = 0 := by omega
    rw [h0] at this
    simp [prodSum] at this
  have hsum := recordsChained_sum _ 0 _ pch
  rw [Nat.zero_add] at hsum
  have htot : ((processMultiReads posMap n_mhits reads).posMap.map
      (fun e => e.2.aligns.length)).sum = (processMultiReads posMap n_mhits reads).offset := by
    have := length_of_count_range _ _ pcount
    rw [List.length_flatten, List.map_map] at this
    exact this
  have hE : rangesChained t.eRanges 0 (processMultiReads posMap n_mhits reads).multis.length := by
    rw [distributeTasks_eRanges _ _ _ num_threads w t h0]
    exact distributeE_chained _ _ num_threads hT hs1 hsum
  have hM : rangesChained t.msRanges 0 t.sites.length := by
    apply rangesChained_of_index
    · omega
    · exact r3 (by omega)
    · intro i hi
      exact (r2 i (by omega)).1
    · intro i hi
      exact r4 i (by omega)
    · rw [r1]
      exact r5 (by omega) htot
  obtain ⟨e1, e2, e3⟩ := emsLoop_frame (processMultiReads posMap n_mhits reads).multis
    (processMultiReads posMap n_mhits reads).conprbs t (n + 1) n
    (processMultiReads posMap n_mhits reads).posMap (processMultiReads posMap n_mhits reads).fracs
    hz
  have hoff : (processMultiReads posMap n_mhits reads).offset ≤ n_mhits := by
    rw [p4]
    exact le_trans (firstBy_length_sum_le reads) hn
  have hEMS : EMS (processMultiReads posMap n_mhits reads).multis
      (processMultiReads posMap n_mhits reads).conprbs t (n + 1)
      (processMultiReads posMap n_mhits reads).posMap (processMultiReads posMap n_mhits reads).fracs
      = msPhase true t.sites t.msRanges
          ((emsLoop (processMultiReads posMap n_mhits reads).multis
              (processMultiReads posMap n_mhits reads).conprbs t (n + 1) n
              ((processMultiReads posMap n_mhits reads).posMap,
                (processMultiReads posMap n_mhits reads).fracs)).1,
            ePhase (processMultiReads posMap n_mhits reads).multis
              (processMultiReads posMap n_mhits reads).conprbs t.eRanges
              (emsLoop (processMultiReads posMap n_mhits reads).multis
                (processMultiReads posMap n_mhits reads).conprbs t (n + 1) n
                ((processMultiReads posMap n_mhits reads).posMap,
                  (processMultiReads posMap n_mhits reads).fracs)).2) := by
    simp [EMS, emsLoop]
  obtain ⟨m1, m2⟩ := final_round_mass (processMultiReads posMap n_mhits reads).posMap _
    (processMultiReads posMap n_mhits reads).multis
    (processMultiReads posMap n_mhits reads).conprbs _ t.sites t.eRanges t.msRanges
    (processMultiReads posMap n_mhits reads).offset hwin hE hM pch pcount e1 e2
    (by rw [e3, p6]; exact hoff) hpos
  rw [hEMS]
  refine ⟨?_, ?_, ?_⟩
  · rw [m1, Nat.cast_list_sum, List.map_map]
    rfl
  · rw [p2]
    exact recordsFrom_count_sum reads 0
  · intro e he hnil
    obtain ⟨i, hi, rfl⟩ := List.getElem_of_mem he
    rw [← entryAt_getElem _ i hi] at hnil ⊢
    exact m2 i hnil

theorem C23_mass_conservation_witness :
    ∃ st t, st = processMultiReads [(⟨'+', 1, 20⟩, ⟨3, 0, []⟩)] 6
        [[⟨1, '+', 23, 1/2⟩, ⟨12, '-', 5, 1/2⟩], [⟨1, '+', 23, 1/2⟩, ⟨12, '-', 5, 1/2⟩],
          [⟨1, '+', 23, 1/4⟩, ⟨1, '+', 30, 3/4⟩]]
      ∧ distributeTasks st.posMap st.multis st.offset 2 3 = some t
      ∧ ((EMS st.multis st.conprbs t 2 st.posMap st.fracs).1.map (fun e => e.2.weight)).sum
          = (((st.multis.map (fun m => m.c)).sum : Nat) : ℚ)
      ∧ (st.multis.map (fun m => m.c)).sum = 3
      ∧ ∀ e ∈ (EMS st.multis st.conprbs t 2 st.posMap st.fracs).1,
          e.2.aligns = [] → e.2.weight = 0 := by
  obtain ⟨t, h0, h1⟩ := C23_mass_conservation [(⟨'+', 1, 20⟩, ⟨3, 0, []⟩)] 6
    [[⟨1, '+', 23, 1/2⟩, ⟨12, '-', 5, 1/2⟩], [⟨1, '+', 23, 1/2⟩, ⟨12, '-', 5, 1/2⟩],
      [⟨1, '+', 23, 1/4⟩, ⟨1, '+', 30, 3/4⟩]] 3 2 2 _ rfl (by decide) (by decide) (by decide)
    (by simp [MapSorted])
    (by
      intro e he
      simp only [List.mem_singleton] at he
      subst he
      exact ⟨rfl, rfl⟩)
    (by decide) (by decide!)
  have hd : distributeTasks
      (processMultiReads [(⟨'+', 1, 20⟩, ⟨3, 0, []⟩)] 6
        [[⟨1, '+', 23, 1/2⟩, ⟨12, '-', 5, 1/2⟩], [⟨1, '+', 23, 1/2⟩, ⟨12, '-', 5, 1/2⟩],
          [⟨1, '+', 23, 1/4⟩, ⟨1, '+', 30, 3/4⟩]]).posMap
      (processMultiReads [(⟨'+', 1, 20⟩, ⟨3, 0, []⟩)] 6
        [[⟨1, '+', 23, 1/2⟩, ⟨12, '-', 5, 1/2⟩], [⟨1, '+', 23, 1/2⟩, ⟨12, '-', 5, 1/2⟩],
          [⟨1, '+', 23, 1/4⟩, ⟨1, '+', 30, 3/4⟩]]).multis
      (processMultiReads [(⟨'+', 1, 20⟩, ⟨3, 0, []⟩)] 6
        [[⟨1, '+', 23, 1/2⟩, ⟨12, '-', 5, 1/2⟩], [⟨1, '+', 23, 1/2⟩, ⟨12, '-', 5, 1/2⟩],
          [⟨1, '+', 23, 1/4⟩, ⟨1, '+', 30, 3/4⟩]]).offset 2 3
      = some ⟨[(0, 1), (1, 2)], [⟨1, 3, 0, 0⟩, ⟨2, 0, 1, 1⟩, ⟨3, 0, 2, 2⟩], [(0, 1), (1, 3)]⟩ := by
    decide!
  have ht : t = ⟨[(0, 1), (1, 2)], [⟨1, 3, 0, 0⟩, ⟨2, 0, 1, 1⟩, ⟨3, 0, 2, 2⟩], [(0, 1), (1, 3)]⟩ := by
    rw [hd] at h0
    exact (Option.some.inj h0).symm
  subst ht
  exact ⟨_, _, rfl, hd, h1 (by decide!)⟩

end PROBer
